import Mathlib

/-!
# Collection file system (`sdk/go/arvados/collection_fs.go`)

A shallow embedding of the extent model, the file node, the pack/flush engine
and the manifest codec, followed by theorems about them.

Conventions of the embedding.

* A Go `string` or `[]byte` is a list of bytes, a byte being a natural number
  (`Str`, `Byte`).
* Go `int` and `int64` values are `Int`.  Sums of extent lengths are not
  wrapped: a file would need more than `2^32` extents to overflow them.  The
  two numbers of a manifest segment are taken from the text, so the sum
  `offset+length` is computed modulo `2^64` (`wrap64`).
* A Go run-time panic (index out of range, failed type assertion, an explicit
  `panic`) is `Fault.crash`; a loop of the model that used up its fuel is
  `Fault.fuel`.
* Pointers to mutable objects become values held in place: a `*memExtent` in
  the extent slice is the `extent.mem` entry of the list, a `*filenode` in the
  map of a directory is the `inode.file` entry.
* The blob client is an interface of the program; it is a parameter
  (`keepClient`) with an explicit state that `PutB` may change.
* `maxBlockSize` is a package variable (`1 << 26`); the model takes it as the
  parameter `mbs`.
-/

namespace Arvados

/-! ## Basic types -/

/-- A byte. -/
abbrev Byte := Nat

/-- A Go string: a sequence of bytes. -/
abbrev Str := List Nat

/-- Abnormal termination of the model. -/
inductive Fault where
  | crash
  | fuel
  deriving DecidableEq, Repr

/-- The messages of the errors `loadManifest` returns, each after
`line <lineno>: `. -/
inductive ManifestError where
  | noTrailingNewline
  | badFileSegment
  | badLocator
  | cannotUsePath
  | cannotAppend
  | isDirectory
  | invalidSegment
  | noFileSegments
  | noLocators
  | noStreamName
  deriving DecidableEq, Repr

/-- The `error` values the program returns. -/
inductive GoError where
  | ErrReadOnlyFile
  | ErrNegativeOffset
  | ErrFileExists
  | ErrInvalidOperation
  | ErrDirectoryNotEmpty
  | ErrWriteOnlyMode
  | ErrSyncNotSupported
  | ErrNotExist
  | EOF
  | invalidFlags (flag : Nat)
  | upload
  | manifest (lineno : Int) (what : ManifestError)
  deriving DecidableEq, Repr

/-- Results of the model can be compared. -/
instance instDecidableEqExcept {ε α : Type} [DecidableEq ε] [DecidableEq α] :
    DecidableEq (Except ε α)
  | .ok a, .ok b =>
    if h : a = b then isTrue (by rw [h]) else isFalse (fun h2 => h (Except.ok.inj h2))
  | .error a, .error b =>
    if h : a = b then isTrue (by rw [h]) else isFalse (fun h2 => h (Except.error.inj h2))
  | .ok _, .error _ => isFalse (fun h => Except.noConfusion h)
  | .error _, .ok _ => isFalse (fun h => Except.noConfusion h)

/-- The blob client `keepClient`, over a store state `σ`.  `PutB` uploads a
block and returns the locator, or fails (`none`); `Get` is the block a locator
names, if the store holds it. -/
structure keepClient (σ : Type) where
  PutB : σ → List Byte → σ × Option Str
  Get : σ → Str → Option (List Byte)

/-- The `x[i]` of Go: a crash when the index is out of range. -/
def index {α : Type} (xs : List α) (i : Int) : Except Fault α :=
  if i < 0 then .error .crash
  else match xs[i.toNat]? with
    | some x => .ok x
    | none => .error .crash

/-- The `x[:n]` of Go for `0 ≤ n ≤ len(x)`, a crash otherwise. -/
def sliceTo {α : Type} (xs : List α) (n : Int) : Except Fault (List α) :=
  if n < 0 ∨ (xs.length : Int) < n then .error .crash else .ok (xs.take n.toNat)

/-- The `x[n:]` of Go for `0 ≤ n ≤ len(x)`, a crash otherwise. -/
def sliceFrom {α : Type} (xs : List α) (n : Int) : Except Fault (List α) :=
  if n < 0 ∨ (xs.length : Int) < n then .error .crash else .ok (xs.drop n.toNat)

/-! ## Extents -/

/-- A `memExtent`: `buf` is the visible slice, `spare` the rest of its backing
array, so that `cap(buf) = len(buf) + len(spare)`. -/
structure memExtent where
  buf : List Byte
  spare : List Byte
  deriving DecidableEq, Repr

/-- The `storedExtent` value (the `kc` field is the shared blob client). -/
structure storedExtent where
  locator : Str
  size : Int
  offset : Int
  length : Int
  deriving DecidableEq, Repr

/-- The two implementations of the `extent` interface; only `mem` is a
`writableExtent`. -/
inductive extent where
  | mem (me : memExtent)
  | stored (se : storedExtent)
  deriving DecidableEq, Repr

def memExtent.Len (me : memExtent) : Int := me.buf.length

def memExtent.cap (me : memExtent) : Int := me.buf.length + me.spare.length

/-- The loop `for newsize < n { newsize = newsize << 2 }`, at most `k` rounds. -/
def growCap (n : Int) : Nat → Int → Int
  | 0, c => c
  | k + 1, c => if c < n then growCap n k (c * 4) else c

/-- The capacity `memExtent.Truncate` allocates for `n` bytes. -/
def newsize (n : Int) : Int := growCap n n.toNat 1024

/-- The method `memExtent.Truncate(n)`. -/
def memExtent.Truncate (me : memExtent) (n : Int) : Except Fault memExtent :=
  if n > me.cap then
    .ok { buf := me.buf ++ List.replicate (n.toNat - me.buf.length) 0,
          spare := List.replicate (newsize n - n).toNat 0 }
  else if n < 0 then .error .crash
  else if n ≤ me.Len then
    .ok { buf := me.buf.take n.toNat,
          spare := List.replicate (me.buf.length - n.toNat) 0 ++ me.spare }
  else
    .ok { buf := me.buf ++ me.spare.take (n.toNat - me.buf.length),
          spare := me.spare.drop (n.toNat - me.buf.length) }

/-- The method `memExtent.WriteAt(p, off)`. -/
def memExtent.WriteAt (me : memExtent) (p : List Byte) (off : Int) : Except Fault memExtent :=
  if off + p.length > me.Len then .error .crash
  else if off < 0 then .error .crash
  else .ok { me with buf := me.buf.take off.toNat ++ p ++ me.buf.drop (off.toNat + p.length) }

/-- The method `memExtent.Slice(off, length)`: a fresh buffer of `length` bytes
holding a copy of `buf[off:]`. -/
def memExtent.Slice (me : memExtent) (off length : Int) : Except Fault memExtent :=
  let length := if length < 0 then me.Len - off else length
  if length < 0 then .error .crash
  else if off < 0 ∨ me.Len < off then .error .crash
  else
    let src := (me.buf.drop off.toNat).take length.toNat
    .ok { buf := src ++ List.replicate (length.toNat - src.length) 0, spare := [] }

def storedExtent.Len (se : storedExtent) : Int := se.length

/-- The method `storedExtent.Slice(n, size)`. -/
def storedExtent.Slice (se : storedExtent) (n size : Int) : storedExtent :=
  let length := se.length - n
  { se with offset := se.offset + n,
            length := if size ≥ 0 ∧ length > size then size else length }

def extent.Len : extent → Int
  | .mem me => me.Len
  | .stored se => se.Len

def extent.Slice : extent → Int → Int → Except Fault extent
  | .mem me, off, length => (me.Slice off length).map .mem
  | .stored se, off, length => .ok (.stored (se.Slice off length))

/-- The type assertion `e.(writableExtent)` succeeds. -/
def extent.writable : extent → Bool
  | .mem _ => true
  | .stored _ => false

/-- The fresh extent `e := &memExtent{}; e.Truncate(n)`. -/
def newMemExtent (n : Int) : Except Fault memExtent :=
  memExtent.Truncate { buf := [], spare := [] } n

/-! ## File nodes -/

/-- The `fileinfo` record (`modTime` is never set). -/
structure fileinfo where
  name : Str
  mode : Nat
  size : Int
  deriving DecidableEq, Repr

/-- The `filenode` record; the `parent` field is the directory holding it. -/
structure filenode where
  fileinfo : fileinfo
  extents : List extent
  repacked : Int
  memsize : Int
  deriving DecidableEq, Repr

/-- The `filenodePtr` record. -/
structure filenodePtr where
  off : Int
  extentIdx : Int
  extentOff : Int
  repacked : Int
  deriving DecidableEq, Repr

/-- The scanning loop of `seek`: `idx` and `off` are the loop variables, the
list is `fn.extents[idx:]`; the result is `(extentIdx, extentOff)`. -/
def seekScan (target : Int) : List extent → Int → Int → Except Fault (Int × Int)
  | es, idx, off =>
    if off < target then
      match es with
      | [] => .error .crash
      | e :: rest =>
        if off + e.Len > target then .ok (idx, target - off)
        else seekScan target rest (idx + 1) (off + e.Len)
    else .ok (idx, 0)

/-- The method `filenode.seek`. -/
def filenode.seek (fn : filenode) (startPtr : filenodePtr) : Except Fault filenodePtr :=
  if startPtr.off < 0 then .ok startPtr
  else if startPtr.off ≥ fn.fileinfo.size then
    .ok { off := fn.fileinfo.size, extentIdx := fn.extents.length, extentOff := 0,
          repacked := fn.repacked }
  else if startPtr.repacked = fn.repacked then do
    let e ← index fn.extents startPtr.extentIdx
    if startPtr.extentOff ≥ e.Len then
      .ok { startPtr with extentIdx := startPtr.extentIdx + 1, extentOff := 0 }
    else .ok startPtr
  else do
    let (idx, eoff) ← seekScan startPtr.off fn.extents 0 0
    .ok { off := startPtr.off, extentIdx := idx, extentOff := eoff, repacked := fn.repacked }

/-- The method `filenode.appendExtent`. -/
def filenode.appendExtent (fn : filenode) (e : extent) : filenode :=
  { fn with extents := fn.extents ++ [e],
            fileinfo := { fn.fileinfo with size := fn.fileinfo.size + e.Len } }

/-- Sum of the lengths of the memory extents of a list (the loop of
`Truncate` that lowers `memsize`). -/
def memLen : List extent → Int
  | [] => 0
  | .mem me :: es => me.Len + memLen es
  | .stored _ :: es => memLen es

/-- The shrinking branch of `filenode.Truncate` (`size < fn.fileinfo.size`). -/
def filenode.truncateShrink (fn : filenode) (size : Int) : Except Fault filenode := do
  let ptr ← fn.seek { off := size, extentIdx := 0, extentOff := 0, repacked := fn.repacked - 1 }
  let tail ← sliceFrom fn.extents ptr.extentIdx
  let memsize := fn.memsize - memLen tail
  if ptr.extentOff = 0 then
    let es ← sliceTo fn.extents ptr.extentIdx
    .ok { fn with extents := es, memsize := memsize,
                  fileinfo := { fn.fileinfo with size := size },
                  repacked := fn.repacked + 1 }
  else
    let es ← sliceTo fn.extents (ptr.extentIdx + 1)
    let e ← index es ptr.extentIdx
    match e with
    | .mem me =>
      let me ← me.Truncate ptr.extentOff
      .ok { fn with extents := es.set ptr.extentIdx.toNat (.mem me),
                    memsize := memsize + me.Len,
                    fileinfo := { fn.fileinfo with size := size },
                    repacked := fn.repacked + 1 }
    | .stored se =>
      .ok { fn with extents := es.set ptr.extentIdx.toNat (.stored (se.Slice 0 ptr.extentOff)),
                    memsize := memsize,
                    fileinfo := { fn.fileinfo with size := size },
                    repacked := fn.repacked + 1 }

/-- One round of the growing loop of `filenode.Truncate`. -/
def filenode.truncateGrowStep (mbs : Int) (fn : filenode) (size : Int) : Except Fault filenode := do
  let grow := size - fn.fileinfo.size
  let last := fn.extents.getLast?
  let fresh := match last with
    | none => true
    | some e => !e.writable || e.Len ≥ mbs
  let e : memExtent := match last, fresh with
    | some (.mem me), false => me
    | _, _ => { buf := [], spare := [] }
  let maxgrow := mbs - e.Len
  let grow := if maxgrow < grow then maxgrow else grow
  let e ← e.Truncate (e.Len + grow)
  .ok { fn with
    extents := if fresh then fn.extents ++ [.mem e] else fn.extents.dropLast ++ [.mem e],
    repacked := if fresh then fn.repacked else fn.repacked + 1,
    fileinfo := { fn.fileinfo with size := fn.fileinfo.size + grow },
    memsize := fn.memsize + grow }

/-- The growing loop `for size > fn.fileinfo.size { ... }`. -/
def filenode.truncateGrow (mbs : Int) (size : Int) : Nat → filenode → Except Fault filenode
  | fuel, fn =>
    if size > fn.fileinfo.size then
      match fuel with
      | 0 => .error .fuel
      | k + 1 => do
        let fn ← fn.truncateGrowStep mbs size
        filenode.truncateGrow mbs size k fn
    else .ok fn

/-- The method `filenode.Truncate`; it always returns a nil error. -/
def filenode.Truncate (mbs : Int) (fn : filenode) (size : Int) : Except Fault filenode :=
  if size < fn.fileinfo.size then fn.truncateShrink size
  else filenode.truncateGrow mbs size (size - fn.fileinfo.size).toNat fn

/-- The method `filenode.pruneMemExtents` on the extent list: every memory
extent of `mbs` bytes or more is uploaded and, when the upload succeeds,
replaced by a stored extent; `memsize` is lowered by its length. -/
def pruneExtents {σ : Type} (mbs : Int) (kc : keepClient σ) :
    List extent → σ → Int → List extent × σ × Int
  | [], st, memsize => ([], st, memsize)
  | .stored se :: es, st, memsize =>
    let r := pruneExtents mbs kc es st memsize
    (.stored se :: r.1, r.2)
  | .mem me :: es, st, memsize =>
    if me.Len < mbs then
      let r := pruneExtents mbs kc es st memsize
      (.mem me :: r.1, r.2)
    else
      match kc.PutB st me.buf with
      | (st1, none) =>
        let r := pruneExtents mbs kc es st1 memsize
        (.mem me :: r.1, r.2)
      | (st1, some locator) =>
        let r := pruneExtents mbs kc es st1 (memsize - me.Len)
        (.stored { locator := locator, size := me.Len, offset := 0, length := me.Len } :: r.1, r.2)

/-- The method `filenode.pruneMemExtents`. -/
def filenode.pruneMemExtents {σ : Type} (mbs : Int) (kc : keepClient σ) (fn : filenode) (st : σ) :
    filenode × σ :=
  let r := pruneExtents mbs kc fn.extents st fn.memsize
  ({ fn with extents := r.1, memsize := r.2.2 }, r.2.1)

/-- What the structural phase of one round of `Write` hands to the copy:
the bytes to copy, the file node and the pointer. -/
structure WritePlan where
  cando : List Byte
  fn : filenode
  ptr : filenodePtr
  deriving DecidableEq, Repr

/-- Round of `Write`, branch `ptr.extentOff > 0 && !curWritable`: split a
non-writable block. -/
def filenode.writeSplit (fn : filenode) (ptr : filenodePtr) (cando : List Byte) :
    Except Fault WritePlan := do
  let cur := ptr.extentIdx
  let ecur ← index fn.extents cur
  let max := ecur.Len - ptr.extentOff
  if max ≤ cando.length then
    let cando ← sliceTo cando max
    let e ← newMemExtent cando.length
    let left ← ecur.Slice 0 ptr.extentOff
    .ok { cando := cando,
          fn := { fn with
            extents := fn.extents.take cur.toNat ++ [left, .mem e] ++ fn.extents.drop (cur.toNat + 1),
            memsize := fn.memsize + cando.length,
            repacked := fn.repacked + 1 },
          ptr := { ptr with extentIdx := ptr.extentIdx + 1, extentOff := 0,
                            repacked := ptr.repacked + 1 } }
  else
    let right ← ecur.Slice (ptr.extentOff + cando.length) (-1)
    let e ← newMemExtent cando.length
    let left ← ecur.Slice 0 ptr.extentOff
    .ok { cando := cando,
          fn := { fn with
            extents := fn.extents.take cur.toNat ++ [left, .mem e, right]
              ++ fn.extents.drop (cur.toNat + 1),
            memsize := fn.memsize + cando.length,
            repacked := fn.repacked + 1 },
          ptr := { ptr with extentIdx := ptr.extentIdx + 1, extentOff := 0,
                            repacked := ptr.repacked + 1 } }

/-- Round of `Write`, branch `curWritable`: overwrite inside a memory extent. -/
def filenode.writeInPlace (fn : filenode) (ptr : filenodePtr) (cando : List Byte) :
    Except Fault WritePlan := do
  let ecur ← index fn.extents ptr.extentIdx
  let fit := ecur.Len - ptr.extentOff
  let cando ← if fit < cando.length then sliceTo cando fit else pure cando
  .ok { cando := cando, fn := fn, ptr := ptr }

/-- Round of `Write`, last branch, first statement: when `prevAppendable`,
shrink `cando` if needed to fit in the previous extent. -/
def filenode.shrinkToPrev (mbs : Int) (fn : filenode) (ptr : filenodePtr) (cando : List Byte)
    (prevAppendable : Bool) : Except Fault (List Byte) :=
  if prevAppendable then do
    let eprev ← index fn.extents (ptr.extentIdx - 1)
    let cangrow := mbs - eprev.Len
    if cangrow < cando.length then sliceTo cando cangrow else pure cando
  else pure cando

/-- Round of `Write`, last branch, second statement: at the end of the file
the size grows by `len(cando)`; otherwise the current extent is removed (and
`cando` shrunk to its length) or loses its first `len(cando)` bytes. -/
def filenode.accountCur (fn : filenode) (ptr : filenodePtr) (cando : List Byte) :
    Except Fault (List Byte × filenode) :=
  let cur := ptr.extentIdx
  if cur = fn.extents.length then
    pure (cando, { fn with fileinfo := { fn.fileinfo with
                     size := fn.fileinfo.size + cando.length } })
  else do
    let ecur ← index fn.extents cur
    if ecur.Len ≤ cando.length then
      let cando ← sliceTo cando ecur.Len
      pure (cando, { fn with extents := fn.extents.take cur.toNat ++ fn.extents.drop (cur.toNat + 1) })
    else
      let rest ← ecur.Slice cando.length (-1)
      pure (cando, { fn with extents := fn.extents.set cur.toNat rest })

/-- Round of `Write`, last branch, third statement: grow the previous extent
when `prevAppendable`, otherwise insert a fresh extent at `cur`. -/
def filenode.growOrInsert (fn : filenode) (ptr : filenodePtr) (cando : List Byte)
    (prevAppendable : Bool) : Except Fault WritePlan :=
  let cur := ptr.extentIdx
  let prev := ptr.extentIdx - 1
  if prevAppendable then do
    -- grow prev
    let eprev ← index fn.extents prev
    match eprev with
    | .stored _ => .error .crash
    | .mem me =>
      let extentOff := me.Len
      let me ← me.Truncate (extentOff + cando.length)
      .ok { cando := cando,
            fn := { fn with extents := fn.extents.set prev.toNat (.mem me),
                            memsize := fn.memsize + cando.length,
                            repacked := fn.repacked + 1 },
            ptr := { ptr with extentIdx := ptr.extentIdx - 1, extentOff := extentOff,
                              repacked := ptr.repacked + 1 } }
  else do
    -- insert an extent between prev and cur
    let shifted : Bool := decide (cur < (fn.extents.length : Int) + 1)
    let e ← newMemExtent cando.length
    if cur < 0 ∨ (fn.extents.length : Int) < cur then .error .crash
    else
      .ok { cando := cando,
            fn := { fn with
              extents := fn.extents.take cur.toNat ++ [.mem e] ++ fn.extents.drop cur.toNat,
              memsize := fn.memsize + cando.length,
              repacked := if shifted then fn.repacked + 1 else fn.repacked },
            ptr := { ptr with repacked := if shifted then ptr.repacked + 1 else ptr.repacked } }

/-- Round of `Write`, last branch: the pointer is at an extent boundary and the
current extent is not writable (or the pointer is at the end of the file). -/
def filenode.writeBoundary (mbs : Int) (fn : filenode) (ptr : filenodePtr) (cando : List Byte)
    (prevAppendable : Bool) : Except Fault WritePlan := do
  let cando ← fn.shrinkToPrev mbs ptr cando prevAppendable
  let (cando, fn) ← fn.accountCur ptr cando
  fn.growOrInsert ptr cando prevAppendable

/-- The test `cur < len(fn.extents)` and the type assertion on
`fn.extents[cur]` that set `curWritable`. -/
def filenode.curWritable (fn : filenode) (ptr : filenodePtr) : Except Fault Bool :=
  if ptr.extentIdx < fn.extents.length then
    (index fn.extents ptr.extentIdx).map extent.writable
  else pure false

/-- The test `prev >= 0 && fn.extents[prev].Len() < maxBlockSize` and the type
assertion on `fn.extents[prev]` that set `prevAppendable`. -/
def filenode.prevAppendable (mbs : Int) (fn : filenode) (ptr : filenodePtr) : Except Fault Bool :=
  if ptr.extentIdx - 1 ≥ 0 then do
    let e ← index fn.extents (ptr.extentIdx - 1)
    pure (decide (e.Len < mbs) && e.writable)
  else pure false

/-- The first statement of a round of `Write`: `cando := p`, cut to
`maxBlockSize` bytes when longer. -/
def capCando (mbs : Int) (p : List Byte) : Except Fault (List Byte) :=
  if (p.length : Int) > mbs then sliceTo p mbs else pure p

/-- The structural phase of one round of the loop of `filenode.Write`:
rearrange and grow `fn.extents`, and shrink `cando` if needed, such that
`cando` can be copied to `fn.extents[ptr.extentIdx]` at `ptr.extentOff`. -/
def filenode.writePlan (mbs : Int) (fn : filenode) (ptr : filenodePtr) (p : List Byte) :
    Except Fault WritePlan := do
  let cando ← capCando mbs p
  let curWritable ← fn.curWritable ptr
  let prevAppendable ← fn.prevAppendable mbs ptr
  if ptr.extentOff > 0 ∧ curWritable = false then fn.writeSplit ptr cando
  else if curWritable = true then fn.writeInPlace ptr cando
  else fn.writeBoundary mbs ptr cando prevAppendable

/-- The last statement of a round of `Write`: when the pointer is at the end
of `fn.extents[ptr.extentIdx]`, step to the beginning of the next extent. -/
def filenode.stepNext (fn : filenode) (ptr : filenodePtr) : Except Fault filenodePtr := do
  let e ← index fn.extents ptr.extentIdx
  if e.Len = ptr.extentOff then
    .ok { ptr with extentOff := 0, extentIdx := ptr.extentIdx + 1 }
  else .ok ptr

/-- The rest of one round of the loop of `filenode.Write`: copy `cando` to the
current extent, advance the pointer, prune when the extent is full and step to
the next extent at the end of the current one.  The result is the file node,
the pointer, the rest of `p`, the number of bytes copied and the store. -/
def filenode.writeCopy {σ : Type} (mbs : Int) (kc : keepClient σ) (plan : WritePlan)
    (p : List Byte) (st : σ) : Except Fault (filenode × filenodePtr × List Byte × Int × σ) := do
  let fn := plan.fn
  let ptr := plan.ptr
  let cando := plan.cando
  let target ← index fn.extents ptr.extentIdx
  match target with
  | .stored _ => .error .crash
  | .mem me =>
    let me ← me.WriteAt cando ptr.extentOff
    let fn := { fn with extents := fn.extents.set ptr.extentIdx.toNat (.mem me) }
    let p := p.drop cando.length
    let ptr := { ptr with off := ptr.off + cando.length, extentOff := ptr.extentOff + cando.length }
    let (fn, st) := if ptr.extentOff ≥ mbs then fn.pruneMemExtents mbs kc st else (fn, st)
    let ptr ← fn.stepNext ptr
    .ok (fn, ptr, p, cando.length, st)

/-- One round of the loop of `filenode.Write`, for a non-empty `p`. -/
def filenode.writeStep {σ : Type} (mbs : Int) (kc : keepClient σ) (fn : filenode)
    (ptr : filenodePtr) (p : List Byte) (st : σ) :
    Except Fault (filenode × filenodePtr × List Byte × Int × σ) := do
  let plan ← fn.writePlan mbs ptr p
  filenode.writeCopy mbs kc plan p st

/-- The loop `for len(p) > 0 && err == nil` of `filenode.Write` (`err` is
never set inside the loop). -/
def filenode.writeLoop {σ : Type} (mbs : Int) (kc : keepClient σ) :
    Nat → filenode → filenodePtr → List Byte → Int → σ →
    Except Fault (Int × filenodePtr × filenode × σ)
  | fuel, fn, ptr, p, n, st =>
    if p.length > 0 then
      match fuel with
      | 0 => .error .fuel
      | k + 1 => do
        let (fn, ptr, p, c, st) ← fn.writeStep mbs kc ptr p st
        filenode.writeLoop mbs kc k fn ptr p (n + c) st
    else .ok (n, ptr, fn, st)

/-- The method `filenode.Write`: the results `n`, `ptr`, `err`, with the file
node and the store after the call. -/
def filenode.Write {σ : Type} (mbs : Int) (kc : keepClient σ) (fn : filenode) (p : List Byte)
    (startPtr : filenodePtr) (st : σ) :
    Except Fault (Int × filenodePtr × Option GoError × filenode × σ) := do
  let ptr ← fn.seek startPtr
  if ptr.off < 0 then .ok (0, ptr, some .ErrNegativeOffset, fn, st)
  else
    let (n, ptr, fn, st) ← filenode.writeLoop mbs kc p.length fn ptr p 0 st
    .ok (n, ptr, none, fn, st)

/-! ## What a file holds -/

/-- Byte `i` of the block a locator names, if the store has it. -/
def blockByte {σ : Type} (kc : keepClient σ) (st : σ) (locator : Str) (i : Int) : Option Byte :=
  if i < 0 then none
  else match kc.Get st locator with
    | some b => b[i.toNat]?
    | none => none

/-- The bytes of an extent: those of the buffer, or the window
`[offset, offset+length)` of the block; `none` is a byte the store does not
have. -/
def extent.bytes {σ : Type} (kc : keepClient σ) (st : σ) : extent → List (Option Byte)
  | .mem me => me.buf.map some
  | .stored se =>
    (List.range se.length.toNat).map (fun (j : Nat) => blockByte kc st se.locator (se.offset + (j : Int)))

/-- The bytes of a list of extents, in order. -/
def extentsBytes {σ : Type} (kc : keepClient σ) (st : σ) : List extent → List (Option Byte)
  | [] => []
  | e :: es => e.bytes kc st ++ extentsBytes kc st es

/-- The content of a file: the bytes of its extents, in order. -/
def filenode.content {σ : Type} (kc : keepClient σ) (st : σ) (fn : filenode) : List (Option Byte) :=
  extentsBytes kc st fn.extents

/-- Sum of the lengths of a list of extents. -/
def sumLen : List extent → Int
  | [] => 0
  | e :: es => e.Len + sumLen es

/-- A file node with no extents, as `OpenFile` creates it. -/
def emptyFile (name : Str) : filenode :=
  { fileinfo := { name := name, mode := 0o755, size := 0 }, extents := [], repacked := 0,
    memsize := 0 }

/-- A blob client for examples: the store is the list of the blocks put so
far, and the locator of the `k`-th block (from 1) is `k` letters `a`. -/
def listKeep : keepClient (List (List Byte)) where
  PutB := fun st b => (st ++ [b], some (List.replicate (st.length + 1) 97))
  Get := fun st loc =>
    match loc with
    | [] => none
    | _ :: t => if loc = List.replicate (t.length + 1) 97 then st[t.length]? else none

/-- A blob client whose uploads fail and that holds no block. -/
def deadKeep : keepClient Unit where
  PutB := fun st _ => (st, none)
  Get := fun _ _ => none

/-! ## Specification vocabulary for file nodes -/

/-- Every block the store `st` holds, `st1` holds too, unchanged. -/
def keepClient.Extends {σ : Type} (kc : keepClient σ) (st st1 : σ) : Prop :=
  ∀ loc b, kc.Get st loc = some b → kc.Get st1 loc = some b

/-- The blob store returns what was put: an upload keeps every block of the
store, and a successful one makes the returned locator name the uploaded
bytes. -/
structure keepClient.Lawful {σ : Type} (kc : keepClient σ) : Prop where
  keeps : ∀ st b, kc.Extends st (kc.PutB st b).1
  returns : ∀ st b loc, (kc.PutB st b).2 = some loc → kc.Get (kc.PutB st b).1 loc = some b

/-- Every stored extent of the list names a block the store holds. -/
def Present {σ : Type} (kc : keepClient σ) (st : σ) (es : List extent) : Prop :=
  ∀ se, extent.stored se ∈ es → ∃ b, kc.Get st se.locator = some b

/-- Every extent of the list has positive length, and no memory extent is
longer than `mbs`. -/
def Sound (mbs : Int) (es : List extent) : Prop :=
  ∀ e ∈ es, 0 < e.Len ∧ (e.writable = true → e.Len ≤ mbs)

/-- The invariants of a file node: the size is the sum of the extent lengths,
every extent has positive length, no memory extent is longer than `mbs`. -/
def filenode.Inv (mbs : Int) (fn : filenode) : Prop :=
  fn.fileinfo.size = sumLen fn.extents ∧ Sound mbs fn.extents

/-- The spare bytes of every memory extent of the list are zero. -/
def SpareZero (es : List extent) : Prop :=
  ∀ me, extent.mem me ∈ es → ∀ b ∈ me.spare, b = 0

/-- The pointer is stale: its generation is not the node's. -/
def filenodePtr.Stale (ptr : filenodePtr) (fn : filenode) : Prop :=
  ptr.repacked ≠ fn.repacked

/-- The pointer is consistent with the node: same generation, and
`extents[extentIdx]` at `extentOff` is the byte at `off` (the lengths of the
extents before `extentIdx` plus `extentOff` are `off`), `extentOff` being at
most the length of that extent, or the pointer being at the end of the file. -/
def filenodePtr.Consistent (ptr : filenodePtr) (fn : filenode) : Prop :=
  ptr.repacked = fn.repacked ∧ 0 ≤ ptr.extentIdx ∧ 0 ≤ ptr.extentOff ∧
  sumLen (fn.extents.take ptr.extentIdx.toNat) + ptr.extentOff = ptr.off ∧
  ((ptr.extentIdx = fn.extents.length ∧ ptr.extentOff = 0) ∨
   ∃ e, fn.extents[ptr.extentIdx.toNat]? = some e ∧ ptr.extentOff ≤ e.Len)

/-- The pointer is where `seek` leaves it: same generation, `extentIdx` and
`extentOff` decompose `off`, and the pointer is at the end of the file or
strictly inside `extents[extentIdx]`. -/
def filenodePtr.Seeked (ptr : filenodePtr) (fn : filenode) : Prop :=
  ptr.repacked = fn.repacked ∧ 0 ≤ ptr.extentIdx ∧ 0 ≤ ptr.extentOff ∧
  sumLen (fn.extents.take ptr.extentIdx.toNat) + ptr.extentOff = ptr.off ∧
  ((ptr.extentIdx = fn.extents.length ∧ ptr.extentOff = 0) ∨
   ∃ e, fn.extents[ptr.extentIdx.toNat]? = some e ∧ ptr.extentOff < e.Len)

/-- The bytes `old` with those at `[o, o + len(p))` replaced by `p`. -/
def splice (old : List (Option Byte)) (o : Nat) (p : List Byte) : List (Option Byte) :=
  old.take o ++ p.map some ++ old.drop (o + p.length)

/-- What the structural phase of a round of `Write` guarantees: the plan
copies the first `k` bytes of `p`, the extents of the planned node are
`pre2 ++ mem me2 :: post2` with the pointer inside `me2` and room for the
`k` bytes, and outside the `k` bytes at the pointer the planned node holds
what the node held. -/
structure PlanSpec {σ : Type} (kc : keepClient σ) (st : σ) (mbs : Int) (fn : filenode)
    (ptr : filenodePtr) (p : List Byte) (plan : WritePlan) (k : Nat) (pre2 : List extent)
    (me2 : memExtent) (post2 : List extent) : Prop where
  cando : plan.cando = p.take k
  kpos : 0 < k
  kle : k ≤ p.length
  extents : plan.fn.extents = pre2 ++ .mem me2 :: post2
  idx : plan.ptr.extentIdx = pre2.length
  off0 : 0 ≤ plan.ptr.extentOff
  fits : plan.ptr.extentOff + k ≤ me2.Len
  small : me2.Len ≤ mbs
  decomp : sumLen pre2 + plan.ptr.extentOff = ptr.off
  off : plan.ptr.off = ptr.off
  gen : plan.ptr.repacked = plan.fn.repacked
  size : plan.fn.fileinfo.size = sumLen plan.fn.extents
  sizeMax : plan.fn.fileinfo.size = max fn.fileinfo.size (ptr.off + k)
  others : Sound mbs (pre2 ++ post2)
  present : Present kc st plan.fn.extents
  before : extentsBytes kc st pre2 ++ (me2.buf.take plan.ptr.extentOff.toNat).map some
    = (fn.content kc st).take ptr.off.toNat
  after : (me2.buf.drop (plan.ptr.extentOff.toNat + k)).map some ++ extentsBytes kc st post2
    = (fn.content kc st).drop (ptr.off.toNat + k)
  memsize : fn.memsize = memLen fn.extents → plan.fn.memsize = memLen plan.fn.extents
  spare : SpareZero fn.extents → SpareZero plan.fn.extents
  name : plan.fn.fileinfo.name = fn.fileinfo.name ∧ plan.fn.fileinfo.mode = fn.fileinfo.mode
  genStep : fn.repacked ≤ plan.fn.repacked

/-- What the second statement of the last branch of a round of `Write`
guarantees: `k` bytes of `p` remain to be copied, the extents after the
pointer have lost their first `k` bytes (or the file is `k` bytes longer), and
the size already counts the `k` bytes the third statement adds. -/
structure AccountSpec {σ : Type} (kc : keepClient σ) (st : σ) (mbs : Int) (fn : filenode)
    (pre post : List extent) (p : List Byte) (k0 : Nat) (c : List Byte) (fn1 : filenode)
    (k : Nat) (post1 : List extent) : Prop where
  cando : c = p.take k
  kpos : 0 < k
  kle : k ≤ k0
  extents : fn1.extents = pre ++ post1
  size : fn1.fileinfo.size = sumLen pre + k + sumLen post1
  sizeMax : fn1.fileinfo.size = max fn.fileinfo.size (sumLen pre + k)
  bytes : extentsBytes kc st post1 = (extentsBytes kc st post).drop k
  sound : Sound mbs post1
  present : Present kc st post1
  memLen : memLen post1 = memLen post
  spare : SpareZero post → SpareZero post1
  same : fn1.repacked = fn.repacked ∧ fn1.memsize = fn.memsize ∧
    fn1.fileinfo.name = fn.fileinfo.name ∧ fn1.fileinfo.mode = fn.fileinfo.mode

/-- What one round of the loop of `Write` guarantees: `k` bytes of `p` were
written at the pointer, the pointer advanced by `k` and is as `seek` would
leave it, and the invariants still hold. -/
structure StepSpec {σ : Type} (kc : keepClient σ) (st : σ) (mbs : Int) (fn : filenode)
    (ptr : filenodePtr) (p : List Byte) (fn1 : filenode) (ptr1 : filenodePtr) (k : Nat)
    (st1 : σ) : Prop where
  kpos : 0 < k
  kle : k ≤ p.length
  inv : fn1.Inv mbs
  seeked : ptr1.Seeked fn1
  off : ptr1.off = ptr.off + k
  grows : kc.Extends st st1
  present : Present kc st1 fn1.extents
  content : fn1.content kc st1 = splice (fn.content kc st) ptr.off.toNat (p.take k)
  sizeMax : fn1.fileinfo.size = max fn.fileinfo.size (ptr.off + k)
  memsize : fn.memsize = memLen fn.extents → fn1.memsize = memLen fn1.extents
  spare : SpareZero fn.extents → SpareZero fn1.extents
  name : fn1.fileinfo.name = fn.fileinfo.name ∧ fn1.fileinfo.mode = fn.fileinfo.mode
  genStep : fn.repacked ≤ fn1.repacked

/-- What `Write` of `p` at a pointer as `seek` leaves it guarantees: the
bytes at `[ptr.off, ptr.off + len(p))` are those of `p` and every other byte
is what it was, the pointer is `len(p)` further, and the invariants hold. -/
structure WriteSpec {σ : Type} (kc : keepClient σ) (st : σ) (mbs : Int) (fn : filenode)
    (ptr : filenodePtr) (p : List Byte) (fn1 : filenode) (ptr1 : filenodePtr) (st1 : σ) :
    Prop where
  inv : fn1.Inv mbs
  seeked : ptr1.Seeked fn1
  off : ptr1.off = ptr.off + p.length
  grows : kc.Extends st st1
  present : Present kc st1 fn1.extents
  content : fn1.content kc st1 = splice (fn.content kc st) ptr.off.toNat p
  sizeMax : fn1.fileinfo.size = max fn.fileinfo.size (ptr.off + p.length)
  memsize : fn.memsize = memLen fn.extents → fn1.memsize = memLen fn1.extents
  spare : SpareZero fn.extents → SpareZero fn1.extents
  name : fn1.fileinfo.name = fn.fileinfo.name ∧ fn1.fileinfo.mode = fn.fileinfo.mode
  genStep : fn.repacked ≤ fn1.repacked

/-! ## Concrete inputs for the examples -/

/-- The five bytes of `world`. -/
def exWorld : List Byte := [119, 111, 114, 108, 100]

/-- A store holding one block, `world`, under the locator `a`. -/
def exStore : List (List Byte) := [exWorld]

/-- A file of five bytes held by one stored extent: the whole block `a`. -/
def exFile : filenode :=
  { fileinfo := { name := [97], mode := 0o755, size := 5 },
    extents := [.stored { locator := [97], size := 5, offset := 0, length := 5 }],
    repacked := 0, memsize := 0 }

/-- A stale pointer at byte offset 1. -/
def exPtr : filenodePtr := { off := 1, extentIdx := 0, extentOff := 0, repacked := -1 }

/-- What `Truncate(size)` guarantees on a node that satisfies the invariants
and whose spare bytes are zero, for `size ≥ 0`: the content is cut to `size`
bytes or extended with zero bytes, and the invariants still hold. -/
structure TruncateSpec {σ : Type} (kc : keepClient σ) (st : σ) (mbs : Int) (fn : filenode)
    (size : Int) (fn1 : filenode) : Prop where
  inv : fn1.Inv mbs
  spare : SpareZero fn1.extents
  present : Present kc st fn.extents → Present kc st fn1.extents
  sizeEq : fn1.fileinfo.size = size
  content : fn1.content kc st
    = (fn.content kc st).take (min size fn.fileinfo.size).toNat
      ++ List.replicate (size - fn.fileinfo.size).toNat (some 0)
  memsize : fn.memsize = memLen fn.extents → fn1.memsize = memLen fn1.extents
  name : fn1.fileinfo.name = fn.fileinfo.name ∧ fn1.fileinfo.mode = fn.fileinfo.mode
  genStep : fn.repacked ≤ fn1.repacked

/-- What the growing loop of `Truncate` guarantees after some rounds: the file
is `g` zero bytes longer, and the invariants still hold. -/
structure GrowSpec {σ : Type} (kc : keepClient σ) (st : σ) (mbs : Int) (fn : filenode)
    (g : Nat) (fn1 : filenode) : Prop where
  inv : fn1.Inv mbs
  spare : SpareZero fn1.extents
  present : Present kc st fn.extents → Present kc st fn1.extents
  sizeEq : fn1.fileinfo.size = fn.fileinfo.size + g
  content : fn1.content kc st = fn.content kc st ++ List.replicate g (some 0)
  memsize : fn.memsize = memLen fn.extents → fn1.memsize = memLen fn1.extents
  name : fn1.fileinfo.name = fn.fileinfo.name ∧ fn1.fileinfo.mode = fn.fileinfo.mode
  genStep : fn.repacked ≤ fn1.repacked

/-- The file nodes, each with the store it lives in, that an empty file
reaches by `Write` calls (with a pointer that is stale or consistent, as the
handles of a file hold it) and `Truncate` calls with a non-negative size. -/
inductive Reachable {σ : Type} (mbs : Int) (kc : keepClient σ) : filenode → σ → Prop where
  | empty (name : Str) (st : σ) : Reachable mbs kc (emptyFile name) st
  | write {fn : filenode} {st : σ} (p : List Byte) (ptr : filenodePtr) {n : Int}
      {ptr1 : filenodePtr} {err : Option GoError} {fn1 : filenode} {st1 : σ} :
      Reachable mbs kc fn st → (ptr.Stale fn ∨ ptr.Consistent fn) →
      filenode.Write mbs kc fn p ptr st = .ok (n, ptr1, err, fn1, st1) →
      Reachable mbs kc fn1 st1
  | truncate {fn : filenode} {st : σ} (size : Int) {fn1 : filenode} :
      Reachable mbs kc fn st → 0 ≤ size → filenode.Truncate mbs fn size = .ok fn1 →
      Reachable mbs kc fn1 st

/-- Scenario "truncate grow then shrink", with blocks of 4 bytes: the empty
file after `Truncate(5)`. -/
def exGrown : filenode :=
  match filenode.Truncate 4 (emptyFile [102]) 5 with
  | .ok fn => fn
  | .error _ => emptyFile [102]

/-- The same file and the store after writing `AB` at offset 2. -/
def exWritten : filenode × List (List Byte) :=
  match filenode.Write 4 listKeep exGrown [65, 66]
      { off := 2, extentIdx := 0, extentOff := 0, repacked := -1 } [] with
  | .ok r => (r.2.2.2.1, r.2.2.2.2)
  | .error _ => (exGrown, [])

/-! ## Strings

The functions of the Go library the codec calls, on byte strings.  They are
library code, modelled from the documentation of the packages `strings`,
`strconv`, `path` and `fmt`. -/

/-- The bytes (UTF-8) of a Lean string literal, for readable examples. -/
def str (s : String) : Str :=
  s.toList.flatMap (fun c => (String.utf8EncodeChar c).map UInt8.toNat)

/-- The call `strings.Split(s, sep)` for a one-byte separator: the pieces of
`s` between the separators (always at least one piece). -/
def splitByte (sep : Nat) : Str → List Str
  | [] => [[]]
  | c :: cs =>
    if c = sep then [] :: splitByte sep cs
    else match splitByte sep cs with
      | [] => [[c]]
      | w :: ws => (c :: w) :: ws

/-- The call `strings.Join(parts, sep)`. -/
def joinWith (sep : Str) : List Str → Str
  | [] => []
  | [a] => a
  | a :: b :: rest => a ++ sep ++ joinWith sep (b :: rest)

/-- The call `strings.Contains(s, c)` for a one-byte `c`. -/
def containsByte (s : Str) (c : Nat) : Bool := s.elem c

/-- The string before and the string after the first `sep` of `s`, if any. -/
def cutByte (sep : Nat) : Str → Option (Str × Str)
  | [] => none
  | c :: cs =>
    if c = sep then some ([], cs)
    else match cutByte sep cs with
      | none => none
      | some (a, b) => some (c :: a, b)

/-- The call `strings.SplitN(s, sep, n)` for a one-byte separator and `n ≥ 0`
(`n = 0` gives no piece; otherwise at most `n` pieces, the last one the
unsplit rest). -/
def splitN (sep : Nat) : Nat → Str → List Str
  | 0, _ => []
  | 1, s => [s]
  | n + 2, s =>
    match cutByte sep s with
    | none => [s]
    | some (a, b) => a :: splitN sep (n + 1) b

/-- A decimal digit. -/
def isDigit (c : Nat) : Bool := decide (48 ≤ c) && decide (c ≤ 57)

/-- The value of a string of digits in the given base, `none` when a byte is
not a digit of the base.  (The empty string has value 0 here; callers
reject it.) -/
def digitsValue (base : Nat) : Str → Nat → Option Nat
  | [], acc => some acc
  | c :: cs, acc =>
    if 48 ≤ c ∧ c < 48 + base then digitsValue base cs (acc * base + (c - 48)) else none

/-- The call `strconv.ParseUint(s, base, bitSize)` for a base of at most 10:
`none` is a non-nil error. -/
def ParseUint (s : Str) (base bitSize : Nat) : Option Nat :=
  if s = [] then none
  else match digitsValue base s 0 with
    | none => none
    | some n => if n < 2 ^ bitSize then some n else none

/-- The call `strconv.ParseInt(s, 10, bitSize)`: an optional sign, then
decimal digits; `none` is a non-nil error (syntax or range). -/
def ParseInt (s : Str) (bitSize : Nat) : Option Int :=
  match s with
  | [] => none
  | c :: cs =>
    let neg := decide (c = 45)
    let body := if c = 43 ∨ c = 45 then cs else s
    if body = [] then none
    else match digitsValue 10 body 0 with
      | none => none
      | some n =>
        if neg then (if n ≤ 2 ^ (bitSize - 1) then some (-(n : Int)) else none)
        else (if n < 2 ^ (bitSize - 1) then some (n : Int) else none)

/-- The decimal digits of `n`, most significant first, at most `fuel` of
them. -/
def decimalDigits : Nat → Nat → Str
  | 0, _ => []
  | fuel + 1, n => if n < 10 then [n + 48] else decimalDigits fuel (n / 10) ++ [n % 10 + 48]

/-- The verb `%d` of `fmt.Sprintf` on a non-negative number. -/
def formatNat (n : Nat) : Str := decimalDigits (n + 1) n

/-- The verb `%d` of `fmt.Sprintf`. -/
def formatInt (i : Int) : Str :=
  if i < 0 then 45 :: formatNat i.natAbs else formatNat i.toNat

/-- The verb `%03o` of `fmt.Sprintf` on a byte. -/
def formatOctal3 (b : Nat) : Str := [b / 64 % 8 + 48, b / 8 % 8 + 48, b % 8 + 48]

/-- An `int64` after an addition: the sum modulo `2^64`, in
`[-2^63, 2^63)`. -/
def wrap64 (i : Int) : Int := (i + 2 ^ 63) % 2 ^ 64 - 2 ^ 63

/-! ## Paths -/

/-- The state of `path.Clean` while it walks the elements of a path that is
not rooted: the number of leading `..` elements kept and the real elements
kept, last first. -/
def cleanStep (rooted : Bool) (st : Nat × List Str) (elem : Str) : Nat × List Str :=
  if elem = [] ∨ elem = [46] then st
  else if elem = [46, 46] then
    match st.2 with
    | _ :: rest => (st.1, rest)
    | [] => if rooted then st else (st.1 + 1, [])
  else (st.1, elem :: st.2)

/-- The call `path.Clean(p)`: the shortest path name equivalent to `p` by
purely lexical processing (empty and `.` elements dropped, `elem/..`
eliminated, `..` at the beginning of a rooted path dropped, the result `.`
for an empty one). -/
def pathClean (p : Str) : Str :=
  if p = [] then [46]
  else
    let rooted := decide (p.head? = some 47)
    let st := (splitByte 47 p).foldl (cleanStep rooted) (0, [])
    let elems := List.replicate st.1 [46, 46] ++ st.2.reverse
    if rooted then 47 :: joinWith [47] elems
    else if elems = [] then [46] else joinWith [47] elems

/-- The call `path.Split(p)`: `p` split immediately after its last slash. -/
def pathSplit (p : Str) : Str × Str :=
  match (splitByte 47 p).reverse with
  | [] => ([], [])
  | file :: revDirs =>
    (match revDirs with
      | [] => []
      | _ => joinWith [47] revDirs.reverse ++ [47], file)

/-! ## Escaping -/

/-- A byte of the class `[.\w/]`: a letter, a digit, `_`, `.` or `/`. -/
def isPlainByte (c : Nat) : Bool :=
  (decide (48 ≤ c) && decide (c ≤ 57)) || (decide (65 ≤ c) && decide (c ≤ 90)) ||
  (decide (97 ≤ c) && decide (c ≤ 122)) || decide (c = 95) || decide (c = 46) || decide (c = 47)

/-- A continuation byte of UTF-8. -/
def isCont (c : Nat) : Bool := decide (0x80 ≤ c) && decide (c ≤ 0xBF)

/-- The width in bytes of the first rune of a non-empty string as the regexp
engine decodes it (`utf8.DecodeRuneInString`): 1 for an ASCII byte and for a
byte that does not start a valid encoding. -/
def runeWidth : Str → Nat
  | [] => 0
  | b0 :: rest =>
    if b0 < 0xC2 then 1
    else if b0 ≤ 0xDF then
      match rest with
      | b1 :: _ => if isCont b1 then 2 else 1
      | _ => 1
    else if b0 ≤ 0xEF then
      match rest with
      | b1 :: b2 :: _ =>
        let lo := if b0 = 0xE0 then 0xA0 else 0x80
        let hi := if b0 = 0xED then 0x9F else 0xBF
        if lo ≤ b1 ∧ b1 ≤ hi ∧ isCont b2 = true then 3 else 1
      | _ => 1
    else if b0 ≤ 0xF4 then
      match rest with
      | b1 :: b2 :: b3 :: _ =>
        let lo := if b0 = 0xF0 then 0x90 else 0x80
        let hi := if b0 = 0xF4 then 0x8F else 0xBF
        if lo ≤ b1 ∧ b1 ≤ hi ∧ isCont b2 = true ∧ isCont b3 = true then 4 else 1
      | _ => 1
    else 1

/-- The function `manifestEscapeFunc`: a backslash and the three octal digits
of the first byte of the match. -/
def manifestEscapeFunc (seq : Str) : Str :=
  match seq with
  | [] => []
  | b :: _ => 92 :: formatOctal3 b

/-- The loop of `ReplaceAllStringFunc` for `manifestEscapedChar`
(`[^\.\w/]`, one rune): `skip` bytes of the current match remain to be
dropped. -/
def escapeFrom : Nat → Str → Str
  | _, [] => []
  | skip + 1, _ :: rest => escapeFrom skip rest
  | 0, b :: rest =>
    if b < 0x80 ∧ isPlainByte b = true then b :: escapeFrom 0 rest
    else manifestEscapeFunc (b :: rest) ++ escapeFrom (runeWidth (b :: rest) - 1) rest

/-- The function `manifestEscape`. -/
def manifestEscape (s : Str) : Str := escapeFrom 0 s

/-- The function `manifestUnescapeFunc` on a match of `manifestEscapeSeq`. -/
def manifestUnescapeFunc (seq : Str) : Str :=
  if seq = [92, 92] then [92]
  else match ParseUint (seq.drop 1) 8 8 with
    | none => seq
    | some i => [i]

/-- The loop of `ReplaceAllStringFunc` for `manifestEscapeSeq`
(a backslash followed by three decimal digits or by a backslash): `skip`
bytes of the current match remain to be dropped. -/
def unescapeFrom : Nat → Str → Str
  | _, [] => []
  | skip + 1, _ :: rest => unescapeFrom skip rest
  | 0, b :: rest =>
    if b = 92 then
      match rest with
      | d1 :: d2 :: d3 :: _ =>
        if isDigit d1 = true ∧ isDigit d2 = true ∧ isDigit d3 = true then
          manifestUnescapeFunc [92, d1, d2, d3] ++ unescapeFrom 3 rest
        else if d1 = 92 then manifestUnescapeFunc [92, 92] ++ unescapeFrom 1 rest
        else b :: unescapeFrom 0 rest
      | d1 :: _ =>
        if d1 = 92 then manifestUnescapeFunc [92, 92] ++ unescapeFrom 1 rest
        else b :: unescapeFrom 0 rest
      | [] => b :: unescapeFrom 0 rest
    else b :: unescapeFrom 0 rest

/-- The function `manifestUnescape`. -/
def manifestUnescape (s : Str) : Str := unescapeFrom 0 s

/-! ## The directory tree -/

/-- The fields of a `dirnode` the model keeps, over the type of the children:
the `fileinfo` and the map `inodes` from names to children, as a list of
entries (the entry of a name is the first one with that name).  The `parent`
pointer is the path of the directory from the root; `client` and `kc` are
shared by the whole tree. -/
structure dirnodeOf (α : Type) where
  fileinfo : fileinfo
  inodes : List (Str × α)

/-- The two implementations of the `inode` interface. -/
inductive inode where
  | file (fn : filenode)
  | dir (dn : dirnodeOf inode)

/-- The `dirnode` record. -/
abbrev dirnode := dirnodeOf inode

/-- The method `Stat().IsDir()` of an inode. -/
def inode.IsDir : inode → Bool
  | .file _ => false
  | .dir _ => true

/-- The map lookup `m[name]`. -/
def mapGet {α : Type} (m : List (Str × α)) (name : Str) : Option α :=
  match m with
  | [] => none
  | (k, v) :: rest => if k = name then some v else mapGet rest name

/-- The map with the value of an existing key replaced. -/
def mapPut {α : Type} (m : List (Str × α)) (name : Str) (v : α) : List (Str × α) :=
  match m with
  | [] => []
  | (k, w) :: rest => if k = name then (k, v) :: rest else (k, w) :: mapPut rest name v

/-- The assignment `m[name] = v` for a key the map does not have. -/
def mapInsert {α : Type} (m : List (Str × α)) (name : Str) (v : α) : List (Str × α) :=
  m ++ [(name, v)]

/-- The call `delete(m, name)`. -/
def mapDelete {α : Type} (m : List (Str × α)) (name : Str) : List (Str × α) :=
  m.filter (fun kv => !decide (kv.1 = name))

/-- The directory at the path `loc` (child names from the root), if there is
one. -/
def getDir (root : dirnode) : List Str → Option dirnode
  | [] => some root
  | name :: rest =>
    match mapGet root.inodes name with
    | some (.dir dn) => getDir dn rest
    | _ => none

/-- The inode at the path `loc` (child names from the root). -/
def getNode (root : dirnode) : List Str → Option inode
  | [] => some (.dir root)
  | [name] => mapGet root.inodes name
  | name :: rest =>
    match mapGet root.inodes name with
    | some (.dir dn) => getNode dn rest
    | _ => none

/-- The tree with the directory at `loc` replaced by its image under `f`. -/
def updateDir (f : dirnode → dirnode) (root : dirnode) : List Str → dirnode
  | [] => f root
  | name :: rest =>
    match mapGet root.inodes name with
    | some (.dir dn) =>
      { root with inodes := mapPut root.inodes name (.dir (updateDir f dn rest)) }
    | _ => root

/-- The tree with the file node at `loc` replaced by its image under `f`. -/
def updateFile (f : filenode → filenode) (root : dirnode) : List Str → dirnode
  | [] => root
  | [name] =>
    match mapGet root.inodes name with
    | some (.file fn) => { root with inodes := mapPut root.inodes name (.file (f fn)) }
    | _ => root
  | name :: rest =>
    match mapGet root.inodes name with
    | some (.dir dn) =>
      { root with inodes := mapPut root.inodes name (.dir (updateFile f dn rest)) }
    | _ => root

/-- The result of `lookupPath`: the nil inode, a file node or a directory, the
last two given by their path from the root. -/
inductive Found where
  | nil
  | file (loc : List Str)
  | dir (loc : List Str)
  deriving DecidableEq, Repr

/-- One round of the loop of `lookupPath`. -/
def lookupStep (root : dirnode) (node : Found) (name : Str) : Found :=
  match node with
  | .dir loc =>
    if name = [46] ∨ name = [] then node
    else if name = [46, 46] then .dir loc.dropLast
    else
      match getDir root loc with
      | none => .nil
      | some dn =>
        match mapGet dn.inodes name with
        | none => .nil
        | some (.file _) => .file (loc ++ [name])
        | some (.dir _) => .dir (loc ++ [name])
  | _ => .nil

/-- The method `lookupPath` of the directory at `loc`. -/
def lookupPath (root : dirnode) (loc : List Str) (path : Str) : Found :=
  (splitByte 47 path).foldl (lookupStep root) (.dir loc)

/-- The open flags of package `os` (their values on Linux). -/
def O_RDONLY : Nat := 0
def O_WRONLY : Nat := 1
def O_RDWR : Nat := 2
def O_CREATE : Nat := 0x40
def O_EXCL : Nat := 0x80
def O_TRUNC : Nat := 0x200
def O_APPEND : Nat := 0x400
def O_SYNC : Nat := 0x101000

/-- The bit `os.ModeDir`. -/
def ModeDir : Nat := 0x80000000

/-- The `file` record, a handle: the inode is given by its path from the root
and a flag telling whether it is a directory. -/
structure file where
  inode : List Str
  isDir : Bool
  ptr : filenodePtr
  append : Bool
  readable : Bool
  writable : Bool
  deriving DecidableEq, Repr

/-- The handle `&file{inode: n}` with every other field zero. -/
def bareFile (loc : List Str) (isDir : Bool) : file :=
  { inode := loc, isDir := isDir, ptr := { off := 0, extentIdx := 0, extentOff := 0, repacked := 0 },
    append := false, readable := false, writable := false }

/-- The method `OpenFile` of the directory at `loc`: the handle and the tree
after the call, or the error (the tree is then unchanged). -/
def dirnode.OpenFile (root : dirnode) (loc : List Str) (name : Str) (flag perm : Nat) :
    Except GoError (file × dirnode) :=
  if flag &&& O_SYNC ≠ 0 then .error .ErrSyncNotSupported
  else
    let (dirname, name) := pathSplit name
    match lookupPath root loc dirname with
    | .nil => .error .ErrNotExist
    | .file _ => .error .ErrNotExist
    | .dir dloc =>
      let mode := flag &&& (O_RDWR ||| O_RDONLY ||| O_WRONLY)
      if mode ≠ O_RDWR ∧ mode ≠ O_RDONLY ∧ mode ≠ O_WRONLY then .error (.invalidFlags flag)
      else
        let readable := decide (mode = O_RDWR ∨ mode = O_RDONLY)
        let writable := decide (mode = O_RDWR ∨ mode = O_WRONLY)
        if writable = false ∧ (name = [46] ∨ name = []) then .ok (bareFile dloc true, root)
        else if writable = false ∧ name = [46, 46] then .ok (bareFile dloc.dropLast true, root)
        else
          let createMode := decide (flag &&& O_CREATE ≠ 0)
          match getDir root dloc with
          | none => .error .ErrNotExist
          | some dn =>
            match mapGet dn.inodes name with
            | none =>
              if createMode = false then .error .ErrNotExist
              else
                let isDir := decide (perm &&& ModeDir ≠ 0)
                let n : inode :=
                  if isDir then
                    .dir { fileinfo := { name := name, mode := ModeDir ||| 0o755, size := 0 },
                           inodes := [] }
                  else
                    .file { fileinfo := { name := name, mode := 0o755, size := 0 }, extents := [],
                            repacked := 0, memsize := 0 }
                let root := updateDir (fun d =>
                  { fileinfo := { d.fileinfo with size := d.fileinfo.size + 1 },
                    inodes := mapInsert d.inodes name n }) root dloc
                .ok ({ bareFile (dloc ++ [name]) isDir with
                        append := decide (flag &&& O_APPEND ≠ 0),
                        readable := readable, writable := writable }, root)
            | some n =>
              if flag &&& O_EXCL ≠ 0 then .error .ErrFileExists
              else
                .ok ({ bareFile (dloc ++ [name]) n.IsDir with
                        append := decide (flag &&& O_APPEND ≠ 0),
                        readable := readable, writable := writable }, root)

/-- The loop of `makeParentDirs`: `loc` is the directory `dn` of the loop. -/
def makeDirs (root : dirnode) (loc : List Str) : List Str → Except GoError dirnode
  | [] => .ok root
  | name :: rest =>
    match dirnode.OpenFile root loc name O_CREATE (ModeDir ||| 0o755) with
    | .error e => .error e
    | .ok (f, root) =>
      if f.isDir = false then .error .ErrFileExists
      else makeDirs root f.inode rest

/-- The method `makeParentDirs` of the directory at `loc`. -/
def dirnode.makeParentDirs (root : dirnode) (loc : List Str) (name : Str) :
    Except GoError dirnode :=
  makeDirs root loc (splitByte 47 name).dropLast

/-! ## Loading a manifest -/

/-- The loop of `loadManifest` that maps the stream window
`[offset, offset+length)` to block windows: `pos` is the loop variable, the
list is the rest of `extents`; the result is the stored extents appended to
the file and the final `pos`.  The sum `offset+length` is an `int64`
addition. -/
def segmentExtents (offset length : Int) : List storedExtent → Int → List storedExtent × Int
  | [], pos => ([], pos)
  | e :: es, pos =>
    let next := pos + e.Len
    if next < offset then segmentExtents offset length es next
    else if pos > wrap64 (offset + length) then ([], pos)
    else
      let blkOff := if pos < offset then offset - pos else 0
      let blkLen := e.Len - blkOff
      let blkLen := if pos + (blkOff + blkLen) > wrap64 (offset + length) then
          wrap64 (offset + length) - pos - blkOff
        else blkLen
      let r := segmentExtents offset length es next
      ({ locator := e.locator, size := e.size, offset := blkOff, length := blkLen } :: r.1, r.2)

/-- The tokens of a stream line after the stream name: the state is the
locators read so far (`extents`), `anyFileTokens` and the tree. -/
def loadTokens (lineno : Int) (dirname : Str) :
    List Str → List storedExtent → Bool → dirnode →
    Except GoError (List storedExtent × Bool × dirnode)
  | [], extents, anyFileTokens, root => .ok (extents, anyFileTokens, root)
  | token :: rest, extents, anyFileTokens, root =>
    if containsByte token 58 = false then
      if anyFileTokens then .error (.manifest lineno .badFileSegment)
      else
        let toks := splitN 43 3 token
        if toks.length < 2 then .error (.manifest lineno .badLocator)
        else
          match ParseInt (toks.getD 1 []) 32 with
          | none => .error (.manifest lineno .badLocator)
          | some length =>
            if length < 0 then .error (.manifest lineno .badLocator)
            else
              loadTokens lineno dirname rest
                (extents ++ [{ locator := token, size := length, offset := 0, length := length }])
                anyFileTokens root
    else if extents.length = 0 then .error (.manifest lineno .badLocator)
    else
      let toks := splitByte 58 token
      if toks.length ≠ 3 then .error (.manifest lineno .badFileSegment)
      else
        match ParseInt (toks.getD 0 []) 64 with
        | none => .error (.manifest lineno .badFileSegment)
        | some offset =>
          if offset < 0 then .error (.manifest lineno .badFileSegment)
          else
            match ParseInt (toks.getD 1 []) 64 with
            | none => .error (.manifest lineno .badFileSegment)
            | some length =>
              if length < 0 then .error (.manifest lineno .badFileSegment)
              else
                let name := pathClean (dirname ++ [47] ++ manifestUnescape (toks.getD 2 []))
                match dirnode.makeParentDirs root [] name with
                | .error _ => .error (.manifest lineno .cannotUsePath)
                | .ok root =>
                  match dirnode.OpenFile root [] name (O_CREATE ||| O_WRONLY ||| O_APPEND) 0o700 with
                  | .error _ => .error (.manifest lineno .cannotAppend)
                  | .ok (f, root) =>
                    if f.isDir then .error (.manifest lineno .isDirectory)
                    else
                      let r := segmentExtents offset length extents 0
                      let root := updateFile
                        (fun fn => r.1.foldl (fun fn e => fn.appendExtent (.stored e)) fn)
                        root f.inode
                      if r.2 < wrap64 (offset + length) then
                        .error (.manifest lineno .invalidSegment)
                      else loadTokens lineno dirname rest extents true root

/-- One stream line of `loadManifest`. -/
def loadStream (lineno : Int) (stream : Str) (root : dirnode) : Except GoError dirnode :=
  match splitByte 32 stream with
  | [] => .ok root
  | token :: rest =>
    let dirname := manifestUnescape token
    match loadTokens lineno dirname rest [] false root with
    | .error e => .error e
    | .ok (extents, anyFileTokens, root) =>
      if anyFileTokens = false then .error (.manifest lineno .noFileSegments)
      else if extents.length = 0 then .error (.manifest lineno .noLocators)
      else if dirname = [] then .error (.manifest lineno .noStreamName)
      else .ok root

/-- The loop of `loadManifest` over the stream lines, `lineno` being the
number of the first one. -/
def loadStreams : List Str → Int → dirnode → Except GoError dirnode
  | [], _, root => .ok root
  | stream :: rest, lineno, root =>
    match loadStream lineno stream root with
    | .error e => .error e
    | .ok root => loadStreams rest (lineno + 1) root

/-- The method `loadManifest` of the root directory: the tree after the call,
or the error. -/
def dirnode.loadManifest (root : dirnode) (txt : Str) : Except GoError dirnode :=
  let streams := splitByte 10 txt
  if streams.getLast? ≠ some [] then
    .error (.manifest streams.length .noTrailingNewline)
  else loadStreams streams.dropLast 1 root

/-- The root directory `FileSystem` starts from. -/
def emptyRoot : dirnode :=
  { fileinfo := { name := [46], mode := ModeDir ||| 0o755, size := 0 }, inodes := [] }

/-- The function `Collection.FileSystem` on the manifest text of the
collection. -/
def FileSystem (txt : Str) : Except GoError dirnode :=
  emptyRoot.loadManifest txt

/-! ## Sync and marshalling -/

/-- The keys of a map, each once, in the order of `sort.Strings`. -/
def sortedNames {α : Type} (m : List (Str × α)) : List Str :=
  List.insertionSort (· ≤ ·) (m.map Prod.fst).dedup

/-- The `shortBlock` record of `sync`: the file node, given by its name in the
directory, and the index of one of its extents. -/
structure shortBlock where
  name : Str
  idx : Nat
  deriving DecidableEq, Repr

/-- The expression `sb.fn.extents[sb.idx].(*memExtent).buf`. -/
def shortBlockBuf (dn : dirnode) (sb : shortBlock) : Except Fault (List Byte) :=
  match mapGet dn.inodes sb.name with
  | some (.file fn) =>
    match fn.extents[sb.idx]? with
    | some (.mem me) => .ok me.buf
    | _ => .error .crash
  | _ => .error .crash

/-- The first loop of `flush`: the block made of the buffers of `sbs`. -/
def flushBlock (dn : dirnode) : List shortBlock → List Byte → Except Fault (List Byte)
  | [], block => .ok block
  | sb :: rest, block => do
    let buf ← shortBlockBuf dn sb
    flushBlock dn rest (block ++ buf)

/-- The second loop of `flush`: each extent of `sbs` becomes a stored extent
for its window of the block; `off` is the loop variable. -/
def flushRewrite (locator : Str) (size : Int) : List shortBlock → Int → dirnode →
    Except Fault dirnode
  | [], _, dn => .ok dn
  | sb :: rest, off, dn => do
    let data ← shortBlockBuf dn sb
    let inodes :=
      match mapGet dn.inodes sb.name with
      | some (.file fn) =>
        mapPut dn.inodes sb.name (.file { fn with
          extents := fn.extents.set sb.idx
            (.stored { locator := locator, size := size, offset := off, length := data.length }),
          memsize := fn.memsize - data.length })
      | _ => dn.inodes
    flushRewrite locator size rest (off + data.length) { dn with inodes := inodes }

/-- The closure `flush` of `sync`: the error it returns, the directory and the
store. -/
def flush {σ : Type} (kc : keepClient σ) (dn : dirnode) (st : σ) (sbs : List shortBlock) :
    Except Fault (Option GoError × dirnode × σ) :=
  if sbs.length = 0 then .ok (none, dn, st)
  else do
    let block ← flushBlock dn sbs []
    match kc.PutB st block with
    | (st, none) => .ok (some .upload, dn, st)
    | (st, some locator) =>
      let dn ← flushRewrite locator block.length sbs 0 dn
      .ok (none, dn, st)

/-- The variables of `sync`: `pending`, `pendingLen`, with the directory and
the store. -/
structure SyncState (σ : Type) where
  pending : List shortBlock
  pendingLen : Int
  dn : dirnode
  st : σ

/-- The loop `for idx, ext := range fn.extents` of `sync` on the file `name`,
from index `idx`, for `count` more extents: the error returned, if any, and
the state. -/
def syncExtents {σ : Type} (mbs : Int) (kc : keepClient σ) (name : Str) :
    Nat → Nat → SyncState σ → Except Fault (Option GoError × SyncState σ)
  | 0, _, s => .ok (none, s)
  | count + 1, idx, s =>
    match mapGet s.dn.inodes name with
    | some (.file fn) =>
      match fn.extents[idx]? with
      | none => .error .crash
      | some (.stored _) => syncExtents mbs kc name count (idx + 1) s
      | some (.mem ext) =>
        if ext.Len > mbs / 2 then do
          let (err, dn, st) ← flush kc s.dn s.st [{ name := name, idx := idx }]
          match err with
          | some e => .ok (some e, { s with dn := dn, st := st })
          | none => syncExtents mbs kc name count (idx + 1) { s with dn := dn, st := st }
        else do
          let (err, s) ←
            if s.pendingLen + ext.Len > mbs then do
              let (err, dn, st) ← flush kc s.dn s.st s.pending
              match err with
              | some e => pure (some e, { s with dn := dn, st := st })
              | none => pure (none, { pending := [], pendingLen := 0, dn := dn, st := st })
            else pure (none, s)
          match err with
          | some e => .ok (some e, s)
          | none =>
            syncExtents mbs kc name count (idx + 1)
              { s with pending := s.pending ++ [{ name := name, idx := idx }],
                       pendingLen := s.pendingLen + ext.Len }
    | _ => .error .crash

/-- The loop `for _, name := range names` of `sync`. -/
def syncNames {σ : Type} (mbs : Int) (kc : keepClient σ) :
    List Str → SyncState σ → Except Fault (Option GoError × SyncState σ)
  | [], s => .ok (none, s)
  | name :: rest, s =>
    match mapGet s.dn.inodes name with
    | some (.file fn) => do
      let (err, s) ← syncExtents mbs kc name fn.extents.length 0 s
      match err with
      | some e => .ok (some e, s)
      | none => syncNames mbs kc rest s
    | _ => syncNames mbs kc rest s

/-- The method `dirnode.sync`: the error it returns, the directory and the
store after the call. -/
def dirnode.sync {σ : Type} (mbs : Int) (kc : keepClient σ) (dn : dirnode) (st : σ) :
    Except Fault (Option GoError × dirnode × σ) := do
  let (err, s) ← syncNames mbs kc (sortedNames dn.inodes)
    { pending := [], pendingLen := 0, dn := dn, st := st }
  match err with
  | some e => .ok (some e, s.dn, s.st)
  | none => flush kc s.dn s.st s.pending

/-- The `m1segment` record of `marshalManifest`. -/
structure m1segment where
  name : Str
  offset : Int
  length : Int
  deriving DecidableEq, Repr

/-- The variables `streamLen`, `segments` and `blocks` of `marshalManifest`. -/
structure StreamState where
  streamLen : Int
  segments : List m1segment
  blocks : List Str
  deriving DecidableEq, Repr

/-- The body of the loop over the extents of a file in `marshalManifest`, for
a stored extent. -/
def marshalExtent (name : Str) (s : StreamState) (e : storedExtent) : StreamState :=
  let repeated := decide (s.blocks.getLast? = some e.locator)
  let streamLen := if repeated then s.streamLen - e.size else s.streamLen
  let blocks := if repeated then s.blocks else s.blocks ++ [e.locator]
  let next : m1segment := { name := name, offset := streamLen + e.offset, length := e.length }
  let segments :=
    match s.segments.getLast? with
    | some prev =>
      if prev.name = name ∧ prev.offset + prev.length = next.offset then
        s.segments.dropLast ++ [{ prev with length := prev.length + next.length }]
      else s.segments ++ [next]
    | none => s.segments ++ [next]
  { streamLen := streamLen + e.size, segments := segments, blocks := blocks }

/-- The loop over the extents of a file in `marshalManifest`; an extent that
is not stored is a panic. -/
def marshalExtents (name : Str) : List extent → StreamState → Except Fault StreamState
  | [], s => .ok s
  | .stored e :: rest, s => marshalExtents name rest (marshalExtent name s e)
  | .mem _ :: _, _ => .error .crash

/-- The case `*filenode` of the loop over the names in `marshalManifest`. -/
def marshalFile (name : Str) (fn : filenode) (s : StreamState) : Except Fault StreamState :=
  if fn.extents.length = 0 then
    .ok { s with segments := s.segments ++ [{ name := name, offset := 0, length := 0 }] }
  else marshalExtents name fn.extents s

/-- The locator of the empty block. -/
def emptyLocator : Str := str "d41d8cd98f00b204e9800998ecf8427e+0"

/-- The token `%d:%d:%s` of a segment. -/
def segmentToken (s : m1segment) : Str :=
  formatInt s.offset ++ [58] ++ formatInt s.length ++ [58] ++ manifestEscape s.name

/-- The end of `marshalManifest`: the text of the stream line of the
directory, followed by the text of its sub-directories. -/
def streamText (pfx : Str) (s : StreamState) (subdirs : Str) : Str :=
  let filetokens := s.segments.map segmentToken
  if filetokens.length = 0 then subdirs
  else
    let blocks := if s.blocks.length = 0 then [emptyLocator] else s.blocks
    manifestEscape pfx ++ [32] ++ joinWith [32] blocks ++ [32] ++ joinWith [32] filetokens
      ++ [10] ++ subdirs

/-- What `marshalManifest` returns and leaves: the text or the error, the
directory and the store. -/
abbrev Marshalled (σ : Type) := Except GoError Str × dirnode × σ

/-- The variables of the loop over the names in `marshalManifest`. -/
structure MarshalState (σ : Type) where
  stream : StreamState
  subdirs : Str
  dn : dirnode
  st : σ

/-- The loop `for _, name := range names` of `marshalManifest`; `recur` is
`marshalManifest` itself, for the sub-directories. -/
def marshalNames {σ : Type} (recur : dirnode → Str → σ → Except Fault (Marshalled σ))
    (pfx : Str) : List Str → MarshalState σ → Except Fault (Option GoError × MarshalState σ)
  | [], s => .ok (none, s)
  | name :: rest, s =>
    match mapGet s.dn.inodes name with
    | some (.dir node) => do
      let (res, node, st) ← recur node (pfx ++ [47] ++ name) s.st
      let dn : dirnode := { s.dn with inodes := mapPut s.dn.inodes name (.dir node) }
      match res with
      | .error e => .ok (some e, { s with dn := dn, st := st })
      | .ok subdir =>
        marshalNames recur pfx rest { s with subdirs := s.subdirs ++ subdir, dn := dn, st := st }
    | some (.file node) => do
      let stream ← marshalFile name node s.stream
      marshalNames recur pfx rest { s with stream := stream }
    | none => .error .crash

/-- The method `dirnode.marshalManifest`, the depth of the recursion into
sub-directories being at most `fuel`. -/
def marshalManifestFuel {σ : Type} (mbs : Int) (kc : keepClient σ) :
    Nat → dirnode → Str → σ → Except Fault (Marshalled σ)
  | 0, _, _, _ => .error .fuel
  | fuel + 1, dn, pfx, st => do
    let (err, dn, st) ← dn.sync mbs kc st
    match err with
    | some e => .ok (.error e, dn, st)
    | none =>
      let (err, s) ← marshalNames (marshalManifestFuel mbs kc fuel) pfx (sortedNames dn.inodes)
        { stream := { streamLen := 0, segments := [], blocks := [] }, subdirs := [], dn := dn,
          st := st }
      match err with
      | some e => .ok (.error e, s.dn, s.st)
      | none => .ok (.ok (streamText pfx s.stream s.subdirs), s.dn, s.st)

/-- The depth of a tree: 1 for a directory without sub-directories. -/
def inode.depth : inode → Nat
  | .file _ => 0
  | .dir dn => depthList dn.inodes + 1
where
  /-- The largest depth among the children. -/
  depthList : List (Str × inode) → Nat
    | [] => 0
    | (_, n) :: rest => max n.depth (depthList rest)

/-- The method `dirnode.MarshalManifest`. -/
def dirnode.MarshalManifest {σ : Type} (mbs : Int) (kc : keepClient σ) (dn : dirnode) (pfx : Str)
    (st : σ) : Except Fault (Marshalled σ) :=
  marshalManifestFuel mbs kc (inode.depth (.dir dn)) dn pfx st

/-! ## Concrete manifests for the examples -/

/-- A manifest in canonical form: two blocks, the file `bar` is the first
block and the file `foo` the second. -/
def exCanonical : Str :=
  str ". 37b51d194a7513e45b56f6524f2d51f2+3 acbd18db4cc2f85cedef654fccc4a4d8+3 0:3:bar 3:3:foo\n"

/-- What `MarshalManifest` returns for the tree loaded from `exCanonical`. -/
def exRemarshalled : Str :=
  str (". 37b51d194a7513e45b56f6524f2d51f2+3 acbd18db4cc2f85cedef654fccc4a4d8+3 " ++
    "37b51d194a7513e45b56f6524f2d51f2+3 acbd18db4cc2f85cedef654fccc4a4d8+3 0:3:bar 9:3:foo\n")

/-- The text a call of `MarshalManifest` returns, without the directory and
the store it leaves. -/
def marshalledText {σ : Type} (r : Except Fault (Marshalled σ)) : Except Fault (Except GoError Str) :=
  r.map (fun m => m.1)

/-- A manifest whose segment ends at byte `2^63` of a stream of 0 bytes. -/
def exOverflow : Str :=
  str ". d41d8cd98f00b204e9800998ecf8427e+0 9223372036854775807:1:f\n"

/-- A manifest whose segment ends at byte `2^63` of a stream of 3 bytes. -/
def exOverflowFoo : Str :=
  str ". acbd18db4cc2f85cedef654fccc4a4d8+3 9223372036854775806:2:foo\n"

/-! ## Specification vocabulary for marshalling -/

/-- The variables `streamLen`, `segments` and `blocks` of `marshalManifest`
before its loop. -/
def emptyStream : StreamState := { streamLen := 0, segments := [], blocks := [] }

/-- The file node a directory has under a name, if the entry is a file. -/
def fileOf (dn : dirnode) (name : Str) : Option filenode :=
  match mapGet dn.inodes name with
  | some (.file fn) => some fn
  | _ => none

/-- The file nodes a directory has under the given names, with their names,
in the order of the names. -/
def filesOf (dn : dirnode) (names : List Str) : List (Str × filenode) :=
  names.filterMap (fun n => (fileOf dn n).map (fun fn => (n, fn)))

/-- The case `*filenode` of the loop of `marshalManifest`, on a list of file
nodes one after the other. -/
def marshalFiles : List (Str × filenode) → StreamState → Except Fault StreamState
  | [], s => .ok s
  | (n, fn) :: rest, s =>
    match marshalFile n fn s with
    | .error f => .error f
    | .ok s => marshalFiles rest s

/-- The locators of the stream line `streamText` writes. -/
def lineBlocks (s : StreamState) : List Str :=
  if s.blocks.length = 0 then [emptyLocator] else s.blocks

/-- Every extent of every file node directly in the directory is a stored
extent. -/
def AllStored (dn : dirnode) : Prop :=
  ∀ name fn, fileOf dn name = some fn → ∀ e ∈ fn.extents, ∃ se, e = extent.stored se

/-- A directory with two files, `a` and `b`, that hold the same block. -/
def exShared : dirnode :=
  { fileinfo := { name := [46], mode := ModeDir ||| 0o755, size := 2 },
    inodes :=
      [(str "b", .file {
          fileinfo := { name := str "b", mode := 0o755, size := 3 },
          extents := [.stored { locator := str "acbd18db4cc2f85cedef654fccc4a4d8+3", size := 3,
                                offset := 0, length := 3 }],
          repacked := 0, memsize := 0 }),
       (str "a", .file {
          fileinfo := { name := str "a", mode := 0o755, size := 2 },
          extents := [.stored { locator := str "acbd18db4cc2f85cedef654fccc4a4d8+3", size := 3,
                                offset := 1, length := 2 }],
          repacked := 0, memsize := 0 })] }

/-- Two segments the loop of `marshalManifest` merges when the second one
follows the first: the same file name, and the second one starts where the
first one ends. -/
def Mergeable (a b : m1segment) : Prop :=
  a.name = b.name ∧ a.offset + a.length = b.offset

/-- Consecutive windows of one block, from the offset `off`, of the given
lengths, as stored extents. -/
def blockWindows (locator : Str) (size : Int) : Int → List Int → List extent
  | _, [] => []
  | off, l :: ls =>
    .stored { locator := locator, size := size, offset := off, length := l } ::
      blockWindows locator size (off + l) ls

/-- The stream position the block of the extent `e` starts at when the loop
of `marshalManifest` reaches `e` in the state `s`. -/
def blockStart (s : StreamState) (e : storedExtent) : Int :=
  if s.blocks.getLast? = some e.locator then s.streamLen - e.size else s.streamLen

/-- The file node of the file `name` after `AAA` was written to the empty
file and `BBB` was written at the pointer the first call returned. -/
def exAppended : Except Fault filenode :=
  match filenode.Write (2 ^ 26) listKeep (emptyFile (str "name")) (str "AAA")
      { off := 0, extentIdx := 0, extentOff := 0, repacked := 0 } [] with
  | .ok (_, ptr, _, fn, st) =>
    match filenode.Write (2 ^ 26) listKeep fn (str "BBB") ptr st with
    | .ok (_, _, _, fn, _) => .ok fn
    | .error f => .error f
  | .error f => .error f

/-- The file node `exAppended` is. -/
def exAppendedFile : filenode :=
  { fileinfo := { name := str "name", mode := 0o755, size := 6 },
    extents := [.mem { buf := str "AAABBB", spare := List.replicate 1018 0 }],
    repacked := 2, memsize := 6 }

/-- A directory that holds the file `exAppendedFile`. -/
def exAppendedDir : dirnode :=
  { fileinfo := { name := [46], mode := ModeDir ||| 0o755, size := 1 },
    inodes := [(str "name", .file exAppendedFile)] }

/-- The directory `exAppendedDir` after `sync` with the store `listKeep`. -/
def exAppendedSynced : dirnode :=
  { fileinfo := { name := [46], mode := ModeDir ||| 0o755, size := 1 },
    inodes := [(str "name", .file {
      fileinfo := { name := str "name", mode := 0o755, size := 6 },
      extents := [.stored { locator := str "a", size := 6, offset := 0, length := 6 }],
      repacked := 2, memsize := 0 })] }

/-! ## Streams as lists of block bytes -/

/-- The stream formed by concatenating the listed blocks, each byte given by
the locator of its block and its index in the block; `blockSize` is the size
of the block of a locator. -/
def blockRefs (blockSize : Str → Int) (blocks : List Str) : List (Str × Nat) :=
  blocks.flatMap (fun b => (List.range (blockSize b).toNat).map (fun j => (b, j)))

/-- The window `offset:length` of a segment, read in a stream. -/
def m1segment.refs (stream : List (Str × Nat)) (seg : m1segment) : List (Str × Nat) :=
  (stream.drop seg.offset.toNat).take seg.length.toNat

/-- The block window of a stored extent: the bytes `offset .. offset+length`
of the block of its locator. -/
def storedExtent.refs (e : storedExtent) : List (Str × Nat) :=
  (List.range e.length.toNat).map (fun j => (e.locator, e.offset.toNat + j))

/-- The block window of an extent (none for a memory extent). -/
def extent.refs : extent → List (Str × Nat)
  | .stored e => e.refs
  | .mem _ => []

/-- The segments of the file `name`, read in order as windows of a stream. -/
def fileRefs (stream : List (Str × Nat)) (segments : List m1segment) (name : Str) :
    List (Str × Nat) :=
  (segments.filter (fun seg => decide (seg.name = name))).flatMap (m1segment.refs stream)

/-- A stored extent whose size field is the size of its block and whose
window lies in the block. -/
def storedExtent.WindowOk (blockSize : Str → Int) (e : storedExtent) : Prop :=
  e.size = blockSize e.locator ∧ 0 ≤ e.offset ∧ 0 ≤ e.length ∧ e.offset + e.length ≤ e.size

/-- The invariant of the loop of `marshalManifest`: `streamLen` is the length
of the stream of the blocks listed so far, and every segment is a window of
that stream. -/
def RefInv (blockSize : Str → Int) (t : StreamState) : Prop :=
  t.streamLen = ((blockRefs blockSize t.blocks).length : Int) ∧
  ∀ seg ∈ t.segments, 0 ≤ seg.offset ∧ 0 ≤ seg.length ∧ seg.offset + seg.length ≤ t.streamLen

/-- A directory with two files over two blocks of 3 bytes: `a` is the last
byte of the first block and the first byte of the second one, `b` is the
second block. -/
def exTwoBlocks : dirnode :=
  { fileinfo := { name := [46], mode := ModeDir ||| 0o755, size := 2 },
    inodes :=
      [(str "a", .file {
          fileinfo := { name := str "a", mode := 0o755, size := 2 },
          extents := [.stored { locator := str "37b51d194a7513e45b56f6524f2d51f2+3", size := 3,
                                offset := 2, length := 1 },
                      .stored { locator := str "acbd18db4cc2f85cedef654fccc4a4d8+3", size := 3,
                                offset := 0, length := 1 }],
          repacked := 0, memsize := 0 }),
       (str "b", .file {
          fileinfo := { name := str "b", mode := 0o755, size := 3 },
          extents := [.stored { locator := str "acbd18db4cc2f85cedef654fccc4a4d8+3", size := 3,
                                offset := 0, length := 3 }],
          repacked := 0, memsize := 0 })] }

/-! ## Specification vocabulary for loading -/

/-- A stream line `loadManifest` must reject, by its tokens (the stream name
and the tokens after it): the first token after the name is a file segment;
or no token after the name is a file segment; or the stream name is empty; or
a token without `:` comes after a file segment. -/
def BadLine (line : Str) : Prop :=
  ∃ name rest, splitByte 32 line = name :: rest ∧
    ((∃ t more, rest = t :: more ∧ containsByte t 58 = true) ∨
     (∀ t ∈ rest, containsByte t 58 = false) ∨
     name = [] ∨
     (∃ a s b l c, rest = a ++ s :: (b ++ l :: c) ∧ containsByte s 58 = true ∧
        containsByte l 58 = false))

/-! ## Specification vocabulary for the round trip -/

/-- What `manifestEscape` writes for an ASCII byte. -/
def escByte (b : Nat) : Str :=
  if isPlainByte b = true then [b] else 92 :: formatOctal3 b

/-- A name an entry of a directory keeps through a manifest: not empty, not
`.` or `..`, without `/`, made of ASCII bytes. -/
def GoodName (n : Str) : Prop :=
  n ≠ [] ∧ n ≠ [46] ∧ n ≠ [46, 46] ∧ 47 ∉ n ∧ ∀ b ∈ n, b < 128

/-- The stream name `marshalManifest` gives the directory at the path `ds`
from the root: `.`, `./a`, `./a/b`. -/
def streamName (ds : List Str) : Str := joinWith [47] ([46] :: ds)

/-- A stored extent whose window starts at a non-negative offset. -/
def extent.plain : extent → Bool
  | .stored se => decide (0 ≤ se.offset)
  | .mem _ => false

/-- What the round trip compares of an inode: whether it is a file or a
directory, its name, its mode and, for a file, whether its extents are all
plain, and the block bytes they select, in order. -/
inductive Kind where
  | file (name : Str) (mode : Nat) (plain : Bool) (refs : List (Str × Nat))
  | dir (name : Str) (mode : Nat)
  deriving DecidableEq, Repr

/-- The kind of an inode. -/
def inode.kind : inode → Kind
  | .file fn =>
    .file fn.fileinfo.name fn.fileinfo.mode (fn.extents.all extent.plain)
      (fn.extents.flatMap extent.refs)
  | .dir dn => .dir dn.fileinfo.name dn.fileinfo.mode

/-- The kind of the inode at a path, if there is one. -/
def kindAt (root : dirnode) (q : List Str) : Option Kind := (getNode root q).map inode.kind

/-- The directory an entry of a map is, if it is one. -/
def dirOf : Option inode → Option dirnode
  | some (.dir dn) => some dn
  | _ => none

/-- The child `OpenFile` adds to a directory: `d.inodes[name] = n` and
`d.fileinfo.size++`. -/
def addChild (name : Str) (n : inode) (d : dirnode) : dirnode :=
  { fileinfo := { d.fileinfo with size := d.fileinfo.size + 1 },
    inodes := mapInsert d.inodes name n }

/-- An inode without children: a file, or a directory with no entry. -/
def inode.IsLeaf : inode → Prop
  | .file _ => True
  | .dir dn => dn.inodes = []

/-- The kind of what is at a path below an inode (the inode itself for the
empty path). -/
def inode.kindAt : inode → List Str → Option Kind
  | .file fn, [] => some (inode.kind (.file fn))
  | .file _, _ :: _ => none
  | .dir dn, q => Arvados.kindAt dn q

/-- The directory node `OpenFile` creates. -/
def newDir (name : Str) : inode :=
  .dir { fileinfo := { name := name, mode := ModeDir ||| 0o755, size := 0 }, inodes := [] }

/-- The file node `OpenFile` creates. -/
def newFile (name : Str) : inode :=
  .file { fileinfo := { name := name, mode := 0o755, size := 0 }, extents := [], repacked := 0,
          memsize := 0 }

/-- The kind of a directory as `OpenFile` creates it at the path `q` (the root
for the empty path). -/
def stdDir (q : List Str) : Kind := .dir (q.getLast?.getD [46]) (ModeDir ||| 0o755)

/-- The kind of a file as `OpenFile` creates it at the path `q`, with the
block bytes `refs`. -/
def stdFile (q : List Str) (refs : List (Str × Nat)) : Kind :=
  .file (q.getLast?.getD []) 0o755 true refs

/-- The block bytes of the file at a path (none if there is no file). -/
def refsAt (root : dirnode) (q : List Str) : List (Str × Nat) :=
  match kindAt root q with
  | some (.file _ _ _ refs) => refs
  | _ => []

/-- The stream formed by the listed extents of `loadManifest` (one whole block
each), byte by byte. -/
def extentsStream (exs : List storedExtent) : List (Str × Nat) :=
  exs.flatMap (fun e => (List.range e.length.toNat).map (fun j => (e.locator, j)))

/-- The size a locator token states: its second field, the fields being
separated by `+`. -/
def locatorSize (token : Str) : Int := (ParseInt ((splitN 43 3 token).getD 1 []) 32).getD 0

/-- A locator token `loadManifest` accepts and a stream line can hold: no
colon, space or newline, and a second field that is a size. -/
def GoodLocator (token : Str) : Prop :=
  containsByte token 58 = false ∧ 32 ∉ token ∧ 10 ∉ token ∧ 2 ≤ (splitN 43 3 token).length ∧
  ∃ n, ParseInt ((splitN 43 3 token).getD 1 []) 32 = some n ∧ 0 ≤ n

/-- The stored extent `loadManifest` lists for a locator token: the whole
block. -/
def blockExtent (token : Str) : storedExtent :=
  { locator := token, size := locatorSize token, offset := 0, length := locatorSize token }

/-- The stream line `marshalManifest` writes for the directory at the path
`ds`, without its newline. -/
def lineOf (ds : List Str) (s : StreamState) : Str :=
  manifestEscape (streamName ds) ++ [32] ++ joinWith [32] (lineBlocks s) ++ [32] ++
    joinWith [32] (s.segments.map segmentToken)

/-- The size of the block of an extent, as the extent records it (0 for a
memory extent). -/
def extent.blockSize : extent → Int
  | .stored se => se.size
  | .mem _ => 0

/-- The sum of the block sizes of the extents of a list of files: a bound of
the length of the stream `marshalManifest` forms for them. -/
def filesBound (files : List (Str × filenode)) : Int :=
  (files.map (fun f => (f.2.extents.map extent.blockSize).sum)).sum

/-- A file node a manifest can describe, as the entry `name` of a directory:
it has that name and the mode `OpenFile` gives, and its extents are stored
extents with a locator `loadManifest` accepts, the size that locator states
and a window inside the block. -/
def GoodFile (name : Str) (fn : filenode) : Prop :=
  fn.fileinfo.name = name ∧ fn.fileinfo.mode = 0o755 ∧
  ∀ e ∈ fn.extents, ∃ se, e = extent.stored se ∧ GoodLocator se.locator ∧
    se.WindowOk locatorSize

/-- There is a file somewhere in the directory or below it. -/
def HasFile (dn : dirnode) : Prop := ∃ q fn, getNode dn q = some (.file fn)

/-- A directory a manifest can describe: good names, good files,
sub-directories with their name, the mode `OpenFile` gives and a file
somewhere below, and a stream shorter than `2^63` bytes. -/
def GoodDir (dn : dirnode) : Prop :=
  (∀ name n, mapGet dn.inodes name = some n → GoodName name) ∧
  (∀ name fn, mapGet dn.inodes name = some (.file fn) → GoodFile name fn) ∧
  (∀ name c, mapGet dn.inodes name = some (.dir c) →
    c.fileinfo.name = name ∧ c.fileinfo.mode = ModeDir ||| 0o755 ∧ HasFile c) ∧
  filesBound (filesOf dn (sortedNames dn.inodes)) < 2 ^ 63

/-- Every directory of the tree is good. -/
def GoodSub (dn : dirnode) : Prop := ∀ q d, getDir dn q = some d → GoodDir d

/-- A tree a manifest can describe: the root has the name and the mode of the
root of a filesystem, and every directory is good. -/
def GoodTree (T : dirnode) : Prop :=
  T.fileinfo.name = [46] ∧ T.fileinfo.mode = ModeDir ||| 0o755 ∧ GoodSub T

/-- Nothing is at or below the path `ds` in `L` yet, except directories
`OpenFile` made on the way to `ds`. -/
def Vacant (L : dirnode) (ds : List Str) : Prop :=
  (∀ r, r ≠ [] → kindAt L (ds ++ r) = none) ∧
  (∀ q, q <+: ds → q ≠ [] → kindAt L q = none ∨ kindAt L q = some (stdDir q))

/-- The tree `L1` is `L` after the files of the directory `D` and its
sub-directories of the names `done` were loaded at the path `ds`: below `ds`
it is like `D` for these entries and empty for the others, on the way to
`ds` it has the directories `OpenFile` makes, and elsewhere it is `L`. -/
def Loaded (L L1 : dirnode) (ds : List Str) (D : dirnode) (done : List Str) : Prop :=
  (∀ m r, kindAt L1 (ds ++ m :: r) =
    if (fileOf D m).isSome = true ∨ m ∈ done then kindAt D (m :: r) else none) ∧
  (∀ q, q <+: ds → q ≠ [] → kindAt L1 q = kindAt L q ∨ kindAt L1 q = some (stdDir q)) ∧
  ((∃ m, (fileOf D m).isSome = true ∨
      (m ∈ done ∧ (dirOf (mapGet D.inodes m)).isSome = true)) →
    ∀ q, q <+: ds → q ≠ [] → kindAt L1 q = some (stdDir q)) ∧
  (∀ q, ¬ ds <+: q → ¬ q <+: ds → kindAt L1 q = kindAt L q) ∧
  kindAt L1 [] = kindAt L []

/-- The tree `L1` is `L` with the directory `D` loaded at the path `ds`. -/
def Restored (L L1 : dirnode) (ds : List Str) (D : dirnode) : Prop :=
  (∀ r, r ≠ [] → kindAt L1 (ds ++ r) = kindAt D r) ∧
  (HasFile D → ∀ q, q <+: ds → q ≠ [] → kindAt L1 q = some (stdDir q)) ∧
  (∀ q, q <+: ds → q ≠ [] → kindAt L1 q = kindAt L q ∨ kindAt L1 q = some (stdDir q)) ∧
  (∀ q, ¬ ds <+: q → ¬ q <+: ds → kindAt L1 q = kindAt L q) ∧
  kindAt L1 [] = kindAt L []

/-- The round trip of the good directories `marshalManifest` handles with the
fuel `fuel`: the text is made of lines, the directory and the store are left
as they are, and the lines, read back at a vacant path, restore the
directory there. -/
def RoundTripAt {σ : Type} (mbs : Int) (kc : keepClient σ) (fuel : Nat) : Prop :=
  ∀ (D : dirnode) (ds : List Str) (st : σ) (L : dirnode) (lineno : Int),
    GoodSub D → inode.depth (.dir D) ≤ fuel → (∀ e ∈ ds, GoodName e) → Vacant L ds →
    ∃ lines L1,
      marshalManifestFuel mbs kc fuel D (streamName ds) st =
        .ok (.ok (lines.flatMap (fun l => l ++ [10])), D, st) ∧
      (∀ l ∈ lines, 10 ∉ l) ∧ loadStreams lines lineno L = .ok L1 ∧ Restored L L1 ds D

/-- Two inodes, or absences of an inode, that are the same as (name, mode,
bytes): both absent, or two directories of the same name and mode, or two
files of the same name and mode that hold the same bytes, whatever the
store. -/
def SameNode : Option inode → Option inode → Prop
  | none, none => True
  | some (.file f), some (.file g) =>
    f.fileinfo.name = g.fileinfo.name ∧ f.fileinfo.mode = g.fileinfo.mode ∧
    ∀ {σ : Type} (kc : keepClient σ) (st : σ), f.content kc st = g.content kc st
  | some (.dir d), some (.dir e) =>
    d.fileinfo.name = e.fileinfo.name ∧ d.fileinfo.mode = e.fileinfo.mode
  | _, _ => False

/-- The tree after `Mkdir("d")` on a new filesystem. -/
def exEmptyDir : dirnode :=
  { fileinfo := { name := [46], mode := ModeDir ||| 0o755, size := 1 },
    inodes := [(str "d", .dir { fileinfo := { name := str "d", mode := ModeDir ||| 0o755,
                                               size := 0 },
                                inodes := [] })] }

/-- The file `g` of the example tree: the last two bytes of a block of 3. -/
def exFileG : filenode :=
  { fileinfo := { name := str "g", mode := 0o755, size := 2 },
    extents := [.stored { locator := str "acbd18db4cc2f85cedef654fccc4a4d8+3", size := 3,
                          offset := 1, length := 2 }],
    repacked := 0, memsize := 0 }

/-- The file `f` of the example tree: a block of 3 bytes. -/
def exFileF : filenode :=
  { fileinfo := { name := str "f", mode := 0o755, size := 3 },
    extents := [.stored { locator := str "37b51d194a7513e45b56f6524f2d51f2+3", size := 3,
                          offset := 0, length := 3 }],
    repacked := 0, memsize := 0 }

/-- The directory `sub` of the example tree, which holds the file `g`. -/
def exSub : dirnode :=
  { fileinfo := { name := str "sub", mode := ModeDir ||| 0o755, size := 1 },
    inodes := [(str "g", .file exFileG)] }

/-- A tree with a directory `sub`, a file `sub/g` and a file `f`. -/
def exTree : dirnode :=
  { fileinfo := { name := [46], mode := ModeDir ||| 0o755, size := 2 },
    inodes := [(str "sub", .dir exSub), (str "f", .file exFileF)] }

/-! ## The remaining operations of the file system -/

/-- The method `fileSystem.OpenFile`. -/
def fileSystem.OpenFile (root : dirnode) (name : Str) (flag perm : Nat) :
    Except GoError (file × dirnode) :=
  dirnode.OpenFile root [] (pathClean name) flag perm

/-- The method `fileSystem.Create`. -/
def fileSystem.Create (root : dirnode) (name : Str) : Except GoError (file × dirnode) :=
  dirnode.OpenFile root [] (pathClean name) (O_CREATE ||| O_RDWR ||| O_TRUNC) 0

/-- The method `mkdir` of the directory at `loc`. -/
def dirnode.mkdir (root : dirnode) (loc : List Str) (name : Str) : Except GoError (file × dirnode) :=
  dirnode.OpenFile root loc name (O_CREATE ||| O_EXCL) (ModeDir ||| 0o755)

/-- The method `Mkdir` of the directory at `loc` (`Close` returns nil): the
error it returns and the tree after the call. -/
def dirnode.Mkdir (root : dirnode) (loc : List Str) (name : Str) (_perm : Nat) :
    Option GoError × dirnode :=
  match dirnode.mkdir root loc name with
  | .error e => (some e, root)
  | .ok (_, root) => (none, root)

/-- The method `Remove` of the directory at `loc`: the error it returns and
the tree after the call. -/
def dirnode.Remove (root : dirnode) (loc : List Str) (name : Str) : Option GoError × dirnode :=
  let (dirname, name) := pathSplit name
  if name = [] ∨ name = [46] ∨ name = [46, 46] then (some .ErrInvalidOperation, root)
  else
    match lookupPath root loc dirname with
    | .nil => (some .ErrNotExist, root)
    | .file _ => (some .ErrNotExist, root)
    | .dir dloc =>
      match getDir root dloc with
      | none => (some .ErrNotExist, root)
      | some dn =>
        match mapGet dn.inodes name with
        | none => (some .ErrNotExist, root)
        | some (.dir node) =>
          if node.inodes.length > 0 then (some .ErrDirectoryNotEmpty, root)
          else (none, updateDir (fun d => { d with inodes := mapDelete d.inodes name }) root dloc)
        | some (.file _) =>
          (none, updateDir (fun d => { d with inodes := mapDelete d.inodes name }) root dloc)

/-- The trees a new, empty file system reaches by calls of `OpenFile`,
`Create`, `Mkdir` and `Remove`. -/
inductive Reached : dirnode → Prop where
  | fresh : Reached emptyRoot
  | openFile {root : dirnode} (name : Str) (flag perm : Nat) {f : file} {root1 : dirnode} :
      Reached root → fileSystem.OpenFile root name flag perm = .ok (f, root1) → Reached root1
  | create {root : dirnode} (name : Str) {f : file} {root1 : dirnode} :
      Reached root → fileSystem.Create root name = .ok (f, root1) → Reached root1
  | mkdir {root : dirnode} (name : Str) (perm : Nat) :
      Reached root → Reached (dirnode.Mkdir root [] name perm).2
  | remove {root : dirnode} (name : Str) :
      Reached root → Reached (dirnode.Remove root [] name).2

/-- A file system whose only entry is the file `a`, the five bytes of the
block `a` (`exFile`). -/
def exHolder : dirnode :=
  { fileinfo := { name := [46], mode := ModeDir ||| 0o755, size := 1 },
    inodes := [(str "a", .file exFile)] }

/-- A directory with the files `b` and `a`, both without extents. -/
def exTwoEmpty : dirnode :=
  { fileinfo := { name := [46], mode := ModeDir ||| 0o755, size := 2 },
    inodes := [(str "b", .file (emptyFile (str "b"))), (str "a", .file (emptyFile (str "a")))] }

/-- An inode without what is below it: a file node as it is, a directory
without its children. -/
def inode.shallow : inode → inode
  | .file fn => .file fn
  | .dir dn => .dir { dn with inodes := [] }

/-- The inode at a path, without what is below it. -/
def shallowAt (root : dirnode) (q : List Str) : Option inode := (getNode root q).map inode.shallow

/-- The inode at a path below an inode. -/
def inode.nodeAt : inode → List Str → Option inode
  | n, [] => some n
  | .dir d, r => getNode d r
  | .file _, _ :: _ => none

/-- The names `Remove` refuses: the empty name, `.` and `..`. -/
def specialName (name : Str) : Prop := name = [] ∨ name = [46] ∨ name = [46, 46]

/-- The tree after `Mkdir("/d")` and `Create("/d/f")` on a new file system. -/
def exDirWithFile : dirnode :=
  { fileinfo := { name := [46], mode := ModeDir ||| 0o755, size := 1 },
    inodes := [(str "d", .dir { fileinfo := { name := str "d", mode := ModeDir ||| 0o755,
                                               size := 1 },
                                inodes := [(str "f", .file (emptyFile (str "f")))] })] }

/-! ## Handles -/

/-- The method `file.Write`; `node` is the inode the handle holds.  The
results `n` and `err`, with the handle, the inode and the store after the
call. -/
def file.Write {σ : Type} (mbs : Int) (kc : keepClient σ) (f : file)
    (node : Arvados.inode) (p : List Byte) (st : σ) :
    Except Fault (Int × Option GoError × file × Arvados.inode × σ) :=
  if f.writable = false then .ok (0, some .ErrReadOnlyFile, f, node, st)
  else
    match node with
    | .file fn => do
      let ptr : filenodePtr :=
        if f.append then
          { off := fn.fileinfo.size, extentIdx := fn.extents.length, extentOff := 0,
            repacked := fn.repacked }
        else f.ptr
      let (n, ptr, err, fn, st) ← fn.Write mbs kc p ptr st
      .ok (n, err, { f with ptr := ptr }, .file fn, st)
    | .dir dn => .ok (0, some .ErrInvalidOperation, f, .dir dn, st)

/-- A handle on the file `a` of `exHolder` as `OpenFile` with
`O_WRONLY|O_APPEND` returns it, after its pointer was moved to offset 1. -/
def exAppendHandle : file :=
  { bareFile [str "a"] false with ptr := exPtr, append := true, writable := true }

/-! ## Reading -/

/-- What a call `kc.ReadAt(locator, p, off)` of the blob client returns, as a
function of the locator, of `len(p)` and of `off`: the bytes read into `p` and
the error. -/
abbrev BlockReader := Str → Nat → Int → List Byte × Option GoError

/-- The method `memExtent.ReadAt(p, off)` for a buffer `p` of `k` bytes: the
bytes copied to `p` and the error. -/
def memExtent.ReadAt (me : memExtent) (k : Nat) (off : Int) :
    Except Fault (List Byte × Option GoError) :=
  if off > me.Len then .ok ([], some .EOF)
  else if off < 0 then .error .crash
  else
    let data := (me.buf.drop off.toNat).take k
    .ok (data, if data.length < k then some .EOF else none)

/-- The method `storedExtent.ReadAt(p, off)` for a buffer `p` of `k` bytes. -/
def storedExtent.ReadAt (readAt : BlockReader) (se : storedExtent) (k : Nat) (off : Int) :
    List Byte × Option GoError :=
  if off > se.length then ([], some .EOF)
  else
    let maxlen := se.length - off
    if (k : Int) > maxlen then
      let r := readAt se.locator maxlen.toNat (off + se.offset)
      (r.1, if r.2 = none then some .EOF else r.2)
    else readAt se.locator k (off + se.offset)

/-- The method `ReadAt` of an extent. -/
def extent.ReadAt (readAt : BlockReader) : extent → Nat → Int →
    Except Fault (List Byte × Option GoError)
  | .mem me, k, off => me.ReadAt k off
  | .stored se, k, off => .ok (se.ReadAt readAt k off)

/-- The method `filenode.Read(p, startPtr)` for a buffer `p` of `k` bytes: the
bytes read into `p` (`n` is their number), the pointer and the error. -/
def filenode.Read (readAt : BlockReader) (fn : filenode) (k : Nat) (startPtr : filenodePtr) :
    Except Fault (List Byte × filenodePtr × Option GoError) := do
  let ptr ← fn.seek startPtr
  if ptr.off < 0 then .ok ([], ptr, some .ErrNegativeOffset)
  else if ptr.extentIdx ≥ fn.extents.length then .ok ([], ptr, some .EOF)
  else
    let e ← index fn.extents ptr.extentIdx
    let (data, err) ← e.ReadAt readAt k ptr.extentOff
    if data.length > 0 then
      let ptr := { ptr with off := ptr.off + data.length,
                            extentOff := ptr.extentOff + data.length }
      if ptr.extentOff = e.Len then
        let ptr := { ptr with extentIdx := ptr.extentIdx + 1, extentOff := 0 }
        let err := if ptr.extentIdx < (fn.extents.length : Int) ∧ err = some .EOF then none else err
        .ok (data, ptr, err)
      else .ok (data, ptr, err)
    else .ok (data, ptr, err)

/-- The reads of the blob client succeed: a read that lies inside a block the
store holds returns the bytes asked for and a nil error. -/
def ReadsSucceed {σ : Type} (kc : keepClient σ) (st : σ) (readAt : BlockReader) : Prop :=
  ∀ loc b (k : Nat) (off : Int), kc.Get st loc = some b → 0 ≤ off → off + k ≤ b.length →
    readAt loc k off = ((b.drop off.toNat).take k, none)

/-- Every stored extent of the list is a window of a block the store holds. -/
def Windowed {σ : Type} (kc : keepClient σ) (st : σ) (es : List extent) : Prop :=
  ∀ se, extent.stored se ∈ es →
    ∃ b, kc.Get st se.locator = some b ∧ 0 ≤ se.offset ∧ se.offset + se.length ≤ b.length

/-- A blob client for examples whose `ReadAt` reads the block `Get` gives. -/
def keepClient.reader {σ : Type} (kc : keepClient σ) (st : σ) : BlockReader :=
  fun loc k off =>
    match kc.Get st loc with
    | none => ([], some .ErrNotExist)
    | some b =>
      if off < 0 then ([], some .ErrNegativeOffset)
      else
        let data := (b.drop off.toNat).take k
        (data, if data.length < k then some .EOF else none)

/-- A file of seven bytes in two extents: the block `world` of the store
`exStore`, then the two bytes `!!` in memory. -/
def exTwoExtents : filenode :=
  { fileinfo := { name := [97], mode := 0o755, size := 7 },
    extents := [.stored { locator := [97], size := 5, offset := 0, length := 5 },
                .mem { buf := [33, 33], spare := [] }],
    repacked := 0, memsize := 2 }

/-! ## Specification vocabulary for `sync` -/

/-- The extent at a position of a directory: the file node under the name,
the extent at the index. -/
def extentAt (dn : dirnode) (sb : shortBlock) : Option extent :=
  (fileOf dn sb.name).bind (fun fn => fn.extents[sb.idx]?)

/-- The order in which `sync` visits the positions: sorted file name, then
extent index. -/
def shortBlock.lt (a b : shortBlock) : Prop :=
  a.name < b.name ∨ (a.name = b.name ∧ a.idx < b.idx)

/-- The positions `sbs` are memory extents of the directory, and `bufs` are
their buffers. -/
def Bufs (dn : dirnode) (sbs : List shortBlock) (bufs : List (List Byte)) : Prop :=
  List.Forall₂ (fun sb buf => ∃ me, extentAt dn sb = some (.mem me) ∧ me.buf = buf) sbs bufs

/-- The batch `sbs` of memory extents of `dn` is laid out in one block under
the locator `loc`: the positions are in the order of `sync`, an upload of the
buffers one after the other has returned `loc`, the store holds that block
under `loc`, and in `dn1` the extent at the `j`-th position is the stored
extent for the window of the `j`-th buffer. -/
def Laid {σ : Type} (kc : keepClient σ) (st1 : σ) (dn dn1 : dirnode) (sbs : List shortBlock)
    (loc : Str) : Prop :=
  sbs.Pairwise shortBlock.lt ∧
  ∃ bufs, Bufs dn sbs bufs ∧ (∃ st2, (kc.PutB st2 bufs.flatten).2 = some loc) ∧
    kc.Get st1 loc = some bufs.flatten ∧
    ∀ j sb, sbs[j]? = some sb →
      extentAt dn1 sb = some (.stored
        { locator := loc, size := bufs.flatten.length, offset := ((bufs.take j).flatten.length : Int),
          length := ((bufs.getD j []).length : Int) })

/-- What `sync` keeps of a file node: the `fileinfo`, the generation, the
number of extents, and the difference between `memsize` and the bytes in
memory extents. -/
def FileRel (fn fn1 : filenode) : Prop :=
  fn1.fileinfo = fn.fileinfo ∧ fn1.repacked = fn.repacked ∧
  fn1.extents.length = fn.extents.length ∧
  fn1.memsize - memLen fn1.extents = fn.memsize - memLen fn.extents

/-- What `sync` keeps of a directory: its `fileinfo`, the names, the
sub-directories, and of each file node what `FileRel` says. -/
def DirRel (dn dn1 : dirnode) : Prop :=
  dn1.fileinfo = dn.fileinfo ∧ dn1.inodes.map Prod.fst = dn.inodes.map Prod.fst ∧
  ∀ name, (mapGet dn.inodes name = none → mapGet dn1.inodes name = none) ∧
    (∀ d, mapGet dn.inodes name = some (.dir d) → mapGet dn1.inodes name = some (.dir d)) ∧
    (∀ fn, mapGet dn.inodes name = some (.file fn) →
      ∃ fn1, mapGet dn1.inodes name = some (.file fn1) ∧ FileRel fn fn1)

/-- The directory `dn` with the extent at a position replaced and the
`memsize` of the file lowered: one round of the second loop of `flush`. -/
def setExtent (dn : dirnode) (sb : shortBlock) (e : extent) (len : Int) : dirnode :=
  match mapGet dn.inodes sb.name with
  | some (.file fn) =>
    { dn with inodes := mapPut dn.inodes sb.name (.file { fn with
        extents := fn.extents.set sb.idx e, memsize := fn.memsize - len }) }
  | _ => dn

/-- The batches `sync` has uploaded so far: the positions of each batch and
the locator of its block. -/
abbrev Batches := List (List shortBlock × Str)

/-- The position is in one of the batches. -/
def Inside (done : Batches) (sb : shortBlock) : Prop := ∃ B ∈ done, sb ∈ B.1

/-- What `sync` has done to the directory `dn0` and the store `st0` when it
has uploaded the batches `done` and the directory and the store are `dn1` and
`st1`: the store has grown, every batch is laid out in its block, and every
extent outside the batches is as it was. -/
structure SyncPost {σ : Type} (kc : keepClient σ) (dn0 : dirnode) (st0 : σ) (dn1 : dirnode)
    (st1 : σ) (done : Batches) : Prop where
  rel : DirRel dn0 dn1
  ext : kc.Extends st0 st1
  same : ∀ sb, ¬ Inside done sb → extentAt dn1 sb = extentAt dn0 sb
  laid : ∀ B ∈ done, Laid kc st1 dn0 dn1 B.1 B.2

/-- The upload of a batch of memory extents of `dn0` that is not among the
batches `done` failed and left the store `st1`. -/
def UploadFailed {σ : Type} (kc : keepClient σ) (dn0 : dirnode) (done : Batches) (st1 : σ) :
    Prop :=
  ∃ F st2 bufs, F ≠ [] ∧ F.Pairwise shortBlock.lt ∧ (∀ sb ∈ F, ¬ Inside done sb) ∧
    Bufs dn0 F bufs ∧ kc.PutB st2 bufs.flatten = (st1, none)

/-- Every upload succeeds. -/
def Succeeds {σ : Type} (kc : keepClient σ) : Prop := ∀ st b, (kc.PutB st b).2 ≠ none

/-- The invariant of the loops of `sync`, for the positions `V` visited so
far: besides `SyncPost`, the pending positions are in the order of `sync`,
they are visited memory extents of `dn0` outside the batches, and every
visited memory extent of `dn0` is pending or in a batch. -/
structure SyncInv {σ : Type} (kc : keepClient σ) (dn0 : dirnode) (st0 : σ)
    (V : shortBlock → Prop) (s : SyncState σ) (done : Batches) : Prop where
  post : SyncPost kc dn0 st0 s.dn s.st done
  sorted : s.pending.Pairwise shortBlock.lt
  pend : ∀ sb ∈ s.pending, V sb ∧ (∃ me, extentAt dn0 sb = some (.mem me)) ∧ ¬ Inside done sb
  cover : ∀ sb me, V sb → extentAt dn0 sb = some (.mem me) → sb ∈ s.pending ∨ Inside done sb

/-- What a loop of `sync` that returned `err` and left the state `s1`
guarantees, `V1` being the positions visited when it returns nil. -/
def SyncOutcome {σ : Type} (kc : keepClient σ) (dn0 : dirnode) (st0 : σ)
    (V1 : shortBlock → Prop) (err : Option GoError) (s1 : SyncState σ) : Prop :=
  ∃ done1, (err = none → SyncInv kc dn0 st0 V1 s1 done1) ∧
    (∀ e, err = some e → e = .upload ∧ SyncPost kc dn0 st0 s1.dn s1.st done1 ∧
      UploadFailed kc dn0 done1 s1.st) ∧
    (Succeeds kc → err = none)

/-- A file node with one memory extent of ten bytes `c`. -/
def exTenBytes (name : Str) (c : Nat) : filenode :=
  { fileinfo := { name := name, mode := 0o755, size := 10 },
    extents := [.mem { buf := List.replicate 10 c, spare := [] }],
    repacked := 1, memsize := 10 }

/-- A directory with three files, each with one memory extent of ten bytes. -/
def exThreeFiles : dirnode :=
  { fileinfo := { name := [46], mode := ModeDir ||| 0o755, size := 3 },
    inodes := [(str "b", .file (exTenBytes (str "b") 98)),
               (str "c", .file (exTenBytes (str "c") 99)),
               (str "a", .file (exTenBytes (str "a") 97))] }

/-- A blob client for examples whose first upload succeeds, under the locator
`a`, and whose later uploads fail. -/
def onceKeep : keepClient (List (List Byte)) where
  PutB := fun st b => if st = [] then ([b], some [97]) else (st, none)
  Get := fun st loc => if loc = [97] then st.head? else none

/-- A file node with one memory extent of three bytes `c`. -/
def exThreeBytes (name : Str) (c : Nat) : filenode :=
  { fileinfo := { name := name, mode := 0o755, size := 3 },
    extents := [.mem { buf := List.replicate 3 c, spare := [] }],
    repacked := 1, memsize := 3 }

/-- A directory with two files, each with one memory extent of three bytes. -/
def exTwoFiles : dirnode :=
  { fileinfo := { name := [46], mode := ModeDir ||| 0o755, size := 2 },
    inodes := [(str "a", .file (exThreeBytes (str "a") 97)),
               (str "b", .file (exThreeBytes (str "b") 98))] }

/-- The manifest of one empty file `f`: the locator of the empty block and
the segment `0:0:f`. -/
def exEmptyFile : Str := str ". d41d8cd98f00b204e9800998ecf8427e+0 0:0:f\n"

/-- A blob client for examples whose `ReadAt` fills the buffer with the byte
`x` and returns a nil error. -/
def exReader : BlockReader := fun _ k _ => (List.replicate k 120, none)

/-- What an operation keeps of a file node, for the pointers of the handles:
the generation and the length of each extent. -/
def SameLens (fn fn1 : filenode) : Prop :=
  fn1.repacked = fn.repacked ∧ fn1.extents.map extent.Len = fn.extents.map extent.Len

/-- What an operation does to a file node, for the pointers of the handles:
the generation has grown, or it is what it was, every extent has the length
it had, and further extents may follow them. -/
def Kept (fn fn1 : filenode) : Prop :=
  fn.repacked < fn1.repacked ∨
  (fn1.repacked = fn.repacked ∧ ∃ extra : List Int,
    fn1.extents.map extent.Len = fn.extents.map extent.Len ++ extra ∧ ∀ x ∈ extra, 0 ≤ x)

/-- Every file node of the directory is in the other directory, under the same
name, with the generation and the extent lengths it had. -/
def DirLens (dn dn1 : dirnode) : Prop :=
  ∀ name fn, fileOf dn name = some fn → ∃ fn1, fileOf dn1 name = some fn1 ∧ SameLens fn fn1

/-- The file node `fn1` is what later operations have made of the file node
`fn`: calls, that returned, of `Write` with any pointer, of `Truncate`, of
`pruneMemExtents`, and of `sync` on a directory that holds the node, each in
any store. -/
inductive Later {σ : Type} (mbs : Int) (kc : keepClient σ) : filenode → filenode → Prop where
  | same (fn : filenode) : Later mbs kc fn fn
  | write {fn fn1 fn2 : filenode} (p : List Byte) (q : filenodePtr) (st : σ) {n : Int}
      {q1 : filenodePtr} {err : Option GoError} {st1 : σ} :
      Later mbs kc fn fn1 → filenode.Write mbs kc fn1 p q st = .ok (n, q1, err, fn2, st1) →
      Later mbs kc fn fn2
  | truncate {fn fn1 fn2 : filenode} (size : Int) :
      Later mbs kc fn fn1 → filenode.Truncate mbs fn1 size = .ok fn2 → Later mbs kc fn fn2
  | prune {fn fn1 : filenode} (st : σ) :
      Later mbs kc fn fn1 → Later mbs kc fn (fn1.pruneMemExtents mbs kc st).1
  | sync {fn fn1 fn2 : filenode} (dn : dirnode) (name : Str) (st : σ) {err : Option GoError}
      {dn1 : dirnode} {st1 : σ} :
      Later mbs kc fn fn1 → fileOf dn name = some fn1 →
      dn.sync mbs kc st = .ok (err, dn1, st1) → fileOf dn1 name = some fn2 →
      Later mbs kc fn fn2

/-- A pointer into the second extent of `exTwoExtents`, at byte offset 6. -/
def exPtrInside : filenodePtr := { off := 6, extentIdx := 1, extentOff := 1, repacked := 0 }

/-- The file `exTwoExtents` after `?` is written at offset 5. -/
def exRewritten : filenode :=
  { fileinfo := { name := [97], mode := 0o755, size := 7 },
    extents := [.stored { locator := [97], size := 5, offset := 0, length := 5 },
                .mem { buf := [63, 33], spare := [] }],
    repacked := 0, memsize := 2 }

/-- A directory that holds the file `exRewritten` under the name `a`. -/
def exRewrittenDir : dirnode :=
  { fileinfo := { name := [46], mode := ModeDir ||| 0o755, size := 1 },
    inodes := [([97], .file exRewritten)] }

/-- The file `exRewritten` after `sync`: the two bytes in memory are the
block `aa` of the store. -/
def exRewrittenSynced : filenode :=
  { fileinfo := { name := [97], mode := 0o755, size := 7 },
    extents := [.stored { locator := [97], size := 5, offset := 0, length := 5 },
                .stored { locator := [97, 97], size := 2, offset := 0, length := 2 }],
    repacked := 0, memsize := 0 }

/-- The extent without the locator of its block. -/
def extent.bare : extent → extent
  | .mem me => .mem me
  | .stored se => .stored { se with locator := [] }

/-- The file node with its extents without their locators. -/
def filenode.bare (fn : filenode) : filenode :=
  { fn with extents := fn.extents.map extent.bare }

/-- The plan with its file node without the locators. -/
def WritePlan.bare (plan : WritePlan) : WritePlan := { plan with fn := plan.fn.bare }

/-- The blob client whose uploads succeed when those of `kc` do, on a store
that also keeps every block uploaded, the locator of a block being the block
itself. -/
def keepClient.keeping {σ : Type} (kc : keepClient σ) : keepClient (σ × List (List Byte)) where
  PutB := fun s b =>
    match (kc.PutB s.1 b).2 with
    | none => (((kc.PutB s.1 b).1, s.2), none)
    | some _ => (((kc.PutB s.1 b).1, b :: s.2), some b)
  Get := fun s loc => if loc ∈ s.2 then some loc else none

/-- The locators of the stored extents of a list. -/
def locators : List extent → List Str
  | [] => []
  | .mem _ :: es => locators es
  | .stored se :: es => se.locator :: locators es

/-! ## Vocabulary for the round trip of a tree with memory extents -/

/-- The blob client has refused a block of `marshalManifest` on the tree `D`:
the buffers, one after the other, of memory extents of one directory of the
tree, at positions that follow each other in the order of `sync`. -/
def Refused {σ : Type} (kc : keepClient σ) (D : dirnode) : Prop :=
  ∃ q dn F st bufs, getDir D q = some dn ∧ F ≠ [] ∧ F.Pairwise shortBlock.lt ∧
    Bufs dn F bufs ∧ (kc.PutB st bufs.flatten).2 = none

/-- The error `e` is the error of an upload, of a block of the tree `D` the
blob client has refused. -/
def UploadError {σ : Type} (kc : keepClient σ) (D : dirnode) (e : GoError) : Prop :=
  e = GoError.upload ∧ Refused kc D

/-- Every locator the blob client returns is one `loadManifest` accepts and
states the size of the uploaded block: `hash+size`.  (No locator
`loadManifest` accepts states a size of `2^31` bytes or more, so such a client
refuses the blocks of that size.) -/
def StatesSize {σ : Type} (kc : keepClient σ) : Prop :=
  ∀ st b loc, (kc.PutB st b).2 = some loc → GoodLocator loc ∧ locatorSize loc = (b.length : Int)

/-- A bound of the size of the block an extent is in once `sync` has run: the
size the extent records, or `2^31` for a memory extent. -/
def extent.blockBound : extent → Int
  | .stored se => se.size
  | .mem _ => 2 ^ 31

/-- The sum of the bounds of the block sizes of the extents of a list of
files. -/
def fairBound (files : List (Str × filenode)) : Int :=
  (files.map (fun f => (f.2.extents.map extent.blockBound).sum)).sum

/-- A file node as the entry `name` of a directory: it has that name and the
mode `OpenFile` gives, and each of its stored extents has a locator
`loadManifest` accepts, the size that locator states and a window inside the
block.  Its memory extents are arbitrary. -/
def FairFile (name : Str) (fn : filenode) : Prop :=
  fn.fileinfo.name = name ∧ fn.fileinfo.mode = 0o755 ∧
  ∀ se, extent.stored se ∈ fn.extents → GoodLocator se.locator ∧ se.WindowOk locatorSize

/-- A directory whose files may hold memory extents: good names, fair files,
sub-directories with their name, the mode `OpenFile` gives and a file
somewhere below, and block sizes that sum to less than `2^63`, a memory
extent counting for `2^31`. -/
def FairDir (dn : dirnode) : Prop :=
  (∀ name n, mapGet dn.inodes name = some n → GoodName name) ∧
  (∀ name fn, mapGet dn.inodes name = some (.file fn) → FairFile name fn) ∧
  (∀ name c, mapGet dn.inodes name = some (.dir c) →
    c.fileinfo.name = name ∧ c.fileinfo.mode = ModeDir ||| 0o755 ∧ HasFile c) ∧
  fairBound (filesOf dn (sortedNames dn.inodes)) < 2 ^ 63

/-- Every directory of the tree is fair. -/
def FairSub (dn : dirnode) : Prop := ∀ q d, getDir dn q = some d → FairDir d

/-- A tree of a filesystem whose files may hold memory extents: the root has
the name and the mode of the root of a filesystem, and every directory is
fair. -/
def FairTree (T : dirnode) : Prop :=
  T.fileinfo.name = [46] ∧ T.fileinfo.mode = ModeDir ||| 0o755 ∧ FairSub T

/-- No file of the tree holds a memory extent. -/
def NoMemory (T : dirnode) : Prop :=
  ∀ q fn, getNode T q = some (.file fn) → ∀ e ∈ fn.extents, ∃ se, e = extent.stored se

/-- Two inodes, or absences of an inode, that are the same as (name, mode,
bytes) for the blob client `kc` and every store that holds the blocks of the
store `st1`: both absent, or two directories of the same name and mode, or
two files of the same name and mode that hold the same bytes. -/
def SameBytes {σ : Type} (kc : keepClient σ) (st1 : σ) : Option inode → Option inode → Prop
  | none, none => True
  | some (.file f), some (.file g) =>
    f.fileinfo.name = g.fileinfo.name ∧ f.fileinfo.mode = g.fileinfo.mode ∧
    ∀ st2, kc.Extends st1 st2 → f.content kc st2 = g.content kc st2
  | some (.dir d), some (.dir e) =>
    d.fileinfo.name = e.fileinfo.name ∧ d.fileinfo.mode = e.fileinfo.mode
  | _, _ => False

/-- A blob client for examples that takes one block only, the three bytes
`foo`, under the locator a Keep store gives it; the state tells whether the
block has been put. -/
def fooKeep : keepClient Bool where
  PutB := fun st b =>
    if b = [102, 111, 111] then (true, some (str "acbd18db4cc2f85cedef654fccc4a4d8+3"))
    else (st, none)
  Get := fun st loc =>
    if st = true ∧ loc = str "acbd18db4cc2f85cedef654fccc4a4d8+3" then some [102, 111, 111]
    else none

/-- A file `g` whose three bytes `foo` are in a memory extent, as `Write`
leaves them. -/
def exMemFile : filenode :=
  { fileinfo := { name := str "g", mode := 0o755, size := 3 },
    extents := [.mem { buf := [102, 111, 111], spare := [] }],
    repacked := 1, memsize := 3 }

/-- A directory `sub` that holds the file `g` with its memory extent. -/
def exUnsyncedSub : dirnode :=
  { fileinfo := { name := str "sub", mode := ModeDir ||| 0o755, size := 1 },
    inodes := [(str "g", .file exMemFile)] }

/-- A tree with a file `f` made of a stored extent and a file `sub/g` whose
bytes are in a memory extent. -/
def exUnsynced : dirnode :=
  { fileinfo := { name := [46], mode := ModeDir ||| 0o755, size := 2 },
    inodes := [(str "sub", .dir exUnsyncedSub), (str "f", .file exFileF)] }

/-- A blob client that returns the locator of the block `foo` for every
upload and keeps nothing. -/
def forgetKeep : keepClient Unit where
  PutB := fun st _ => (st, some (str "acbd18db4cc2f85cedef654fccc4a4d8+3"))
  Get := fun _ _ => none

/-- The tree `D1` holds, at every path, what the tree `D` holds there, as
(name, mode, bytes) in the stores that hold the blocks of `st1`. -/
def TreeSynced {σ : Type} (kc : keepClient σ) (st1 : σ) (D D1 : dirnode) : Prop :=
  ∀ q, SameBytes kc st1 (getNode D q) (getNode D1 q)

/-- The invariant of the loop over the names in `marshalManifest`, for the
directory `D1` that `sync` has left and the names `done` handled so far: the
directory of the loop has the `fileinfo`, the names and the files of `D1`,
and each sub-directory of `D1` is as it was, or, once handled, holds the same
names, modes and bytes and is a directory a manifest can describe. -/
structure MarshalInv {σ : Type} (kc : keepClient σ) (D1 : dirnode) (done : List Str)
    (s : MarshalState σ) : Prop where
  info : s.dn.fileinfo = D1.fileinfo
  keys : s.dn.inodes.map Prod.fst = D1.inodes.map Prod.fst
  files : ∀ n fn, mapGet D1.inodes n = some (.file fn) → mapGet s.dn.inodes n = some (.file fn)
  dirs : ∀ n c, mapGet D1.inodes n = some (.dir c) →
    ∃ c1, mapGet s.dn.inodes n = some (.dir c1) ∧ (n ∉ done → c1 = c) ∧
      (n ∈ done → TreeSynced kc s.st c c1 ∧ GoodSub c1)

/-- What `marshalManifest` does with the fuel `fuel` to a tree whose files
may hold memory extents: it returns without a panic, the store has grown, an
error is the error of an upload, and when it returns a text, the tree it
leaves holds the same names, modes and bytes, is a tree a manifest can
describe, and is marshalled again as the same text, unchanged, whatever the
store. -/
def FirstRun {σ : Type} (mbs : Int) (kc : keepClient σ) (fuel : Nat) : Prop :=
  ∀ (D : dirnode) (pfx : Str) (st : σ), FairSub D → inode.depth (.dir D) ≤ fuel →
    ∃ res D1 st1, marshalManifestFuel mbs kc fuel D pfx st = .ok (res, D1, st1) ∧
      kc.Extends st st1 ∧ (∀ e, res = .error e → UploadError kc D e) ∧
      ∀ text, res = .ok text →
        TreeSynced kc st1 D D1 ∧ GoodSub D1 ∧
        ∀ st2, marshalManifestFuel mbs kc fuel D1 pfx st2 = .ok (.ok text, D1, st2)

/-- The entry `n` of the directory `D1` is what `marshalManifest` makes of the
entry `n` of the directory `D`: no entry for no entry; for a file, a good
file that holds the same bytes in blocks no larger than the bounds; for a
directory, a directory a manifest can describe that holds the same names,
modes and bytes. -/
def EntrySynced {σ : Type} (kc : keepClient σ) (st1 : σ) (D D1 : dirnode) (n : Str) : Prop :=
  (mapGet D.inodes n = none ∧ mapGet D1.inodes n = none) ∨
  (∃ fn fn1, mapGet D.inodes n = some (.file fn) ∧ mapGet D1.inodes n = some (.file fn1) ∧
    GoodFile n fn1 ∧
    (fn1.extents.map extent.blockSize).sum ≤ (fn.extents.map extent.blockBound).sum ∧
    ∀ st2, kc.Extends st1 st2 → fn1.content kc st2 = fn.content kc st2) ∨
  (∃ c c1, mapGet D.inodes n = some (.dir c) ∧ mapGet D1.inodes n = some (.dir c1) ∧
    TreeSynced kc st1 c c1 ∧ GoodSub c1)

/-! # Theorems -/

/-! ## Lists, indexing and slices -/

theorem index_ok {α : Type} {xs : List α} {i : Int} {x : α} (h0 : 0 ≤ i)
    (h : xs[i.toNat]? = some x) : index xs i = .ok x := by
  unfold index
  rw [if_neg (by omega), h]

theorem index_mid {α : Type} (pre post : List α) (e : α) (i : Int) (hi : i = pre.length) :
    index (pre ++ e :: post) i = .ok e := by
  apply index_ok (by omega)
  subst hi
  rw [Int.toNat_ofNat, List.getElem?_append_right (le_refl _)]
  simp

theorem sliceTo_ok {α : Type} (xs : List α) (n : Int) (h0 : 0 ≤ n) (h1 : n ≤ xs.length) :
    sliceTo xs n = .ok (xs.take n.toNat) := by
  unfold sliceTo
  rw [if_neg (by omega)]

theorem sliceFrom_ok {α : Type} (xs : List α) (n : Int) (h0 : 0 ≤ n) (h1 : n ≤ xs.length) :
    sliceFrom xs n = .ok (xs.drop n.toNat) := by
  unfold sliceFrom
  rw [if_neg (by omega)]

theorem sumLen_append (a b : List extent) : sumLen (a ++ b) = sumLen a + sumLen b := by
  induction a with
  | nil => simp [sumLen]
  | cons e es ih => simp [sumLen, ih]; omega

theorem memLen_append (a b : List extent) : memLen (a ++ b) = memLen a + memLen b := by
  induction a with
  | nil => simp [memLen]
  | cons e es ih => cases e <;> simp [memLen, ih]; omega

theorem extentsBytes_append {σ : Type} (kc : keepClient σ) (st : σ) (a b : List extent) :
    extentsBytes kc st (a ++ b) = extentsBytes kc st a ++ extentsBytes kc st b := by
  induction a with
  | nil => simp [extentsBytes]
  | cons e es ih => simp [extentsBytes, ih]

theorem bytes_length {σ : Type} (kc : keepClient σ) (st : σ) (e : extent) :
    (e.bytes kc st).length = e.Len.toNat := by
  cases e <;> simp [extent.bytes, extent.Len, memExtent.Len, storedExtent.Len]

theorem extentsBytes_length {σ : Type} (kc : keepClient σ) (st : σ) (es : List extent)
    (h : ∀ e ∈ es, 0 ≤ e.Len) : ((extentsBytes kc st es).length : Int) = sumLen es := by
  induction es with
  | nil => simp [extentsBytes, sumLen]
  | cons e es ih =>
    have h1 := h e (by simp)
    have h2 := ih (fun x hx => h x (by simp [hx]))
    simp only [extentsBytes, List.length_append, sumLen, bytes_length]
    omega

theorem sumLen_nonneg (es : List extent) (h : ∀ e ∈ es, 0 ≤ e.Len) : 0 ≤ sumLen es := by
  induction es with
  | nil => simp [sumLen]
  | cons e es ih =>
    have h1 := h e (by simp)
    have h2 := ih (fun x hx => h x (by simp [hx]))
    simp only [sumLen]; omega

/-! ## The store -/

theorem Extends_refl {σ : Type} (kc : keepClient σ) (st : σ) : kc.Extends st st :=
  fun _ _ h => h

theorem Extends_trans {σ : Type} {kc : keepClient σ} {a b c : σ} (h1 : kc.Extends a b)
    (h2 : kc.Extends b c) : kc.Extends a c :=
  fun loc x h => h2 loc x (h1 loc x h)

theorem blockByte_extends {σ : Type} {kc : keepClient σ} {st st1 : σ} (hx : kc.Extends st st1)
    (loc : Str) (b : List Byte) (hb : kc.Get st loc = some b) (i : Int) :
    blockByte kc st1 loc i = blockByte kc st loc i := by
  simp [blockByte, hb, hx loc b hb]

theorem bytes_extends {σ : Type} {kc : keepClient σ} {st st1 : σ} (hx : kc.Extends st st1)
    (e : extent) (hp : Present kc st [e]) : e.bytes kc st1 = e.bytes kc st := by
  cases e with
  | mem me => rfl
  | stored se =>
    obtain ⟨b, hb⟩ := hp se (by simp)
    simp only [extent.bytes]
    apply List.map_congr_left
    intro j _
    exact blockByte_extends hx _ b hb _

theorem Present_append {σ : Type} (kc : keepClient σ) (st : σ) (a b : List extent) :
    Present kc st (a ++ b) ↔ Present kc st a ∧ Present kc st b := by
  constructor
  · intro h
    exact ⟨fun se hs => h se (by simp [hs]), fun se hs => h se (by simp [hs])⟩
  · rintro ⟨h1, h2⟩ se hs
    rcases List.mem_append.1 hs with h | h
    · exact h1 se h
    · exact h2 se h

theorem Present_cons {σ : Type} (kc : keepClient σ) (st : σ) (e : extent) (b : List extent) :
    Present kc st (e :: b) ↔ Present kc st [e] ∧ Present kc st b :=
  Present_append kc st [e] b

theorem Present_mem {σ : Type} (kc : keepClient σ) (st : σ) (me : memExtent) :
    Present kc st [.mem me] := by
  intro se hs
  simp at hs

theorem Present_nil {σ : Type} (kc : keepClient σ) (st : σ) : Present kc st [] := by
  intro se hs
  simp at hs

theorem Present_extends {σ : Type} {kc : keepClient σ} {st st1 : σ} (hx : kc.Extends st st1)
    {es : List extent} (hp : Present kc st es) : Present kc st1 es := by
  intro se hs
  obtain ⟨b, hb⟩ := hp se hs
  exact ⟨b, hx _ _ hb⟩

theorem extentsBytes_extends {σ : Type} {kc : keepClient σ} {st st1 : σ}
    (hx : kc.Extends st st1) (es : List extent) (hp : Present kc st es) :
    extentsBytes kc st1 es = extentsBytes kc st es := by
  induction es with
  | nil => rfl
  | cons e es ih =>
    rw [Present_cons] at hp
    simp [extentsBytes, ih hp.2, bytes_extends hx e hp.1]

/-! ## Slices of stored extents -/

theorem stored_bytes_drop {σ : Type} (kc : keepClient σ) (st : σ) (se : storedExtent) (n : Int)
    (h0 : 0 ≤ n) (h1 : n ≤ se.length) :
    (extent.stored (se.Slice n (-1))).bytes kc st = ((extent.stored se).bytes kc st).drop n.toNat := by
  simp only [extent.bytes, storedExtent.Slice]
  apply List.ext_getElem
  · simp; omega
  · intro i h2 h3
    simp at h2 h3 ⊢
    congr 1
    omega

theorem stored_bytes_take {σ : Type} (kc : keepClient σ) (st : σ) (se : storedExtent) (k : Int)
    (h0 : 0 ≤ k) :
    (extent.stored (se.Slice 0 k)).bytes kc st = ((extent.stored se).bytes kc st).take k.toNat := by
  simp only [extent.bytes, storedExtent.Slice]
  apply List.ext_getElem
  · simp; split <;> omega
  · intro i h2 h3
    simp at h2 h3 ⊢

theorem stored_Slice_from_Len (se : storedExtent) (n : Int) : (se.Slice n (-1)).Len = se.Len - n := by
  simp [storedExtent.Slice, storedExtent.Len]

theorem stored_Slice_to_Len (se : storedExtent) (k : Int) (h0 : 0 ≤ k) (h1 : k ≤ se.length) :
    (se.Slice 0 k).Len = k := by
  simp only [storedExtent.Slice, storedExtent.Len]
  split <;> omega

theorem stored_bytes_whole {σ : Type} (kc : keepClient σ) (st : σ) (loc : Str) (b : List Byte)
    (hb : kc.Get st loc = some b) (sz : Int) :
    (extent.stored { locator := loc, size := sz, offset := 0, length := (b.length : Int) }).bytes kc st
      = b.map some := by
  simp only [extent.bytes]
  apply List.ext_getElem
  · simp
  · intro i h2 h3
    simp at h2 h3 ⊢
    simp [blockByte, hb, h2]

/-! ## Memory extents -/

theorem Truncate_spec (me : memExtent) (n : Int) (h0 : 0 ≤ n) :
    ∃ r, me.Truncate n = .ok r ∧ r.Len = n ∧
      r.buf.take me.buf.length = me.buf.take n.toNat ∧
      ((∀ b ∈ me.spare, b = 0) →
        (∀ b ∈ r.spare, b = 0) ∧
        r.buf = me.buf.take n.toNat ++ List.replicate (n.toNat - me.buf.length) 0) := by
  unfold memExtent.Truncate
  by_cases h1 : n > me.cap
  · rw [if_pos h1]
    refine ⟨_, rfl, ?_, ?_, ?_⟩
    · simp only [memExtent.Len, memExtent.cap] at *
      simp; omega
    · simp only [memExtent.cap] at h1
      have ht : me.buf.take n.toNat = me.buf := List.take_of_length_le (by omega)
      rw [ht]
      simp
    · intro _
      simp only [memExtent.cap] at h1
      refine ⟨fun b hb => (List.mem_replicate.1 hb).2, ?_⟩
      have ht : me.buf.take n.toNat = me.buf := List.take_of_length_le (by omega)
      rw [ht]
  · rw [if_neg h1, if_neg (by omega)]
    by_cases h2 : n ≤ me.Len
    · rw [if_pos h2]
      simp only [memExtent.Len] at h2
      refine ⟨_, rfl, ?_, ?_, ?_⟩
      · simp [memExtent.Len]; omega
      · simp [List.take_take]; omega
      · intro hz
        refine ⟨?_, ?_⟩
        · intro b hb
          rcases List.mem_append.1 hb with h | h
          · exact (List.mem_replicate.1 h).2
          · exact hz b h
        · have : n.toNat - me.buf.length = 0 := by omega
          simp [this]
    · rw [if_neg h2]
      simp only [memExtent.Len, memExtent.cap] at h1 h2
      refine ⟨_, rfl, ?_, ?_, ?_⟩
      · simp [memExtent.Len]; omega
      · have ht : me.buf.take n.toNat = me.buf := List.take_of_length_le (by omega)
        rw [ht]
        simp
      · intro hz
        refine ⟨fun b hb => hz b (List.mem_of_mem_drop hb), ?_⟩
        have ht : me.buf.take n.toNat = me.buf := List.take_of_length_le (by omega)
        rw [ht]
        show me.buf ++ _ = me.buf ++ _
        congr 1
        apply List.eq_replicate_iff.2
        refine ⟨?_, fun b hb => hz b (List.mem_of_mem_take hb)⟩
        simp; omega

theorem newMemExtent_spec (n : Int) (h0 : 0 ≤ n) :
    ∃ r, newMemExtent n = .ok r ∧ r.Len = n ∧ (∀ b ∈ r.spare, b = 0) := by
  obtain ⟨r, h1, h2, _, h4⟩ := Truncate_spec { buf := [], spare := [] } n h0
  exact ⟨r, h1, h2, (h4 (by simp)).1⟩

theorem WriteAt_spec (me : memExtent) (p : List Byte) (off : Int) (h0 : 0 ≤ off)
    (h1 : off + p.length ≤ me.Len) :
    me.WriteAt p off =
      .ok { buf := me.buf.take off.toNat ++ p ++ me.buf.drop (off.toNat + p.length),
            spare := me.spare } := by
  unfold memExtent.WriteAt
  rw [if_neg (by omega), if_neg (by omega)]

/-! ## Pruning -/

theorem pruneExtents_append {σ : Type} (mbs : Int) (kc : keepClient σ) (a b : List extent) :
    ∀ (st : σ) (ms : Int), pruneExtents mbs kc (a ++ b) st ms =
      ((pruneExtents mbs kc a st ms).1 ++
        (pruneExtents mbs kc b (pruneExtents mbs kc a st ms).2.1 (pruneExtents mbs kc a st ms).2.2).1,
       (pruneExtents mbs kc b (pruneExtents mbs kc a st ms).2.1 (pruneExtents mbs kc a st ms).2.2).2) := by
  induction a with
  | nil => intro st ms; simp [pruneExtents]
  | cons e es ih =>
    intro st ms
    cases e with
    | stored se => simp [pruneExtents, ih]
    | mem me =>
      simp only [List.cons_append, pruneExtents]
      split
      · simp [ih]
      · split <;> simp [ih]

/-- What pruning does to one extent list. -/
theorem pruneExtents_spec {σ : Type} (mbs : Int) (kc : keepClient σ) (hkc : kc.Lawful)
    (es : List extent) : ∀ (st : σ) (ms : Int),
    kc.Extends st (pruneExtents mbs kc es st ms).2.1 ∧
    (pruneExtents mbs kc es st ms).1.length = es.length ∧
    sumLen (pruneExtents mbs kc es st ms).1 = sumLen es ∧
    (pruneExtents mbs kc es st ms).2.2 - memLen (pruneExtents mbs kc es st ms).1 = ms - memLen es ∧
    (∀ e ∈ (pruneExtents mbs kc es st ms).1, e ∈ es ∨
      ∃ me loc, extent.mem me ∈ es ∧
        e = .stored { locator := loc, size := me.Len, offset := 0, length := me.Len } ∧
        kc.Get (pruneExtents mbs kc es st ms).2.1 loc = some me.buf) ∧
    (Present kc st es → ∀ st2, kc.Extends (pruneExtents mbs kc es st ms).2.1 st2 →
      extentsBytes kc st2 (pruneExtents mbs kc es st ms).1 = extentsBytes kc st es) := by
  induction es with
  | nil =>
    intro st ms
    simp [pruneExtents, Extends_refl, extentsBytes]
  | cons e es ih =>
    intro st ms
    cases e with
    | stored se =>
      obtain ⟨h1, h2, h3, h4, h5, h6⟩ := ih st ms
      simp only [pruneExtents]
      refine ⟨h1, by simp [h2], by simp [sumLen, h3], by simpa [memLen] using h4, ?_, ?_⟩
      · intro e he
        rcases List.mem_cons.1 he with h | h
        · left; simp [h]
        · rcases h5 e h with h | ⟨me, loc, hm, he, hg⟩
          · left; simp [h]
          · right; exact ⟨me, loc, by simp [hm], he, hg⟩
      · intro hp st2 hx
        rw [Present_cons] at hp
        simp only [extentsBytes]
        rw [h6 hp.2 st2 hx, bytes_extends (Extends_trans h1 hx) _ hp.1]
    | mem me =>
      simp only [pruneExtents]
      split
      · obtain ⟨h1, h2, h3, h4, h5, h6⟩ := ih st ms
        refine ⟨h1, by simp [h2], by simp [sumLen, h3], ?_, ?_, ?_⟩
        · simp only [memLen]; omega
        · intro e he
          rcases List.mem_cons.1 he with h | h
          · left; simp [h]
          · rcases h5 e h with h | ⟨me, loc, hm, he, hg⟩
            · left; simp [h]
            · right; exact ⟨me, loc, by simp [hm], he, hg⟩
        · intro hp st2 hx
          rw [Present_cons] at hp
          simp only [extentsBytes]
          rw [h6 hp.2 st2 hx]
          rfl
      · have hk := hkc.keeps st me.buf
        have hr := hkc.returns st me.buf
        split
        · rename_i st1 heq
          rw [heq] at hk
          obtain ⟨h1, h2, h3, h4, h5, h6⟩ := ih st1 ms
          refine ⟨Extends_trans hk h1, by simp [h2], by simp [sumLen, h3], ?_, ?_, ?_⟩
          · simp only [memLen]; omega
          · intro e he
            rcases List.mem_cons.1 he with h | h
            · left; simp [h]
            · rcases h5 e h with h | ⟨me, loc, hm, he, hg⟩
              · left; simp [h]
              · right; exact ⟨me, loc, by simp [hm], he, hg⟩
          · intro hp st2 hx
            rw [Present_cons] at hp
            simp only [extentsBytes]
            rw [h6 (Present_extends hk hp.2) st2 hx, extentsBytes_extends hk _ hp.2]
            rfl
        · rename_i st1 loc heq
          rw [heq] at hk hr
          have hg := hr loc rfl
          obtain ⟨h1, h2, h3, h4, h5, h6⟩ := ih st1 (ms - me.Len)
          refine ⟨Extends_trans hk h1, by simp [h2], ?_, ?_, ?_, ?_⟩
          · simp [sumLen, h3, extent.Len, storedExtent.Len]
          · simp only [memLen]; omega
          · intro e he
            rcases List.mem_cons.1 he with h | h
            · right; exact ⟨me, loc, by simp, h, h1 _ _ hg⟩
            · rcases h5 e h with h | ⟨me, loc, hm, he, hg⟩
              · left; simp [h]
              · right; exact ⟨me, loc, by simp [hm], he, hg⟩
          · intro hp st2 hx
            rw [Present_cons] at hp
            simp only [extentsBytes]
            rw [h6 (Present_extends hk hp.2) st2 hx, extentsBytes_extends hk _ hp.2]
            congr 1
            have := stored_bytes_whole kc st2 loc me.buf (hx _ _ (h1 _ _ hg)) me.Len
            simpa [memExtent.Len, extent.bytes] using this

/-! ## Seeking -/

theorem drop_of_getElem? {α : Type} {xs : List α} {i : Nat} {e : α} (h : xs[i]? = some e) :
    xs.drop i = e :: xs.drop (i + 1) := by
  obtain ⟨hlt, rfl⟩ := List.getElem?_eq_some_iff.1 h
  exact List.drop_eq_getElem_cons hlt

theorem seekScan_spec (target : Int) : ∀ (es : List extent) (idx off0 : Int),
    (∀ e ∈ es, 0 < e.Len) → off0 ≤ target → target < off0 + sumLen es →
    ∃ (k : Nat) (e : extent),
      seekScan target es idx off0 = .ok (idx + k, target - (off0 + sumLen (es.take k))) ∧
      es[k]? = some e ∧ 0 ≤ target - (off0 + sumLen (es.take k)) ∧
      target - (off0 + sumLen (es.take k)) < e.Len := by
  intro es
  induction es with
  | nil =>
    intro idx off0 _ h1 h2
    simp [sumLen] at h2
    omega
  | cons e rest ih =>
    intro idx off0 hpos h1 h2
    have he := hpos e (by simp)
    rw [seekScan]
    by_cases h3 : off0 < target
    · rw [if_pos h3]
      by_cases h4 : off0 + e.Len > target
      · rw [if_pos h4]
        exact ⟨0, e, by simp [sumLen], by simp, by simp [sumLen]; omega, by simp [sumLen]; omega⟩
      · rw [if_neg h4]
        simp only [sumLen] at h2
        obtain ⟨k, e2, h5, h6, h7, h8⟩ := ih (idx + 1) (off0 + e.Len)
          (fun x hx => hpos x (by simp [hx])) (by omega) (by omega)
        refine ⟨k + 1, e2, ?_, by simpa using h6, ?_, ?_⟩
        · rw [h5]
          simp only [List.take_succ_cons, sumLen]
          congr 2
          · push_cast; omega
          · omega
        · simp only [List.take_succ_cons, sumLen]; omega
        · simp only [List.take_succ_cons, sumLen]; omega
    · rw [if_neg h3]
      exact ⟨0, e, by simp [sumLen]; omega, by simp, by simp [sumLen]; omega, by simp [sumLen]; omega⟩

theorem sumLen_take_succ (es : List extent) (i : Nat) (e : extent) (h : es[i]? = some e) :
    sumLen (es.take (i + 1)) = sumLen (es.take i) + e.Len := by
  rw [List.take_succ, h, sumLen_append]
  simp [sumLen]

theorem sumLen_take_length (es : List extent) (i : Int) (h : i = es.length) :
    sumLen (es.take i.toNat) = sumLen es := by
  subst h
  simp

theorem sumLen_split (es : List extent) (i : Nat) (e : extent) (h : es[i]? = some e) :
    sumLen es = sumLen (es.take i) + e.Len + sumLen (es.drop (i + 1)) := by
  have h1 : es = es.take (i + 1) ++ es.drop (i + 1) := (List.take_append_drop _ _).symm
  have h2 := sumLen_take_succ es i e h
  calc sumLen es = sumLen (es.take (i + 1) ++ es.drop (i + 1)) := by rw [← h1]
    _ = _ := by rw [sumLen_append, h2]

theorem getElem?_pos_of_Inv {mbs : Int} {fn : filenode} (hinv : fn.Inv mbs) {i : Nat} {e : extent}
    (h : fn.extents[i]? = some e) : 0 < e.Len ∧ (e.writable = true → e.Len ≤ mbs) :=
  hinv.2 e (List.getElem?_mem h)

theorem Inv_nonneg {mbs : Int} {fn : filenode} (hinv : fn.Inv mbs) :
    ∀ e ∈ fn.extents, 0 ≤ e.Len := fun e he => le_of_lt (hinv.2 e he).1

theorem Inv_take_nonneg {mbs : Int} {fn : filenode} (hinv : fn.Inv mbs) (i : Nat) :
    0 ≤ sumLen (fn.extents.take i) :=
  sumLen_nonneg _ (fun e he => Inv_nonneg hinv e (List.mem_of_mem_take he))

theorem Inv_drop_nonneg {mbs : Int} {fn : filenode} (hinv : fn.Inv mbs) (i : Nat) :
    0 ≤ sumLen (fn.extents.drop i) :=
  sumLen_nonneg _ (fun e he => Inv_nonneg hinv e (List.mem_of_mem_drop he))

/-- On a file node that satisfies the invariants, `seek` of a stale or
consistent pointer with a non-negative offset returns the pointer for
`min(off, size)`. -/
theorem seek_spec (mbs : Int) (fn : filenode) (hinv : fn.Inv mbs) (ptr : filenodePtr)
    (h0 : 0 ≤ ptr.off) (h : ptr.Stale fn ∨ ptr.Consistent fn) :
    ∃ q, fn.seek ptr = .ok q ∧ q.Seeked fn ∧ q.off = min ptr.off fn.fileinfo.size := by
  unfold filenode.seek
  rw [if_neg (by omega)]
  by_cases h1 : ptr.off ≥ fn.fileinfo.size
  · rw [if_pos h1]
    refine ⟨_, rfl, ⟨rfl, by simp, by simp, ?_, Or.inl ⟨rfl, rfl⟩⟩, by simp; omega⟩
    simp [hinv.1]
  · rw [if_neg h1]
    by_cases h2 : ptr.repacked = fn.repacked
    · rw [if_pos h2]
      rcases h with h | h
      · exact absurd h2 h
      · obtain ⟨_, c1, c2, c3, c4⟩ := h
        rcases c4 with ⟨c5, c6⟩ | ⟨e, c5, c6⟩
        · rw [sumLen_take_length _ _ c5, ← hinv.1] at c3
          omega
        · rw [index_ok c1 c5]
          simp only [bind, Except.bind]
          have hsplit := sumLen_split _ _ _ c5
          have hd := Inv_drop_nonneg hinv (ptr.extentIdx.toNat + 1)
          rw [← hinv.1] at hsplit
          by_cases h3 : ptr.extentOff ≥ e.Len
          · rw [if_pos h3]
            have hlt : ptr.extentIdx.toNat + 1 < fn.extents.length := by
              by_contra hge
              have : fn.extents.drop (ptr.extentIdx.toNat + 1) = [] :=
                List.drop_eq_nil_of_le (by omega)
              rw [this] at hsplit
              simp only [sumLen] at hsplit
              omega
            have hnext : fn.extents[ptr.extentIdx.toNat + 1]? =
                some (fn.extents[ptr.extentIdx.toNat + 1]) := List.getElem?_eq_getElem hlt
            have hpos := (getElem?_pos_of_Inv hinv hnext).1
            refine ⟨_, rfl, ⟨h2, by simp; omega, by simp, ?_,
              Or.inr ⟨fn.extents[ptr.extentIdx.toNat + 1], ?_, ?_⟩⟩, ?_⟩
            · simp only
              have : (ptr.extentIdx + 1).toNat = ptr.extentIdx.toNat + 1 := by omega
              rw [this, sumLen_take_succ _ _ _ c5]
              omega
            · simp only
              have : (ptr.extentIdx + 1).toNat = ptr.extentIdx.toNat + 1 := by omega
              rw [this]
              exact hnext
            · simpa using hpos
            · simp only
              omega
          · rw [if_neg h3]
            refine ⟨_, rfl, ⟨h2, c1, c2, c3, Or.inr ⟨e, c5, by omega⟩⟩, by omega⟩
    · rw [if_neg h2]
      obtain ⟨k, e, h5, h6, h7, h8⟩ := seekScan_spec ptr.off fn.extents 0 0
        (fun e he => (hinv.2 e he).1) h0 (by rw [← hinv.1]; omega)
      rw [h5]
      simp only [bind, Except.bind]
      refine ⟨_, rfl, ⟨rfl, by simp, by simpa using h7, ?_, Or.inr ⟨e, by simpa using h6, by simpa using h8⟩⟩,
        by simp; omega⟩
      simp

/-- A pointer left by `seek` splits the extent list at its index. -/
theorem Seeked_split {fn : filenode} {ptr : filenodePtr} (h : ptr.Seeked fn) :
    ∃ pre post, fn.extents = pre ++ post ∧ ptr.extentIdx = pre.length ∧
      sumLen pre + ptr.extentOff = ptr.off ∧ 0 ≤ ptr.extentOff ∧
      ((post = [] ∧ ptr.extentOff = 0) ∨
       ∃ e rest, post = e :: rest ∧ ptr.extentOff < e.Len) := by
  obtain ⟨_, c1, c2, c3, c4⟩ := h
  refine ⟨fn.extents.take ptr.extentIdx.toNat, fn.extents.drop ptr.extentIdx.toNat,
    (List.take_append_drop _ _).symm, ?_, c3, c2, ?_⟩
  · rcases c4 with ⟨c5, _⟩ | ⟨e, c5, _⟩
    · simp [c5]
    · have := (List.getElem?_eq_some_iff.1 c5).1
      simp; omega
  · rcases c4 with ⟨c5, c6⟩ | ⟨e, c5, c6⟩
    · left
      exact ⟨List.drop_eq_nil_of_le (by omega), c6⟩
    · right
      exact ⟨e, fn.extents.drop (ptr.extentIdx.toNat + 1), drop_of_getElem? c5, c6⟩

/-! ## Splitting a list at the pointer -/

theorem take_pre {α : Type} (pre post : List α) (i : Int) (hi : i = pre.length) :
    (pre ++ post).take i.toNat = pre := by
  subst hi; simp

theorem drop_pre {α : Type} (pre post : List α) (i : Int) (hi : i = pre.length) :
    (pre ++ post).drop i.toNat = post := by
  subst hi; simp

theorem drop_pre_succ {α : Type} (pre rest : List α) (e : α) (i : Int) (hi : i = pre.length) :
    (pre ++ e :: rest).drop (i.toNat + 1) = rest := by
  subst hi
  have : (pre ++ e :: rest) = (pre ++ [e]) ++ rest := by simp
  rw [this]
  have h2 : ((pre.length : Int).toNat + 1) = (pre ++ [e]).length := by simp
  rw [h2, List.drop_left]

theorem set_pre {α : Type} (pre rest : List α) (e x : α) (i : Int) (hi : i = pre.length) :
    (pre ++ e :: rest).set i.toNat x = pre ++ x :: rest := by
  subst hi
  simp [List.set_append_right]

theorem content_take {σ : Type} (kc : keepClient σ) (st : σ) (pre : List extent) (e : extent)
    (rest : List extent) (hpre : ∀ x ∈ pre, 0 ≤ x.Len) (a : Int) (h0 : 0 ≤ a) (h1 : a ≤ e.Len) :
    (extentsBytes kc st (pre ++ e :: rest)).take (sumLen pre + a).toNat
      = extentsBytes kc st pre ++ (e.bytes kc st).take a.toNat := by
  have hl := extentsBytes_length kc st pre hpre
  have hn := sumLen_nonneg pre hpre
  have : (sumLen pre + a).toNat = (extentsBytes kc st pre).length + a.toNat := by omega
  rw [this, extentsBytes_append, List.take_append]
  simp only [extentsBytes]
  rw [List.take_append_of_le_length]
  rw [bytes_length]; omega

theorem content_drop {σ : Type} (kc : keepClient σ) (st : σ) (pre : List extent) (e : extent)
    (rest : List extent) (hpre : ∀ x ∈ pre, 0 ≤ x.Len) (a : Int) (h0 : 0 ≤ a) (k : Nat)
    (h1 : a + k ≤ e.Len) :
    (extentsBytes kc st (pre ++ e :: rest)).drop ((sumLen pre + a).toNat + k)
      = (e.bytes kc st).drop (a.toNat + k) ++ extentsBytes kc st rest := by
  have hl := extentsBytes_length kc st pre hpre
  have hn := sumLen_nonneg pre hpre
  have : (sumLen pre + a).toNat + k = (extentsBytes kc st pre).length + (a.toNat + k) := by omega
  rw [this, extentsBytes_append, List.drop_append]
  simp only [extentsBytes]
  rw [List.drop_append_of_le_length]
  rw [bytes_length]; omega

/-- At the end of the extents, the content is all there is before the pointer. -/
theorem content_take_all {σ : Type} (kc : keepClient σ) (st : σ) (es : List extent)
    (hes : ∀ x ∈ es, 0 ≤ x.Len) (n : Nat) (h : (sumLen es).toNat ≤ n) :
    (extentsBytes kc st es).take n = extentsBytes kc st es := by
  apply List.take_of_length_le
  have hl := extentsBytes_length kc st es hes
  omega

theorem content_drop_all {σ : Type} (kc : keepClient σ) (st : σ) (es : List extent)
    (hes : ∀ x ∈ es, 0 ≤ x.Len) (n : Nat) (h : (sumLen es).toNat ≤ n) :
    (extentsBytes kc st es).drop n = [] := by
  apply List.drop_eq_nil_of_le
  have hl := extentsBytes_length kc st es hes
  omega

/-! ## The structural phase of a round of `Write` -/

theorem curWritable_mid (fn : filenode) (ptr : filenodePtr) (pre rest : List extent) (e : extent)
    (hes : fn.extents = pre ++ e :: rest) (hidx : ptr.extentIdx = pre.length) :
    fn.curWritable ptr = .ok e.writable := by
  unfold filenode.curWritable
  rw [hes, if_pos (by simp; omega), index_mid _ _ _ _ hidx]
  rfl

theorem curWritable_end (fn : filenode) (ptr : filenodePtr)
    (hidx : ptr.extentIdx = fn.extents.length) : fn.curWritable ptr = .ok false := by
  unfold filenode.curWritable
  rw [if_neg (by omega)]
  rfl

/-- `prevAppendable` holds exactly when the extent before the pointer is a
memory extent shorter than `mbs`. -/
theorem prevAppendable_spec (mbs : Int) (fn : filenode) (ptr : filenodePtr)
    (pre post : List extent) (hes : fn.extents = pre ++ post) (hidx : ptr.extentIdx = pre.length) :
    (pre = [] ∧ fn.prevAppendable mbs ptr = .ok false) ∨
    (∃ pre1 e, pre = pre1 ++ [e] ∧
      fn.prevAppendable mbs ptr = .ok (decide (e.Len < mbs) && e.writable)) := by
  unfold filenode.prevAppendable
  rcases List.eq_nil_or_concat pre with h | ⟨pre1, e, h⟩
  · left
    subst h
    simp at hidx
    rw [if_neg (by omega)]
    exact ⟨rfl, rfl⟩
  · right
    rw [List.concat_eq_append] at h
    subst h
    refine ⟨pre1, e, rfl, ?_⟩
    simp at hidx
    rw [if_pos (by omega), hes]
    have : pre1 ++ [e] ++ post = pre1 ++ e :: post := by simp
    rw [this, index_mid _ _ _ _ (by omega)]
    rfl

theorem Inv_split {mbs : Int} {fn : filenode} (hinv : fn.Inv mbs) {pre post : List extent}
    (hes : fn.extents = pre ++ post) :
    (∀ e ∈ pre, 0 < e.Len ∧ (e.writable = true → e.Len ≤ mbs)) ∧
    (∀ e ∈ post, 0 < e.Len ∧ (e.writable = true → e.Len ≤ mbs)) ∧
    (∀ e ∈ pre, 0 ≤ e.Len) ∧ (∀ e ∈ post, 0 ≤ e.Len) ∧
    fn.fileinfo.size = sumLen pre + sumLen post := by
  have h := hinv.2
  rw [hes] at h
  refine ⟨fun e he => h e (by simp [he]), fun e he => h e (by simp [he]),
    fun e he => le_of_lt (h e (by simp [he])).1, fun e he => le_of_lt (h e (by simp [he])).1, ?_⟩
  rw [hinv.1, hes, sumLen_append]

theorem writeInPlace_spec {σ : Type} (kc : keepClient σ) (st : σ) (mbs : Int) (fn : filenode)
    (hinv : fn.Inv mbs) (hpres : Present kc st fn.extents) (ptr : filenodePtr)
    (pre rest : List extent) (me : memExtent)
    (hes : fn.extents = pre ++ .mem me :: rest) (hidx : ptr.extentIdx = pre.length)
    (hdec : sumLen pre + ptr.extentOff = ptr.off) (h0 : 0 ≤ ptr.extentOff)
    (hlt : ptr.extentOff < me.Len) (hgen : ptr.repacked = fn.repacked)
    (p : List Byte) (k0 : Nat) (hk0 : 0 < k0) (hk0le : k0 ≤ p.length) :
    ∃ plan k, fn.writeInPlace ptr (p.take k0) = .ok plan ∧
      PlanSpec kc st mbs fn ptr p plan k pre me rest := by
  obtain ⟨i1, i2, i3, i4, i5⟩ := Inv_split hinv hes
  have hme := i2 (.mem me) (by simp)
  simp only [extent.Len, extent.writable] at hme
  have hrest : 0 ≤ sumLen rest := sumLen_nonneg _ (fun e he => i4 e (by simp [he]))
  have hpre : 0 ≤ sumLen pre := sumLen_nonneg _ i3
  simp only [sumLen, extent.Len] at i5
  have hlen : (p.take k0).length = k0 := by simp; omega
  unfold filenode.writeInPlace
  rw [hes, index_mid _ _ _ _ hidx]
  simp only [bind, Except.bind, extent.Len, hlen]
  have key : ∀ k : Nat, 0 < k → k ≤ k0 → (ptr.extentOff + k ≤ me.Len) →
      PlanSpec kc st mbs fn ptr p { cando := p.take k, fn := fn, ptr := ptr } k pre me rest := by
    intro k hk hkk hfit
    refine
      { cando := rfl, kpos := hk, kle := by omega, extents := hes, idx := hidx, off0 := h0,
        fits := hfit, small := hme.2 trivial, decomp := hdec, off := rfl, gen := hgen,
        size := hinv.1, sizeMax := ?_, others := ?_, present := hpres, before := ?_, after := ?_,
        memsize := id, spare := id, name := ⟨rfl, rfl⟩, genStep := le_refl _ }
    · simp only; omega
    · intro e he
      rcases List.mem_append.1 he with h | h
      · exact i1 e h
      · exact i2 e (by simp [h])
    · simp only [filenode.content]
      rw [hes, ← hdec, content_take kc st pre (.mem me) rest i3 _ h0 (le_of_lt hlt)]
      simp [extent.bytes, List.map_take]
    · simp only [filenode.content]
      rw [hes, ← hdec, content_drop kc st pre (.mem me) rest i3 _ h0 k hfit]
      simp [extent.bytes, List.map_drop]
  by_cases hf : me.Len - ptr.extentOff < k0
  · rw [if_pos hf]
    rw [sliceTo_ok _ _ (by omega) (by rw [hlen]; omega)]
    refine ⟨_, (me.Len - ptr.extentOff).toNat, rfl, ?_⟩
    have := key (me.Len - ptr.extentOff).toNat (by omega) (by omega) (by omega)
    rw [List.take_take]
    have hmin : min (me.Len - ptr.extentOff).toNat k0 = (me.Len - ptr.extentOff).toNat := by omega
    rw [hmin]
    exact this
  · rw [if_neg hf]
    exact ⟨_, k0, rfl, key k0 hk0 (le_refl _) (by omega)⟩

theorem SpareZero_append (a b : List extent) : SpareZero (a ++ b) ↔ SpareZero a ∧ SpareZero b := by
  constructor
  · intro h
    exact ⟨fun me hm => h me (by simp [hm]), fun me hm => h me (by simp [hm])⟩
  · rintro ⟨h1, h2⟩ me hm
    rcases List.mem_append.1 hm with h | h
    · exact h1 me h
    · exact h2 me h

theorem SpareZero_nil : SpareZero [] ↔ True := by
  simp [SpareZero]

theorem SpareZero_cons_stored (se : storedExtent) (b : List extent) :
    SpareZero (.stored se :: b) ↔ SpareZero b := by
  simp [SpareZero]

theorem SpareZero_cons_mem (me : memExtent) (b : List extent) :
    SpareZero (.mem me :: b) ↔ (∀ x ∈ me.spare, x = 0) ∧ SpareZero b := by
  simp [SpareZero]

theorem Present_nil_iff {σ : Type} (kc : keepClient σ) (st : σ) : Present kc st [] ↔ True := by
  simp [Present]

theorem Present_cons_mem {σ : Type} (kc : keepClient σ) (st : σ) (me : memExtent)
    (b : List extent) : Present kc st (.mem me :: b) ↔ Present kc st b := by
  simp [Present]

theorem Present_cons_stored {σ : Type} (kc : keepClient σ) (st : σ) (se : storedExtent)
    (b : List extent) :
    Present kc st (.stored se :: b) ↔ (∃ blk, kc.Get st se.locator = some blk) ∧ Present kc st b := by
  simp [Present]

theorem Sound_nil (mbs : Int) : Sound mbs [] ↔ True := by
  simp [Sound]

theorem Sound_cons (mbs : Int) (e : extent) (b : List extent) :
    Sound mbs (e :: b) ↔ (0 < e.Len ∧ (e.writable = true → e.Len ≤ mbs)) ∧ Sound mbs b := by
  simp [Sound]

theorem Sound_append (mbs : Int) (a b : List extent) :
    Sound mbs (a ++ b) ↔ Sound mbs a ∧ Sound mbs b := by
  simp only [Sound, List.mem_append]
  constructor
  · intro h
    exact ⟨fun e he => h e (Or.inl he), fun e he => h e (Or.inr he)⟩
  · rintro ⟨h1, h2⟩ e (he | he)
    · exact h1 e he
    · exact h2 e he

theorem Sound_nonneg {mbs : Int} {es : List extent} (h : Sound mbs es) : ∀ e ∈ es, 0 ≤ e.Len :=
  fun e he => le_of_lt (h e he).1

theorem writeSplit_spec {σ : Type} (kc : keepClient σ) (st : σ) (mbs : Int) (fn : filenode)
    (hinv : fn.Inv mbs) (hpres : Present kc st fn.extents) (ptr : filenodePtr)
    (pre rest : List extent) (se : storedExtent)
    (hes : fn.extents = pre ++ .stored se :: rest) (hidx : ptr.extentIdx = pre.length)
    (hdec : sumLen pre + ptr.extentOff = ptr.off) (h0 : 0 < ptr.extentOff)
    (hlt : ptr.extentOff < se.length) (hgen : ptr.repacked = fn.repacked)
    (p : List Byte) (k0 : Nat) (hk0 : 0 < k0) (hk0le : k0 ≤ p.length) (hk0m : (k0 : Int) ≤ mbs) :
    ∃ plan k pre2 me2 post2, fn.writeSplit ptr (p.take k0) = .ok plan ∧
      PlanSpec kc st mbs fn ptr p plan k pre2 me2 post2 := by
  obtain ⟨i1, i2, i3, i4, i5⟩ := Inv_split hinv hes
  have hrest : 0 ≤ sumLen rest := sumLen_nonneg _ (fun e he => i4 e (by simp [he]))
  have hpre : 0 ≤ sumLen pre := sumLen_nonneg _ i3
  simp only [sumLen, extent.Len, storedExtent.Len] at i5
  have hlen : (p.take k0).length = k0 := by simp; omega
  have hpres2 := hpres
  rw [hes] at hpres2
  simp only [Present_append, Present_cons_stored] at hpres2
  obtain ⟨hp1, hp2, hp3⟩ := hpres2
  have hsound := hinv.2
  rw [hes] at hsound
  simp only [Sound_append, Sound_cons] at hsound
  obtain ⟨hs1, hs2, hs3⟩ := hsound
  have hcontent : fn.content kc st = extentsBytes kc st (pre ++ .stored se :: rest) := by
    simp only [filenode.content, hes]
  unfold filenode.writeSplit
  dsimp only
  rw [hes, index_mid _ _ _ _ hidx]
  simp only [bind, Except.bind, extent.Len, storedExtent.Len, hlen, extent.Slice]
  rw [take_pre _ _ _ hidx, drop_pre_succ _ _ _ _ hidx]
  by_cases hm : se.length - ptr.extentOff ≤ k0
  · rw [if_pos hm, sliceTo_ok _ _ (by omega) (by rw [hlen]; omega)]
    simp only [List.take_take]
    have hmin : min (se.length - ptr.extentOff).toNat k0 = (se.length - ptr.extentOff).toNat := by
      omega
    rw [hmin]
    have hlen2 : (p.take (se.length - ptr.extentOff).toNat).length
        = (se.length - ptr.extentOff).toNat := by simp; omega
    rw [hlen2]
    obtain ⟨r, hr1, hr2, hr3⟩ := newMemExtent_spec ((se.length - ptr.extentOff).toNat : Int)
      (by omega)
    rw [hr1]
    simp only [memExtent.Len] at hr2
    refine ⟨_, (se.length - ptr.extentOff).toNat, pre ++ [.stored (se.Slice 0 ptr.extentOff)], r,
      rest, rfl, ?_⟩
    refine
      { cando := rfl, kpos := by omega, kle := by omega, extents := by simp, idx := by simp [hidx],
        off0 := le_refl _, fits := by simp [memExtent.Len]; omega,
        small := by simp only [memExtent.Len]; omega,
        decomp := ?_, off := rfl, gen := by simp [hgen], size := ?_, sizeMax := ?_, others := ?_,
        present := ?_, before := ?_, after := ?_, memsize := ?_, spare := ?_, name := ⟨rfl, rfl⟩,
        genStep := by simp }
    · simp only [sumLen_append, sumLen, extent.Len]
      rw [stored_Slice_to_Len _ _ (by omega) (by omega)]
      omega
    · simp only [sumLen_append, sumLen, extent.Len, memExtent.Len]
      rw [stored_Slice_to_Len _ _ (by omega) (by omega)]
      omega
    · simp only; omega
    · simp only [Sound_append, Sound_cons, Sound_nil, extent.Len, extent.writable]
      rw [stored_Slice_to_Len _ _ (by omega) (by omega)]
      exact ⟨⟨hs1, ⟨h0, by simp⟩, trivial⟩, hs3⟩
    · simp only [Present_append, Present_cons_stored, Present_cons_mem, Present_nil_iff,
        storedExtent.Slice]
      exact ⟨⟨hp1, hp2, trivial⟩, hp3⟩
    · simp only [hcontent]
      rw [← hdec, content_take kc st pre (.stored se) rest i3 _ (le_of_lt h0) (le_of_lt hlt)]
      simp only [Int.toNat_zero, List.take_zero, List.map_nil, List.append_nil,
        extentsBytes_append, extentsBytes]
      rw [stored_bytes_take kc st se _ (le_of_lt h0)]
    · simp only [hcontent]
      have e1 : ptr.off.toNat + (se.length - ptr.extentOff).toNat
          = (sumLen pre + ptr.extentOff).toNat + (se.length - ptr.extentOff).toNat := by
        rw [hdec]
      rw [e1, content_drop kc st pre (.stored se) rest i3 _ (le_of_lt h0) _
        (by simp only [extent.Len, storedExtent.Len]; omega)]
      have e2 : (r.buf.drop ((0 : Int).toNat + (se.length - ptr.extentOff).toNat)) = [] := by
        apply List.drop_eq_nil_of_le
        omega
      rw [e2]
      have e3 : ((extent.stored se).bytes kc st).drop
          (ptr.extentOff.toNat + (se.length - ptr.extentOff).toNat) = [] := by
        apply List.drop_eq_nil_of_le
        rw [bytes_length]
        simp only [extent.Len, storedExtent.Len]
        omega
      rw [e3]
      simp
    · intro hms
      simp only
      rw [hms, hes]
      simp only [memLen_append, memLen, memExtent.Len]
      omega
    · intro hs
      rw [hes] at hs
      simp only [SpareZero_append, SpareZero_cons_stored, SpareZero_cons_mem, SpareZero_nil] at hs ⊢
      exact ⟨⟨hs.1, hr3, trivial⟩, hs.2⟩
  · rw [if_neg hm]
    obtain ⟨r, hr1, hr2, hr3⟩ := newMemExtent_spec (k0 : Int) (by omega)
    rw [hr1]
    simp only [memExtent.Len] at hr2
    refine ⟨_, k0, pre ++ [.stored (se.Slice 0 ptr.extentOff)], r,
      .stored (se.Slice (ptr.extentOff + k0) (-1)) :: rest, rfl, ?_⟩
    refine
      { cando := rfl, kpos := by omega, kle := by omega, extents := by simp, idx := by simp [hidx],
        off0 := le_refl _, fits := by simp [memExtent.Len]; omega,
        small := by simp only [memExtent.Len]; omega,
        decomp := ?_, off := rfl, gen := by simp [hgen], size := ?_, sizeMax := ?_, others := ?_,
        present := ?_, before := ?_, after := ?_, memsize := ?_, spare := ?_, name := ⟨rfl, rfl⟩,
        genStep := by simp }
    · simp only [sumLen_append, sumLen, extent.Len]
      rw [stored_Slice_to_Len _ _ (by omega) (by omega)]
      omega
    · simp only [sumLen_append, sumLen, extent.Len, memExtent.Len]
      rw [stored_Slice_to_Len _ _ (by omega) (by omega), stored_Slice_from_Len]
      simp only [storedExtent.Len]
      omega
    · simp only; omega
    · simp only [Sound_append, Sound_cons, Sound_nil, extent.Len, extent.writable]
      rw [stored_Slice_to_Len _ _ (by omega) (by omega), stored_Slice_from_Len]
      simp only [storedExtent.Len]
      exact ⟨⟨hs1, ⟨h0, by simp⟩, trivial⟩, ⟨by omega, by simp⟩, hs3⟩
    · simp only [Present_append, Present_cons_stored, Present_cons_mem, Present_nil_iff,
        storedExtent.Slice]
      exact ⟨⟨hp1, hp2, hp2, trivial⟩, hp3⟩
    · simp only [hcontent]
      rw [← hdec, content_take kc st pre (.stored se) rest i3 _ (le_of_lt h0) (le_of_lt hlt)]
      simp only [Int.toNat_zero, List.take_zero, List.map_nil, List.append_nil,
        extentsBytes_append, extentsBytes]
      rw [stored_bytes_take kc st se _ (le_of_lt h0)]
    · simp only [hcontent]
      have e1 : ptr.off.toNat + k0 = (sumLen pre + ptr.extentOff).toNat + k0 := by rw [hdec]
      rw [e1, content_drop kc st pre (.stored se) rest i3 _ (le_of_lt h0) _
        (by simp only [extent.Len, storedExtent.Len]; omega)]
      have e2 : (r.buf.drop ((0 : Int).toNat + k0)) = [] := by
        apply List.drop_eq_nil_of_le
        omega
      rw [e2]
      simp only [extentsBytes, List.map_nil, List.nil_append]
      rw [stored_bytes_drop kc st se _ (by omega) (by omega)]
      have e4 : (ptr.extentOff + (k0 : Int)).toNat = ptr.extentOff.toNat + k0 := by omega
      rw [e4]
    · intro hms
      simp only
      rw [hms, hes]
      simp only [memLen_append, memLen, memExtent.Len]
      omega
    · intro hs
      rw [hes] at hs
      simp only [SpareZero_append, SpareZero_cons_stored, SpareZero_cons_mem, SpareZero_nil] at hs ⊢
      exact ⟨⟨hs.1, hr3, trivial⟩, hs.2⟩

theorem shrink_to_fit (p : List Byte) (k0 : Nat) (hk0le : k0 ≤ p.length) (room : Int)
    (hroom : 0 < room) :
    (if room < ((p.take k0).length : Int) then sliceTo (p.take k0) room
      else (pure (p.take k0) : Except Fault (List Byte)))
      = .ok (p.take (min k0 room.toNat)) := by
  have hlen : (p.take k0).length = k0 := by simp; omega
  rw [hlen]
  by_cases h : room < k0
  · rw [if_pos h, sliceTo_ok _ _ (by omega) (by rw [hlen]; omega), List.take_take]
    congr 2
    omega
  · rw [if_neg h]
    have : min k0 room.toNat = k0 := by omega
    rw [this]
    rfl

theorem shrinkToPrev_false (mbs : Int) (fn : filenode) (ptr : filenodePtr) (c : List Byte) :
    fn.shrinkToPrev mbs ptr c false = .ok c := by
  simp [filenode.shrinkToPrev, pure, Except.pure]

theorem shrinkToPrev_true (mbs : Int) (fn : filenode) (ptr : filenodePtr)
    (pre1 post : List extent) (mp : memExtent)
    (hes : fn.extents = pre1 ++ .mem mp :: post) (hidx : ptr.extentIdx = pre1.length + 1)
    (hroom : mp.Len < mbs) (p : List Byte) (k0 : Nat) (hk0le : k0 ≤ p.length) :
    fn.shrinkToPrev mbs ptr (p.take k0) true = .ok (p.take (min k0 (mbs - mp.Len).toNat)) := by
  unfold filenode.shrinkToPrev
  rw [if_pos rfl, hes, index_mid _ _ _ _ (by omega)]
  simp only [bind, Except.bind, extent.Len]
  exact shrink_to_fit p k0 hk0le _ (by omega)

theorem accountCur_end {σ : Type} (kc : keepClient σ) (st : σ) (mbs : Int)
    (fn : filenode) (hinv : fn.Inv mbs) (ptr : filenodePtr)
    (hidx : ptr.extentIdx = fn.extents.length)
    (p : List Byte) (k0 : Nat) (hk0 : 0 < k0) (hk0le : k0 ≤ p.length) :
    ∃ c fn1 k post1, fn.accountCur ptr (p.take k0) = .ok (c, fn1) ∧
      AccountSpec kc st mbs fn fn.extents [] p k0 c fn1 k post1 := by
  have hlen : (p.take k0).length = k0 := by simp; omega
  have hsz := sumLen_nonneg _ (Sound_nonneg hinv.2)
  unfold filenode.accountCur
  dsimp only
  rw [if_pos hidx, hlen]
  refine ⟨_, _, k0, [], rfl, ?_⟩
  refine
    { cando := rfl, kpos := hk0, kle := le_refl _, extents := by simp,
      size := by simp only [sumLen]; rw [hinv.1]; omega,
      sizeMax := by simp only; rw [hinv.1]; omega,
      bytes := by simp [extentsBytes], sound := by simp [Sound_nil],
      present := by simp [Present_nil_iff], memLen := rfl, spare := id,
      same := ⟨rfl, rfl, rfl, rfl⟩ }

theorem accountCur_mid {σ : Type} (kc : keepClient σ) (st : σ) (mbs : Int)
    (fn : filenode) (hinv : fn.Inv mbs) (hpres : Present kc st fn.extents) (ptr : filenodePtr)
    (pre rest : List extent) (se : storedExtent)
    (hes : fn.extents = pre ++ .stored se :: rest) (hidx : ptr.extentIdx = pre.length)
    (p : List Byte) (k0 : Nat) (hk0 : 0 < k0) (hk0le : k0 ≤ p.length) :
    ∃ c fn1 k post1, fn.accountCur ptr (p.take k0) = .ok (c, fn1) ∧
      AccountSpec kc st mbs fn pre (.stored se :: rest) p k0 c fn1 k post1 := by
  obtain ⟨i1, i2, i3, i4, i5⟩ := Inv_split hinv hes
  have hrest : 0 ≤ sumLen rest := sumLen_nonneg _ (fun e he => i4 e (by simp [he]))
  have hpre : 0 ≤ sumLen pre := sumLen_nonneg _ i3
  simp only [sumLen, extent.Len, storedExtent.Len] at i5
  have hlen : (p.take k0).length = k0 := by simp; omega
  have hpres2 := hpres
  rw [hes] at hpres2
  simp only [Present_append, Present_cons_stored] at hpres2
  obtain ⟨hp1, hp2, hp3⟩ := hpres2
  have hsound := hinv.2
  rw [hes] at hsound
  simp only [Sound_append, Sound_cons, extent.Len, storedExtent.Len] at hsound
  obtain ⟨hs1, hs2, hs3⟩ := hsound
  have hcur : ptr.extentIdx.toNat = pre.length := by omega
  unfold filenode.accountCur
  dsimp only
  rw [hes, if_neg (by simp; omega), index_mid _ _ _ _ hidx]
  simp only [bind, Except.bind, pure, Except.pure, extent.Len, storedExtent.Len, extent.Slice, hlen]
  by_cases hm : se.length ≤ k0
  · rw [if_pos hm, sliceTo_ok _ _ (by omega) (by rw [hlen]; omega)]
    simp only [List.take_take]
    have hmin : min se.length.toNat k0 = se.length.toNat := by omega
    rw [hmin, take_pre _ _ _ hidx, drop_pre_succ _ _ _ _ hidx]
    refine ⟨_, _, se.length.toNat, rest, rfl, ?_⟩
    refine
      { cando := rfl, kpos := by omega, kle := by omega, extents := rfl,
        size := by simp only; omega,
        sizeMax := by simp only; omega,
        bytes := ?_, sound := hs3, present := hp3, memLen := by simp [memLen],
        spare := fun h => by simpa [SpareZero_cons_stored] using h,
        same := ⟨rfl, rfl, rfl, rfl⟩ }
    simp only [extentsBytes]
    rw [List.drop_append_of_le_length (by rw [bytes_length]; simp [extent.Len, storedExtent.Len])]
    have e3 : ((extent.stored se).bytes kc st).drop se.length.toNat = [] := by
      apply List.drop_eq_nil_of_le
      rw [bytes_length]
      simp only [extent.Len, storedExtent.Len]
      omega
    rw [e3]
    simp
  · rw [if_neg hm, hcur, List.set_append_right _ _ (le_refl _)]
    simp only [Nat.sub_self, List.set_cons_zero]
    refine ⟨_, _, k0, .stored (se.Slice (k0 : Int) (-1)) :: rest, rfl, ?_⟩
    refine
      { cando := rfl, kpos := by omega, kle := by omega, extents := rfl,
        size := ?_, sizeMax := by simp only; omega,
        bytes := ?_, sound := ?_, present := ?_, memLen := by simp [memLen],
        spare := fun h => by simpa [SpareZero_cons_stored] using h,
        same := ⟨rfl, rfl, rfl, rfl⟩ }
    · simp only [sumLen, extent.Len]
      rw [stored_Slice_from_Len]
      simp only [storedExtent.Len]
      omega
    · simp only [extentsBytes]
      rw [List.drop_append_of_le_length (by
        rw [bytes_length]; simp only [extent.Len, storedExtent.Len]; omega)]
      rw [stored_bytes_drop kc st se _ (by omega) (by omega)]
      simp
    · simp only [Sound_cons, extent.Len, extent.writable]
      rw [stored_Slice_from_Len]
      simp only [storedExtent.Len]
      exact ⟨⟨by omega, by simp⟩, hs3⟩
    · simp only [Present_cons_stored, storedExtent.Slice]
      exact ⟨hp2, hp3⟩

theorem content_take_pre {σ : Type} (kc : keepClient σ) (st : σ) (pre post : List extent)
    (hpre : ∀ x ∈ pre, 0 ≤ x.Len) :
    (extentsBytes kc st (pre ++ post)).take (sumLen pre).toNat = extentsBytes kc st pre := by
  have hl := extentsBytes_length kc st pre hpre
  have : (sumLen pre).toNat = (extentsBytes kc st pre).length := by omega
  rw [this, extentsBytes_append, List.take_left]

theorem content_drop_pre {σ : Type} (kc : keepClient σ) (st : σ) (pre post : List extent)
    (hpre : ∀ x ∈ pre, 0 ≤ x.Len) (k : Nat) :
    (extentsBytes kc st (pre ++ post)).drop ((sumLen pre).toNat + k)
      = (extentsBytes kc st post).drop k := by
  have hl := extentsBytes_length kc st pre hpre
  have : (sumLen pre).toNat = (extentsBytes kc st pre).length := by omega
  rw [this, extentsBytes_append, List.drop_append]

theorem growOrInsert_insert {σ : Type} (kc : keepClient σ) (st : σ) (mbs : Int)
    (fn : filenode) (hinv : fn.Inv mbs) (hpres : Present kc st fn.extents) (ptr : filenodePtr)
    (pre post : List extent) (hes : fn.extents = pre ++ post) (hidx : ptr.extentIdx = pre.length)
    (hdec : sumLen pre = ptr.off) (heo : ptr.extentOff = 0) (hgen : ptr.repacked = fn.repacked)
    (p : List Byte) (k0 : Nat) (c : List Byte) (fn1 : filenode) (k : Nat) (post1 : List extent)
    (hacc : AccountSpec kc st mbs fn pre post p k0 c fn1 k post1)
    (hk0le : k0 ≤ p.length) (hk0m : (k0 : Int) ≤ mbs) :
    ∃ plan me2, fn1.growOrInsert ptr c false = .ok plan ∧
      PlanSpec kc st mbs fn ptr p plan k pre me2 post1 := by
  obtain ⟨i1, i2, i3, i4, i5⟩ := Inv_split hinv hes
  have hpre : 0 ≤ sumLen pre := sumLen_nonneg _ i3
  have hkpos := hacc.kpos
  have hkle := hacc.kle
  have hlen : c.length = k := by rw [hacc.cando]; simp; omega
  have hpres2 := hpres
  rw [hes] at hpres2
  simp only [Present_append] at hpres2
  have hsound := hinv.2
  rw [hes] at hsound
  simp only [Sound_append] at hsound
  have hcontent : fn.content kc st = extentsBytes kc st (pre ++ post) := by
    simp only [filenode.content, hes]
  obtain ⟨sm1, sm2, sm3, sm4⟩ := hacc.same
  unfold filenode.growOrInsert
  dsimp only
  simp only [Bool.false_eq_true, if_false, bind, Except.bind, hlen]
  obtain ⟨r, hr1, hr2, hr3⟩ := newMemExtent_spec (k : Int) (by omega)
  rw [hr1]
  simp only [memExtent.Len] at hr2
  simp only
  rw [hacc.extents, if_neg (by simp; omega), take_pre _ _ _ hidx, drop_pre _ _ _ hidx]
  refine ⟨_, r, rfl, ?_⟩
  refine
    { cando := hacc.cando, kpos := hkpos, kle := by omega, extents := by simp, idx := hidx,
      off0 := by simp [heo], fits := by simp [memExtent.Len, heo]; omega,
      small := by simp only [memExtent.Len]; omega,
      decomp := by simp [heo, hdec], off := rfl, gen := ?_, size := ?_, sizeMax := ?_,
      others := ?_, present := ?_, before := ?_, after := ?_, memsize := ?_, spare := ?_,
      name := ⟨sm3, sm4⟩, genStep := ?_ }
  · simp only [hgen, sm1]
  · simp only [sumLen_append, sumLen, extent.Len, memExtent.Len]
    rw [hacc.size]
    omega
  · simp only
    rw [hacc.sizeMax, hdec]
  · simp only [Sound_append]
    exact ⟨hsound.1, hacc.sound⟩
  · simp only [Present_append, Present_cons_mem, Present_nil_iff]
    exact ⟨⟨hpres2.1, trivial⟩, hacc.present⟩
  · simp only [hcontent, heo, Int.toNat_zero, List.take_zero, List.map_nil, List.append_nil]
    rw [← hdec, content_take_pre kc st pre post i3]
  · simp only [hcontent, heo, Int.toNat_zero, Nat.zero_add]
    rw [← hdec, content_drop_pre kc st pre post i3, hacc.bytes]
    have e2 : (r.buf.drop k) = [] := by
      apply List.drop_eq_nil_of_le
      omega
    rw [e2]
    simp
  · intro hms
    simp only
    rw [sm2, hms, hes]
    simp only [memLen_append, memLen, memExtent.Len, hacc.memLen]
    omega
  · intro hs
    rw [hes] at hs
    simp only [SpareZero_append, SpareZero_cons_mem, SpareZero_nil] at hs ⊢
    exact ⟨⟨hs.1, hr3, trivial⟩, hacc.spare hs.2⟩
  · simp only
    split <;> omega

theorem growOrInsert_grow {σ : Type} (kc : keepClient σ) (st : σ) (mbs : Int)
    (fn : filenode) (hinv : fn.Inv mbs) (hpres : Present kc st fn.extents) (ptr : filenodePtr)
    (pre1 post : List extent) (mp : memExtent)
    (hes : fn.extents = (pre1 ++ [.mem mp]) ++ post) (hidx : ptr.extentIdx = pre1.length + 1)
    (hdec : sumLen pre1 + mp.Len = ptr.off) (hgen : ptr.repacked = fn.repacked)
    (p : List Byte) (k0 : Nat) (c : List Byte) (fn1 : filenode) (k : Nat) (post1 : List extent)
    (hacc : AccountSpec kc st mbs fn (pre1 ++ [.mem mp]) post p k0 c fn1 k post1)
    (hk0le : k0 ≤ p.length) (hroom : mp.Len + k0 ≤ mbs) :
    ∃ plan me2, fn1.growOrInsert ptr c true = .ok plan ∧
      PlanSpec kc st mbs fn ptr p plan k pre1 me2 post1 := by
  obtain ⟨i1, i2, i3, i4, i5⟩ := Inv_split hinv hes
  have hpre : 0 ≤ sumLen (pre1 ++ [.mem mp]) := sumLen_nonneg _ i3
  have hmp : 0 ≤ mp.Len := by simp [memExtent.Len]
  have hkpos := hacc.kpos
  have hkle := hacc.kle
  have hlen : c.length = k := by rw [hacc.cando]; simp; omega
  have hpres2 := hpres
  rw [hes] at hpres2
  simp only [Present_append, Present_cons_mem] at hpres2
  have hsound := hinv.2
  rw [hes] at hsound
  simp only [Sound_append] at hsound
  have hcontent : fn.content kc st = extentsBytes kc st ((pre1 ++ [.mem mp]) ++ post) := by
    simp only [filenode.content, hes]
  obtain ⟨sm1, sm2, sm3, sm4⟩ := hacc.same
  have hprev : ptr.extentIdx - 1 = pre1.length := by omega
  have hsl : sumLen (pre1 ++ [extent.mem mp]) = sumLen pre1 + mp.Len := by
    simp [sumLen_append, sumLen, extent.Len]
  unfold filenode.growOrInsert
  dsimp only
  have hex : fn1.extents = pre1 ++ .mem mp :: post1 := by rw [hacc.extents]; simp
  rw [if_pos rfl, hex, index_mid _ _ _ _ hprev]
  simp only [bind, Except.bind, hlen]
  obtain ⟨r, hr1, hr2, hr3, hr4⟩ := Truncate_spec mp (mp.Len + (k : Int)) (by omega)
  rw [hr1]
  simp only
  rw [set_pre _ _ _ _ _ hprev]
  have htk : mp.buf.take (mp.Len + (k : Int)).toNat = mp.buf := by
    apply List.take_of_length_le
    simp only [memExtent.Len]; omega
  rw [htk] at hr3
  refine ⟨_, r, rfl, ?_⟩
  refine
    { cando := hacc.cando, kpos := hkpos, kle := by omega, extents := rfl,
      idx := by simp only; omega, off0 := hmp, fits := by simp only; omega,
      small := by omega,
      decomp := hdec, off := rfl, gen := by simp [hgen, sm1], size := ?_, sizeMax := ?_,
      others := ?_, present := ?_, before := ?_, after := ?_, memsize := ?_, spare := ?_,
      name := ⟨sm3, sm4⟩, genStep := by simp only; omega }
  · simp only [sumLen_append, sumLen, extent.Len]
    rw [hacc.size, hsl]
    omega
  · simp only
    rw [hacc.sizeMax, hsl, hdec]
  · have h1 := hsound.1
    simp only [Sound_append] at h1 ⊢
    exact ⟨h1.1, hacc.sound⟩
  · simp only [Present_append, Present_cons_mem]
    exact ⟨hpres2.1.1, hacc.present⟩
  · simp only [hcontent]
    rw [← hdec, ← hsl, content_take_pre kc st _ post i3]
    simp only [extentsBytes_append, extentsBytes, extent.bytes, List.append_nil]
    have e1 : mp.Len.toNat = mp.buf.length := by simp [memExtent.Len]
    rw [e1, hr3]
  · simp only [hcontent]
    rw [← hdec, ← hsl, content_drop_pre kc st _ post i3, hacc.bytes]
    have e2 : r.buf.drop (mp.Len.toNat + k) = [] := by
      apply List.drop_eq_nil_of_le
      simp only [memExtent.Len] at hr2 ⊢; omega
    rw [e2]
    simp
  · intro hms
    simp only
    rw [sm2, hms, hes]
    simp only [memLen_append, memLen, hacc.memLen]
    omega
  · intro hs
    rw [hes] at hs
    simp only [SpareZero_append, SpareZero_cons_mem, SpareZero_nil] at hs ⊢
    exact ⟨hs.1.1, (hr4 hs.1.2.1).1, hacc.spare hs.2⟩

theorem accountCur_spec {σ : Type} (kc : keepClient σ) (st : σ) (mbs : Int)
    (fn : filenode) (hinv : fn.Inv mbs) (hpres : Present kc st fn.extents) (ptr : filenodePtr)
    (pre post : List extent) (hes : fn.extents = pre ++ post) (hidx : ptr.extentIdx = pre.length)
    (hpost : post = [] ∨ ∃ se rest, post = .stored se :: rest)
    (p : List Byte) (k0 : Nat) (hk0 : 0 < k0) (hk0le : k0 ≤ p.length) :
    ∃ c fn1 k post1, fn.accountCur ptr (p.take k0) = .ok (c, fn1) ∧
      AccountSpec kc st mbs fn pre post p k0 c fn1 k post1 := by
  rcases hpost with h | ⟨se, rest, h⟩
  · subst h
    simp only [List.append_nil] at hes
    have := accountCur_end kc st mbs fn hinv ptr (by rw [hes]; exact hidx) p k0 hk0 hk0le
    rw [hes] at this
    exact this
  · subst h
    exact accountCur_mid kc st mbs fn hinv hpres ptr pre rest se hes hidx p k0 hk0 hk0le

theorem writeBoundary_spec {σ : Type} (kc : keepClient σ) (st : σ) (mbs : Int)
    (fn : filenode) (hinv : fn.Inv mbs) (hpres : Present kc st fn.extents) (ptr : filenodePtr)
    (pre post : List extent) (hes : fn.extents = pre ++ post) (hidx : ptr.extentIdx = pre.length)
    (hdec : sumLen pre = ptr.off) (heo : ptr.extentOff = 0) (hgen : ptr.repacked = fn.repacked)
    (hpost : post = [] ∨ ∃ se rest, post = .stored se :: rest)
    (pa : Bool) (hpa : pa = true → ∃ pre1 mp, pre = pre1 ++ [.mem mp] ∧ mp.Len < mbs)
    (p : List Byte) (k0 : Nat) (hk0 : 0 < k0) (hk0le : k0 ≤ p.length) (hk0m : (k0 : Int) ≤ mbs) :
    ∃ plan k pre2 me2 post2, fn.writeBoundary mbs ptr (p.take k0) pa = .ok plan ∧
      PlanSpec kc st mbs fn ptr p plan k pre2 me2 post2 := by
  unfold filenode.writeBoundary
  cases pa with
  | false =>
    rw [shrinkToPrev_false]
    obtain ⟨c, fn1, k, post1, ha1, ha2⟩ :=
      accountCur_spec kc st mbs fn hinv hpres ptr pre post hes hidx hpost p k0 hk0 hk0le
    obtain ⟨plan, me2, hg1, hg2⟩ := growOrInsert_insert kc st mbs fn hinv hpres ptr pre post hes
      hidx hdec heo hgen p k0 c fn1 k post1 ha2 hk0le hk0m
    simp only [bind, Except.bind, ha1, hg1]
    exact ⟨plan, k, pre, me2, post1, rfl, hg2⟩
  | true =>
    obtain ⟨pre1, mp, hpre, hroom⟩ := hpa rfl
    subst hpre
    have hidx2 : ptr.extentIdx = pre1.length + 1 := by simp at hidx; omega
    have hes2 : fn.extents = pre1 ++ .mem mp :: post := by rw [hes]; simp
    rw [shrinkToPrev_true mbs fn ptr pre1 post mp hes2 hidx2 hroom p k0 hk0le]
    have hmp : 0 ≤ mp.Len := by simp [memExtent.Len]
    obtain ⟨c, fn1, k, post1, ha1, ha2⟩ :=
      accountCur_spec kc st mbs fn hinv hpres ptr _ post hes hidx hpost p
        (min k0 (mbs - mp.Len).toNat) (by omega) (by omega)
    have hdec2 : sumLen pre1 + mp.Len = ptr.off := by
      rw [← hdec]; simp [sumLen_append, sumLen, extent.Len]
    obtain ⟨plan, me2, hg1, hg2⟩ := growOrInsert_grow kc st mbs fn hinv hpres ptr pre1 post mp hes
      hidx2 hdec2 hgen p _ c fn1 k post1 ha2 (by omega) (by omega)
    simp only [bind, Except.bind, ha1, hg1]
    exact ⟨plan, k, pre1, me2, post1, rfl, hg2⟩

theorem capCando_spec (mbs : Int) (hmbs : 0 < mbs) (p : List Byte) :
    capCando mbs p = .ok (p.take (min p.length mbs.toNat)) := by
  unfold capCando
  by_cases h : (p.length : Int) > mbs
  · rw [if_pos h, sliceTo_ok _ _ (by omega) (by omega)]
    congr 2
    omega
  · rw [if_neg h]
    have : min p.length mbs.toNat = p.length := by omega
    rw [this, List.take_length]
    rfl

/-- The structural phase of a round of `Write` succeeds on a node that
satisfies the invariants, for a pointer as `seek` leaves it and a non-empty
`p`, and its plan satisfies `PlanSpec`. -/
theorem writePlan_spec {σ : Type} (kc : keepClient σ) (st : σ) (mbs : Int) (hmbs : 0 < mbs)
    (fn : filenode) (hinv : fn.Inv mbs) (hpres : Present kc st fn.extents) (ptr : filenodePtr)
    (hseek : ptr.Seeked fn) (p : List Byte) (hp : p ≠ []) :
    ∃ plan k pre2 me2 post2, fn.writePlan mbs ptr p = .ok plan ∧
      PlanSpec kc st mbs fn ptr p plan k pre2 me2 post2 := by
  obtain ⟨pre, post, hes, hidx, hdec, h0, hcase⟩ := Seeked_split hseek
  have hgen := hseek.1
  have hplen : 0 < p.length := List.length_pos.2 hp
  unfold filenode.writePlan
  rw [capCando_spec mbs hmbs p]
  generalize hk0 : min p.length mbs.toNat = k0
  have hk0pos : 0 < k0 := by omega
  have hk0le : k0 ≤ p.length := by omega
  have hk0m : (k0 : Int) ≤ mbs := by omega
  simp only [bind, Except.bind]
  have hpa := prevAppendable_spec mbs fn ptr pre post hes hidx
  have hpa2 : ∃ pa, fn.prevAppendable mbs ptr = .ok pa ∧
      (pa = true → ∃ pre1 mp, pre = pre1 ++ [.mem mp] ∧ mp.Len < mbs) := by
    rcases hpa with ⟨_, h2⟩ | ⟨pre1, e, h1, h2⟩
    · exact ⟨false, h2, by simp⟩
    · refine ⟨_, h2, ?_⟩
      intro hb
      cases e with
      | stored se => simp [extent.writable] at hb
      | mem mp =>
        simp only [extent.Len, extent.writable, Bool.and_true, decide_eq_true_eq] at hb
        exact ⟨pre1, mp, h1, hb⟩
  obtain ⟨pa, hpa3, hpa4⟩ := hpa2
  rcases hcase with ⟨hpost, heo⟩ | ⟨e, rest, hpost, hlt⟩
  · subst hpost
    rw [curWritable_end fn ptr (by rw [hes]; simpa using hidx), hpa3]
    simp only [heo, lt_self_iff_false, false_and, if_false, Bool.false_eq_true]
    exact writeBoundary_spec kc st mbs fn hinv hpres ptr pre [] hes hidx (by omega) heo hgen
      (Or.inl rfl) pa hpa4 p k0 hk0pos hk0le hk0m
  · subst hpost
    rw [curWritable_mid fn ptr pre rest e hes hidx, hpa3]
    cases e with
    | mem me =>
      simp only [extent.writable, Bool.true_eq_false, and_false, if_false, if_true]
      obtain ⟨plan, k, h1, h2⟩ := writeInPlace_spec kc st mbs fn hinv hpres ptr pre rest me hes hidx
        hdec h0 hlt hgen p k0 hk0pos hk0le
      exact ⟨plan, k, pre, me, rest, h1, h2⟩
    | stored se =>
      simp only [extent.writable, and_true, Bool.false_eq_true, if_false]
      by_cases hz : ptr.extentOff > 0
      · rw [if_pos hz]
        exact writeSplit_spec kc st mbs fn hinv hpres ptr pre rest se hes hidx hdec hz hlt hgen
          p k0 hk0pos hk0le hk0m
      · rw [if_neg hz]
        have heo : ptr.extentOff = 0 := by omega
        exact writeBoundary_spec kc st mbs fn hinv hpres ptr pre _ hes hidx (by omega) heo hgen
          (Or.inr ⟨se, rest, rfl⟩) pa hpa4 p k0 hk0pos hk0le hk0m

theorem pruneExtents_cons_shape {σ : Type} (mbs : Int) (kc : keepClient σ) (e : extent)
    (post : List extent) (st : σ) (ms : Int) :
    ∃ e1 C, (pruneExtents mbs kc (e :: post) st ms).1 = e1 :: C ∧ e1.Len = e.Len := by
  cases e with
  | stored se => exact ⟨_, _, rfl, rfl⟩
  | mem me =>
    simp only [pruneExtents]
    split
    · exact ⟨_, _, rfl, rfl⟩
    · split
      · exact ⟨_, _, rfl, rfl⟩
      · exact ⟨_, _, rfl, by simp [extent.Len, storedExtent.Len]⟩

theorem pruneExtents_split {σ : Type} (mbs : Int) (kc : keepClient σ) (hkc : kc.Lawful)
    (pre : List extent) (e : extent) (post : List extent) (st : σ) (ms : Int) :
    ∃ A e1 C, (pruneExtents mbs kc (pre ++ e :: post) st ms).1 = A ++ e1 :: C ∧
      A.length = pre.length ∧ sumLen A = sumLen pre ∧ e1.Len = e.Len := by
  rw [pruneExtents_append]
  obtain ⟨h1, h2, h3, _⟩ := pruneExtents_spec mbs kc hkc pre st ms
  obtain ⟨e1, C, h4, h5⟩ := pruneExtents_cons_shape mbs kc e post
    (pruneExtents mbs kc pre st ms).2.1 (pruneExtents mbs kc pre st ms).2.2
  exact ⟨_, e1, C, by simp only [h4], h2, h3, h5⟩

/-- Soundness, presence and zero spares survive pruning. -/
theorem pruneExtents_keeps {σ : Type} (mbs : Int) (kc : keepClient σ) (hkc : kc.Lawful)
    (es : List extent) (st : σ) (ms : Int) :
    (Sound mbs es → Sound mbs (pruneExtents mbs kc es st ms).1) ∧
    (Present kc st es → Present kc (pruneExtents mbs kc es st ms).2.1
      (pruneExtents mbs kc es st ms).1) ∧
    (SpareZero es → SpareZero (pruneExtents mbs kc es st ms).1) := by
  obtain ⟨h1, h2, h3, h4, h5, h6⟩ := pruneExtents_spec mbs kc hkc es st ms
  refine ⟨?_, ?_, ?_⟩
  · intro hs e he
    rcases h5 e he with h | ⟨me, loc, hm, rfl, _⟩
    · exact hs e h
    · have := hs _ hm
      simp only [extent.Len, storedExtent.Len, extent.writable] at this ⊢
      exact ⟨this.1, by simp⟩
  · intro hp se hse
    rcases h5 _ hse with h | ⟨me, loc, hm, heq, hg⟩
    · obtain ⟨b, hb⟩ := hp se h
      exact ⟨b, h1 _ _ hb⟩
    · simp only [extent.stored.injEq] at heq
      subst heq
      exact ⟨_, hg⟩
  · intro hs me hme
    rcases h5 _ hme with h | ⟨me2, loc, hm, heq, hg⟩
    · exact hs me h
    · simp at heq

theorem stepNext_spec (mbs : Int) (fn : filenode) (ptr : filenodePtr) (A C : List extent)
    (e1 : extent) (hes : fn.extents = A ++ e1 :: C) (hidx : ptr.extentIdx = A.length)
    (hsound : Sound mbs fn.extents) (h0 : 0 ≤ ptr.extentOff) (hle : ptr.extentOff ≤ e1.Len)
    (hdec : sumLen A + ptr.extentOff = ptr.off) (hgen : ptr.repacked = fn.repacked) :
    ∃ q, fn.stepNext ptr = .ok q ∧ q.Seeked fn ∧ q.off = ptr.off := by
  unfold filenode.stepNext
  rw [hes, index_mid _ _ _ _ hidx]
  simp only [bind, Except.bind]
  have hcur : ptr.extentIdx.toNat = A.length := by omega
  by_cases h : e1.Len = ptr.extentOff
  · rw [if_pos h]
    refine ⟨_, rfl, ⟨hgen, by simp only; omega, le_refl _, ?_, ?_⟩, rfl⟩
    · simp only
      have : (ptr.extentIdx + 1).toNat = (A ++ [e1]).length := by simp; omega
      rw [hes, this]
      have e2 : A ++ e1 :: C = (A ++ [e1]) ++ C := by simp
      rw [e2, List.take_left, sumLen_append]
      simp only [sumLen]
      omega
    · simp only
      cases C with
      | nil =>
        left
        refine ⟨?_, trivial⟩
        rw [hes]; simp; omega
      | cons c C2 =>
        right
        refine ⟨c, ?_, ?_⟩
        · have : (ptr.extentIdx + 1).toNat = (A ++ [e1]).length := by simp; omega
          rw [hes, this]
          have e2 : A ++ e1 :: c :: C2 = (A ++ [e1]) ++ c :: C2 := by simp
          rw [e2, List.getElem?_append_right (le_refl _)]
          simp
        · rw [hes] at hsound
          simp only [Sound_append, Sound_cons] at hsound
          exact hsound.2.2.1.1
  · rw [if_neg h]
    refine ⟨_, rfl, ⟨hgen, by omega, h0, ?_, Or.inr ⟨e1, ?_, ?_⟩⟩, rfl⟩
    · rw [hes, hcur, List.take_left]
      exact hdec
    · rw [hes, hcur, List.getElem?_append_right (le_refl _)]
      simp
    · omega

theorem writeCopy_spec {σ : Type} (kc : keepClient σ) (hkc : kc.Lawful) (st : σ) (mbs : Int)
    (fn : filenode) (ptr : filenodePtr) (p : List Byte) (plan : WritePlan) (k : Nat)
    (pre2 : List extent) (me2 : memExtent) (post2 : List extent)
    (hs : PlanSpec kc st mbs fn ptr p plan k pre2 me2 post2) :
    ∃ fn1 ptr1 st1, filenode.writeCopy mbs kc plan p st = .ok (fn1, ptr1, p.drop k, k, st1) ∧
      StepSpec kc st mbs fn ptr p fn1 ptr1 k st1 := by
  have hkpos := hs.kpos
  have hkle := hs.kle
  have hfits := hs.fits
  have hoff0 := hs.off0
  have hlen : (p.take k).length = k := by simp; omega
  have hcur : plan.ptr.extentIdx.toNat = pre2.length := by have := hs.idx; omega
  have hsnd := hs.others
  simp only [Sound_append] at hsnd
  have hpresent := hs.present
  rw [hs.extents] at hpresent
  unfold filenode.writeCopy
  dsimp only
  rw [hs.extents, index_mid _ _ _ _ hs.idx]
  simp only [bind, Except.bind]
  rw [hs.cando, hlen, WriteAt_spec me2 (p.take k) _ hoff0 (by rw [hlen]; exact hfits)]
  simp only
  rw [hcur, List.set_append_right _ _ (le_refl _)]
  simp only [Nat.sub_self, List.set_cons_zero, hlen]
  generalize hme3 : memExtent.mk (me2.buf.take plan.ptr.extentOff.toNat ++ p.take k ++
      me2.buf.drop (plan.ptr.extentOff.toNat + k)) me2.spare = me3
  have hlen3 : me3.Len = me2.Len := by
    rw [← hme3]
    simp only [memExtent.Len] at hfits ⊢
    simp
    omega
  have hbuf3 : me3.buf = me2.buf.take plan.ptr.extentOff.toNat ++ p.take k
      ++ me2.buf.drop (plan.ptr.extentOff.toNat + k) := by rw [← hme3]
  have hspare3 : me3.spare = me2.spare := by rw [← hme3]
  -- the node before pruning
  have hsound3 : Sound mbs (pre2 ++ extent.mem me3 :: post2) := by
    simp only [Sound_append, Sound_cons, extent.Len, extent.writable, hlen3]
    exact ⟨hsnd.1, ⟨by omega, fun _ => hs.small⟩, hsnd.2⟩
  have hpres3 : Present kc st (pre2 ++ extent.mem me3 :: post2) := by
    simp only [Present_append, Present_cons_mem] at hpresent ⊢
    exact hpresent
  have hsum3 : sumLen (pre2 ++ extent.mem me3 :: post2) = plan.fn.fileinfo.size := by
    rw [hs.size, hs.extents]
    simp only [sumLen_append, sumLen, extent.Len, hlen3]
  have hbytes3 : extentsBytes kc st (pre2 ++ extent.mem me3 :: post2)
      = splice (fn.content kc st) ptr.off.toNat (p.take k) := by
    simp only [splice, hlen, ← hs.before, ← hs.after, extentsBytes_append, extentsBytes,
      extent.bytes, hbuf3, List.map_append, List.append_assoc]
  have hmem3 : memLen (pre2 ++ extent.mem me3 :: post2) = memLen plan.fn.extents := by
    rw [hs.extents]
    simp only [memLen_append, memLen, hlen3]
  have hspz3 : SpareZero plan.fn.extents → SpareZero (pre2 ++ extent.mem me3 :: post2) := by
    rw [hs.extents]
    simp only [SpareZero_append, SpareZero_cons_mem, hspare3]
    exact id
  have hdec3 : sumLen pre2 + (plan.ptr.extentOff + k) = plan.ptr.off + k := by
    have := hs.decomp
    have := hs.off
    omega
  by_cases hp : plan.ptr.extentOff + (k : Int) ≥ mbs
  · rw [if_pos hp]
    simp only [filenode.pruneMemExtents]
    obtain ⟨A, e1, C, hA1, hA2, hA3, hA4⟩ :=
      pruneExtents_split mbs kc hkc pre2 (.mem me3) post2 st plan.fn.memsize
    obtain ⟨q1, q2, q3, q4, q5, q6⟩ :=
      pruneExtents_spec mbs kc hkc (pre2 ++ extent.mem me3 :: post2) st plan.fn.memsize
    obtain ⟨r1, r2, r3⟩ :=
      pruneExtents_keeps mbs kc hkc (pre2 ++ extent.mem me3 :: post2) st plan.fn.memsize
    generalize hres : pruneExtents mbs kc (pre2 ++ extent.mem me3 :: post2) st plan.fn.memsize
      = res at *
    obtain ⟨q, hq1, hq2, hq3⟩ := stepNext_spec mbs
      { fileinfo := plan.fn.fileinfo, extents := res.1, repacked := plan.fn.repacked,
        memsize := res.2.2 }
      { off := plan.ptr.off + k, extentIdx := plan.ptr.extentIdx,
        extentOff := plan.ptr.extentOff + k, repacked := plan.ptr.repacked }
      A C e1 hA1 (by simp only; rw [hA2]; exact hs.idx) (r1 hsound3) (by simp only; omega)
      (by rw [hA4]; simp only [extent.Len, hlen3]; omega) (by simp only; rw [hA3]; exact hdec3)
      hs.gen
    rw [hq1]
    refine ⟨_, q, _, rfl, ?_⟩
    refine
      { kpos := hkpos, kle := hkle, inv := ⟨?_, r1 hsound3⟩, seeked := hq2,
        off := by rw [hq3]; simp only; rw [hs.off],
        grows := q1, present := r2 hpres3, content := ?_, sizeMax := hs.sizeMax,
        memsize := ?_, spare := fun h => r3 (hspz3 (hs.spare h)), name := hs.name,
        genStep := hs.genStep }
    · simp only
      rw [q3, hsum3]
    · show extentsBytes kc res.2.1 res.1 = _
      rw [q6 hpres3 _ (Extends_refl kc _)]
      exact hbytes3
    · intro hm
      have := hs.memsize hm
      simp only
      omega
  · rw [if_neg hp]
    simp only
    obtain ⟨q, hq1, hq2, hq3⟩ := stepNext_spec mbs
      { fileinfo := plan.fn.fileinfo, extents := pre2 ++ extent.mem me3 :: post2,
        repacked := plan.fn.repacked, memsize := plan.fn.memsize }
      { off := plan.ptr.off + k, extentIdx := plan.ptr.extentIdx,
        extentOff := plan.ptr.extentOff + k, repacked := plan.ptr.repacked }
      pre2 post2 (.mem me3) rfl hs.idx hsound3 (by simp only; omega)
      (by simp only [extent.Len, hlen3]; omega) hdec3 hs.gen
    rw [hq1]
    refine ⟨_, q, _, rfl, ?_⟩
    refine
      { kpos := hkpos, kle := hkle, inv := ⟨hsum3.symm, hsound3⟩, seeked := hq2,
        off := by rw [hq3]; simp only; rw [hs.off],
        grows := Extends_refl kc st, present := hpres3, content := hbytes3,
        sizeMax := hs.sizeMax,
        memsize := ?_, spare := fun h => hspz3 (hs.spare h), name := hs.name,
        genStep := hs.genStep }
    intro hm
    have := hs.memsize hm
    simp only
    omega

theorem writeStep_spec {σ : Type} (kc : keepClient σ) (hkc : kc.Lawful) (st : σ) (mbs : Int)
    (hmbs : 0 < mbs) (fn : filenode) (hinv : fn.Inv mbs) (hpres : Present kc st fn.extents)
    (ptr : filenodePtr) (hseek : ptr.Seeked fn) (p : List Byte) (hp : p ≠ []) :
    ∃ fn1 ptr1 k st1, fn.writeStep mbs kc ptr p st = .ok (fn1, ptr1, p.drop k, k, st1) ∧
      StepSpec kc st mbs fn ptr p fn1 ptr1 k st1 := by
  obtain ⟨plan, k, pre2, me2, post2, h1, h2⟩ := writePlan_spec kc st mbs hmbs fn hinv hpres ptr
    hseek p hp
  obtain ⟨fn1, ptr1, st1, h3, h4⟩ := writeCopy_spec kc hkc st mbs fn ptr p plan k pre2 me2 post2 h2
  refine ⟨fn1, ptr1, k, st1, ?_, h4⟩
  unfold filenode.writeStep
  simp only [bind, Except.bind, h1, h3]

theorem splice_nil (c : List (Option Byte)) (o : Nat) : splice c o [] = c := by
  simp [splice]

theorem splice_splice (c : List (Option Byte)) (o : Nat) (a b : List Byte) (ho : o ≤ c.length) :
    splice (splice c o a) (o + a.length) b = splice c o (a ++ b) := by
  unfold splice
  have h1 : (c.take o ++ a.map some).length = o + a.length := by simp; omega
  rw [← h1, List.take_left, List.drop_append, List.drop_drop, h1]
  simp only [List.map_append, List.append_assoc, List.length_append]
  rw [Nat.add_assoc]

theorem Seeked_off_le {mbs : Int} {fn : filenode} {ptr : filenodePtr} (hinv : fn.Inv mbs)
    (hseek : ptr.Seeked fn) : 0 ≤ ptr.off ∧ ptr.off ≤ fn.fileinfo.size := by
  obtain ⟨pre, post, hes, hidx, hdec, h0, hcase⟩ := Seeked_split hseek
  obtain ⟨i1, i2, i3, i4, i5⟩ := Inv_split hinv hes
  have hpre := sumLen_nonneg _ i3
  have hpost := sumLen_nonneg _ i4
  rcases hcase with ⟨hpost2, heo⟩ | ⟨e, rest, hpost2, hlt⟩
  · subst hpost2
    simp only [sumLen] at i5
    omega
  · subst hpost2
    have hrest := sumLen_nonneg rest (fun x hx => i4 x (by simp [hx]))
    simp only [sumLen] at i5
    omega

theorem content_length {σ : Type} (kc : keepClient σ) (st : σ) {mbs : Int} {fn : filenode}
    (hinv : fn.Inv mbs) : ((fn.content kc st).length : Int) = fn.fileinfo.size := by
  rw [hinv.1]
  exact extentsBytes_length kc st _ (Sound_nonneg hinv.2)

/-- The loop of `Write` ends, with enough fuel, having written all of `p`. -/
theorem writeLoop_spec {σ : Type} (kc : keepClient σ) (hkc : kc.Lawful) (mbs : Int)
    (hmbs : 0 < mbs) : ∀ (fuel : Nat) (p : List Byte) (fn : filenode) (ptr : filenodePtr)
    (n : Int) (st : σ), p.length ≤ fuel → fn.Inv mbs → Present kc st fn.extents → ptr.Seeked fn →
    ∃ ptr1 fn1 st1, filenode.writeLoop mbs kc fuel fn ptr p n st
        = .ok (n + p.length, ptr1, fn1, st1) ∧
      WriteSpec kc st mbs fn ptr p fn1 ptr1 st1 := by
  intro fuel
  induction fuel with
  | zero =>
    intro p fn ptr n st hfuel hinv hpres hseek
    have hp : p = [] := List.length_eq_zero.1 (by omega)
    subst hp
    obtain ⟨o1, o2⟩ := Seeked_off_le hinv hseek
    refine ⟨ptr, fn, st, by simp [filenode.writeLoop], ?_⟩
    exact
      { inv := hinv, seeked := hseek, off := by simp, grows := Extends_refl kc st,
        present := hpres, content := by rw [splice_nil], sizeMax := by simp; omega,
        memsize := id, spare := id, name := ⟨rfl, rfl⟩, genStep := le_refl _ }
  | succ f ih =>
    intro p fn ptr n st hfuel hinv hpres hseek
    obtain ⟨o1, o2⟩ := Seeked_off_le hinv hseek
    by_cases hp : p = []
    · subst hp
      refine ⟨ptr, fn, st, by simp [filenode.writeLoop], ?_⟩
      exact
        { inv := hinv, seeked := hseek, off := by simp, grows := Extends_refl kc st,
          present := hpres, content := by rw [splice_nil], sizeMax := by simp; omega,
          memsize := id, spare := id, name := ⟨rfl, rfl⟩, genStep := le_refl _ }
    · obtain ⟨fn1, ptr1, k, st1, h1, h2⟩ := writeStep_spec kc hkc st mbs hmbs fn hinv hpres ptr
        hseek p hp
      have hk1 := h2.kpos
      have hk2 := h2.kle
      obtain ⟨ptr2, fn2, st2, h3, h4⟩ := ih (p.drop k) fn1 ptr1 (n + k) st1
        (by simp; omega) h2.inv h2.present h2.seeked
      have hplen : 0 < p.length := List.length_pos.2 hp
      have hdl : ((p.drop k).length : Int) = p.length - k := by simp; omega
      refine ⟨ptr2, fn2, st2, ?_, ?_⟩
      · rw [filenode.writeLoop]
        simp only [hplen, if_true, bind, Except.bind, h1, h3]
        congr 2
        omega
      · have hcl := content_length kc st hinv
        exact
          { inv := h4.inv, seeked := h4.seeked,
            off := by rw [h4.off, h2.off]; omega,
            grows := Extends_trans h2.grows h4.grows,
            present := h4.present,
            content := by
              rw [h4.content, h2.content, h2.off]
              have e1 : (ptr.off + (k : Int)).toNat = ptr.off.toNat + (p.take k).length := by
                simp; omega
              rw [e1, splice_splice _ _ _ _ (by omega), List.take_append_drop]
            sizeMax := by rw [h4.sizeMax, h2.sizeMax, h2.off]; omega,
            memsize := fun h => h4.memsize (h2.memsize h),
            spare := fun h => h4.spare (h2.spare h),
            name := ⟨h4.name.1.trans h2.name.1, h4.name.2.trans h2.name.2⟩,
            genStep := le_trans h2.genStep h4.genStep }

theorem listKeep_lawful : listKeep.Lawful where
  keeps := by
    intro st b loc x h
    cases loc with
    | nil => simp [listKeep] at h
    | cons c t =>
      simp only [listKeep] at h ⊢
      split at h
      · rename_i heq
        rw [if_pos heq]
        obtain ⟨hlt, hx⟩ := List.getElem?_eq_some_iff.1 h
        rw [List.getElem?_append_left hlt]
        exact h
      · cases h
  returns := by
    intro st b loc h
    simp only [listKeep, Option.some.injEq] at h
    subst h
    simp [listKeep, List.replicate_succ]

/-- C1. On a file node that satisfies the invariants (size = sum of extent
lengths, every extent of positive length, every memory extent at most
`maxBlockSize` long), whose stored extents name blocks the store holds, for a
pointer with offset `o ≥ 0` that is stale or consistent and any bytes `p`:
`Write(p, ptr)` returns `len(p)` and a nil error without a crash, and the
content of the file is then the old content with the bytes at
`[o1, o1 + len(p))` replaced by `p`, where `o1 = min(o, old size)`; the new
size is `max(old size, o1 + len(p))`, and the invariants still hold. -/
theorem Write_replaces_bytes {σ : Type} (kc : keepClient σ) (hkc : kc.Lawful) (mbs : Int)
    (hmbs : 0 < mbs) (fn : filenode) (hinv : fn.Inv mbs) (st : σ)
    (hpres : Present kc st fn.extents) (ptr : filenodePtr) (h0 : 0 ≤ ptr.off)
    (hptr : ptr.Stale fn ∨ ptr.Consistent fn) (p : List Byte) :
    ∃ ptr1 fn1 st1,
      filenode.Write mbs kc fn p ptr st = .ok ((p.length : Int), ptr1, none, fn1, st1) ∧
      fn1.content kc st1
        = splice (fn.content kc st) (min ptr.off fn.fileinfo.size).toNat p ∧
      fn1.fileinfo.size = max fn.fileinfo.size (min ptr.off fn.fileinfo.size + p.length) ∧
      fn1.Inv mbs := by
  obtain ⟨q, hq1, hq2, hq3⟩ := seek_spec mbs fn hinv ptr h0 hptr
  obtain ⟨ptr1, fn1, st1, h1, h2⟩ := writeLoop_spec kc hkc mbs hmbs p.length p fn q 0 st
    (le_refl _) hinv hpres hq2
  refine ⟨ptr1, fn1, st1, ?_, ?_, ?_, h2.inv⟩
  · unfold filenode.Write
    have hq0 : ¬ q.off < 0 := by
      have := (Seeked_off_le hinv hq2).1
      omega
    simp only [bind, Except.bind, hq1, if_neg hq0, h1, zero_add]
  · rw [h2.content, hq3]
  · rw [h2.sizeMax, hq3]

theorem Write_replaces_bytes_witness :
    (listKeep.Lawful ∧ (0 : Int) < 4 ∧ exFile.Inv 4 ∧ Present listKeep exStore exFile.extents ∧
      0 ≤ exPtr.off ∧ (exPtr.Stale exFile ∨ exPtr.Consistent exFile)) ∧
    ∃ ptr1 fn1 st1,
      filenode.Write 4 listKeep exFile [88, 89, 90] exPtr exStore
        = .ok ((([88, 89, 90] : List Byte).length : Int), ptr1, none, fn1, st1) ∧
      fn1.content listKeep st1
        = splice (exFile.content listKeep exStore) (min exPtr.off exFile.fileinfo.size).toNat
            [88, 89, 90] ∧
      fn1.fileinfo.size
        = max exFile.fileinfo.size
            (min exPtr.off exFile.fileinfo.size + (([88, 89, 90] : List Byte).length : Int)) ∧
      fn1.Inv 4 := by
  have hinv : exFile.Inv 4 := by
    refine ⟨by decide, ?_⟩
    intro e he
    simp only [exFile, List.mem_singleton] at he
    subst he
    decide
  have hpres : Present listKeep exStore exFile.extents := by
    intro se hse
    simp only [exFile, List.mem_singleton, extent.stored.injEq] at hse
    subst hse
    exact ⟨exWorld, by decide⟩
  have hstale : exPtr.Stale exFile ∨ exPtr.Consistent exFile :=
    Or.inl (by unfold filenodePtr.Stale; decide)
  exact ⟨⟨listKeep_lawful, by decide, hinv, hpres, by decide, hstale⟩,
    Write_replaces_bytes listKeep listKeep_lawful 4 (by decide) exFile hinv exStore hpres exPtr
      (by decide) hstale [88, 89, 90]⟩

/-- Scenario "overwrite middle": on the file `world`, writing `XYZ` at offset 1
leaves `wXYZd`. -/
theorem Write_overwrite_middle :
    (filenode.Write 4 listKeep exFile [88, 89, 90] exPtr exStore).map
      (fun r => r.2.2.2.1.content listKeep r.2.2.2.2)
      = .ok [some 119, some 88, some 89, some 90, some 100] := by
  decide

/-! ## Truncate -/

theorem truncateShrink_spec {σ : Type} (kc : keepClient σ) (st : σ) (mbs : Int) (fn : filenode)
    (hinv : fn.Inv mbs) (hsp : SpareZero fn.extents) (size : Int) (h0 : 0 ≤ size)
    (hlt : size < fn.fileinfo.size) :
    ∃ fn1, fn.truncateShrink size = .ok fn1 ∧ TruncateSpec kc st mbs fn size fn1 := by
  obtain ⟨q, hq1, hq2, hq3⟩ := seek_spec mbs fn hinv
    { off := size, extentIdx := 0, extentOff := 0, repacked := fn.repacked - 1 } h0
    (Or.inl (by unfold filenodePtr.Stale; simp))
  simp only at hq3
  have hqoff : q.off = size := by omega
  obtain ⟨pre, post, hes, hidx, hdec, heo0, hcase⟩ := Seeked_split hq2
  obtain ⟨i1, i2, i3, i4, i5⟩ := Inv_split hinv hes
  have hpre := sumLen_nonneg _ i3
  have hcontent : fn.content kc st = extentsBytes kc st (pre ++ post) := by
    simp only [filenode.content, hes]
  have hmin : (min size fn.fileinfo.size).toNat = size.toNat := by omega
  have hz : (size - fn.fileinfo.size).toNat = 0 := by omega
  have hcur : q.extentIdx.toNat = pre.length := by omega
  unfold filenode.truncateShrink
  simp only [bind, Except.bind, hq1]
  rcases hcase with ⟨hpost, heo⟩ | ⟨e, rest, hpost, hlt2⟩
  · subst hpost
    simp only [sumLen] at i5
    omega
  · subst hpost
    have hsound := hinv.2
    rw [hes] at hsound
    simp only [Sound_append, Sound_cons] at hsound
    obtain ⟨hs1, hs2, hs3⟩ := hsound
    rw [hes] at hsp
    simp only [SpareZero_append] at hsp
    rw [hes, sliceFrom_ok _ _ (by omega) (by simp; omega), drop_pre _ _ _ hidx]
    simp only
    by_cases hz0 : q.extentOff = 0
    · rw [if_pos hz0, sliceTo_ok _ _ (by omega) (by simp; omega), take_pre _ _ _ hidx]
      refine ⟨_, rfl, ?_⟩
      refine
        { inv := ⟨by simp only; omega, hs1⟩, spare := hsp.1,
          present := ?_, sizeEq := rfl, content := ?_, memsize := ?_, name := ⟨rfl, rfl⟩,
          genStep := by simp }
      · intro hp
        rw [hes, Present_append] at hp
        exact hp.1
      · show extentsBytes kc st pre = _
        rw [hmin, hz, hcontent]
        simp only [List.replicate_zero, List.append_nil]
        have : size = sumLen pre := by omega
        rw [this, content_take_pre kc st pre _ i3]
      · intro hm
        simp only
        rw [hm, hes, memLen_append]
        omega
    · rw [if_neg hz0, sliceTo_ok _ _ (by omega) (by simp; omega)]
      have e1 : (q.extentIdx + 1).toNat = (pre ++ [e]).length := by simp; omega
      have e2 : pre ++ e :: rest = (pre ++ [e]) ++ rest := by simp
      rw [e1, e2, List.take_left]
      simp only
      rw [index_mid _ _ _ _ hidx]
      have htake : (extentsBytes kc st (pre ++ e :: rest)).take size.toNat
          = extentsBytes kc st pre ++ (e.bytes kc st).take q.extentOff.toNat := by
        have : size = sumLen pre + q.extentOff := by omega
        rw [this]
        exact content_take kc st pre e rest i3 _ heo0 (le_of_lt hlt2)
      cases e with
      | mem me =>
        simp only [extent.Len] at hlt2 hs2
        obtain ⟨r, hr1, hr2, hr3, hr4⟩ := Truncate_spec me q.extentOff heo0
        simp only [hr1]
        rw [set_pre _ _ _ _ _ hidx]
        simp only [SpareZero_cons_mem] at hsp
        obtain ⟨hr5, hr6⟩ := hr4 hsp.2.1
        have hz2 : q.extentOff.toNat - me.buf.length = 0 := by
          simp only [memExtent.Len] at hlt2; omega
        rw [hz2] at hr6
        simp only [List.replicate_zero, List.append_nil] at hr6
        refine ⟨_, rfl, ?_⟩
        refine
          { inv := ⟨?_, ?_⟩, spare := ?_,
            present := ?_, sizeEq := rfl, content := ?_, memsize := ?_, name := ⟨rfl, rfl⟩,
            genStep := by simp }
        · simp only [sumLen_append, sumLen, extent.Len, hr2]
          omega
        · simp only [Sound_append, Sound_cons, Sound_nil, extent.Len, extent.writable, hr2]
          exact ⟨hs1, ⟨by omega, fun _ => by have := hs2.2 rfl; omega⟩, trivial⟩
        · simp only [SpareZero_append, SpareZero_cons_mem, SpareZero_nil]
          exact ⟨hsp.1, hr5, trivial⟩
        · intro hp
          rw [hes] at hp
          simp only [Present_append, Present_cons_mem, Present_nil_iff] at hp ⊢
          exact ⟨hp.1, trivial⟩
        · show extentsBytes kc st (pre ++ [extent.mem r]) = _
          rw [hmin, hz, hcontent, htake]
          simp only [extentsBytes_append, extentsBytes, extent.bytes, List.append_nil, hr6,
            List.map_take, List.replicate_zero]
        · intro hm
          simp only
          rw [hm, hes]
          simp only [memLen_append, memLen, hr2]
          omega
      | stored se =>
        simp only [extent.Len, storedExtent.Len] at hlt2 hs2
        simp only
        rw [set_pre _ _ _ _ _ hidx]
        refine ⟨_, rfl, ?_⟩
        refine
          { inv := ⟨?_, ?_⟩, spare := ?_,
            present := ?_, sizeEq := rfl, content := ?_, memsize := ?_, name := ⟨rfl, rfl⟩,
            genStep := by simp }
        · simp only [sumLen_append, sumLen, extent.Len]
          rw [stored_Slice_to_Len _ _ heo0 (le_of_lt hlt2)]
          omega
        · simp only [Sound_append, Sound_cons, Sound_nil, extent.Len, extent.writable]
          rw [stored_Slice_to_Len _ _ heo0 (le_of_lt hlt2)]
          exact ⟨hs1, ⟨by omega, by simp⟩, trivial⟩
        · simp only [SpareZero_append, SpareZero_cons_stored, SpareZero_nil]
          exact ⟨hsp.1, trivial⟩
        · intro hp
          rw [hes] at hp
          simp only [Present_append, Present_cons_stored, Present_nil_iff,
            storedExtent.Slice] at hp ⊢
          exact ⟨hp.1, hp.2.1, trivial⟩
        · show extentsBytes kc st (pre ++ [extent.stored (se.Slice 0 q.extentOff)]) = _
          rw [hmin, hz, hcontent, htake]
          simp only [extentsBytes_append, extentsBytes, List.append_nil, List.replicate_zero]
          rw [stored_bytes_take kc st se _ heo0]
        · intro hm
          simp only
          rw [hm, hes]
          simp only [memLen_append, memLen]
          omega

theorem truncateGrowStep_spec {σ : Type} (kc : keepClient σ) (st : σ) (mbs : Int)
    (hmbs : 0 < mbs) (fn : filenode) (hinv : fn.Inv mbs) (hsp : SpareZero fn.extents)
    (size : Int) (hlt : fn.fileinfo.size < size) :
    ∃ (fn1 : filenode) (g : Nat), fn.truncateGrowStep mbs size = .ok fn1 ∧ 0 < g ∧
      fn.fileinfo.size + (g : Int) ≤ size ∧ GrowSpec kc st mbs fn g fn1 := by
  -- appending a fresh extent
  have fresh : ∀ g : Nat, 0 < g → (g : Int) ≤ mbs →
      ∀ r : memExtent, r.Len = g → (∀ b ∈ r.spare, b = 0) → r.buf = List.replicate g 0 →
      GrowSpec kc st mbs fn g
        { fileinfo := { name := fn.fileinfo.name, mode := fn.fileinfo.mode,
                        size := fn.fileinfo.size + g },
          extents := fn.extents ++ [.mem r], repacked := fn.repacked,
          memsize := fn.memsize + g } := by
    intro g hg hgm r hr1 hr2 hr3
    refine
      { inv := ⟨?_, ?_⟩, spare := ?_, present := ?_, sizeEq := rfl, content := ?_, memsize := ?_,
        name := ⟨rfl, rfl⟩, genStep := le_refl _ }
    · simp only [sumLen_append, sumLen, extent.Len, hr1]
      rw [hinv.1]; omega
    · simp only [Sound_append, Sound_cons, Sound_nil, extent.Len, extent.writable, hr1]
      exact ⟨hinv.2, ⟨by omega, fun _ => hgm⟩, trivial⟩
    · simp only [SpareZero_append, SpareZero_cons_mem, SpareZero_nil]
      exact ⟨hsp, hr2, trivial⟩
    · intro hp
      simp only [Present_append, Present_cons_mem, Present_nil_iff]
      exact ⟨hp, trivial⟩
    · simp only [filenode.content, extentsBytes_append, extentsBytes, extent.bytes, hr3,
        List.append_nil, List.map_replicate]
    · intro hm
      simp only [memLen_append, memLen, hr1]
      omega
  have freshRun : ∀ g : Nat, (g : Int) = (if mbs < size - fn.fileinfo.size then mbs
        else size - fn.fileinfo.size) →
      ∃ r : memExtent, memExtent.Truncate { buf := [], spare := [] } g = .ok r ∧
        r.Len = g ∧ (∀ b ∈ r.spare, b = 0) ∧ r.buf = List.replicate g 0 := by
    intro g _
    obtain ⟨r, hr1, hr2, hr3, hr4⟩ := Truncate_spec { buf := [], spare := [] } (g : Int)
      (by omega)
    obtain ⟨hr5, hr6⟩ := hr4 (by simp)
    exact ⟨r, hr1, hr2, hr5, by simpa using hr6⟩
  unfold filenode.truncateGrowStep
  dsimp only
  rcases List.eq_nil_or_concat fn.extents with hnil | ⟨pre, e, hes⟩
  · rw [hnil]
    simp only [List.getLast?_nil, memExtent.Len, List.length_nil, Int.ofNat_zero, sub_zero,
      zero_add, bind, Except.bind]
    generalize hg : (if mbs < size - fn.fileinfo.size then mbs else size - fn.fileinfo.size) = gi
    have hgi : 0 < gi ∧ gi ≤ mbs ∧ fn.fileinfo.size + gi ≤ size := by
      rw [← hg]; split <;> omega
    obtain ⟨r, hr1, hr2, hr3, hr4⟩ := freshRun gi.toNat (by rw [hg]; omega)
    have hcast : ((gi.toNat : Nat) : Int) = gi := by omega
    rw [hcast] at hr1
    rw [hr1]
    refine ⟨_, gi.toNat, rfl, by omega, by omega, ?_⟩
    have := fresh gi.toNat (by omega) (by omega) r hr2 hr3 hr4
    simp only [hcast, hnil, List.nil_append, if_true] at this ⊢
    exact this
  · rw [List.concat_eq_append] at hes
    have hsound := hinv.2
    rw [hes] at hsound hsp
    simp only [Sound_append, Sound_cons, Sound_nil] at hsound
    simp only [SpareZero_append] at hsp
    rw [hes]
    simp only [List.getLast?_concat, bind, Except.bind]
    cases e with
    | stored se =>
      simp only [extent.writable, Bool.not_false, Bool.true_or, memExtent.Len, List.length_nil,
        Int.ofNat_zero, sub_zero, zero_add]
      generalize hg : (if mbs < size - fn.fileinfo.size then mbs else size - fn.fileinfo.size) = gi
      have hgi : 0 < gi ∧ gi ≤ mbs ∧ fn.fileinfo.size + gi ≤ size := by
        rw [← hg]; split <;> omega
      obtain ⟨r, hr1, hr2, hr3, hr4⟩ := freshRun gi.toNat (by rw [hg]; omega)
      have hcast : ((gi.toNat : Nat) : Int) = gi := by omega
      rw [hcast] at hr1
      rw [hr1]
      refine ⟨_, gi.toNat, rfl, by omega, by omega, ?_⟩
      have := fresh gi.toNat (by omega) (by omega) r hr2 hr3 hr4
      simp only [hcast, hes, if_true] at this ⊢
      exact this
    | mem me =>
      simp only [extent.writable, Bool.not_true, Bool.false_or, extent.Len]
      by_cases hfull : (me.buf.length : Int) ≥ mbs
      · simp only [memExtent.Len, hfull, decide_True, List.length_nil, Int.ofNat_zero, sub_zero,
          zero_add]
        generalize hg : (if mbs < size - fn.fileinfo.size then mbs
          else size - fn.fileinfo.size) = gi
        have hgi : 0 < gi ∧ gi ≤ mbs ∧ fn.fileinfo.size + gi ≤ size := by
          rw [← hg]; split <;> omega
        obtain ⟨r, hr1, hr2, hr3, hr4⟩ := freshRun gi.toNat (by rw [hg]; omega)
        have hcast : ((gi.toNat : Nat) : Int) = gi := by omega
        rw [hcast] at hr1
        rw [hr1]
        refine ⟨_, gi.toNat, rfl, by omega, by omega, ?_⟩
        have := fresh gi.toNat (by omega) (by omega) r hr2 hr3 hr4
        simp only [hcast, hes, if_true] at this ⊢
        exact this
      · simp only [memExtent.Len, hfull, decide_False]
        generalize hg : (if mbs - (me.buf.length : Int) < size - fn.fileinfo.size
          then mbs - (me.buf.length : Int) else size - fn.fileinfo.size) = gi
        have hgi : 0 < gi ∧ me.Len + gi ≤ mbs ∧ fn.fileinfo.size + gi ≤ size := by
          simp only [memExtent.Len]
          rw [← hg]; split <;> omega
        have hmp : 0 ≤ me.Len := by simp [memExtent.Len]
        obtain ⟨r, hr1, hr2, hr3, hr4⟩ := Truncate_spec me (me.Len + gi) (by omega)
        have hr1b : me.Truncate ((me.buf.length : Int) + gi) = .ok r := hr1
        rw [hr1b]
        simp only [SpareZero_cons_mem] at hsp
        obtain ⟨hr5, hr6⟩ := hr4 hsp.2.1
        have htk : me.buf.take (me.Len + gi).toNat = me.buf := by
          apply List.take_of_length_le
          simp only [memExtent.Len]; omega
        have hcnt : (me.Len + gi).toNat - me.buf.length = gi.toNat := by
          simp only [memExtent.Len]; omega
        rw [htk, hcnt] at hr6
        have hcast : ((gi.toNat : Nat) : Int) = gi := by omega
        refine ⟨_, gi.toNat, rfl, by omega, by omega, ?_⟩
        simp only [Bool.false_eq_true, if_false, List.dropLast_concat]
        have hi5 : fn.fileinfo.size = sumLen pre + me.Len := by
          rw [hinv.1, hes]; simp [sumLen_append, sumLen, extent.Len]
        refine
          { inv := ⟨?_, ?_⟩, spare := ?_, present := ?_, sizeEq := by simp only [hcast],
            content := ?_, memsize := ?_, name := ⟨rfl, rfl⟩, genStep := by simp }
        · simp only [sumLen_append, sumLen, extent.Len, hr2]
          omega
        · simp only [Sound_append, Sound_cons, Sound_nil, extent.Len, extent.writable, hr2]
          exact ⟨hsound.1, ⟨by omega, fun _ => by omega⟩, trivial⟩
        · simp only [SpareZero_append, SpareZero_cons_mem, SpareZero_nil]
          exact ⟨hsp.1, hr5, trivial⟩
        · intro hp
          rw [hes] at hp
          simp only [Present_append, Present_cons_mem, Present_nil_iff] at hp ⊢
          exact hp
        · simp only [filenode.content, hes, extentsBytes_append, extentsBytes, extent.bytes,
            hr6, List.append_nil, List.map_append, List.map_replicate, List.append_assoc]
        · intro hm
          simp only
          rw [hm, hes]
          simp only [memLen_append, memLen, hr2]
          omega

theorem truncateGrow_spec {σ : Type} (kc : keepClient σ) (st : σ) (mbs : Int) (hmbs : 0 < mbs)
    (size : Int) : ∀ (fuel : Nat) (fn : filenode), (size - fn.fileinfo.size).toNat ≤ fuel →
    fn.Inv mbs → SpareZero fn.extents → fn.fileinfo.size ≤ size →
    ∃ fn1, filenode.truncateGrow mbs size fuel fn = .ok fn1 ∧
      GrowSpec kc st mbs fn (size - fn.fileinfo.size).toNat fn1 := by
  intro fuel
  induction fuel with
  | zero =>
    intro fn hfuel hinv hsp hle
    have heq : ¬ size > fn.fileinfo.size := by omega
    have hz : (size - fn.fileinfo.size).toNat = 0 := by omega
    refine ⟨fn, by rw [filenode.truncateGrow, if_neg heq], ?_⟩
    rw [hz]
    exact
      { inv := hinv, spare := hsp, present := id, sizeEq := by simp, content := by simp,
        memsize := id, name := ⟨rfl, rfl⟩, genStep := le_refl _ }
  | succ f ih =>
    intro fn hfuel hinv hsp hle
    by_cases hgt : size > fn.fileinfo.size
    · obtain ⟨fn1, g, h1, h2, h3, h4⟩ := truncateGrowStep_spec kc st mbs hmbs fn hinv hsp size hgt
      have hs1 := h4.sizeEq
      obtain ⟨fn2, h5, h6⟩ := ih fn1 (by omega) h4.inv h4.spare (by omega)
      refine ⟨fn2, ?_, ?_⟩
      · rw [filenode.truncateGrow, if_pos hgt]
        simp only [bind, Except.bind, h1, h5]
      · have hsum : (size - fn.fileinfo.size).toNat = g + (size - fn1.fileinfo.size).toNat := by
          omega
        rw [hsum]
        exact
          { inv := h6.inv, spare := h6.spare, present := fun h => h6.present (h4.present h),
            sizeEq := by rw [h6.sizeEq, h4.sizeEq]; push_cast; omega,
            content := by
              rw [h6.content, h4.content, List.append_assoc, List.append_replicate_replicate],
            memsize := fun h => h6.memsize (h4.memsize h),
            name := ⟨h6.name.1.trans h4.name.1, h6.name.2.trans h4.name.2⟩,
            genStep := le_trans h4.genStep h6.genStep }
    · have hz : (size - fn.fileinfo.size).toNat = 0 := by omega
      refine ⟨fn, by rw [filenode.truncateGrow, if_neg hgt], ?_⟩
      rw [hz]
      exact
        { inv := hinv, spare := hsp, present := id, sizeEq := by simp, content := by simp,
          memsize := id, name := ⟨rfl, rfl⟩, genStep := le_refl _ }

/-- `Truncate` to a non-negative size, on a node that satisfies the invariants
and whose spare bytes are zero. -/
theorem Truncate_spec_of_inv {σ : Type} (kc : keepClient σ) (st : σ) (mbs : Int)
    (hmbs : 0 < mbs) (fn : filenode) (hinv : fn.Inv mbs) (hsp : SpareZero fn.extents)
    (size : Int) (h0 : 0 ≤ size) :
    ∃ fn1, filenode.Truncate mbs fn size = .ok fn1 ∧ TruncateSpec kc st mbs fn size fn1 := by
  unfold filenode.Truncate
  by_cases hlt : size < fn.fileinfo.size
  · rw [if_pos hlt]
    exact truncateShrink_spec kc st mbs fn hinv hsp size h0 hlt
  · rw [if_neg hlt]
    obtain ⟨fn1, h1, h2⟩ := truncateGrow_spec kc st mbs hmbs size _ fn (le_refl _) hinv hsp
      (by omega)
    refine ⟨fn1, h1, ?_⟩
    have hcl := content_length kc st hinv
    exact
      { inv := h2.inv, spare := h2.spare, present := h2.present,
        sizeEq := by rw [h2.sizeEq]; omega,
        content := by
          rw [h2.content]
          congr 1
          symm
          apply List.take_of_length_le
          omega,
        memsize := h2.memsize, name := h2.name, genStep := h2.genStep }

theorem emptyFile_inv (mbs : Int) (name : Str) :
    (emptyFile name).Inv mbs ∧ SpareZero (emptyFile name).extents := by
  refine ⟨⟨rfl, ?_⟩, ?_⟩
  · simp [emptyFile, Sound_nil]
  · simp [emptyFile, SpareZero_nil]

/-- Every reachable file node satisfies the invariants, its spare bytes are
zero, its stored extents name blocks of the store, and `memsize` is the sum of
the lengths of its memory extents. -/
theorem Reachable_inv {σ : Type} (kc : keepClient σ) (hkc : kc.Lawful) (mbs : Int)
    (hmbs : 0 < mbs) (fn : filenode) (st : σ) (hr : Reachable mbs kc fn st) :
    fn.Inv mbs ∧ SpareZero fn.extents ∧ Present kc st fn.extents ∧
      fn.memsize = memLen fn.extents := by
  induction hr with
  | empty name st =>
    exact ⟨(emptyFile_inv mbs name).1, (emptyFile_inv mbs name).2, by
      simp [emptyFile, Present_nil_iff], rfl⟩
  | write p ptr hr hptr hw ih =>
    rename_i fn st n ptr1 err fn1 st1
    obtain ⟨i1, i2, i3, i4⟩ := ih
    by_cases hneg : ptr.off < 0
    · have hseek : fn.seek ptr = .ok ptr := by
        unfold filenode.seek
        rw [if_pos hneg]
      unfold filenode.Write at hw
      simp only [bind, Except.bind, hseek, if_pos hneg] at hw
      simp only [Except.ok.injEq, Prod.mk.injEq] at hw
      obtain ⟨_, _, _, h4, h5⟩ := hw
      subst h4 h5
      exact ⟨i1, i2, i3, i4⟩
    · obtain ⟨q, hq1, hq2, hq3⟩ := seek_spec mbs fn i1 ptr (by omega) hptr
      obtain ⟨ptr2, fn2, st2, h1, h2⟩ := writeLoop_spec kc hkc mbs hmbs p.length p fn q 0 st
        (le_refl _) i1 i3 hq2
      have hq0 : ¬ q.off < 0 := by
        have := (Seeked_off_le i1 hq2).1
        omega
      unfold filenode.Write at hw
      simp only [bind, Except.bind, hq1, if_neg hq0, h1] at hw
      simp only [Except.ok.injEq, Prod.mk.injEq] at hw
      obtain ⟨_, _, _, h4, h5⟩ := hw
      subst h4 h5
      exact ⟨h2.inv, h2.spare i2, h2.present, h2.memsize i4⟩
  | truncate size hr h0 ht ih =>
    rename_i fn st fn1
    obtain ⟨i1, i2, i3, i4⟩ := ih
    obtain ⟨fn2, h1, h2⟩ := Truncate_spec_of_inv kc st mbs hmbs fn i1 i2 size h0
    rw [h1] at ht
    simp only [Except.ok.injEq] at ht
    subst ht
    exact ⟨h2.inv, h2.spare, h2.present i3, h2.memsize i4⟩

/-- C2. For every file node reachable from an empty file by `Write` and
`Truncate` calls and every `N ≥ 0`: `Truncate(N)` returns, the size is then
`N`, and the file holds the first `min(N, old size)` bytes of the previous
content followed by `max(0, N - old size)` zero bytes.  In particular, after
a further `Truncate(M)` with `M ≥ N` the file holds the first
`min(N, old size)` old bytes followed by zero bytes only: what was cut off by
a shrink never comes back. -/
theorem Truncate_keeps_head_then_zeros {σ : Type} (kc : keepClient σ) (hkc : kc.Lawful)
    (mbs : Int) (hmbs : 0 < mbs) (fn : filenode) (st : σ) (hr : Reachable mbs kc fn st)
    (N : Int) (hN : 0 ≤ N) :
    ∃ fn1, filenode.Truncate mbs fn N = .ok fn1 ∧ fn1.fileinfo.size = N ∧
      fn1.content kc st
        = (fn.content kc st).take (min N fn.fileinfo.size).toNat
          ++ List.replicate (N - fn.fileinfo.size).toNat (some 0) ∧
      ∀ M : Int, N ≤ M → ∃ fn2, filenode.Truncate mbs fn1 M = .ok fn2 ∧
        fn2.content kc st
          = (fn.content kc st).take (min N fn.fileinfo.size).toNat
            ++ List.replicate (M - min N fn.fileinfo.size).toNat (some 0) := by
  obtain ⟨i1, i2, i3, i4⟩ := Reachable_inv kc hkc mbs hmbs fn st hr
  obtain ⟨fn1, h1, h2⟩ := Truncate_spec_of_inv kc st mbs hmbs fn i1 i2 N hN
  refine ⟨fn1, h1, h2.sizeEq, h2.content, ?_⟩
  intro M hM
  obtain ⟨fn2, h3, h4⟩ := Truncate_spec_of_inv kc st mbs hmbs fn1 h2.inv h2.spare M (by omega)
  refine ⟨fn2, h3, ?_⟩
  have hcl1 := content_length kc st h2.inv
  have hs1 := h2.sizeEq
  rw [h4.content, hs1]
  have ht : (fn1.content kc st).take (min M N).toNat = fn1.content kc st := by
    apply List.take_of_length_le
    omega
  rw [ht, h2.content, List.append_assoc, List.append_replicate_replicate]
  congr 2
  omega

theorem exGrown_eq : filenode.Truncate 4 (emptyFile [102]) 5 = .ok exGrown := by
  rfl

theorem exWritten_eq : filenode.Write 4 listKeep exGrown [65, 66]
      { off := 2, extentIdx := 0, extentOff := 0, repacked := -1 } []
    = .ok (2, { off := 4, extentIdx := 1, extentOff := 0, repacked := 0 }, none,
        exWritten.1, exWritten.2) := by
  rfl

theorem exWritten_reachable : Reachable 4 listKeep exWritten.1 exWritten.2 :=
  Reachable.write [65, 66] { off := 2, extentIdx := 0, extentOff := 0, repacked := -1 }
    (Reachable.truncate 5 (Reachable.empty [102] []) (by decide) exGrown_eq)
    (Or.inl (by unfold filenodePtr.Stale; decide)) exWritten_eq

theorem Truncate_keeps_head_then_zeros_witness :
    (listKeep.Lawful ∧ (0 : Int) < 4 ∧ Reachable 4 listKeep exWritten.1 exWritten.2 ∧
      (0 : Int) ≤ 3) ∧
    ∃ fn1, filenode.Truncate 4 exWritten.1 3 = .ok fn1 ∧ fn1.fileinfo.size = 3 ∧
      fn1.content listKeep exWritten.2
        = (exWritten.1.content listKeep exWritten.2).take (min 3 exWritten.1.fileinfo.size).toNat
          ++ List.replicate (3 - exWritten.1.fileinfo.size).toNat (some 0) ∧
      ∀ M : Int, 3 ≤ M → ∃ fn2, filenode.Truncate 4 fn1 M = .ok fn2 ∧
        fn2.content listKeep exWritten.2
          = (exWritten.1.content listKeep exWritten.2).take
              (min 3 exWritten.1.fileinfo.size).toNat
            ++ List.replicate (M - min 3 exWritten.1.fileinfo.size).toNat (some 0) :=
  ⟨⟨listKeep_lawful, by decide, exWritten_reachable, by decide⟩,
    Truncate_keeps_head_then_zeros listKeep listKeep_lawful 4 (by decide) exWritten.1 exWritten.2
      exWritten_reachable 3 (by decide)⟩

/-- Scenario "truncate grow then shrink": an empty file after `Truncate(5)`,
`AB` written at offset 2 and `Truncate(3)` holds two zero bytes and `A`; after
`Truncate(5)` again it holds these followed by two zero bytes. -/
theorem Truncate_grow_then_shrink :
    (filenode.Truncate 4 exWritten.1 3).map (fun fn => fn.content listKeep exWritten.2)
      = .ok [some 0, some 0, some 65] ∧
    ((filenode.Truncate 4 exWritten.1 3).bind (fun fn => filenode.Truncate 4 fn 5)).map
      (fun fn => fn.content listKeep exWritten.2)
      = .ok [some 0, some 0, some 65, some 0, some 0] := by
  constructor <;> rfl

/-! ## Loading and marshalling on concrete manifests -/

set_option maxRecDepth 100000 in
/-- C4 (the code departs from the claim): the canonical manifest `exCanonical`
(two blocks of 3 bytes, the file `bar` being the first and the file `foo` the
second) is loaded without error, and `MarshalManifest(".")` on the loaded
tree returns another text: both locators are listed twice and the segment of
`foo` is `9:3:foo`. -/
theorem marshal_of_loaded_canonical_differs :
    (FileSystem exCanonical).map
        (fun root => marshalledText (root.MarshalManifest (2 ^ 26) deadKeep (str ".") ()))
      = .ok (.ok (.ok exRemarshalled))
    ∧ exRemarshalled ≠ exCanonical := by
  decide

set_option maxRecDepth 100000 in
/-- C5 (the code departs from the claim): the line of `exOverflow` is
accepted, its segment `9223372036854775807:1:f` has length 1, and yet no
extent is appended to the file `f`, whose size stays 0: the sum `offset+length`
overflows `int64`. -/
theorem segment_overflow_appends_nothing :
    segmentExtents 9223372036854775807 1
        [{ locator := emptyLocator, size := 0, offset := 0, length := 0 }] 0 = ([], 0)
    ∧ (FileSystem exOverflow).map (fun root => getNode root [str "f"])
      = .ok (some (.file { fileinfo := { name := str "f", mode := 0o755, size := 0 },
                           extents := [], repacked := 0, memsize := 0 })) := by
  exact ⟨by decide, by rfl⟩

set_option maxRecDepth 100000 in
/-- C6 (the code departs from the claim): the segment `9223372036854775806:2:foo`
of `exOverflowFoo` ends at byte `2^63` of a stream of 3 bytes, and
`loadManifest` does not fail on it. -/
theorem segment_past_stream_accepted :
    (3 : Int) < 9223372036854775806 + 2
    ∧ (FileSystem exOverflowFoo).map (fun root => getNode root [str "foo"])
      = .ok (some (.file { fileinfo := { name := str "foo", mode := 0o755, size := 0 },
                           extents := [], repacked := 0, memsize := 0 })) := by
  exact ⟨by decide, by rfl⟩

/-! ## Maps and sorted names -/

theorem mapGet_mapPut_ne {α : Type} (m : List (Str × α)) (name k : Str) (v : α) (h : k ≠ name) :
    mapGet (mapPut m name v) k = mapGet m k := by
  induction m with
  | nil => rfl
  | cons kv rest ih =>
    obtain ⟨k0, w⟩ := kv
    unfold mapPut
    by_cases h0 : k0 = name
    · simp only [h0, if_true]
      unfold mapGet
      simp [Ne.symm h]
    · simp only [h0, if_false]
      unfold mapGet
      by_cases h1 : k0 = k
      · simp [h1]
      · simp [h1, ih]

theorem mapGet_mapPut_eq {α : Type} (m : List (Str × α)) (name : Str) (v w : α)
    (h : mapGet m name = some w) : mapGet (mapPut m name v) name = some v := by
  induction m with
  | nil => simp [mapGet] at h
  | cons kv rest ih =>
    obtain ⟨k0, w0⟩ := kv
    unfold mapPut
    by_cases h0 : k0 = name
    · simp only [h0, if_true]
      unfold mapGet
      simp
    · simp only [h0, if_false]
      unfold mapGet at h ⊢
      simp only [h0, if_false] at h ⊢
      exact ih h

theorem mapGet_isSome_iff {α : Type} (m : List (Str × α)) (k : Str) :
    (∃ v, mapGet m k = some v) ↔ k ∈ m.map Prod.fst := by
  induction m with
  | nil => simp [mapGet]
  | cons kv rest ih =>
    obtain ⟨k0, w0⟩ := kv
    unfold mapGet
    by_cases h0 : k0 = k
    · simp [h0]
    · simp only [h0, if_false, List.map_cons, List.mem_cons]
      rw [ih]
      constructor
      · intro h; exact Or.inr h
      · rintro (h | h)
        · exact absurd h.symm h0
        · exact h

theorem sortedNames_nodup {α : Type} (m : List (Str × α)) : (sortedNames m).Nodup := by
  unfold sortedNames
  exact (List.perm_insertionSort _ _).nodup_iff.mpr (List.nodup_dedup _)

theorem mem_sortedNames {α : Type} (m : List (Str × α)) (k : Str) :
    k ∈ sortedNames m ↔ ∃ v, mapGet m k = some v := by
  unfold sortedNames
  rw [(List.perm_insertionSort _ _).mem_iff, List.mem_dedup, mapGet_isSome_iff]

/-! ## The stream variables of `marshalManifest` -/

theorem filesOf_mapPut_dir (dn : dirnode) (name : Str) (node : dirnode) (names : List Str)
    (h : name ∉ names) :
    filesOf { dn with inodes := mapPut dn.inodes name (.dir node) } names = filesOf dn names := by
  unfold filesOf
  apply List.filterMap_congr
  intro n hn
  have hne : n ≠ name := fun e => h (e ▸ hn)
  simp only [fileOf, mapGet_mapPut_ne _ _ _ _ hne]

theorem marshalNames_stream {σ : Type} (recur : dirnode → Str → σ → Except Fault (Marshalled σ))
    (pfx : Str) (names : List Str) :
    ∀ (s s1 : MarshalState σ), names.Nodup →
      marshalNames recur pfx names s = .ok (none, s1) →
      marshalFiles (filesOf s.dn names) s.stream = .ok s1.stream := by
  induction names with
  | nil =>
    intro s s1 _ h
    simp only [marshalNames, Except.ok.injEq, Prod.mk.injEq, true_and] at h
    subst h; rfl
  | cons name rest ih =>
    intro s s1 hnd h
    have hnotin : name ∉ rest := (List.nodup_cons.mp hnd).1
    have hnd1 : rest.Nodup := (List.nodup_cons.mp hnd).2
    unfold marshalNames at h
    cases hg : mapGet s.dn.inodes name with
    | none => simp [hg] at h
    | some node =>
      cases node with
      | dir node =>
        simp only [hg, bind, Except.bind] at h
        generalize recur node (pfx ++ [47] ++ name) s.st = r at h
        cases r with
        | error f => simp at h
        | ok r =>
          obtain ⟨res, node1, st1⟩ := r
          cases res with
          | error e => simp at h
          | ok subdir =>
            simp only at h
            have := ih _ _ hnd1 h
            simp only [filesOf_mapPut_dir _ _ _ _ hnotin] at this
            have h0 : filesOf s.dn (name :: rest) = filesOf s.dn rest := by
              simp [filesOf, fileOf, hg]
            rw [h0]; exact this
      | file fn =>
        simp only [hg] at h
        cases hm : marshalFile name fn s.stream with
        | error f => simp [hm, bind, Except.bind] at h
        | ok stream =>
          simp only [hm, bind, Except.bind] at h
          have := ih _ _ hnd1 h
          have h0 : filesOf s.dn (name :: rest) = (name, fn) :: filesOf s.dn rest := by
            simp [filesOf, fileOf, hg]
          rw [h0]
          simp only [marshalFiles, hm]
          exact this

/-- What a successful call of `marshalManifest` has done: `sync` returned nil
and left the directory `dn1`, the loop over the file nodes of `dn1` in sorted
name order gave the stream variables `s`, and the text is `streamText` of
them and of the text of the sub-directories. -/
theorem marshalManifestFuel_ok {σ : Type} (mbs : Int) (kc : keepClient σ) (fuel : Nat)
    (dn : dirnode) (pfx : Str) (st : σ) (text : Str) (dn2 : dirnode) (st2 : σ)
    (h : marshalManifestFuel mbs kc fuel dn pfx st = .ok (.ok text, dn2, st2)) :
    ∃ dn1 st1 s subdirs, dn.sync mbs kc st = .ok (none, dn1, st1) ∧
      marshalFiles (filesOf dn1 (sortedNames dn1.inodes)) emptyStream = .ok s ∧
      text = streamText pfx s subdirs := by
  cases fuel with
  | zero => simp [marshalManifestFuel] at h
  | succ fuel =>
    unfold marshalManifestFuel at h
    cases hs : dn.sync mbs kc st with
    | error f => simp [hs, bind, Except.bind] at h
    | ok r =>
      obtain ⟨err, dn1, st1⟩ := r
      simp only [hs, bind, Except.bind] at h
      cases err with
      | some e => simp at h
      | none =>
        simp only at h
        cases hm : marshalNames (marshalManifestFuel mbs kc fuel) pfx (sortedNames dn1.inodes)
            { stream := { streamLen := 0, segments := [], blocks := [] }, subdirs := [],
              dn := dn1, st := st1 } with
        | error f => simp [hm] at h
        | ok r2 =>
          obtain ⟨err2, s2⟩ := r2
          simp only [hm] at h
          cases err2 with
          | some e => simp at h
          | none =>
            simp only [Except.ok.injEq, Prod.mk.injEq] at h
            refine ⟨dn1, st1, s2.stream, s2.subdirs, rfl, ?_, ?_⟩
            · exact marshalNames_stream _ _ _ _ _ (sortedNames_nodup _) hm
            · have := h.1
              simp only [Except.ok.injEq] at this
              exact this.symm

/-! ## `sync` on a directory without memory extents -/

theorem syncExtents_stored {σ : Type} (mbs : Int) (kc : keepClient σ) (name : Str)
    (fn : filenode) (hall : ∀ e ∈ fn.extents, ∃ se, e = extent.stored se) :
    ∀ (count idx : Nat) (s : SyncState σ), mapGet s.dn.inodes name = some (.file fn) →
      idx + count ≤ fn.extents.length →
      syncExtents mbs kc name count idx s = .ok (none, s) := by
  intro count
  induction count with
  | zero => intro idx s _ _; rfl
  | succ count ih =>
    intro idx s hg hle
    unfold syncExtents
    simp only [hg]
    have hlt : idx < fn.extents.length := by omega
    have hget : fn.extents[idx]? = some fn.extents[idx] := List.getElem?_eq_getElem hlt
    obtain ⟨se, hse⟩ := hall _ (List.getElem_mem hlt)
    rw [hget, hse]
    simp only
    exact ih (idx + 1) s hg (by omega)

theorem syncNames_stored {σ : Type} (mbs : Int) (kc : keepClient σ) (names : List Str) :
    ∀ (s : SyncState σ), AllStored s.dn → syncNames mbs kc names s = .ok (none, s) := by
  induction names with
  | nil => intro s _; rfl
  | cons name rest ih =>
    intro s hall
    unfold syncNames
    cases hg : mapGet s.dn.inodes name with
    | none => simp only; exact ih s hall
    | some node =>
      cases node with
      | dir d => simp only; exact ih s hall
      | file fn =>
        simp only
        have hfn : fileOf s.dn name = some fn := by simp [fileOf, hg]
        rw [syncExtents_stored mbs kc name fn (hall name fn hfn) _ 0 s hg (by omega)]
        simp only [bind, Except.bind]
        exact ih s hall

/-- A directory whose files hold only stored extents is left as it is by
`sync`, which returns nil and uploads nothing. -/
theorem sync_stored {σ : Type} (mbs : Int) (kc : keepClient σ) (dn : dirnode) (st : σ)
    (hall : AllStored dn) : dn.sync mbs kc st = .ok (none, dn, st) := by
  unfold dirnode.sync
  rw [syncNames_stored mbs kc _ _ hall]
  simp [bind, Except.bind, flush]

/-! ## Induction over the loops of `marshalManifest` -/

theorem marshalExtents_induct (name : Str) (Q : List storedExtent → StreamState → Prop)
    (hstep : ∀ done e s, Q done s → Q (done ++ [e]) (marshalExtent name s e)) :
    ∀ (es : List extent) (done : List storedExtent) (s0 s : StreamState), Q done s0 →
      marshalExtents name es s0 = .ok s →
      ∃ ses, es = ses.map extent.stored ∧ Q (done ++ ses) s := by
  intro es
  induction es with
  | nil =>
    intro done s0 s h0 h
    simp only [marshalExtents, Except.ok.injEq] at h
    subst h
    exact ⟨[], rfl, by simpa using h0⟩
  | cons e rest ih =>
    intro done s0 s h0 h
    cases e with
    | mem me => simp [marshalExtents] at h
    | stored se =>
      simp only [marshalExtents] at h
      obtain ⟨ses, hes, hq⟩ := ih (done ++ [se]) _ s (hstep done se s0 h0) h
      refine ⟨se :: ses, by simp [hes], ?_⟩
      simpa using hq

theorem marshalFiles_induct (P : List (Str × filenode) → StreamState → Prop)
    (hstep : ∀ done n fn s s1, P done s → marshalFile n fn s = .ok s1 → P (done ++ [(n, fn)]) s1) :
    ∀ (files done : List (Str × filenode)) (s0 s : StreamState), P done s0 →
      marshalFiles files s0 = .ok s → P (done ++ files) s := by
  intro files
  induction files with
  | nil =>
    intro done s0 s h0 h
    simp only [marshalFiles, Except.ok.injEq] at h
    subst h
    simpa using h0
  | cons f rest ih =>
    intro done s0 s h0 h
    obtain ⟨n, fn⟩ := f
    simp only [marshalFiles] at h
    cases hm : marshalFile n fn s0 with
    | error f => simp [hm] at h
    | ok s1 =>
      simp only [hm] at h
      have := ih (done ++ [(n, fn)]) s1 s (hstep done n fn s0 s1 h0 hm) h
      simpa using this

/-! ## The locator list of a stream line -/

theorem marshalExtent_blocks (name : Str) (s : StreamState) (e : storedExtent) :
    (marshalExtent name s e).blocks =
      if s.blocks.getLast? = some e.locator then s.blocks else s.blocks ++ [e.locator] := by
  unfold marshalExtent
  by_cases h : s.blocks.getLast? = some e.locator <;> simp [h]

theorem chain_ne_marshalExtent (name : Str) (s : StreamState) (e : storedExtent)
    (h : List.Chain' (· ≠ ·) s.blocks) : List.Chain' (· ≠ ·) (marshalExtent name s e).blocks := by
  rw [marshalExtent_blocks]
  by_cases hl : s.blocks.getLast? = some e.locator
  · simp only [hl, if_true]; exact h
  · simp only [hl, if_false]
    rw [List.chain'_append]
    refine ⟨h, List.chain'_singleton _, ?_⟩
    intro x hx y hy
    simp only [List.head?_cons, Option.mem_def, Option.some.injEq] at hy
    subst hy
    intro hxy
    apply hl
    rw [Option.mem_def] at hx
    rw [hx, hxy]

/-- The invariant of the locator list: no two adjacent locators are equal,
every locator is that of an extent already seen, and there is a locator as
soon as an extent was seen. -/
theorem marshalFile_blocks (n : Str) (fn : filenode) (s s1 : StreamState)
    (hm : marshalFile n fn s = .ok s1) (h : List.Chain' (· ≠ ·) s.blocks) :
    List.Chain' (· ≠ ·) s1.blocks ∧
    (∀ b ∈ s1.blocks, b ∈ s.blocks ∨ ∃ se, extent.stored se ∈ fn.extents ∧ se.locator = b) ∧
    (s.blocks ≠ [] ∨ fn.extents ≠ [] → s1.blocks ≠ []) := by
  unfold marshalFile at hm
  by_cases h0 : fn.extents.length = 0
  · simp only [h0, if_true, Except.ok.injEq] at hm
    subst hm
    have hnil : fn.extents = [] := List.length_eq_zero.mp h0
    refine ⟨h, fun b hb => Or.inl hb, ?_⟩
    rintro (h1 | h1)
    · exact h1
    · exact absurd hnil h1
  · simp only [h0, if_false] at hm
    have key := marshalExtents_induct n
      (fun done t => List.Chain' (· ≠ ·) t.blocks ∧
        (∀ b ∈ t.blocks, b ∈ s.blocks ∨ ∃ se, se ∈ done ∧ se.locator = b) ∧
        (s.blocks ≠ [] ∨ done ≠ [] → t.blocks ≠ []))
      (by
        intro done e t ⟨hc, hb, hne⟩
        refine ⟨chain_ne_marshalExtent n t e hc, ?_, ?_⟩
        · intro b hb1
          rw [marshalExtent_blocks] at hb1
          by_cases hl : t.blocks.getLast? = some e.locator
          · simp only [hl, if_true] at hb1
            rcases hb b hb1 with h1 | ⟨se, h1, h2⟩
            · exact Or.inl h1
            · exact Or.inr ⟨se, by simp [h1], h2⟩
          · simp only [hl, if_false, List.mem_append, List.mem_singleton] at hb1
            rcases hb1 with hb1 | hb1
            · rcases hb b hb1 with h1 | ⟨se, h1, h2⟩
              · exact Or.inl h1
              · exact Or.inr ⟨se, by simp [h1], h2⟩
            · exact Or.inr ⟨e, by simp, hb1.symm⟩
        · intro _
          rw [marshalExtent_blocks]
          by_cases hl : t.blocks.getLast? = some e.locator
          · simp only [hl, if_true]
            intro hnil
            rw [hnil] at hl
            simp at hl
          · simp [hl])
      fn.extents [] s s1 ⟨h, fun b hb => Or.inl hb, fun hh => by simpa using hh⟩ hm
    obtain ⟨ses, hes, hc, hb, hne⟩ := key
    refine ⟨hc, ?_, ?_⟩
    · intro b hb1
      rcases hb b hb1 with h1 | ⟨se, h1, h2⟩
      · exact Or.inl h1
      · refine Or.inr ⟨se, ?_, h2⟩
        rw [hes]
        simp only [List.nil_append] at h1
        exact List.mem_map_of_mem _ h1
    · intro _
      apply hne
      right
      intro hnil
      simp only [List.nil_append] at hnil
      rw [hnil] at hes
      simp [hes] at h0

theorem marshalFiles_blocks (files : List (Str × filenode)) (s : StreamState)
    (hm : marshalFiles files emptyStream = .ok s) :
    List.Chain' (· ≠ ·) s.blocks ∧
    (∀ b ∈ s.blocks, ∃ f ∈ files, ∃ se, extent.stored se ∈ f.2.extents ∧ se.locator = b) ∧
    ((∃ f ∈ files, f.2.extents ≠ []) → s.blocks ≠ []) := by
  have key := marshalFiles_induct
    (fun done t => List.Chain' (· ≠ ·) t.blocks ∧
      (∀ b ∈ t.blocks, ∃ f ∈ done, ∃ se, extent.stored se ∈ f.2.extents ∧ se.locator = b) ∧
      ((∃ f ∈ done, f.2.extents ≠ []) → t.blocks ≠ []))
    (by
      intro done n fn t t1 ⟨hc, hb, hne⟩ hm1
      obtain ⟨hc1, hb1, hne1⟩ := marshalFile_blocks n fn t t1 hm1 hc
      refine ⟨hc1, ?_, ?_⟩
      · intro b hbm
        rcases hb1 b hbm with h1 | ⟨se, h1, h2⟩
        · obtain ⟨f, hf, se, h3, h4⟩ := hb b h1
          exact ⟨f, by simp [hf], se, h3, h4⟩
        · exact ⟨(n, fn), by simp, se, h1, h2⟩
      · rintro ⟨f, hf, hfne⟩
        apply hne1
        simp only [List.mem_append, List.mem_singleton] at hf
        rcases hf with hf | hf
        · exact Or.inl (hne ⟨f, hf, hfne⟩)
        · subst hf; exact Or.inr hfne)
    files [] emptyStream s
    ⟨by simp [emptyStream], by simp [emptyStream], by simp⟩ hm
  simpa using key

theorem chain_ne_lineBlocks (s : StreamState) (h : List.Chain' (· ≠ ·) s.blocks) :
    List.Chain' (· ≠ ·) (lineBlocks s) := by
  unfold lineBlocks
  by_cases h0 : s.blocks.length = 0
  · simp [h0]
  · simp only [h0, if_false]; exact h

theorem eq_singleton_of_chain_ne (l : List Str) (b : Str) (hc : List.Chain' (· ≠ ·) l)
    (hall : ∀ x ∈ l, x = b) (hne : l ≠ []) : l = [b] := by
  match l, hc, hall, hne with
  | [x], _, hall, _ => simp [hall x (by simp)]
  | x :: y :: rest, hc, hall, _ =>
    exfalso
    have h1 := hall x (by simp)
    have h2 := hall y (by simp)
    rw [List.chain'_cons] at hc
    exact hc.1 (h1.trans h2.symm)

theorem mem_filesOf (dn : dirnode) (names : List Str) (n : Str) (fn : filenode) :
    (n, fn) ∈ filesOf dn names ↔ n ∈ names ∧ fileOf dn n = some fn := by
  unfold filesOf
  rw [List.mem_filterMap]
  constructor
  · rintro ⟨a, ha, h⟩
    cases hf : fileOf dn a with
    | none => simp [hf] at h
    | some fn1 =>
      simp only [hf, Option.map_some', Option.some.injEq, Prod.mk.injEq] at h
      obtain ⟨h1, h2⟩ := h
      subst h1; subst h2
      exact ⟨ha, hf⟩
  · rintro ⟨h1, h2⟩
    exact ⟨n, h1, by simp [h2]⟩

theorem fileOf_mem_sortedNames (dn : dirnode) (n : Str) (fn : filenode)
    (h : fileOf dn n = some fn) : n ∈ sortedNames dn.inodes := by
  rw [mem_sortedNames]
  unfold fileOf at h
  cases hg : mapGet dn.inodes n with
  | none => simp [hg] at h
  | some v => exact ⟨v, rfl⟩

theorem mem_filesOf_sorted (dn : dirnode) (n : Str) (fn : filenode) :
    (n, fn) ∈ filesOf dn (sortedNames dn.inodes) ↔ fileOf dn n = some fn := by
  rw [mem_filesOf]
  exact ⟨fun h => h.2, fun h => ⟨fileOf_mem_sortedNames dn n fn h, h⟩⟩

/-- C9: in the stream line `marshalManifest` emits for a directory no two
adjacent locators are equal; and when every extent of every file of the
directory is a stored extent of one locator `L` (and there is such an
extent), the locators of the line are `L`, once.  The line is described by
the variables `s` the loop over the file nodes ends with: its locators are
`lineBlocks s`. -/
theorem marshal_locators_listed_once {σ : Type} (mbs : Int) (kc : keepClient σ) (fuel : Nat)
    (dn : dirnode) (pfx : Str) (st : σ) (text : Str) (dn2 : dirnode) (st2 : σ)
    (h : marshalManifestFuel mbs kc fuel dn pfx st = .ok (.ok text, dn2, st2)) :
    ∃ dn1 st1 s subdirs, dn.sync mbs kc st = .ok (none, dn1, st1) ∧
      marshalFiles (filesOf dn1 (sortedNames dn1.inodes)) emptyStream = .ok s ∧
      text = streamText pfx s subdirs ∧
      List.Chain' (· ≠ ·) (lineBlocks s) ∧
      ∀ L, (∀ name fn, fileOf dn name = some fn →
              ∀ e ∈ fn.extents, ∃ se, e = extent.stored se ∧ se.locator = L) →
           (∃ name fn, fileOf dn name = some fn ∧ fn.extents ≠ []) →
           lineBlocks s = [L] := by
  obtain ⟨dn1, st1, s, subdirs, hsync, hfiles, htext⟩ :=
    marshalManifestFuel_ok mbs kc fuel dn pfx st text dn2 st2 h
  obtain ⟨hc, hb, hne⟩ := marshalFiles_blocks _ s hfiles
  refine ⟨dn1, st1, s, subdirs, hsync, hfiles, htext, chain_ne_lineBlocks s hc, ?_⟩
  intro L hall hsome
  have hst : AllStored dn := by
    intro name fn hf e he
    obtain ⟨se, hse, _⟩ := hall name fn hf e he
    exact ⟨se, hse⟩
  rw [sync_stored mbs kc dn st hst] at hsync
  simp only [Except.ok.injEq, Prod.mk.injEq, true_and] at hsync
  obtain ⟨hdn, _⟩ := hsync
  subst hdn
  have hne1 : s.blocks ≠ [] := by
    apply hne
    obtain ⟨name, fn, hf, hx⟩ := hsome
    exact ⟨(name, fn), (mem_filesOf_sorted dn name fn).mpr hf, hx⟩
  have hall1 : ∀ b ∈ s.blocks, b = L := by
    intro b hb1
    obtain ⟨f, hf, se, hse, hl⟩ := hb b hb1
    obtain ⟨se1, h1, h2⟩ := hall f.1 f.2 ((mem_filesOf_sorted dn f.1 f.2).mp hf) _ hse
    simp only [extent.stored.injEq] at h1
    subst h1
    rw [← hl, h2]
  have : lineBlocks s = s.blocks := by
    unfold lineBlocks
    simp [hne1]
  rw [this]
  exact eq_singleton_of_chain_ne s.blocks L hc hall1 hne1

/-- The theorem `marshal_locators_listed_once` at the directory `exShared`,
whose two files hold the same block: the line is
`. acbd18db4cc2f85cedef654fccc4a4d8+3 1:2:a 0:3:b`. -/
theorem marshal_locators_listed_once_witness :
    marshalManifestFuel (2 ^ 26) deadKeep 1 exShared (str ".") ()
      = .ok (.ok (str ". acbd18db4cc2f85cedef654fccc4a4d8+3 1:2:a 0:3:b\n"), exShared, ())
    ∧ ∃ dn1 st1 s subdirs, exShared.sync (2 ^ 26) deadKeep () = .ok (none, dn1, st1) ∧
      marshalFiles (filesOf dn1 (sortedNames dn1.inodes)) emptyStream = .ok s ∧
      str ". acbd18db4cc2f85cedef654fccc4a4d8+3 1:2:a 0:3:b\n" = streamText (str ".") s subdirs ∧
      List.Chain' (· ≠ ·) (lineBlocks s) ∧
      ∀ L, (∀ name fn, fileOf exShared name = some fn →
              ∀ e ∈ fn.extents, ∃ se, e = extent.stored se ∧ se.locator = L) →
           (∃ name fn, fileOf exShared name = some fn ∧ fn.extents ≠ []) →
           lineBlocks s = [L] :=
  ⟨by rfl, marshal_locators_listed_once (2 ^ 26) deadKeep 1 exShared (str ".") ()
    (str ". acbd18db4cc2f85cedef654fccc4a4d8+3 1:2:a 0:3:b\n") exShared () (by rfl)⟩

/-! ## The segment list of a stream line -/

theorem getLast?_snoc {α : Type} (pre : List α) (a : α) : (pre ++ [a]).getLast? = some a := by
  simp

theorem marshalExtent_streamLen (name : Str) (s : StreamState) (e : storedExtent) :
    (marshalExtent name s e).streamLen = blockStart s e + e.size := by
  unfold marshalExtent blockStart
  by_cases h : s.blocks.getLast? = some e.locator <;> simp [h]

theorem marshalExtent_segments_nil (name : Str) (s : StreamState) (e : storedExtent)
    (h : s.segments = []) :
    (marshalExtent name s e).segments =
      [{ name := name, offset := blockStart s e + e.offset, length := e.length }] := by
  unfold marshalExtent blockStart
  by_cases hb : s.blocks.getLast? = some e.locator <;> simp [h, hb]

theorem marshalExtent_segments_merge (name : Str) (s : StreamState) (e : storedExtent)
    (pre : List m1segment) (prev : m1segment) (h : s.segments = pre ++ [prev])
    (hm : prev.name = name ∧ prev.offset + prev.length = blockStart s e + e.offset) :
    (marshalExtent name s e).segments =
      pre ++ [{ prev with length := prev.length + e.length }] := by
  unfold blockStart at hm
  unfold marshalExtent
  by_cases hb : s.blocks.getLast? = some e.locator
  · simp only [hb, if_true] at hm
    simp [h, hb, hm.1, hm.2]
  · simp only [hb, if_false] at hm
    simp [h, hb, hm.1, hm.2]

theorem marshalExtent_segments_append (name : Str) (s : StreamState) (e : storedExtent)
    (pre : List m1segment) (prev : m1segment) (h : s.segments = pre ++ [prev])
    (hm : ¬ (prev.name = name ∧ prev.offset + prev.length = blockStart s e + e.offset)) :
    (marshalExtent name s e).segments =
      s.segments ++ [{ name := name, offset := blockStart s e + e.offset, length := e.length }] := by
  unfold blockStart at hm
  unfold marshalExtent blockStart
  by_cases hb : s.blocks.getLast? = some e.locator
  · simp only [hb, if_true] at hm
    simp only [hb, decide_True, if_true, h, getLast?_snoc, if_neg hm]
  · simp only [hb, if_false] at hm
    simp only [hb, decide_False, if_false, h, getLast?_snoc, Bool.false_eq_true, if_neg hm]

theorem chain_append_singleton {α : Type} (R : α → α → Prop) (pre : List α) (a : α) :
    List.Chain' R (pre ++ [a]) ↔ List.Chain' R pre ∧ ∀ x ∈ pre.getLast?, R x a := by
  rw [List.chain'_append]
  simp

theorem marshalExtent_chain (name : Str) (s : StreamState) (e : storedExtent)
    (h : List.Chain' (fun a b => ¬ Mergeable a b) s.segments) :
    List.Chain' (fun a b => ¬ Mergeable a b) (marshalExtent name s e).segments := by
  rcases List.eq_nil_or_concat s.segments with hnil | ⟨pre, prev, hc⟩
  · rw [marshalExtent_segments_nil name s e hnil]
    exact List.chain'_singleton _
  · rw [List.concat_eq_append] at hc
    by_cases hm : prev.name = name ∧ prev.offset + prev.length = blockStart s e + e.offset
    · rw [marshalExtent_segments_merge name s e pre prev hc hm]
      rw [hc, chain_append_singleton] at h
      rw [chain_append_singleton]
      refine ⟨h.1, ?_⟩
      intro x hx hmer
      exact h.2 x hx ⟨hmer.1, hmer.2⟩
    · rw [marshalExtent_segments_append name s e pre prev hc hm]
      rw [chain_append_singleton]
      refine ⟨h, ?_⟩
      intro x hx hmer
      rw [hc] at hx
      simp only [getLast?_snoc, Option.mem_def, Option.some.injEq] at hx
      subst hx
      exact hm ⟨hmer.1, hmer.2⟩

theorem marshalExtent_names (name : Str) (s : StreamState) (e : storedExtent)
    (seg : m1segment) (h : seg ∈ (marshalExtent name s e).segments) :
    seg.name = name ∨ ∃ old ∈ s.segments, old.name = seg.name := by
  rcases List.eq_nil_or_concat s.segments with hnil | ⟨pre, prev, hc⟩
  · rw [marshalExtent_segments_nil name s e hnil] at h
    simp only [List.mem_singleton] at h
    left; rw [h]
  · rw [List.concat_eq_append] at hc
    by_cases hm : prev.name = name ∧ prev.offset + prev.length = blockStart s e + e.offset
    · rw [marshalExtent_segments_merge name s e pre prev hc hm] at h
      simp only [List.mem_append, List.mem_singleton] at h
      rcases h with h | h
      · right; exact ⟨seg, by rw [hc]; simp [h], rfl⟩
      · left; rw [h]; exact hm.1
    · rw [marshalExtent_segments_append name s e pre prev hc hm] at h
      simp only [List.mem_append, List.mem_singleton] at h
      rcases h with h | h
      · right; exact ⟨seg, h, rfl⟩
      · left; rw [h]

/-- The segments of another file are left alone by a round of the loop. -/
theorem marshalExtent_filter_ne (name : Str) (s : StreamState) (e : storedExtent) (m : Str)
    (hne : m ≠ name) :
    (marshalExtent name s e).segments.filter (fun seg => decide (seg.name = m)) =
      s.segments.filter (fun seg => decide (seg.name = m)) := by
  rcases List.eq_nil_or_concat s.segments with hnil | ⟨pre, prev, hc⟩
  · rw [marshalExtent_segments_nil name s e hnil, hnil]
    simp [Ne.symm hne]
  · rw [List.concat_eq_append] at hc
    by_cases hm : prev.name = name ∧ prev.offset + prev.length = blockStart s e + e.offset
    · rw [marshalExtent_segments_merge name s e pre prev hc hm, hc]
      have : prev.name ≠ m := by rw [hm.1]; exact Ne.symm hne
      simp [List.filter_append, this]
    · rw [marshalExtent_segments_append name s e pre prev hc hm]
      simp [List.filter_append, Ne.symm hne]

theorem marshalFiles_induct_at (files : List (Str × filenode))
    (P : List (Str × filenode) → StreamState → Prop)
    (hstep : ∀ done n fn rest s s1, files = done ++ (n, fn) :: rest → P done s →
      marshalFile n fn s = .ok s1 → P (done ++ [(n, fn)]) s1) :
    ∀ (rest done : List (Str × filenode)) (s0 s : StreamState), files = done ++ rest →
      P done s0 → marshalFiles rest s0 = .ok s → P files s := by
  intro rest
  induction rest with
  | nil =>
    intro done s0 s hf h0 h
    simp only [marshalFiles, Except.ok.injEq] at h
    subst h
    rw [hf]
    simpa using h0
  | cons f rest ih =>
    intro done s0 s hf h0 h
    obtain ⟨n, fn⟩ := f
    simp only [marshalFiles] at h
    cases hm : marshalFile n fn s0 with
    | error f => simp [hm] at h
    | ok s1 =>
      simp only [hm] at h
      exact ih (done ++ [(n, fn)]) s1 s (by simp [hf]) (hstep done n fn rest s0 s1 hf h0 hm) h

theorem filesOf_names_sublist (dn : dirnode) (names : List Str) :
    ((filesOf dn names).map Prod.fst).Sublist names := by
  induction names with
  | nil => simp [filesOf]
  | cons n rest ih =>
    unfold filesOf at ih ⊢
    cases hf : fileOf dn n with
    | none =>
      simp only [List.filterMap_cons, hf, Option.map_none']
      exact List.Sublist.cons n ih
    | some fn =>
      simp only [List.filterMap_cons, hf, Option.map_some', List.map_cons]
      exact List.Sublist.cons₂ n ih

theorem filesOf_nodup (dn : dirnode) :
    ((filesOf dn (sortedNames dn.inodes)).map Prod.fst).Nodup :=
  (filesOf_names_sublist dn _).nodup (sortedNames_nodup _)

/-- The loop over the extents of one file keeps the segment list free of
mergeable neighbours, names its new segments after the file, and leaves the
segments of the other files alone. -/
theorem marshalFile_segments (n : Str) (fn : filenode) (s s1 : StreamState)
    (hm : marshalFile n fn s = .ok s1)
    (hc : List.Chain' (fun a b => ¬ Mergeable a b) s.segments)
    (hfresh : ∀ seg ∈ s.segments, seg.name ≠ n) :
    List.Chain' (fun a b => ¬ Mergeable a b) s1.segments ∧
    (∀ seg ∈ s1.segments, seg.name = n ∨ ∃ old ∈ s.segments, old.name = seg.name) ∧
    (∀ m, m ≠ n → s1.segments.filter (fun seg => decide (seg.name = m)) =
      s.segments.filter (fun seg => decide (seg.name = m))) := by
  unfold marshalFile at hm
  by_cases h0 : fn.extents.length = 0
  · simp only [h0, if_true, Except.ok.injEq] at hm
    subst hm
    refine ⟨?_, ?_, ?_⟩
    · simp only
      rw [chain_append_singleton]
      refine ⟨hc, ?_⟩
      intro x hx hmer
      exact hfresh x (List.mem_of_mem_getLast? hx) hmer.1
    · intro seg hseg
      simp only [List.mem_append, List.mem_singleton] at hseg
      rcases hseg with h | h
      · exact Or.inr ⟨seg, h, rfl⟩
      · left; rw [h]
    · intro m hne
      simp [List.filter_append, Ne.symm hne]
  · simp only [h0, if_false] at hm
    have key := marshalExtents_induct n
      (fun _ t => List.Chain' (fun a b => ¬ Mergeable a b) t.segments ∧
        (∀ seg ∈ t.segments, seg.name = n ∨ ∃ old ∈ s.segments, old.name = seg.name) ∧
        (∀ m, m ≠ n → t.segments.filter (fun seg => decide (seg.name = m)) =
          s.segments.filter (fun seg => decide (seg.name = m))))
      (by
        intro done e t ⟨h1, h2, h3⟩
        refine ⟨marshalExtent_chain n t e h1, ?_, ?_⟩
        · intro seg hseg
          rcases marshalExtent_names n t e seg hseg with h | ⟨old, hold, hn⟩
          · exact Or.inl h
          · rcases h2 old hold with h | ⟨old1, hold1, hn1⟩
            · left; rw [← hn, h]
            · exact Or.inr ⟨old1, hold1, hn1.trans hn⟩
        · intro m hne
          rw [marshalExtent_filter_ne n t e m hne]
          exact h3 m hne)
      fn.extents [] s s1 ⟨hc, fun seg hseg => Or.inr ⟨seg, hseg, rfl⟩, fun _ _ => rfl⟩ hm
    obtain ⟨_, _, h1, h2, h3⟩ := key
    exact ⟨h1, h2, h3⟩

theorem marshalExtents_windows_rest (n L : Str) (sz : Int) (ls : List Int) :
    ∀ (o : Int) (t : StreamState) (pre : List m1segment) (X len : Int),
      t.blocks.getLast? = some L →
      t.segments = pre ++ [{ name := n, offset := X, length := len }] →
      X + len = t.streamLen - sz + o →
      ∃ t1, marshalExtents n (blockWindows L sz o ls) t = .ok t1 ∧
        t1.segments = pre ++ [{ name := n, offset := X, length := len + ls.sum }] := by
  induction ls with
  | nil =>
    intro o t pre X len _ hs _
    exact ⟨t, rfl, by simpa using hs⟩
  | cons l ls ih =>
    intro o t pre X len hb hs hx
    simp only [blockWindows, marshalExtents]
    have hstart : blockStart t { locator := L, size := sz, offset := o, length := l }
        = t.streamLen - sz := by
      simp [blockStart, hb]
    have hseg := marshalExtent_segments_merge n t
      { locator := L, size := sz, offset := o, length := l } pre _ hs
      ⟨rfl, by rw [hstart]; exact hx⟩
    have hblocks := marshalExtent_blocks n t { locator := L, size := sz, offset := o, length := l }
    simp only [hb, if_true] at hblocks
    have hlen := marshalExtent_streamLen n t { locator := L, size := sz, offset := o, length := l }
    rw [hstart] at hlen
    simp only at hlen hseg
    obtain ⟨t1, h1, h2⟩ := ih (o + l) _ pre X (len + l) (by rw [hblocks]; exact hb) hseg
      (by rw [hlen]; omega)
    refine ⟨t1, h1, ?_⟩
    rw [h2]
    simp only [List.sum_cons]
    rw [add_assoc]

/-- A file whose extents are consecutive windows of one block gets one
segment, of the total length of the windows. -/
theorem marshalFile_windows (n L : Str) (sz o l : Int) (ls : List Int) (fn : filenode)
    (s : StreamState) (hext : fn.extents = blockWindows L sz o (l :: ls))
    (hfresh : ∀ seg ∈ s.segments, seg.name ≠ n) :
    ∃ s1 X, marshalFile n fn s = .ok s1 ∧
      s1.segments = s.segments ++ [{ name := n, offset := X, length := (l :: ls).sum }] := by
  unfold marshalFile
  have h0 : fn.extents.length ≠ 0 := by rw [hext]; simp [blockWindows]
  simp only [h0, if_false]
  rw [hext]
  simp only [blockWindows, marshalExtents]
  have hseg : (marshalExtent n s { locator := L, size := sz, offset := o, length := l }).segments
      = s.segments ++
        [m1segment.mk n (blockStart s { locator := L, size := sz, offset := o, length := l } + o)
          l] := by
    rcases List.eq_nil_or_concat s.segments with hnil | ⟨pre, prev, hc⟩
    · rw [marshalExtent_segments_nil n s _ hnil, hnil]; rfl
    · rw [List.concat_eq_append] at hc
      rw [marshalExtent_segments_append n s _ pre prev hc]
      intro hm
      exact hfresh prev (by rw [hc]; simp) hm.1
  have hblocks : (marshalExtent n s { locator := L, size := sz, offset := o, length := l }).blocks.getLast?
      = some L := by
    rw [marshalExtent_blocks]
    by_cases hb : s.blocks.getLast? = some L
    · simp [hb]
    · simp [hb]
  have hlen := marshalExtent_streamLen n s { locator := L, size := sz, offset := o, length := l }
  simp only at hlen
  obtain ⟨t1, h1, h2⟩ := marshalExtents_windows_rest n L sz ls (o + l) _ s.segments _ l hblocks hseg
    (by rw [hlen]; omega)
  refine ⟨t1, blockStart s { locator := L, size := sz, offset := o, length := l } + o, h1, ?_⟩
  rw [h2]
  simp

theorem marshalFiles_segments (files : List (Str × filenode)) (s : StreamState)
    (hnd : (files.map Prod.fst).Nodup)
    (hm : marshalFiles files emptyStream = .ok s) :
    List.Chain' (fun a b => ¬ Mergeable a b) s.segments ∧
    (∀ seg ∈ s.segments, seg.name ∈ files.map Prod.fst) ∧
    (∀ f ∈ files, ∀ L sz o l ls, f.2.extents = blockWindows L sz o (l :: ls) →
      ∃ X, s.segments.filter (fun seg => decide (seg.name = f.1)) =
        [{ name := f.1, offset := X, length := (l :: ls).sum }]) := by
  have key := marshalFiles_induct_at files
    (fun done t => List.Chain' (fun a b => ¬ Mergeable a b) t.segments ∧
      (∀ seg ∈ t.segments, seg.name ∈ done.map Prod.fst) ∧
      (∀ f ∈ done, ∀ L sz o l ls, f.2.extents = blockWindows L sz o (l :: ls) →
        ∃ X, t.segments.filter (fun seg => decide (seg.name = f.1)) =
          [{ name := f.1, offset := X, length := (l :: ls).sum }]))
    (by
      intro done n fn rest t t1 hfiles ⟨hc, hnames, hwin⟩ hm1
      have hnd1 : ((done ++ (n, fn) :: rest).map Prod.fst).Nodup := hfiles ▸ hnd
      have hnotin : n ∉ done.map Prod.fst := by
        rw [List.map_append, List.map_cons] at hnd1
        have := (List.nodup_append.mp hnd1).2.2
        intro hmem
        exact this hmem (List.mem_cons_self _ _)
      have hfresh : ∀ seg ∈ t.segments, seg.name ≠ n := by
        intro seg hseg heq
        exact hnotin (heq ▸ hnames seg hseg)
      obtain ⟨hc1, hn1, hf1⟩ := marshalFile_segments n fn t t1 hm1 hc hfresh
      refine ⟨hc1, ?_, ?_⟩
      · intro seg hseg
        rcases hn1 seg hseg with h | ⟨old, hold, hn⟩
        · simp [h]
        · have := hnames old hold
          rw [hn] at this
          simp only [List.map_append, List.mem_append]
          exact Or.inl this
      · intro f hf L sz o l ls hext
        simp only [List.mem_append, List.mem_singleton] at hf
        rcases hf with hf | hf
        · have hne : f.1 ≠ n := by
            intro heq
            exact hnotin (heq ▸ List.mem_map_of_mem Prod.fst hf)
          rw [hf1 f.1 hne]
          exact hwin f hf L sz o l ls hext
        · subst hf
          obtain ⟨s2, X, h1, h2⟩ := marshalFile_windows n L sz o l ls fn t hext hfresh
          rw [hm1] at h1
          simp only [Except.ok.injEq] at h1
          subst h1
          refine ⟨X, ?_⟩
          rw [h2, List.filter_append]
          have : t.segments.filter (fun seg => decide (seg.name = n)) = [] := by
            rw [List.filter_eq_nil_iff]
            intro seg hseg
            simpa using hfresh seg hseg
          simp [this])
    files [] emptyStream s rfl
    ⟨by simp [emptyStream], by simp [emptyStream], by simp⟩ hm
  exact key

/-- C10: in the stream line `marshalManifest` emits for a directory no two
adjacent segments are mergeable (the same file name, the second one starting
where the first one ends); and a file whose extents, after `sync`, are
consecutive windows of one block has exactly one segment in the line, of the
total length of the windows.  The line is described by the variables `s`
the loop over the file nodes ends with: its segments are `s.segments`. -/
theorem marshal_segments_merged {σ : Type} (mbs : Int) (kc : keepClient σ) (fuel : Nat)
    (dn : dirnode) (pfx : Str) (st : σ) (text : Str) (dn2 : dirnode) (st2 : σ)
    (h : marshalManifestFuel mbs kc fuel dn pfx st = .ok (.ok text, dn2, st2)) :
    ∃ dn1 st1 s subdirs, dn.sync mbs kc st = .ok (none, dn1, st1) ∧
      marshalFiles (filesOf dn1 (sortedNames dn1.inodes)) emptyStream = .ok s ∧
      text = streamText pfx s subdirs ∧
      List.Chain' (fun a b => ¬ Mergeable a b) s.segments ∧
      ∀ name fn, fileOf dn1 name = some fn →
        ∀ L sz o l ls, fn.extents = blockWindows L sz o (l :: ls) →
          ∃ X, s.segments.filter (fun seg => decide (seg.name = name)) =
            [{ name := name, offset := X, length := (l :: ls).sum }] := by
  obtain ⟨dn1, st1, s, subdirs, hsync, hfiles, htext⟩ :=
    marshalManifestFuel_ok mbs kc fuel dn pfx st text dn2 st2 h
  obtain ⟨hc, _, hwin⟩ := marshalFiles_segments _ s (filesOf_nodup dn1) hfiles
  refine ⟨dn1, st1, s, subdirs, hsync, hfiles, htext, hc, ?_⟩
  intro name fn hf L sz o l ls hext
  exact hwin (name, fn) ((mem_filesOf_sorted dn1 name fn).mpr hf) L sz o l ls hext

set_option maxRecDepth 100000 in
/-- The theorem `marshal_segments_merged` at the directory `exAppendedDir`,
whose file `name` was written as `AAA` and then appended with `BBB`: the
line is `. a 0:6:name`. -/
theorem marshal_segments_merged_witness :
    exAppended = .ok exAppendedFile
    ∧ marshalManifestFuel (2 ^ 26) listKeep 1 exAppendedDir (str ".") []
      = .ok (.ok (str ". a 0:6:name\n"), exAppendedSynced, [str "AAABBB"])
    ∧ ∃ dn1 st1 s subdirs, exAppendedDir.sync (2 ^ 26) listKeep [] = .ok (none, dn1, st1) ∧
      marshalFiles (filesOf dn1 (sortedNames dn1.inodes)) emptyStream = .ok s ∧
      str ". a 0:6:name\n" = streamText (str ".") s subdirs ∧
      List.Chain' (fun a b => ¬ Mergeable a b) s.segments ∧
      ∀ name fn, fileOf dn1 name = some fn →
        ∀ L sz o l ls, fn.extents = blockWindows L sz o (l :: ls) →
          ∃ X, s.segments.filter (fun seg => decide (seg.name = name)) =
            [{ name := name, offset := X, length := (l :: ls).sum }] :=
  ⟨by rfl, by rfl, marshal_segments_merged (2 ^ 26) listKeep 1 exAppendedDir (str ".") []
    (str ". a 0:6:name\n") exAppendedSynced [str "AAABBB"] (by rfl)⟩

/-! ## The windows the segments select -/

theorem blockRefs_append (bs : Str → Int) (bl : List Str) (b : Str) :
    blockRefs bs (bl ++ [b]) =
      blockRefs bs bl ++ (List.range (bs b).toNat).map (fun j => (b, j)) := by
  simp [blockRefs]

theorem refs_of_initial (P Q : List (Str × Nat)) (seg : m1segment)
    (h0 : 0 ≤ seg.offset) (h1 : 0 ≤ seg.length) (h2 : seg.offset + seg.length ≤ (P.length : Int)) :
    seg.refs (P ++ Q) = seg.refs P := by
  unfold m1segment.refs
  have ho : seg.offset.toNat ≤ P.length := by omega
  rw [List.drop_append_of_le_length ho, List.take_append_of_le_length]
  rw [List.length_drop]
  omega

theorem range_window (sz off len : Nat) (h : off + len ≤ sz) :
    ((List.range sz).drop off).take len = (List.range len).map (fun j => off + j) := by
  apply List.ext_getElem?
  intro i
  by_cases hi : i < len
  · rw [List.getElem?_take_of_lt hi, List.getElem?_drop, List.getElem?_range (by omega),
      List.getElem?_map, List.getElem?_range hi]
    rfl
  · rw [List.getElem?_eq_none (by simp; omega), List.getElem?_eq_none (by simp; omega)]

theorem refs_window (P : List (Str × Nat)) (loc : Str) (sz : Nat) (Q : List (Str × Nat))
    (e : storedExtent) (n : Str) (base : Int) (hb : (P.length : Int) = base)
    (hloc : e.locator = loc) (h0 : 0 ≤ e.offset) (h1 : 0 ≤ e.length)
    (h2 : e.offset + e.length ≤ (sz : Int)) :
    m1segment.refs (P ++ (List.range sz).map (fun j => (loc, j)) ++ Q)
      { name := n, offset := base + e.offset, length := e.length } = e.refs := by
  unfold m1segment.refs storedExtent.refs
  simp only
  have h3 : (base + e.offset).toNat = P.length + e.offset.toNat := by omega
  rw [h3, List.append_assoc, List.drop_append, List.drop_append_of_le_length (by simp; omega),
    List.take_append_of_le_length (by simp; omega), ← List.map_drop, ← List.map_take,
    range_window sz _ _ (by omega), List.map_map, hloc]
  rfl

theorem refs_merge (stream : List (Str × Nat)) (n : Str) (X a b : Int)
    (hX : 0 ≤ X) (ha : 0 ≤ a) (hb : 0 ≤ b) :
    m1segment.refs stream { name := n, offset := X, length := a + b } =
      m1segment.refs stream { name := n, offset := X, length := a } ++
      m1segment.refs stream { name := n, offset := X + a, length := b } := by
  unfold m1segment.refs
  simp only
  have h1 : (a + b).toNat = a.toNat + b.toNat := by omega
  have h2 : (X + a).toNat = X.toNat + a.toNat := by omega
  rw [h1, h2, List.take_add, List.drop_drop]

theorem flatMap_refs_congr (P Q : List (Str × Nat)) (segs : List m1segment)
    (h : ∀ seg ∈ segs, 0 ≤ seg.offset ∧ 0 ≤ seg.length ∧
      seg.offset + seg.length ≤ (P.length : Int)) :
    segs.flatMap (m1segment.refs (P ++ Q)) = segs.flatMap (m1segment.refs P) := by
  induction segs with
  | nil => rfl
  | cons seg rest ih =>
    simp only [List.flatMap_cons]
    obtain ⟨h0, h1, h2⟩ := h seg (by simp)
    rw [refs_of_initial P Q seg h0 h1 h2, ih (fun s hs => h s (by simp [hs]))]

theorem fileRefs_of_initial (P Q : List (Str × Nat)) (segs : List m1segment) (m : Str)
    (h : ∀ seg ∈ segs, 0 ≤ seg.offset ∧ 0 ≤ seg.length ∧
      seg.offset + seg.length ≤ (P.length : Int)) :
    fileRefs (P ++ Q) segs m = fileRefs P segs m := by
  unfold fileRefs
  apply flatMap_refs_congr
  intro seg hseg
  exact h seg (List.mem_of_mem_filter hseg)

theorem blocks_eq_snoc_of_getLast? (bl : List Str) (loc : Str) (h : bl.getLast? = some loc) :
    ∃ pre, bl = pre ++ [loc] := by
  rcases List.eq_nil_or_concat bl with hnil | ⟨pre, b, hc⟩
  · rw [hnil] at h; simp at h
  · rw [List.concat_eq_append] at hc
    rw [hc, getLast?_snoc] at h
    simp only [Option.some.injEq] at h
    exact ⟨pre, by rw [hc, h]⟩

/-- The stream before and after a round of the loop: the block of the extent
is the last block of the new stream and starts at `blockStart`, and the old
stream is a prefix of the new one. -/
theorem marshalExtent_stream (bs : Str → Int) (n : Str) (t : StreamState) (e : storedExtent)
    (hinv : RefInv bs t) (hw : e.WindowOk bs) :
    ∃ P Q, blockRefs bs (marshalExtent n t e).blocks =
        P ++ (List.range e.size.toNat).map (fun j => (e.locator, j)) ∧
      (P.length : Int) = blockStart t e ∧
      blockRefs bs (marshalExtent n t e).blocks = blockRefs bs t.blocks ++ Q := by
  obtain ⟨hsize, h0, h1, h2⟩ := hw
  rw [marshalExtent_blocks]
  unfold blockStart
  by_cases hb : t.blocks.getLast? = some e.locator
  · simp only [hb, if_true]
    obtain ⟨pre, hpre⟩ := blocks_eq_snoc_of_getLast? _ _ hb
    refine ⟨blockRefs bs pre, [], ?_, ?_, by simp⟩
    · rw [hpre, blockRefs_append, hsize]
    · have := hinv.1
      rw [hpre, blockRefs_append, List.length_append, List.length_map, List.length_range] at this
      rw [this, hsize]
      push_cast
      omega
  · simp only [hb, if_false]
    refine ⟨blockRefs bs t.blocks, _, ?_, hinv.1.symm, blockRefs_append bs _ _⟩
    rw [blockRefs_append, hsize]

theorem marshalExtent_refInv (bs : Str → Int) (n : Str) (t : StreamState) (e : storedExtent)
    (hinv : RefInv bs t) (hw : e.WindowOk bs) :
    RefInv bs (marshalExtent n t e) ∧
    fileRefs (blockRefs bs (marshalExtent n t e).blocks) (marshalExtent n t e).segments n =
      fileRefs (blockRefs bs t.blocks) t.segments n ++ e.refs ∧
    ∀ m, m ≠ n →
      fileRefs (blockRefs bs (marshalExtent n t e).blocks) (marshalExtent n t e).segments m =
        fileRefs (blockRefs bs t.blocks) t.segments m := by
  obtain ⟨P, Q, hPR, hPlen, hQ⟩ := marshalExtent_stream bs n t e hinv hw
  obtain ⟨hsize, h0, h1, h2⟩ := hw
  have hlen1 : (marshalExtent n t e).streamLen =
      ((blockRefs bs (marshalExtent n t e).blocks).length : Int) := by
    rw [marshalExtent_streamLen, hPR, List.length_append, List.length_map, List.length_range]
    push_cast
    omega
  have hle : t.streamLen ≤ (marshalExtent n t e).streamLen := by
    rw [hlen1, hQ, hinv.1, List.length_append]
    push_cast
    omega
  have hold : ∀ seg ∈ t.segments, 0 ≤ seg.offset ∧ 0 ≤ seg.length ∧
      seg.offset + seg.length ≤ ((blockRefs bs t.blocks).length : Int) := by
    intro seg hseg
    have := hinv.2 seg hseg
    rw [hinv.1] at this
    exact this
  have hstart0 : 0 ≤ blockStart t e := by rw [← hPlen]; omega
  have hnext : m1segment.refs (blockRefs bs (marshalExtent n t e).blocks)
      { name := n, offset := blockStart t e + e.offset, length := e.length } = e.refs := by
    rw [hPR]
    have := refs_window P e.locator e.size.toNat [] e n (blockStart t e) hPlen rfl h0 h1 (by omega)
    simpa using this
  have hslen := marshalExtent_streamLen n t e
  rcases List.eq_nil_or_concat t.segments with hnil | ⟨pre, prev, hc⟩
  · have hseg := marshalExtent_segments_nil n t e hnil
    refine ⟨⟨hlen1, ?_⟩, ?_, ?_⟩
    · intro seg hs
      rw [hseg] at hs
      simp only [List.mem_singleton] at hs
      subst hs
      simp only
      omega
    · rw [hseg, hnil]
      simp [fileRefs, hnext]
    · intro m hne
      rw [hseg, hnil]
      simp [fileRefs, Ne.symm hne]
  · rw [List.concat_eq_append] at hc
    have hpre : ∀ seg ∈ pre, 0 ≤ seg.offset ∧ 0 ≤ seg.length ∧
        seg.offset + seg.length ≤ ((blockRefs bs t.blocks).length : Int) :=
      fun seg hs => hold seg (by rw [hc]; simp [hs])
    have hprev := hold prev (by rw [hc]; simp)
    by_cases hm : prev.name = n ∧ prev.offset + prev.length = blockStart t e + e.offset
    · obtain ⟨hname, hoff⟩ := hm
      subst hname
      have hm : prev.name = prev.name ∧ prev.offset + prev.length = blockStart t e + e.offset :=
        ⟨rfl, hoff⟩
      have hseg := marshalExtent_segments_merge prev.name t e pre prev hc hm
      refine ⟨⟨hlen1, ?_⟩, ?_, ?_⟩
      · intro seg hs
        rw [hseg] at hs
        simp only [List.mem_append, List.mem_singleton] at hs
        rcases hs with hs | hs
        · have := hinv.2 seg (by rw [hc]; simp [hs])
          omega
        · subst hs
          simp only
          have := hinv.2 prev (by rw [hc]; simp)
          omega
      · rw [hseg, hc]
        unfold fileRefs
        simp only [List.filter_append, List.filter_cons, List.filter_nil, decide_True,
          if_true, List.flatMap_append, List.flatMap_cons, List.flatMap_nil, List.append_nil]
        rw [hQ, flatMap_refs_congr _ Q _ (fun seg hs => hpre seg (List.mem_of_mem_filter hs)),
          List.append_assoc]
        congr 1
        have hmerge := refs_merge (blockRefs bs t.blocks ++ Q) prev.name prev.offset prev.length
          e.length hprev.1 hprev.2.1 h1
        rw [hmerge]
        congr 1
        · exact refs_of_initial _ Q prev hprev.1 hprev.2.1 hprev.2.2
        · rw [← hQ, hoff]
          exact hnext
      · intro m hne
        rw [hseg, hc]
        unfold fileRefs
        have hpn : prev.name ≠ m := Ne.symm hne
        simp only [List.filter_append, List.filter_cons, List.filter_nil, hpn, decide_False,
          Bool.false_eq_true, if_false, List.append_nil]
        rw [hQ]
        exact flatMap_refs_congr _ Q _ (fun seg hs => hpre seg (List.mem_of_mem_filter hs))
    · have hseg := marshalExtent_segments_append n t e pre prev hc hm
      refine ⟨⟨hlen1, ?_⟩, ?_, ?_⟩
      · intro seg hs
        rw [hseg] at hs
        simp only [List.mem_append, List.mem_singleton] at hs
        rcases hs with hs | hs
        · have := hinv.2 seg hs
          omega
        · subst hs
          simp only
          omega
      · rw [hseg]
        unfold fileRefs
        simp only [List.filter_append, List.filter_cons, List.filter_nil, decide_True,
          if_true, List.flatMap_append, List.flatMap_cons, List.flatMap_nil, List.append_nil]
        rw [hnext]
        congr 1
        rw [hQ]
        exact flatMap_refs_congr _ Q _ (fun seg hs => hold seg (List.mem_of_mem_filter hs))
      · intro m hne
        rw [hseg]
        unfold fileRefs
        simp only [List.filter_append, List.filter_cons, List.filter_nil, Ne.symm hne,
          decide_False, Bool.false_eq_true, if_false, List.append_nil]
        rw [hQ]
        exact flatMap_refs_congr _ Q _ (fun seg hs => hold seg (List.mem_of_mem_filter hs))

theorem marshalFile_refs (bs : Str → Int) (n : Str) (fn : filenode) (t t1 : StreamState)
    (hm : marshalFile n fn t = .ok t1) (hinv : RefInv bs t)
    (hall : ∀ e ∈ fn.extents, ∃ se, e = extent.stored se ∧ se.WindowOk bs) :
    RefInv bs t1 ∧
    fileRefs (blockRefs bs t1.blocks) t1.segments n =
      fileRefs (blockRefs bs t.blocks) t.segments n ++ fn.extents.flatMap extent.refs ∧
    ∀ m, m ≠ n → fileRefs (blockRefs bs t1.blocks) t1.segments m =
      fileRefs (blockRefs bs t.blocks) t.segments m := by
  unfold marshalFile at hm
  by_cases h0 : fn.extents.length = 0
  · simp only [h0, if_true, Except.ok.injEq] at hm
    subst hm
    have hnil : fn.extents = [] := List.length_eq_zero.mp h0
    have hlen0 : (0 : Int) ≤ t.streamLen := by rw [hinv.1]; omega
    refine ⟨⟨hinv.1, ?_⟩, ?_, ?_⟩
    · intro seg hs
      simp only [List.mem_append, List.mem_singleton] at hs
      rcases hs with hs | hs
      · exact hinv.2 seg hs
      · subst hs
        simp only
        omega
    · rw [hnil]
      simp [fileRefs, List.filter_append, m1segment.refs]
    · intro m hne
      simp [fileRefs, List.filter_append, Ne.symm hne]
  · simp only [h0, if_false] at hm
    have key := marshalExtents_induct n
      (fun done u => (∀ se ∈ done, se.WindowOk bs) →
        RefInv bs u ∧
        fileRefs (blockRefs bs u.blocks) u.segments n =
          fileRefs (blockRefs bs t.blocks) t.segments n ++ done.flatMap storedExtent.refs ∧
        ∀ m, m ≠ n → fileRefs (blockRefs bs u.blocks) u.segments m =
          fileRefs (blockRefs bs t.blocks) t.segments m)
      (by
        intro done e u hq hw
        obtain ⟨h1, h2, h3⟩ := hq (fun se hse => hw se (by simp [hse]))
        obtain ⟨g1, g2, g3⟩ := marshalExtent_refInv bs n u e h1 (hw e (by simp))
        refine ⟨g1, ?_, ?_⟩
        · rw [g2, h2]
          simp
        · intro m hne
          rw [g3 m hne, h3 m hne])
      fn.extents [] t t1 (fun _ => ⟨hinv, by simp, fun _ _ => rfl⟩) hm
    obtain ⟨ses, hes, hq⟩ := key
    have hw : ∀ se ∈ ([] : List storedExtent) ++ ses, se.WindowOk bs := by
      intro se hse
      simp only [List.nil_append] at hse
      obtain ⟨se1, h1, h2⟩ := hall (extent.stored se) (by rw [hes]; exact List.mem_map_of_mem _ hse)
      simp only [extent.stored.injEq] at h1
      subst h1
      exact h2
    obtain ⟨h1, h2, h3⟩ := hq hw
    refine ⟨h1, ?_, h3⟩
    rw [h2, hes]
    congr 1
    simp only [List.nil_append]
    clear h2 hq hw hes hm h0 hall
    induction ses with
    | nil => rfl
    | cons se rest ih => simp [extent.refs, ih]

theorem marshalFiles_refs (bs : Str → Int) (files : List (Str × filenode)) (s : StreamState)
    (hnd : (files.map Prod.fst).Nodup)
    (hall : ∀ f ∈ files, ∀ e ∈ f.2.extents, ∃ se, e = extent.stored se ∧ se.WindowOk bs)
    (hm : marshalFiles files emptyStream = .ok s) :
    RefInv bs s ∧
    ∀ f ∈ files, fileRefs (blockRefs bs s.blocks) s.segments f.1 =
      f.2.extents.flatMap extent.refs := by
  have key := marshalFiles_induct_at files
    (fun done t => RefInv bs t ∧
      (∀ f ∈ done, fileRefs (blockRefs bs t.blocks) t.segments f.1 =
        f.2.extents.flatMap extent.refs) ∧
      (∀ m, m ∉ done.map Prod.fst → fileRefs (blockRefs bs t.blocks) t.segments m = []))
    (by
      intro done n fn rest t t1 hfiles ⟨hinv, hdone, hfresh⟩ hm1
      have hnd1 : ((done ++ (n, fn) :: rest).map Prod.fst).Nodup := hfiles ▸ hnd
      have hnotin : n ∉ done.map Prod.fst := by
        rw [List.map_append, List.map_cons] at hnd1
        have := (List.nodup_append.mp hnd1).2.2
        intro hmem
        exact this hmem (List.mem_cons_self _ _)
      have hfn : ∀ e ∈ fn.extents, ∃ se, e = extent.stored se ∧ se.WindowOk bs :=
        hall (n, fn) (by rw [hfiles]; simp)
      obtain ⟨g1, g2, g3⟩ := marshalFile_refs bs n fn t t1 hm1 hinv hfn
      refine ⟨g1, ?_, ?_⟩
      · intro f hf
        simp only [List.mem_append, List.mem_singleton] at hf
        rcases hf with hf | hf
        · have hne : f.1 ≠ n := by
            intro heq
            exact hnotin (heq ▸ List.mem_map_of_mem Prod.fst hf)
          rw [g3 f.1 hne]
          exact hdone f hf
        · subst hf
          rw [g2, hfresh n hnotin]
          simp
      · intro m hm2
        have hne : m ≠ n := by
          intro heq
          apply hm2
          simp [heq]
        rw [g3 m hne]
        apply hfresh
        intro hmem
        apply hm2
        simp only [List.map_append, List.mem_append]
        exact Or.inl hmem)
    files [] emptyStream s rfl
    ⟨⟨by simp [emptyStream, blockRefs], by simp [emptyStream]⟩, by simp,
      by simp [emptyStream, fileRefs]⟩ hm
  exact ⟨key.1, key.2.1⟩

/-- With no block listed every segment is empty, so that the sentinel
locator of the line changes nothing. -/
theorem fileRefs_lineBlocks (bs : Str → Int) (s : StreamState) (hinv : RefInv bs s) (m : Str) :
    fileRefs (blockRefs bs (lineBlocks s)) s.segments m =
      fileRefs (blockRefs bs s.blocks) s.segments m := by
  unfold lineBlocks
  by_cases h0 : s.blocks.length = 0
  · simp only [h0, if_true]
    have hnil : s.blocks = [] := List.length_eq_zero.mp h0
    have hlen : s.streamLen = 0 := by
      rw [hinv.1, hnil]
      simp [blockRefs]
    unfold fileRefs
    have : ∀ (stream : List (Str × Nat)) (segs : List m1segment),
        (∀ seg ∈ segs, seg.length = 0) → segs.flatMap (m1segment.refs stream) = [] := by
      intro stream segs hs
      induction segs with
      | nil => rfl
      | cons seg rest ih =>
        simp only [List.flatMap_cons]
        rw [ih (fun x hx => hs x (by simp [hx]))]
        simp [m1segment.refs, hs seg (by simp)]
    have hz : ∀ seg ∈ s.segments.filter (fun seg => decide (seg.name = m)), seg.length = 0 := by
      intro seg hseg
      have := hinv.2 seg (List.mem_of_mem_filter hseg)
      omega
    rw [this _ _ hz, this _ _ hz]
  · simp only [h0, if_false]

/-- C8: for a directory whose files hold only stored extents, the size field
of each being the size `blockSize` gives for its locator and its window lying
in the block: in the stream line `marshalManifest` emits, the segments of
each file, read in order as windows of the stream of the listed blocks,
select exactly the block windows of the extents of that file, in order.  The
line is described by the variables `s` the loop over the file nodes ends
with: its locators are `lineBlocks s`, its segments are `s.segments`. -/
theorem marshal_segments_select_extents {σ : Type} (blockSize : Str → Int) (mbs : Int)
    (kc : keepClient σ) (fuel : Nat) (dn : dirnode) (pfx : Str) (st : σ) (text : Str)
    (dn2 : dirnode) (st2 : σ)
    (hall : ∀ name fn, fileOf dn name = some fn →
      ∀ e ∈ fn.extents, ∃ se, e = extent.stored se ∧ se.WindowOk blockSize)
    (h : marshalManifestFuel mbs kc fuel dn pfx st = .ok (.ok text, dn2, st2)) :
    ∃ s subdirs,
      marshalFiles (filesOf dn (sortedNames dn.inodes)) emptyStream = .ok s ∧
      text = streamText pfx s subdirs ∧
      ∀ name fn, fileOf dn name = some fn →
        fileRefs (blockRefs blockSize (lineBlocks s)) s.segments name =
          fn.extents.flatMap extent.refs := by
  obtain ⟨dn1, st1, s, subdirs, hsync, hfiles, htext⟩ :=
    marshalManifestFuel_ok mbs kc fuel dn pfx st text dn2 st2 h
  have hst : AllStored dn := by
    intro name fn hf e he
    obtain ⟨se, hse, _⟩ := hall name fn hf e he
    exact ⟨se, hse⟩
  rw [sync_stored mbs kc dn st hst] at hsync
  simp only [Except.ok.injEq, Prod.mk.injEq, true_and] at hsync
  obtain ⟨hdn, _⟩ := hsync
  subst hdn
  obtain ⟨hinv, hrefs⟩ := marshalFiles_refs blockSize _ s (filesOf_nodup dn)
    (fun f hf => hall f.1 f.2 ((mem_filesOf_sorted dn f.1 f.2).mp hf)) hfiles
  refine ⟨s, subdirs, hfiles, htext, ?_⟩
  intro name fn hf
  rw [fileRefs_lineBlocks blockSize s hinv]
  exact hrefs (name, fn) ((mem_filesOf_sorted dn name fn).mpr hf)

theorem exTwoBlocks_windows (name : Str) (fn : filenode) (hf : fileOf exTwoBlocks name = some fn) :
    ∀ e ∈ fn.extents, ∃ se, e = extent.stored se ∧ se.WindowOk (fun _ => 3) := by
  simp only [fileOf, exTwoBlocks, mapGet] at hf
  split_ifs at hf with h1 h2
  · simp only [Option.some.injEq] at hf
    subst hf
    intro e he
    simp only [List.mem_cons, List.mem_singleton, List.not_mem_nil, or_false] at he
    rcases he with he | he
    · exact ⟨_, he, by simp [storedExtent.WindowOk]⟩
    · exact ⟨_, he, by simp [storedExtent.WindowOk]⟩
  · simp only [Option.some.injEq] at hf
    subst hf
    intro e he
    simp only [List.mem_cons, List.mem_singleton, List.not_mem_nil, or_false] at he
    exact ⟨_, he, by simp [storedExtent.WindowOk]⟩

set_option maxRecDepth 100000 in
/-- The theorem `marshal_segments_select_extents` at the directory
`exTwoBlocks`: the line is `. 37b5…+3 acbd…+3 2:2:a 3:3:b`. -/
theorem marshal_segments_select_extents_witness :
    marshalManifestFuel (2 ^ 26) deadKeep 1 exTwoBlocks (str ".") ()
      = .ok (.ok (str (". 37b51d194a7513e45b56f6524f2d51f2+3 acbd18db4cc2f85cedef654fccc4a4d8+3 " ++
          "2:2:a 3:3:b\n")), exTwoBlocks, ())
    ∧ ∃ s subdirs,
      marshalFiles (filesOf exTwoBlocks (sortedNames exTwoBlocks.inodes)) emptyStream = .ok s ∧
      str (". 37b51d194a7513e45b56f6524f2d51f2+3 acbd18db4cc2f85cedef654fccc4a4d8+3 " ++
          "2:2:a 3:3:b\n") = streamText (str ".") s subdirs ∧
      ∀ name fn, fileOf exTwoBlocks name = some fn →
        fileRefs (blockRefs (fun _ => 3) (lineBlocks s)) s.segments name =
          fn.extents.flatMap extent.refs :=
  ⟨by rfl, marshal_segments_select_extents (fun _ => 3) (2 ^ 26) deadKeep 1 exTwoBlocks (str ".") ()
    _ exTwoBlocks () exTwoBlocks_windows (by rfl)⟩

/-! ## Splitting a text into lines and tokens -/

theorem splitByte_ne_nil (sep : Nat) (s : Str) : splitByte sep s ≠ [] := by
  cases s with
  | nil => simp [splitByte]
  | cons c cs =>
    unfold splitByte
    by_cases h : c = sep
    · simp [h]
    · simp only [h, if_false]
      cases splitByte sep cs <;> simp

theorem splitByte_cons_sep (sep : Nat) (cs : Str) :
    splitByte sep (sep :: cs) = [] :: splitByte sep cs := by
  simp [splitByte]

theorem splitByte_cons_ne (sep c : Nat) (cs : Str) (h : c ≠ sep) :
    ∃ w ws, splitByte sep cs = w :: ws ∧ splitByte sep (c :: cs) = (c :: w) :: ws := by
  cases hs : splitByte sep cs with
  | nil => exact absurd hs (splitByte_ne_nil sep cs)
  | cons w ws =>
    refine ⟨w, ws, rfl, ?_⟩
    simp [splitByte, h, hs]

theorem splitByte_append_sep (sep : Nat) (w rest : Str) (h : sep ∉ w) :
    splitByte sep (w ++ sep :: rest) = w :: splitByte sep rest := by
  induction w with
  | nil => exact splitByte_cons_sep sep rest
  | cons c cs ih =>
    have hc : c ≠ sep := fun e => h (by simp [e])
    have hcs : sep ∉ cs := fun e => h (by simp [e])
    obtain ⟨w1, ws1, h1, h2⟩ := splitByte_cons_ne sep c (cs ++ sep :: rest) hc
    rw [List.cons_append, h2]
    rw [ih hcs] at h1
    simp only [List.cons.injEq] at h1
    rw [← h1.1, ← h1.2]

theorem splitByte_no_sep (sep : Nat) (w : Str) (h : sep ∉ w) : splitByte sep w = [w] := by
  induction w with
  | nil => rfl
  | cons c cs ih =>
    have hc : c ≠ sep := fun e => h (by simp [e])
    have hcs : sep ∉ cs := fun e => h (by simp [e])
    obtain ⟨w1, ws1, h1, h2⟩ := splitByte_cons_ne sep c cs hc
    rw [h2]
    rw [ih hcs] at h1
    simp only [List.cons.injEq] at h1
    rw [← h1.1, ← h1.2]

/-- The pieces of a text made of lines, each one ended by the separator. -/
theorem splitByte_lines (sep : Nat) (ls : List Str) (h : ∀ l ∈ ls, sep ∉ l) :
    splitByte sep (ls.flatMap (fun l => l ++ [sep])) = ls ++ [[]] := by
  induction ls with
  | nil => rfl
  | cons l rest ih =>
    simp only [List.flatMap_cons, List.append_assoc, List.singleton_append, List.cons_append]
    rw [splitByte_append_sep sep l _ (h l (by simp)), List.nil_append,
      ih (fun x hx => h x (by simp [hx]))]

theorem splitByte_length (sep : Nat) (s : Str) :
    (splitByte sep s).length = s.count sep + 1 := by
  induction s with
  | nil => rfl
  | cons c cs ih =>
    by_cases h : c = sep
    · subst h
      rw [splitByte_cons_sep, List.length_cons, ih]
      simp
    · obtain ⟨w, ws, h1, h2⟩ := splitByte_cons_ne sep c cs h
      rw [h2, List.length_cons]
      rw [h1, List.length_cons] at ih
      rw [ih, List.count_cons_of_ne (Ne.symm h)]

theorem splitByte_getLast (sep : Nat) (s : Str) (h : (splitByte sep s).getLast? = some []) :
    s = [] ∨ s.getLast? = some sep := by
  induction s with
  | nil => exact Or.inl rfl
  | cons c cs ih =>
    right
    by_cases hc : c = sep
    · subst hc
      rw [splitByte_cons_sep] at h
      cases hs : splitByte c cs with
      | nil => exact absurd hs (splitByte_ne_nil c cs)
      | cons w ws =>
        rw [hs, List.getLast?_cons_cons] at h
        rw [hs] at ih
        rcases ih h with h1 | h1
        · rw [h1]; rfl
        · cases cs with
          | nil => rfl
          | cons d ds => rw [List.getLast?_cons_cons]; exact h1
    · obtain ⟨w, ws, h1, h2⟩ := splitByte_cons_ne sep c cs hc
      rw [h2] at h
      cases ws with
      | nil => simp at h
      | cons x xs =>
        rw [List.getLast?_cons_cons] at h
        rw [h1, List.getLast?_cons_cons] at ih
        rcases ih h with h3 | h3
        · rw [h3] at h1
          simp [splitByte] at h1
        · cases cs with
          | nil => simp at h3
          | cons d ds => rw [List.getLast?_cons_cons]; exact h3

/-! ## The tokens of a stream line -/

/-- One token of a stream line either stops `loadManifest` with an error that
carries the line number, or leaves a state the rest of the line goes on
from; after a file segment `anyFileTokens` is set, and a locator is accepted
only while it is not. -/
theorem loadTokens_step (lineno : Int) (d tok : Str) (ex : List storedExtent) (any : Bool)
    (root : dirnode) :
    (∃ kind, ∀ rest, loadTokens lineno d (tok :: rest) ex any root =
        .error (.manifest lineno kind)) ∨
    (∃ ex1 any1 root1,
      (∀ rest, loadTokens lineno d (tok :: rest) ex any root =
        loadTokens lineno d rest ex1 any1 root1) ∧
      (containsByte tok 58 = true → any1 = true ∧ ex1 = ex ∧ ex.length ≠ 0) ∧
      (containsByte tok 58 = false →
        any1 = false ∧ any = false ∧ root1 = root ∧ ∃ e, ex1 = ex ++ [e])) := by
  by_cases hc : containsByte tok 58 = false
  · by_cases ha : any = true
    · left
      exact ⟨.badFileSegment, fun rest => by simp [loadTokens, hc, ha]⟩
    · have ha0 : any = false := by simpa using ha
      by_cases hl : (splitN 43 3 tok).length < 2
      · left
        exact ⟨.badLocator, fun rest => by simp [loadTokens, hc, ha0, hl]⟩
      · cases hp : ParseInt ((splitN 43 3 tok).getD 1 []) 32 with
        | none =>
          simp only [List.getD_eq_getElem?_getD, List.append_assoc, List.singleton_append] at hp
          left
          exact ⟨.badLocator, fun rest => by simp [loadTokens, hc, ha0, hl, hp]⟩
        | some length =>
          simp only [List.getD_eq_getElem?_getD, List.append_assoc, List.singleton_append] at hp
          by_cases hneg : length < 0
          · left
            exact ⟨.badLocator, fun rest => by simp [loadTokens, hc, ha0, hl, hp, hneg]⟩
          · right
            refine ⟨_, false, root, fun rest => by simp [loadTokens, hc, ha0, hl, hp, hneg]; rfl,
              fun h => by rw [hc] at h; simp at h, fun _ => ⟨rfl, ha0, rfl, _, rfl⟩⟩
  · have hc1 : containsByte tok 58 = true := by simpa using hc
    by_cases he : ex.length = 0
    · left
      exact ⟨.badLocator, fun rest => by simp [loadTokens, hc1, he]⟩
    · by_cases hl : (splitByte 58 tok).length ≠ 3
      · left
        exact ⟨.badFileSegment, fun rest => by simp [loadTokens, hc1, he, hl]⟩
      · cases hp : ParseInt ((splitByte 58 tok).getD 0 []) 64 with
        | none =>
          simp only [List.getD_eq_getElem?_getD, List.append_assoc, List.singleton_append] at hp
          left
          exact ⟨.badFileSegment, fun rest => by simp [loadTokens, hc1, he, hl, hp]⟩
        | some offset =>
          simp only [List.getD_eq_getElem?_getD, List.append_assoc, List.singleton_append] at hp
          by_cases hneg : offset < 0
          · left
            exact ⟨.badFileSegment, fun rest => by simp [loadTokens, hc1, he, hl, hp, hneg]⟩
          · cases hp2 : ParseInt ((splitByte 58 tok).getD 1 []) 64 with
            | none =>
              simp only [List.getD_eq_getElem?_getD, List.append_assoc, List.singleton_append] at hp2
              left
              exact ⟨.badFileSegment,
                fun rest => by simp [loadTokens, hc1, he, hl, hp, hneg, hp2]⟩
            | some length =>
              simp only [List.getD_eq_getElem?_getD, List.append_assoc, List.singleton_append] at hp2
              by_cases hneg2 : length < 0
              · left
                exact ⟨.badFileSegment,
                  fun rest => by simp [loadTokens, hc1, he, hl, hp, hneg, hp2, hneg2]⟩
              · cases hmk : dirnode.makeParentDirs root []
                    (pathClean (d ++ [47] ++ manifestUnescape ((splitByte 58 tok).getD 2 []))) with
                | error e =>
                  simp only [List.getD_eq_getElem?_getD, List.append_assoc, List.singleton_append] at hmk
                  left
                  exact ⟨.cannotUsePath,
                    fun rest => by simp [loadTokens, hc1, he, hl, hp, hneg, hp2, hneg2, hmk]⟩
                | ok root1 =>
                  simp only [List.getD_eq_getElem?_getD, List.append_assoc, List.singleton_append] at hmk
                  cases hop : dirnode.OpenFile root1 []
                      (pathClean (d ++ [47] ++ manifestUnescape ((splitByte 58 tok).getD 2 [])))
                      (O_CREATE ||| O_WRONLY ||| O_APPEND) 0o700 with
                  | error e =>
                    simp only [List.getD_eq_getElem?_getD, List.append_assoc, List.singleton_append] at hop
                    left
                    exact ⟨.cannotAppend, fun rest => by
                      simp [loadTokens, hc1, he, hl, hp, hneg, hp2, hneg2, hmk, hop]⟩
                  | ok r =>
                    obtain ⟨f, root2⟩ := r
                    simp only [List.getD_eq_getElem?_getD, List.append_assoc, List.singleton_append] at hop
                    by_cases hd : f.isDir = true
                    · left
                      exact ⟨.isDirectory, fun rest => by
                        simp [loadTokens, hc1, he, hl, hp, hneg, hp2, hneg2, hmk, hop, hd]⟩
                    · by_cases hseg : (segmentExtents offset length ex 0).2 < wrap64 (offset + length)
                      · left
                        exact ⟨.invalidSegment, fun rest => by
                          simp [loadTokens, hc1, he, hl, hp, hneg, hp2, hneg2, hmk, hop, hd, hseg]⟩
                      · right
                        refine ⟨ex, true, _, fun rest => by
                          simp [loadTokens, hc1, he, hl, hp, hneg, hp2, hneg2, hmk, hop, hd, hseg]
                          rfl, fun _ => ⟨rfl, rfl, he⟩, fun h => by rw [hc1] at h; simp at h⟩

theorem loadTokens_error_form (lineno : Int) (d : Str) (toks : List Str) :
    ∀ (ex : List storedExtent) (any : Bool) (root : dirnode) (e : GoError),
      loadTokens lineno d toks ex any root = .error e → ∃ kind, e = .manifest lineno kind := by
  induction toks with
  | nil => intro ex any root e h; simp [loadTokens] at h
  | cons tok rest ih =>
    intro ex any root e h
    rcases loadTokens_step lineno d tok ex any root with ⟨kind, hk⟩ | ⟨ex1, any1, root1, hk, _⟩
    · rw [hk rest] at h
      simp only [Except.error.injEq] at h
      exact ⟨kind, h.symm⟩
    · rw [hk rest] at h
      exact ih _ _ _ _ h

theorem loadTokens_no_segment (lineno : Int) (d : Str) (toks : List Str)
    (hall : ∀ t ∈ toks, containsByte t 58 = false) :
    ∀ (ex : List storedExtent) (root : dirnode),
      (∃ kind, loadTokens lineno d toks ex false root = .error (.manifest lineno kind)) ∨
      ∃ ex1, loadTokens lineno d toks ex false root = .ok (ex1, false, root) := by
  induction toks with
  | nil => intro ex root; exact Or.inr ⟨ex, rfl⟩
  | cons tok rest ih =>
    intro ex root
    rcases loadTokens_step lineno d tok ex false root with ⟨kind, hk⟩ | ⟨ex1, any1, root1, hk, _, h2⟩
    · exact Or.inl ⟨kind, hk rest⟩
    · obtain ⟨ha, _, hr, _⟩ := h2 (hall tok (by simp))
      subst ha; subst hr
      rw [hk rest]
      exact ih (fun t ht => hall t (by simp [ht])) ex1 root1

theorem loadTokens_locator_after (lineno : Int) (d : Str) (toks : List Str) (l : Str)
    (hl : l ∈ toks) (hc : containsByte l 58 = false) :
    ∀ (ex : List storedExtent) (root : dirnode),
      ∃ kind, loadTokens lineno d toks ex true root = .error (.manifest lineno kind) := by
  induction toks with
  | nil => simp at hl
  | cons tok rest ih =>
    intro ex root
    rcases loadTokens_step lineno d tok ex true root with ⟨kind, hk⟩ | ⟨ex1, any1, root1, hk, h1, h2⟩
    · exact ⟨kind, hk rest⟩
    · by_cases htok : containsByte tok 58 = false
      · have := (h2 htok).2.1
        simp at this
      · have htok1 : containsByte tok 58 = true := by simpa using htok
        have hne : l ≠ tok := by
          intro he
          rw [he, htok1] at hc
          simp at hc
        have hl1 : l ∈ rest := by
          simp only [List.mem_cons] at hl
          rcases hl with h | h
          · exact absurd h hne
          · exact h
        obtain ⟨ha, _, _⟩ := h1 htok1
        subst ha
        rw [hk rest]
        exact ih hl1 ex1 root1

theorem loadTokens_segment_then_locator (lineno : Int) (d : Str) (a : List Str) (s : Str)
    (b : List Str) (l : Str) (c : List Str) (hs : containsByte s 58 = true)
    (hl : containsByte l 58 = false) :
    ∀ (ex : List storedExtent) (any : Bool) (root : dirnode),
      ∃ kind, loadTokens lineno d (a ++ s :: (b ++ l :: c)) ex any root =
        .error (.manifest lineno kind) := by
  induction a with
  | nil =>
    intro ex any root
    rw [List.nil_append]
    rcases loadTokens_step lineno d s ex any root with ⟨kind, hk⟩ | ⟨ex1, any1, root1, hk, h1, _⟩
    · exact ⟨kind, hk _⟩
    · obtain ⟨ha, _, _⟩ := h1 hs
      subst ha
      rw [hk _]
      exact loadTokens_locator_after lineno d _ l (by simp) hl ex1 root1
  | cons x a ih =>
    intro ex any root
    rw [List.cons_append]
    rcases loadTokens_step lineno d x ex any root with ⟨kind, hk⟩ | ⟨ex1, any1, root1, hk, _, _⟩
    · exact ⟨kind, hk _⟩
    · rw [hk _]
      exact ih ex1 any1 root1

theorem loadStream_error_form (lineno : Int) (line : Str) (root : dirnode) (e : GoError)
    (h : loadStream lineno line root = .error e) : ∃ kind, e = .manifest lineno kind := by
  unfold loadStream at h
  cases hs : splitByte 32 line with
  | nil => simp [hs] at h
  | cons name rest =>
    simp only [hs] at h
    cases hl : loadTokens lineno (manifestUnescape name) rest [] false root with
    | error e1 =>
      simp only [hl, Except.error.injEq] at h
      subst h
      exact loadTokens_error_form lineno _ rest _ _ _ _ hl
    | ok r =>
      obtain ⟨ex, any, root1⟩ := r
      simp only [hl] at h
      split_ifs at h <;> simp only [Except.error.injEq] at h <;> exact ⟨_, h.symm⟩

/-- A line of one of the four bad shapes is rejected, with its number. -/
theorem loadStream_bad (lineno : Int) (line : Str) (root : dirnode) (hbad : BadLine line) :
    ∃ kind, loadStream lineno line root = .error (.manifest lineno kind) := by
  obtain ⟨name, rest, hs, hshape⟩ := hbad
  cases hr : loadStream lineno line root with
  | error e =>
    obtain ⟨kind, hk⟩ := loadStream_error_form lineno line root e hr
    exact ⟨kind, by rw [hk]⟩
  | ok root1 =>
    exfalso
    unfold loadStream at hr
    simp only [hs] at hr
    rcases hshape with ⟨t, more, hrest, ht⟩ | hnone | hname | ⟨a, s, b, l, c, hrest, hs1, hl1⟩
    · rcases loadTokens_step lineno (manifestUnescape name) t [] false root with
        ⟨kind, hk⟩ | ⟨ex1, any1, root2, _, h1, _⟩
      · rw [hrest, hk more] at hr
        simp at hr
      · exact (h1 ht).2.2 rfl
    · rcases loadTokens_no_segment lineno (manifestUnescape name) rest hnone [] root with
        ⟨kind, hk⟩ | ⟨ex1, hk⟩
      · rw [hk] at hr
        simp at hr
      · rw [hk] at hr
        simp at hr
    · cases hl : loadTokens lineno (manifestUnescape name) rest [] false root with
      | error e => rw [hl] at hr; simp at hr
      | ok r =>
        obtain ⟨ex, any, root2⟩ := r
        have hd : manifestUnescape name = [] := by rw [hname]; rfl
        rw [hl] at hr
        simp only [hd] at hr
        split_ifs at hr
    · obtain ⟨kind, hk⟩ := loadTokens_segment_then_locator lineno (manifestUnescape name)
        a s b l c hs1 hl1 [] false root
      rw [hrest, hk] at hr
      simp at hr

theorem loadStreams_append (a b : List Str) :
    ∀ (n : Int) (root : dirnode),
      loadStreams (a ++ b) n root =
        match loadStreams a n root with
        | .error e => .error e
        | .ok r => loadStreams b (n + a.length) r := by
  induction a with
  | nil => intro n root; simp [loadStreams]
  | cons x a ih =>
    intro n root
    rw [List.cons_append]
    simp only [loadStreams]
    cases hx : loadStream n x root with
    | error e => rfl
    | ok r =>
      simp only
      rw [ih]
      simp only [List.length_cons]
      push_cast
      have : n + 1 + (a.length : Int) = n + ((a.length : Int) + 1) := by ring
      rw [this]

theorem loadStreams_error_form (ls : List Str) :
    ∀ (n : Int) (root : dirnode) (e : GoError), loadStreams ls n root = .error e →
      ∃ k kind, e = .manifest k kind ∧ n ≤ k ∧ k < n + ls.length := by
  induction ls with
  | nil => intro n root e h; simp [loadStreams] at h
  | cons x rest ih =>
    intro n root e h
    simp only [loadStreams] at h
    cases hx : loadStream n x root with
    | error e1 =>
      simp only [hx, Except.error.injEq] at h
      subst h
      obtain ⟨kind, hk⟩ := loadStream_error_form n x root e1 hx
      exact ⟨n, kind, hk, le_refl _, by simp only [List.length_cons]; push_cast; omega⟩
    | ok r =>
      simp only [hx] at h
      obtain ⟨k, kind, hk, h1, h2⟩ := ih _ _ _ h
      exact ⟨k, kind, hk, by omega, by simp only [List.length_cons]; push_cast; omega⟩

theorem loadManifest_nil (root : dirnode) : root.loadManifest [] = .ok root := by
  simp [dirnode.loadManifest, splitByte, loadStreams]

theorem loadManifest_no_newline (root : dirnode) (txt : Str) (h0 : txt ≠ [])
    (h1 : txt.getLast? ≠ some 10) :
    root.loadManifest txt = .error (.manifest ((txt.count 10 : Nat) + 1) .noTrailingNewline) := by
  unfold dirnode.loadManifest
  have hlast : (splitByte 10 txt).getLast? ≠ some [] := by
    intro h
    rcases splitByte_getLast 10 txt h with h2 | h2
    · exact h0 h2
    · exact h1 h2
  simp only [hlast, ne_eq, not_false_eq_true, if_true, splitByte_length]
  push_cast
  rfl

theorem loadManifest_lines (root : dirnode) (ls : List Str) (h : ∀ l ∈ ls, 10 ∉ l) :
    root.loadManifest (ls.flatMap (fun l => l ++ [10])) = loadStreams ls 1 root := by
  unfold dirnode.loadManifest
  simp only [splitByte_lines 10 ls h]
  have h1 : (ls ++ [([] : Str)]).getLast? = some [] := getLast?_snoc ls []
  have h2 : (ls ++ [([] : Str)]).dropLast = ls := List.dropLast_concat
  simp [h1, h2]

theorem loadManifest_bad_line (root : dirnode) (before : List Str) (line : Str)
    (after : List Str) (hnl : ∀ l ∈ before ++ line :: after, 10 ∉ l) (hbad : BadLine line) :
    ∃ k kind, root.loadManifest ((before ++ line :: after).flatMap (fun l => l ++ [10]))
        = .error (.manifest k kind) ∧ 1 ≤ k ∧ k ≤ (before.length : Int) + 1 ∧
      (∀ r, loadStreams before 1 root = .ok r → k = (before.length : Int) + 1) := by
  rw [loadManifest_lines root _ hnl, loadStreams_append]
  cases hb : loadStreams before 1 root with
  | error e =>
    obtain ⟨k, kind, hk, h1, h2⟩ := loadStreams_error_form before 1 root e hb
    refine ⟨k, kind, by rw [hk], h1, by omega, ?_⟩
    intro r hr
    simp at hr
  | ok r =>
    simp only
    obtain ⟨kind, hk⟩ := loadStream_bad (1 + before.length) line r hbad
    refine ⟨1 + before.length, kind, ?_, by omega, by omega, fun _ _ => by ring⟩
    simp only [loadStreams, hk]

/-- C7: `loadManifest` returns an error carrying the 1-based line number for
a non-empty text that does not end in a newline (the number of the last,
unended line), and for a text of lines one of which has a bad shape
(`BadLine`: a file segment right after the stream name, no file segment, an
empty stream name, or a token without `:` after a file segment): the number
is that of the bad line, unless an earlier line is rejected, and then it is
the number of that line.  The empty text is accepted and leaves the tree as
it is, the empty tree for a new filesystem, whose manifest is the empty
text. -/
theorem loadManifest_rejects_malformed (root : dirnode) :
    (∀ txt : Str, txt ≠ [] → txt.getLast? ≠ some 10 →
      root.loadManifest txt =
        .error (.manifest ((txt.count 10 : Nat) + 1) .noTrailingNewline)) ∧
    (∀ (before : List Str) (line : Str) (after : List Str),
      (∀ l ∈ before ++ line :: after, 10 ∉ l) → BadLine line →
      ∃ k kind, root.loadManifest ((before ++ line :: after).flatMap (fun l => l ++ [10]))
          = .error (.manifest k kind) ∧ 1 ≤ k ∧ k ≤ (before.length : Int) + 1 ∧
        (∀ r, loadStreams before 1 root = .ok r → k = (before.length : Int) + 1)) ∧
    root.loadManifest [] = .ok root ∧
    FileSystem [] = .ok emptyRoot ∧ emptyRoot.inodes = [] ∧
    (∀ {σ : Type} (mbs : Int) (kc : keepClient σ) (st : σ),
      marshalledText (emptyRoot.MarshalManifest mbs kc (str ".") st) = .ok (.ok [])) :=
  ⟨loadManifest_no_newline root, loadManifest_bad_line root, loadManifest_nil root,
    loadManifest_nil emptyRoot, rfl, fun _ _ _ => rfl⟩

set_option maxRecDepth 100000 in
/-- The theorem `loadManifest_rejects_malformed` at texts of the five shapes:
a text without final newline, and four texts of two lines whose second line
is bad. -/
theorem loadManifest_rejects_malformed_witness :
    FileSystem (str ". acbd18db4cc2f85cedef654fccc4a4d8+3 0:3:foo")
      = .error (.manifest 1 .noTrailingNewline)
    ∧ FileSystem (str ". acbd18db4cc2f85cedef654fccc4a4d8+3 0:3:foo\n. 0:3:bar\n")
      = .error (.manifest 2 .badLocator)
    ∧ FileSystem (str ". acbd18db4cc2f85cedef654fccc4a4d8+3 0:3:foo\n. acbd18db4cc2f85cedef654fccc4a4d8+3\n")
      = .error (.manifest 2 .noFileSegments)
    ∧ FileSystem (str ". acbd18db4cc2f85cedef654fccc4a4d8+3 0:3:foo\n acbd18db4cc2f85cedef654fccc4a4d8+3 0:3:bar\n")
      = .error (.manifest 2 .noStreamName)
    ∧ FileSystem (str ". acbd18db4cc2f85cedef654fccc4a4d8+3 0:3:foo\n. acbd18db4cc2f85cedef654fccc4a4d8+3 0:3:bar acbd18db4cc2f85cedef654fccc4a4d8+3\n")
      = .error (.manifest 2 .badFileSegment)
    ∧ (∃ k kind, emptyRoot.loadManifest
          (([str ". acbd18db4cc2f85cedef654fccc4a4d8+3 0:3:foo"] ++
            str ". 0:3:bar" :: []).flatMap (fun l => l ++ [10]))
          = .error (.manifest k kind) ∧ 1 ≤ k ∧
        k ≤ (([str ". acbd18db4cc2f85cedef654fccc4a4d8+3 0:3:foo"].length : Nat) : Int) + 1 ∧
        (∀ r, loadStreams [str ". acbd18db4cc2f85cedef654fccc4a4d8+3 0:3:foo"] 1 emptyRoot = .ok r →
          k = (([str ". acbd18db4cc2f85cedef654fccc4a4d8+3 0:3:foo"].length : Nat) : Int) + 1)) :=
  ⟨(loadManifest_rejects_malformed emptyRoot).1 _ (by decide) (by decide),
   by rfl, by rfl, by rfl, by rfl,
   (loadManifest_rejects_malformed emptyRoot).2.1
     [str ". acbd18db4cc2f85cedef654fccc4a4d8+3 0:3:foo"] (str ". 0:3:bar") [] (by decide)
     ⟨str ".", [str "0:3:bar"], by decide, Or.inl ⟨_, _, rfl, by decide⟩⟩⟩

/-! ## Escaping ASCII names -/

theorem escapeFrom_zero_cons (b : Nat) (rest : Str) :
    escapeFrom 0 (b :: rest) =
      if b < 0x80 ∧ isPlainByte b = true then b :: escapeFrom 0 rest
      else manifestEscapeFunc (b :: rest) ++ escapeFrom (runeWidth (b :: rest) - 1) rest := by
  rw [escapeFrom]

theorem unescapeFrom_skip (k b : Nat) (rest : Str) :
    unescapeFrom (k + 1) (b :: rest) = unescapeFrom k rest := by
  rw [unescapeFrom]

theorem unescapeFrom_plain (b : Nat) (rest : Str) (h : b ≠ 92) :
    unescapeFrom 0 (b :: rest) = b :: unescapeFrom 0 rest := by
  rw [unescapeFrom.eq_def]
  simp [h]

theorem unescapeFrom_octal (d1 d2 d3 : Nat) (tail : Str)
    (h : isDigit d1 = true ∧ isDigit d2 = true ∧ isDigit d3 = true) :
    unescapeFrom 0 (92 :: d1 :: d2 :: d3 :: tail) =
      manifestUnescapeFunc [92, d1, d2, d3] ++ unescapeFrom 0 tail := by
  rw [unescapeFrom.eq_def]
  simp only [if_true, h, and_self]
  rw [unescapeFrom_skip, unescapeFrom_skip, unescapeFrom_skip]

theorem escapeFrom_ascii (s : Str) (h : ∀ b ∈ s, b < 128) :
    escapeFrom 0 s = s.flatMap escByte := by
  induction s with
  | nil => rfl
  | cons b rest ih =>
    have hb : b < 128 := h b (by simp)
    have ih1 := ih (fun x hx => h x (by simp [hx]))
    simp only [List.flatMap_cons]
    rw [escapeFrom_zero_cons]
    by_cases hp : isPlainByte b = true
    · have : b < 0x80 ∧ isPlainByte b = true := ⟨hb, hp⟩
      rw [if_pos this, ih1]
      simp [escByte, hp]
    · have : ¬ (b < 0x80 ∧ isPlainByte b = true) := fun h1 => hp h1.2
      have hw : runeWidth (b :: rest) = 1 := by
        unfold runeWidth
        have : b < 0xC2 := by omega
        simp [this]
      rw [if_neg this, hw, ih1]
      simp [escByte, hp, manifestEscapeFunc]

theorem manifestEscape_ascii (s : Str) (h : ∀ b ∈ s, b < 128) :
    manifestEscape s = s.flatMap escByte :=
  escapeFrom_ascii s h

theorem unescapeFrom_escByte (b : Nat) (hb : b < 128) (tail : Str) :
    unescapeFrom 0 (escByte b ++ tail) = b :: unescapeFrom 0 tail := by
  unfold escByte
  by_cases hp : isPlainByte b = true
  · simp only [hp, if_true, List.singleton_append]
    have h92 : b ≠ 92 := by
      intro e; subst e; simp [isPlainByte] at hp
    exact unescapeFrom_plain b tail h92
  · simp only [hp, if_false]
    have key : ∀ b < 128, isDigit (b / 64 % 8 + 48) = true ∧ isDigit (b / 8 % 8 + 48) = true ∧
        isDigit (b % 8 + 48) = true ∧
        manifestUnescapeFunc [92, b / 64 % 8 + 48, b / 8 % 8 + 48, b % 8 + 48] = [b] := by
      decide
    obtain ⟨h1, h2, h3, h4⟩ := key b hb
    simp only [formatOctal3, Bool.false_eq_true, if_false, List.cons_append, List.nil_append]
    rw [unescapeFrom_octal _ _ _ _ ⟨h1, h2, h3⟩, h4]
    rfl

theorem manifestUnescape_escape (s : Str) (h : ∀ b ∈ s, b < 128) :
    manifestUnescape (manifestEscape s) = s := by
  rw [manifestEscape_ascii s h]
  unfold manifestUnescape
  induction s with
  | nil => rfl
  | cons b rest ih =>
    simp only [List.flatMap_cons]
    rw [unescapeFrom_escByte b (h b (by simp)), ih (fun x hx => h x (by simp [hx]))]

/-- The bytes `manifestEscape` writes: no space, newline or colon. -/
theorem escByte_bytes (b : Nat) (hb : b < 128) :
    ∀ c ∈ escByte b, c ≠ 32 ∧ c ≠ 10 ∧ c ≠ 58 := by
  have key : ∀ b < 128, ∀ c ∈ escByte b, c ≠ 32 ∧ c ≠ 10 ∧ c ≠ 58 := by decide
  exact key b hb

theorem manifestEscape_bytes (s : Str) (h : ∀ b ∈ s, b < 128) :
    ∀ c ∈ manifestEscape s, c ≠ 32 ∧ c ≠ 10 ∧ c ≠ 58 := by
  rw [manifestEscape_ascii s h]
  intro c hc
  rw [List.mem_flatMap] at hc
  obtain ⟨b, hb, hcb⟩ := hc
  exact escByte_bytes b (h b hb) c hcb

theorem manifestEscape_ne_nil (s : Str) (h : ∀ b ∈ s, b < 128) (hne : s ≠ []) :
    manifestEscape s ≠ [] := by
  rw [manifestEscape_ascii s h]
  cases s with
  | nil => exact absurd rfl hne
  | cons b rest =>
    simp only [List.flatMap_cons]
    intro hnil
    have : escByte b = [] := (List.append_eq_nil.mp hnil).1
    unfold escByte at this
    split_ifs at this

/-! ## Numbers in decimal -/

theorem digitsValue_append (base : Nat) (xs ys : Str) :
    ∀ acc, digitsValue base (xs ++ ys) acc =
      match digitsValue base xs acc with
      | none => none
      | some v => digitsValue base ys v := by
  induction xs with
  | nil => intro acc; rfl
  | cons c cs ih =>
    intro acc
    simp only [List.cons_append, digitsValue]
    split_ifs
    · exact ih _
    · rfl

theorem decimalDigits_spec (fuel : Nat) :
    ∀ n, n < fuel → digitsValue 10 (decimalDigits fuel n) 0 = some n ∧
      decimalDigits fuel n ≠ [] ∧ ∀ c ∈ decimalDigits fuel n, 48 ≤ c ∧ c ≤ 57 := by
  induction fuel with
  | zero => intro n h; omega
  | succ fuel ih =>
    intro n h
    unfold decimalDigits
    by_cases h10 : n < 10
    · simp only [h10, if_true]
      refine ⟨?_, by simp, ?_⟩
      · simp only [digitsValue]
        have : 48 ≤ n + 48 ∧ n + 48 < 48 + 10 := by omega
        simp [this]
      · intro c hc
        simp only [List.mem_singleton] at hc
        omega
    · simp only [h10, if_false]
      obtain ⟨h1, h2, h3⟩ := ih (n / 10) (by omega)
      refine ⟨?_, by simp, ?_⟩
      · rw [digitsValue_append, h1]
        simp only [digitsValue]
        have : 48 ≤ n % 10 + 48 ∧ n % 10 + 48 < 48 + 10 := by omega
        simp only [this, and_self, if_true]
        congr 1
        omega
      · intro c hc
        simp only [List.mem_append, List.mem_singleton] at hc
        rcases hc with hc | hc
        · exact h3 c hc
        · omega

theorem formatInt_digits (i : Int) (h0 : 0 ≤ i) :
    formatInt i ≠ [] ∧ ∀ c ∈ formatInt i, 48 ≤ c ∧ c ≤ 57 := by
  unfold formatInt formatNat
  have : ¬ i < 0 := by omega
  simp only [this, if_false]
  obtain ⟨_, h2, h3⟩ := decimalDigits_spec (i.toNat + 1) i.toNat (by omega)
  exact ⟨h2, h3⟩

/-- Reading back a number `%d` has written. -/
theorem ParseInt_formatInt (i : Int) (h0 : 0 ≤ i) (h1 : i < 2 ^ 63) :
    ParseInt (formatInt i) 64 = some i := by
  obtain ⟨hne, hdig⟩ := formatInt_digits i h0
  have hval : digitsValue 10 (formatInt i) 0 = some i.toNat := by
    unfold formatInt formatNat
    have : ¬ i < 0 := by omega
    simp only [this, if_false]
    exact (decimalDigits_spec (i.toNat + 1) i.toNat (by omega)).1
  cases hs : formatInt i with
  | nil => exact absurd hs hne
  | cons c cs =>
    have hc := hdig c (by rw [hs]; simp)
    rw [hs] at hval
    unfold ParseInt
    have h43 : ¬ (c = 43 ∨ c = 45) := by omega
    have h45 : ¬ c = 45 := by omega
    have hlt : i.toNat < 9223372036854775808 := by
      have : (i.toNat : Int) = i := Int.toNat_of_nonneg h0
      have h2 : (i.toNat : Int) < 9223372036854775808 := by rw [this]; exact h1
      exact_mod_cast h2
    have hc43 : ¬ c = 43 := by omega
    simp [h45, hc43, hval, hlt, Int.toNat_of_nonneg h0]

/-! ## Joining and splitting -/

theorem joinWith_cons_cons (sep a b : Str) (rest : List Str) :
    joinWith sep (a :: b :: rest) = a ++ sep ++ joinWith sep (b :: rest) := rfl

theorem joinWith_singleton (sep a : Str) : joinWith sep [a] = a := rfl

theorem joinWith_append (sep : Str) (xs ys : List Str) (hx : xs ≠ []) (hy : ys ≠ []) :
    joinWith sep (xs ++ ys) = joinWith sep xs ++ sep ++ joinWith sep ys := by
  induction xs with
  | nil => exact absurd rfl hx
  | cons a rest ih =>
    cases rest with
    | nil =>
      cases ys with
      | nil => exact absurd rfl hy
      | cons b ys => rfl
    | cons b rest =>
      rw [List.cons_append, List.cons_append, joinWith_cons_cons, joinWith_cons_cons]
      rw [← List.cons_append, ih (by simp)]
      simp [List.append_assoc]

theorem splitByte_joinWith (sep : Nat) (toks : List Str) (hne : toks ≠ [])
    (h : ∀ t ∈ toks, sep ∉ t) : splitByte sep (joinWith [sep] toks) = toks := by
  induction toks with
  | nil => exact absurd rfl hne
  | cons a rest ih =>
    cases rest with
    | nil => exact splitByte_no_sep sep a (h a (by simp))
    | cons b rest =>
      rw [joinWith_cons_cons, List.append_assoc, List.singleton_append,
        splitByte_append_sep sep a _ (h a (by simp)),
        ih (by simp) (fun t ht => h t (by simp [ht]))]

theorem joinWith_ne_nil (sep : Str) (toks : List Str) (h : ∃ t ∈ toks, t ≠ []) :
    joinWith sep toks ≠ [] := by
  induction toks with
  | nil => obtain ⟨t, ht, _⟩ := h; simp at ht
  | cons a rest ih =>
    cases rest with
    | nil =>
      obtain ⟨t, ht, hne⟩ := h
      simp only [List.mem_singleton] at ht
      subst ht
      exact hne
    | cons b rest =>
      rw [joinWith_cons_cons]
      by_cases ha : a = []
      · obtain ⟨t, ht, hne⟩ := h
        have : t ∈ b :: rest := by
          simp only [List.mem_cons] at ht ⊢
          rcases ht with ht | ht
          · exact absurd (ht.trans ha) hne
          · exact ht
        have := ih ⟨t, this, hne⟩
        simp [this]
      · simp [ha]

theorem mem_joinWith (sep : Str) (toks : List Str) (c : Nat) (hc : c ∈ joinWith sep toks) :
    c ∈ sep ∨ ∃ t ∈ toks, c ∈ t := by
  induction toks with
  | nil => simp [joinWith] at hc
  | cons a rest ih =>
    cases rest with
    | nil => exact Or.inr ⟨a, by simp, hc⟩
    | cons b rest =>
      rw [joinWith_cons_cons] at hc
      simp only [List.mem_append] at hc
      rcases hc with (hc | hc) | hc
      · exact Or.inr ⟨a, by simp, hc⟩
      · exact Or.inl hc
      · rcases ih hc with h | ⟨t, ht, h⟩
        · exact Or.inl h
        · exact Or.inr ⟨t, by simp [ht], h⟩

/-! ## Paths of good names -/

theorem streamName_snoc (ds : List Str) (name : Str) :
    streamName (ds ++ [name]) = streamName ds ++ [47] ++ name := by
  unfold streamName
  rw [← List.cons_append, joinWith_append [47] ([46] :: ds) [name] (by simp) (by simp)]
  rfl

theorem foldl_cleanStep_good (elems : List Str) (h : ∀ e ∈ elems, GoodName e) :
    ∀ acc, elems.foldl (cleanStep false) (0, acc) = (0, elems.reverse ++ acc) := by
  induction elems with
  | nil => intro acc; rfl
  | cons e rest ih =>
    intro acc
    obtain ⟨h1, h2, h3, _, _⟩ := h e (by simp)
    have hstep : cleanStep false (0, acc) e = (0, e :: acc) := by
      unfold cleanStep
      have : ¬ (e = [] ∨ e = [46]) := fun hh => hh.elim h1 h2
      simp [this, h3]
    rw [List.foldl_cons, hstep, ih (fun x hx => h x (by simp [hx]))]
    simp

theorem streamName_head (ds : List Str) : (streamName ds).head? = some 46 := by
  unfold streamName
  cases ds with
  | nil => rfl
  | cons d rest => rfl

theorem splitByte_streamName (ds : List Str) (h : ∀ e ∈ ds, GoodName e) :
    splitByte 47 (streamName ds) = [46] :: ds := by
  unfold streamName
  apply splitByte_joinWith 47 _ (by simp)
  intro t ht
  simp only [List.mem_cons] at ht
  rcases ht with ht | ht
  · subst ht; decide
  · exact (h t ht).2.2.2.1

/-- The name `loadManifest` gives a file: `path.Clean` of the stream name,
a slash and the file name. -/
theorem pathClean_streamName (ds : List Str) (name : Str) (h : ∀ e ∈ ds, GoodName e)
    (hn : GoodName name) :
    pathClean (streamName ds ++ [47] ++ name) = joinWith [47] (ds ++ [name]) := by
  rw [← streamName_snoc]
  have hall : ∀ e ∈ ds ++ [name], GoodName e := by
    intro e he
    simp only [List.mem_append, List.mem_singleton] at he
    rcases he with he | he
    · exact h e he
    · subst he; exact hn
  unfold pathClean
  have hne : streamName (ds ++ [name]) ≠ [] := by
    intro hnil
    have := streamName_head (ds ++ [name])
    rw [hnil] at this
    simp at this
  simp only [hne, if_false, streamName_head, splitByte_streamName _ hall]
  have hfold : ([46] :: (ds ++ [name])).foldl (cleanStep false) (0, [])
      = (0, (ds ++ [name]).reverse) := by
    rw [List.foldl_cons]
    have : cleanStep false (0, []) [46] = (0, []) := by simp [cleanStep]
    rw [this, foldl_cleanStep_good _ hall]
    simp
  have hd : decide (some 46 = some 47) = false := by decide
  simp only [hd, hfold]
  simp

theorem splitByte_path (ds : List Str) (name : Str) (h : ∀ e ∈ ds, GoodName e)
    (hn : GoodName name) :
    splitByte 47 (joinWith [47] (ds ++ [name])) = ds ++ [name] := by
  apply splitByte_joinWith 47 _ (by simp)
  intro t ht
  simp only [List.mem_append, List.mem_singleton] at ht
  rcases ht with ht | ht
  · exact (h t ht).2.2.2.1
  · subst ht; exact hn.2.2.2.1

theorem pathSplit_path (ds : List Str) (name : Str) (h : ∀ e ∈ ds, GoodName e)
    (hn : GoodName name) :
    pathSplit (joinWith [47] (ds ++ [name])) =
      (if ds = [] then [] else joinWith [47] ds ++ [47], name) := by
  unfold pathSplit
  rw [splitByte_path ds name h hn]
  simp only [List.reverse_append, List.reverse_singleton, List.singleton_append]
  cases hds : ds.reverse with
  | nil =>
    have : ds = [] := by simpa using hds
    simp [this]
  | cons x xs =>
    have hne : ds ≠ [] := by
      intro e; rw [e] at hds; simp at hds
    have hr : (x :: xs).reverse = ds := by rw [← hds]; simp
    simp only [hne, if_false, hr]

theorem splitByte_dirname (ds : List Str) (h : ∀ e ∈ ds, GoodName e) (hne : ds ≠ []) :
    splitByte 47 (joinWith [47] ds ++ [47]) = ds ++ [[]] := by
  have : joinWith [47] ds ++ [47] = joinWith [47] (ds ++ [[]]) := by
    rw [joinWith_append [47] ds [[]] hne (by simp)]
    simp [joinWith]
  rw [this]
  apply splitByte_joinWith 47 _ (by simp)
  intro t ht
  simp only [List.mem_append, List.mem_singleton] at ht
  rcases ht with ht | ht
  · exact (h t ht).2.2.2.1
  · subst ht; simp

/-! ## Looking up paths in a tree -/

theorem getNode_nil (root : dirnode) : getNode root [] = some (.dir root) := by
  rw [getNode]

theorem getNode_single (root : dirnode) (d : Str) : getNode root [d] = mapGet root.inodes d := by
  rw [getNode]

theorem getNode_cons_cons (root : dirnode) (a b : Str) (rest : List Str) :
    getNode root (a :: b :: rest) =
      (dirOf (mapGet root.inodes a)).bind (fun dn => getNode dn (b :: rest)) := by
  simp only [getNode]
  cases mapGet root.inodes a with
  | none => rfl
  | some n => cases n <;> rfl

theorem getDir_nil (root : dirnode) : getDir root [] = some root := by
  rw [getDir]

theorem getDir_cons (root : dirnode) (a : Str) (rest : List Str) :
    getDir root (a :: rest) = (dirOf (mapGet root.inodes a)).bind (fun dn => getDir dn rest) := by
  simp only [getDir]
  cases mapGet root.inodes a with
  | none => rfl
  | some n => cases n <;> rfl

/-- The inode at a path is the entry of the last name in the directory at the
path before it. -/
theorem getNode_snoc (loc : List Str) (d : Str) :
    ∀ root : dirnode, getNode root (loc ++ [d]) =
      (getDir root loc).bind (fun dn => mapGet dn.inodes d) := by
  induction loc with
  | nil => intro root; rw [List.nil_append, getNode_single, getDir_nil]; rfl
  | cons x rest ih =>
    intro root
    have : (x :: rest) ++ [d] = x :: (rest ++ [d]) := rfl
    rw [this, getDir_cons]
    cases hr : rest ++ [d] with
    | nil => simp at hr
    | cons b more =>
      rw [getNode_cons_cons, ← hr]
      cases dirOf (mapGet root.inodes x) with
      | none => rfl
      | some dn => simp only [Option.some_bind]; exact ih dn

theorem getDir_append (a b : List Str) :
    ∀ root : dirnode, getDir root (a ++ b) = (getDir root a).bind (fun dn => getDir dn b) := by
  induction a with
  | nil => intro root; rw [List.nil_append, getDir_nil]; rfl
  | cons x rest ih =>
    intro root
    rw [List.cons_append, getDir_cons, getDir_cons]
    cases dirOf (mapGet root.inodes x) with
    | none => rfl
    | some dn => simp only [Option.some_bind]; exact ih dn

theorem getDir_single (root : dirnode) (d : Str) :
    getDir root [d] = dirOf (mapGet root.inodes d) := by
  rw [getDir_cons]
  cases dirOf (mapGet root.inodes d) with
  | none => rfl
  | some dn => simp [getDir_nil]

theorem getDir_snoc (loc : List Str) (d : Str) (root : dirnode) :
    getDir root (loc ++ [d]) = (getDir root loc).bind (fun dn => dirOf (mapGet dn.inodes d)) := by
  rw [getDir_append]
  cases getDir root loc with
  | none => rfl
  | some dn => simp only [Option.some_bind]; exact getDir_single dn d

theorem getDir_eq_dirOf (q : List Str) (root : dirnode) :
    getDir root q = dirOf (getNode root q) := by
  rcases List.eq_nil_or_concat q with hnil | ⟨r, d, hd⟩
  · rw [hnil, getDir_nil, getNode_nil]; rfl
  · rw [List.concat_eq_append] at hd
    rw [hd, getDir_snoc, getNode_snoc]
    cases getDir root r <;> rfl

theorem getDir_of_append (a b : List Str) (root dn : dirnode)
    (h : getDir root (a ++ b) = some dn) : ∃ da, getDir root a = some da := by
  rw [getDir_append] at h
  cases ha : getDir root a with
  | none => rw [ha] at h; simp at h
  | some da => exact ⟨da, rfl⟩

theorem kindAt_nil (root : dirnode) :
    kindAt root [] = some (.dir root.fileinfo.name root.fileinfo.mode) := by
  unfold kindAt
  rw [getNode_nil]
  rfl

theorem kindAt_snoc (root : dirnode) (loc : List Str) (d : Str) :
    kindAt root (loc ++ [d]) =
      (getDir root loc).bind (fun dn => (mapGet dn.inodes d).map inode.kind) := by
  unfold kindAt
  rw [getNode_snoc]
  cases getDir root loc <;> rfl

theorem kindAt_dir_iff (root : dirnode) (q : List Str) :
    (∃ name mode, kindAt root q = some (.dir name mode)) ↔ ∃ dn, getDir root q = some dn := by
  unfold kindAt
  rw [getDir_eq_dirOf]
  cases hg : getNode root q with
  | none => simp [dirOf]
  | some n =>
    cases n with
    | file fn => simp [dirOf, inode.kind]
    | dir dn => simp [dirOf, inode.kind]

/-- Below a path where there is no directory there is nothing. -/
theorem kindAt_none_below (root : dirnode) (q r : List Str) (hr : r ≠ [])
    (h : getDir root q = none) : kindAt root (q ++ r) = none := by
  rcases List.eq_nil_or_concat r with hnil | ⟨r1, d, hd⟩
  · exact absurd hnil hr
  · rw [List.concat_eq_append] at hd
    rw [hd, ← List.append_assoc, kindAt_snoc, getDir_append, h]
    rfl

/-! ## Trees after an entry is added or a file is changed -/

theorem kindAt_cons (root : dirnode) (k : Str) (r : List Str) :
    kindAt root (k :: r) = (mapGet root.inodes k).bind (fun n => n.kindAt r) := by
  unfold kindAt
  cases r with
  | nil =>
    rw [getNode_single]
    cases hg : mapGet root.inodes k with
    | none => rfl
    | some n =>
      cases n with
      | file fn => rfl
      | dir dn => simp [inode.kindAt, kindAt, getNode_nil]
  | cons b rest =>
    rw [getNode_cons_cons]
    cases hg : mapGet root.inodes k with
    | none => rfl
    | some n =>
      cases n with
      | file fn => rfl
      | dir dn => rfl

theorem mapGet_mapInsert {α : Type} (m : List (Str × α)) (name k : Str) (v : α) :
    mapGet (mapInsert m name v) k =
      (mapGet m k).orElse (fun _ => if name = k then some v else none) := by
  unfold mapInsert
  induction m with
  | nil => simp [mapGet]
  | cons kv rest ih =>
    obtain ⟨k0, w⟩ := kv
    simp only [List.cons_append, mapGet]
    by_cases h : k0 = k
    · simp [h]
    · simp only [h, if_false]
      exact ih

theorem updateDir_nil (f : dirnode → dirnode) (root : dirnode) : updateDir f root [] = f root := by
  rw [updateDir]

theorem updateDir_cons (f : dirnode → dirnode) (root c : dirnode) (a : Str) (rest : List Str)
    (h : dirOf (mapGet root.inodes a) = some c) :
    updateDir f root (a :: rest) =
      { root with inodes := mapPut root.inodes a (.dir (updateDir f c rest)) } := by
  rw [updateDir]
  cases hg : mapGet root.inodes a with
  | none => rw [hg] at h; simp [dirOf] at h
  | some n =>
    cases n with
    | file fn => rw [hg] at h; simp [dirOf] at h
    | dir dn =>
      rw [hg] at h
      simp only [dirOf, Option.some.injEq] at h
      subst h
      rfl

theorem dirOf_some (x : Option inode) (c : dirnode) (h : dirOf x = some c) :
    x = some (.dir c) := by
  cases x with
  | none => simp [dirOf] at h
  | some n =>
    cases n with
    | file fn => simp [dirOf] at h
    | dir dn => simp only [dirOf, Option.some.injEq] at h; rw [h]

theorem leaf_kindAt (n : inode) (hleaf : n.IsLeaf) (b : Str) (rest : List Str) :
    n.kindAt (b :: rest) = none := by
  cases n with
  | file fn => rfl
  | dir dn =>
    simp only [inode.IsLeaf] at hleaf
    simp only [inode.kindAt]
    rw [kindAt_cons, hleaf]
    rfl

/-- Adding a leaf under a new name to the directory at `dloc` changes the tree
at that one path only. -/
theorem kindAt_addChild (name : Str) (n : inode) (hleaf : n.IsLeaf) (dloc : List Str) :
    ∀ (root dn : dirnode), getDir root dloc = some dn → mapGet dn.inodes name = none →
      ∀ q, kindAt (updateDir (addChild name n) root dloc) q =
        if q = dloc ++ [name] then some n.kind else kindAt root q := by
  induction dloc with
  | nil =>
    intro root dn hd hnone q
    rw [getDir_nil] at hd
    simp only [Option.some.injEq] at hd
    subst hd
    rw [updateDir_nil, List.nil_append]
    cases q with
    | nil => simp [kindAt_nil, addChild]
    | cons k r =>
      rw [kindAt_cons, kindAt_cons]
      simp only [addChild, mapGet_mapInsert]
      by_cases hk : name = k
      · subst hk
        rw [hnone]
        simp only [Option.orElse, if_true, Option.some_bind, Option.none_bind]
        cases r with
        | nil =>
          simp only [if_true]
          cases n <;> simp [inode.kindAt, inode.kind, kindAt, getNode_nil]
        | cons b rest =>
          rw [leaf_kindAt n hleaf]
          simp
      · have hne : ¬ (k :: r = [name]) := by
          intro e
          simp only [List.cons.injEq] at e
          exact hk e.1.symm
        simp only [hk, if_false, hne]
        cases mapGet root.inodes k <;> rfl
  | cons d dl ih =>
    intro root dn hd hnone q
    rw [getDir_cons] at hd
    cases hc : dirOf (mapGet root.inodes d) with
    | none => rw [hc] at hd; simp at hd
    | some c =>
      rw [hc] at hd
      simp only [Option.some_bind] at hd
      rw [updateDir_cons _ root c d dl hc]
      have hgd := dirOf_some _ _ hc
      cases q with
      | nil => simp [kindAt_nil]
      | cons k r =>
        rw [kindAt_cons, kindAt_cons]
        simp only
        by_cases hk : k = d
        · subst hk
          rw [mapGet_mapPut_eq _ _ _ _ hgd, hgd]
          simp only [Option.some_bind, inode.kindAt]
          rw [ih c dn hd hnone r]
          simp
        · rw [mapGet_mapPut_ne _ _ _ _ hk]
          have hne : ¬ (k :: r = d :: dl ++ [name]) := by
            intro e
            simp only [List.cons_append, List.cons.injEq] at e
            exact hk e.1
          simp [hk]

theorem updateFile_single (g : filenode → filenode) (root : dirnode) (a : Str) (fn : filenode)
    (h : mapGet root.inodes a = some (.file fn)) :
    updateFile g root [a] = { root with inodes := mapPut root.inodes a (.file (g fn)) } := by
  rw [updateFile]
  simp only [h]

theorem updateFile_cons_cons (g : filenode → filenode) (root c : dirnode) (a b : Str)
    (rest : List Str) (h : mapGet root.inodes a = some (.dir c)) :
    updateFile g root (a :: b :: rest) =
      { root with inodes := mapPut root.inodes a (.dir (updateFile g c (b :: rest))) } := by
  simp only [updateFile, h]

/-- Changing the file node at a path changes the tree at that path only. -/
theorem kindAt_updateFile (g : filenode → filenode) (p : List Str) :
    ∀ (root : dirnode) (fn : filenode), getNode root p = some (.file fn) →
      ∀ q, kindAt (updateFile g root p) q =
        if q = p then some (inode.kind (.file (g fn))) else kindAt root q := by
  induction p with
  | nil => intro root fn h; rw [getNode_nil] at h; simp at h
  | cons a rest ih =>
    intro root fn h q
    cases rest with
    | nil =>
      rw [getNode_single] at h
      rw [updateFile_single g root a fn h]
      cases q with
      | nil => simp [kindAt_nil]
      | cons k r =>
        rw [kindAt_cons, kindAt_cons]
        simp only
        by_cases hk : k = a
        · subst hk
          rw [mapGet_mapPut_eq _ _ _ _ h, h]
          cases r with
          | nil => simp [inode.kindAt]
          | cons b more => simp [inode.kindAt]
        · rw [mapGet_mapPut_ne _ _ _ _ hk]
          simp [hk]
    | cons b more =>
      rw [getNode_cons_cons] at h
      cases hc : dirOf (mapGet root.inodes a) with
      | none => rw [hc] at h; simp at h
      | some c =>
        rw [hc] at h
        simp only [Option.some_bind] at h
        have hgd := dirOf_some _ _ hc
        rw [updateFile_cons_cons g root c a b more hgd]
        cases q with
        | nil => simp [kindAt_nil]
        | cons k r =>
          rw [kindAt_cons, kindAt_cons]
          simp only
          by_cases hk : k = a
          · subst hk
            rw [mapGet_mapPut_eq _ _ _ _ hgd, hgd]
            simp only [Option.some_bind, inode.kindAt]
            rw [ih c fn h r]
            simp
          · rw [mapGet_mapPut_ne _ _ _ _ hk]
            simp [hk]

theorem kind_appendExtents (fn : filenode) (exts : List storedExtent) :
    inode.kind (.file (exts.foldl (fun fn e => fn.appendExtent (.stored e)) fn)) =
      .file fn.fileinfo.name fn.fileinfo.mode
        (fn.extents.all extent.plain && exts.all (fun e => decide (0 ≤ e.offset)))
        (fn.extents.flatMap extent.refs ++ exts.flatMap storedExtent.refs) := by
  induction exts generalizing fn with
  | nil => simp [inode.kind]
  | cons e rest ih =>
    rw [List.foldl_cons, ih]
    simp [filenode.appendExtent, extent.refs, extent.plain, List.flatMap_append, Bool.and_assoc]

/-! ## `lookupPath` and `OpenFile` on paths of good names -/

theorem lookupStep_good (root : dirnode) (loc : List Str) (name : Str) (hn : GoodName name)
    (dn c : dirnode) (hd : getDir root loc = some dn)
    (hg : mapGet dn.inodes name = some (.dir c)) :
    lookupStep root (.dir loc) name = .dir (loc ++ [name]) := by
  obtain ⟨h1, h2, h3, _, _⟩ := hn
  unfold lookupStep
  have : ¬ (name = [46] ∨ name = []) := fun h => h.elim h2 h1
  simp only [this, if_false, h3, hd, hg]

theorem lookupStep_empty (root : dirnode) (loc : List Str) :
    lookupStep root (.dir loc) [] = .dir loc := by
  simp [lookupStep]

theorem lookup_dirs (root : dirnode) (ds : List Str) (h : ∀ e ∈ ds, GoodName e) :
    ∀ loc, (∃ dn, getDir root (loc ++ ds) = some dn) →
      ds.foldl (lookupStep root) (.dir loc) = .dir (loc ++ ds) := by
  induction ds with
  | nil => intro loc _; simp
  | cons d rest ih =>
    intro loc ⟨dn, hdn⟩
    have e1 : loc ++ d :: rest = (loc ++ [d]) ++ rest := by simp
    rw [e1] at hdn
    obtain ⟨c, hc⟩ := getDir_of_append _ _ _ _ hdn
    rw [getDir_snoc] at hc
    cases h0 : getDir root loc with
    | none => rw [h0] at hc; simp at hc
    | some dn0 =>
      rw [h0] at hc
      simp only [Option.some_bind] at hc
      have hg := dirOf_some _ _ hc
      rw [List.foldl_cons, lookupStep_good root loc d (h d (by simp)) dn0 c h0 hg]
      rw [ih (fun e he => h e (by simp [he])) (loc ++ [d]) ⟨dn, hdn⟩, e1]

theorem lookupPath_empty (root : dirnode) (loc : List Str) :
    lookupPath root loc [] = .dir loc := by
  simp [lookupPath, splitByte, lookupStep]

theorem lookupPath_dirname (root : dirnode) (ds : List Str) (h : ∀ e ∈ ds, GoodName e)
    (hd : ∃ dn, getDir root ds = some dn) :
    lookupPath root [] (if ds = [] then [] else joinWith [47] ds ++ [47]) = .dir ds := by
  by_cases hne : ds = []
  · simp only [hne, if_true]
    exact lookupPath_empty root []
  · simp only [hne, if_false]
    unfold lookupPath
    rw [splitByte_dirname ds h hne, List.foldl_append, lookup_dirs root ds h [] (by simpa using hd)]
    simp [lookupStep]

theorem OpenFile_mkdir_eval (root : dirnode) (loc : List Str) (d : Str) (hn : GoodName d)
    (dn : dirnode) (hd : getDir root loc = some dn) :
    dirnode.OpenFile root loc d O_CREATE (ModeDir ||| 0o755) =
      (match mapGet dn.inodes d with
        | none =>
          .ok ({ bareFile (loc ++ [d]) true with readable := true },
            updateDir (addChild d (newDir d)) root loc)
        | some n => .ok ({ bareFile (loc ++ [d]) n.IsDir with readable := true }, root)) := by
  have hsplit : pathSplit d = ([], d) := by
    have := pathSplit_path [] d (by simp) hn
    simpa [joinWith] using this
  obtain ⟨h1, h2, h3, _, _⟩ := hn
  unfold dirnode.OpenFile
  have hs : ¬ (O_CREATE &&& O_SYNC ≠ 0) := by decide
  simp only [hs, if_false, hsplit, lookupPath_empty]
  have hm : ¬ (O_CREATE &&& (O_RDWR ||| O_RDONLY ||| O_WRONLY) ≠ O_RDWR ∧
      O_CREATE &&& (O_RDWR ||| O_RDONLY ||| O_WRONLY) ≠ O_RDONLY ∧
      O_CREATE &&& (O_RDWR ||| O_RDONLY ||| O_WRONLY) ≠ O_WRONLY) := by decide
  simp only [hm, if_false]
  have hw : decide (O_CREATE &&& (O_RDWR ||| O_RDONLY ||| O_WRONLY) = O_RDWR ∨
      O_CREATE &&& (O_RDWR ||| O_RDONLY ||| O_WRONLY) = O_WRONLY) = false := by decide
  have hr : decide (O_CREATE &&& (O_RDWR ||| O_RDONLY ||| O_WRONLY) = O_RDWR ∨
      O_CREATE &&& (O_RDWR ||| O_RDONLY ||| O_WRONLY) = O_RDONLY) = true := by decide
  have hc : decide (O_CREATE &&& O_CREATE ≠ 0) = true := by decide
  have hdir : decide ((ModeDir ||| 0o755) &&& ModeDir ≠ 0) = true := by decide
  have he : ¬ (O_CREATE &&& O_EXCL ≠ 0) := by decide
  have ha : decide (O_CREATE &&& O_APPEND ≠ 0) = false := by decide
  have hn1 : ¬ (d = [46] ∨ d = []) := fun h => h.elim h2 h1
  simp only [hw, hr, hc, hdir, he, ha, hn1, h3, and_false, true_and, if_false, hd, if_true]
  cases mapGet dn.inodes d with
  | none => rfl
  | some n => rfl

/-- The call `OpenFile(name, O_CREATE|O_WRONLY|O_APPEND, 0700)` of
`loadManifest`, for a path of good names whose directory exists. -/
theorem OpenFile_create_eval (root : dirnode) (ds : List Str) (name : Str)
    (h : ∀ e ∈ ds, GoodName e) (hn : GoodName name) (dn : dirnode)
    (hd : getDir root ds = some dn) :
    dirnode.OpenFile root [] (joinWith [47] (ds ++ [name]))
        (O_CREATE ||| O_WRONLY ||| O_APPEND) 0o700 =
      (match mapGet dn.inodes name with
        | none =>
          .ok ({ bareFile (ds ++ [name]) false with append := true, writable := true },
            updateDir (addChild name (newFile name)) root ds)
        | some n =>
          .ok ({ bareFile (ds ++ [name]) n.IsDir with append := true, writable := true },
            root)) := by
  have hlook := lookupPath_dirname root ds h ⟨dn, hd⟩
  obtain ⟨h1, h2, h3, _, _⟩ := hn
  unfold dirnode.OpenFile
  have hs : ¬ ((O_CREATE ||| O_WRONLY ||| O_APPEND) &&& O_SYNC ≠ 0) := by decide
  simp only [hs, if_false, pathSplit_path ds name h ⟨h1, h2, h3, ‹_›, ‹_›⟩, hlook]
  have hm : ¬ ((O_CREATE ||| O_WRONLY ||| O_APPEND) &&& (O_RDWR ||| O_RDONLY ||| O_WRONLY) ≠ O_RDWR ∧
      (O_CREATE ||| O_WRONLY ||| O_APPEND) &&& (O_RDWR ||| O_RDONLY ||| O_WRONLY) ≠ O_RDONLY ∧
      (O_CREATE ||| O_WRONLY ||| O_APPEND) &&& (O_RDWR ||| O_RDONLY ||| O_WRONLY) ≠ O_WRONLY) := by
    decide
  simp only [hm, if_false]
  have hw : decide ((O_CREATE ||| O_WRONLY ||| O_APPEND) &&& (O_RDWR ||| O_RDONLY ||| O_WRONLY) = O_RDWR ∨
      (O_CREATE ||| O_WRONLY ||| O_APPEND) &&& (O_RDWR ||| O_RDONLY ||| O_WRONLY) = O_WRONLY)
      = true := by decide
  have hr : decide ((O_CREATE ||| O_WRONLY ||| O_APPEND) &&& (O_RDWR ||| O_RDONLY ||| O_WRONLY) = O_RDWR ∨
      (O_CREATE ||| O_WRONLY ||| O_APPEND) &&& (O_RDWR ||| O_RDONLY ||| O_WRONLY) = O_RDONLY)
      = false := by decide
  have hc : decide ((O_CREATE ||| O_WRONLY ||| O_APPEND) &&& O_CREATE ≠ 0) = true := by decide
  have hdir : decide ((0o700 : Nat) &&& ModeDir ≠ 0) = false := by decide
  have he : ¬ ((O_CREATE ||| O_WRONLY ||| O_APPEND) &&& O_EXCL ≠ 0) := by decide
  have ha : decide ((O_CREATE ||| O_WRONLY ||| O_APPEND) &&& O_APPEND ≠ 0) = true := by decide
  simp only [hw, hr, hc, hdir, he, ha, false_and, if_false, hd]
  cases mapGet dn.inodes name with
  | none => rfl
  | some n => rfl

theorem getLast?_getD_snoc (loc : List Str) (d dflt : Str) :
    (loc ++ [d]).getLast?.getD dflt = d := by
  rw [getLast?_snoc]; rfl

theorem kind_newDir (loc : List Str) (d : Str) : (newDir d).kind = stdDir (loc ++ [d]) := by
  simp [newDir, inode.kind, stdDir, getLast?_getD_snoc]

theorem kind_newFile (loc : List Str) (d : Str) : (newFile d).kind = stdFile (loc ++ [d]) [] := by
  simp [newFile, inode.kind, stdFile, getLast?_getD_snoc]

theorem kindAt_of_getDir (root dn : dirnode) (loc : List Str) (d : Str)
    (hd : getDir root loc = some dn) :
    kindAt root (loc ++ [d]) = (mapGet dn.inodes d).map inode.kind := by
  rw [kindAt_snoc, hd]; rfl

theorem getDir_of_kindAt_stdDir (root : dirnode) (q : List Str)
    (h : kindAt root q = some (stdDir q)) : ∃ dn, getDir root q = some dn :=
  (kindAt_dir_iff root q).mp ⟨_, _, h⟩

/-- The loop of `makeParentDirs` along good names: the missing directories
are created, and nothing else changes. -/
theorem makeDirs_spec (ds : List Str) :
    ∀ (loc : List Str) (root dn : dirnode), (∀ e ∈ ds, GoodName e) →
      getDir root loc = some dn →
      (∀ r, r <+: ds → r ≠ [] →
        kindAt root (loc ++ r) = none ∨ kindAt root (loc ++ r) = some (stdDir (loc ++ r))) →
      ∃ root1, makeDirs root loc ds = .ok root1 ∧
        (∃ dn1, getDir root1 (loc ++ ds) = some dn1) ∧
        (∀ r, r <+: ds → r ≠ [] → kindAt root1 (loc ++ r) = some (stdDir (loc ++ r))) ∧
        (∀ q, (¬ ∃ r, r <+: ds ∧ r ≠ [] ∧ q = loc ++ r) → kindAt root1 q = kindAt root q) := by
  induction ds with
  | nil =>
    intro loc root dn _ hd _
    refine ⟨root, rfl, ⟨dn, by simpa using hd⟩, ?_, fun _ _ => rfl⟩
    intro r hr hne
    exact absurd (List.prefix_nil.mp hr) hne
  | cons d rest ih =>
    intro loc root dn hgood hd hpre
    have hgd : GoodName d := hgood d (by simp)
    have hgrest : ∀ e ∈ rest, GoodName e := fun e he => hgood e (by simp [he])
    have hk := kindAt_of_getDir root dn loc d hd
    have hopen := OpenFile_mkdir_eval root loc d hgd dn hd
    have e1 : ∀ r : List Str, loc ++ d :: r = (loc ++ [d]) ++ r := by intro r; simp
    unfold makeDirs
    cases hg : mapGet dn.inodes d with
    | none =>
      rw [hg] at hopen hk
      simp only [Option.map_none'] at hk
      rw [hopen]
      simp only [bareFile, Bool.true_eq_false, if_false]
      have hkind := kindAt_addChild d (newDir d) (by simp [newDir, inode.IsLeaf]) loc root dn hd hg
      rw [kind_newDir loc d] at hkind
      have hnew : kindAt (updateDir (addChild d (newDir d)) root loc) (loc ++ [d])
          = some (stdDir (loc ++ [d])) := by rw [hkind]; simp
      obtain ⟨dn1, hdn1⟩ := getDir_of_kindAt_stdDir _ _ hnew
      obtain ⟨root1, h1, h2, h3, h4⟩ := ih (loc ++ [d]) _ dn1 hgrest hdn1 (by
        intro r hr hne
        have hq : loc ++ [d] ++ r ≠ loc ++ [d] := by
          intro e
          have := congrArg List.length e
          simp only [List.length_append, List.length_singleton] at this
          have : r.length = 0 := by omega
          exact hne (List.length_eq_zero.mp this)
        rw [hkind, if_neg hq, ← e1]
        exact hpre (d :: r) (List.cons_prefix_cons.mpr ⟨rfl, hr⟩) (by simp))
      refine ⟨root1, h1, ?_, ?_, ?_⟩
      · obtain ⟨dn2, hdn2⟩ := h2
        exact ⟨dn2, by rw [e1]; exact hdn2⟩
      · intro r hr hne
        cases r with
        | nil => exact absurd rfl hne
        | cons x r1 =>
          obtain ⟨hx, hr1⟩ := List.cons_prefix_cons.mp hr
          subst hx
          by_cases hr1e : r1 = []
          · subst hr1e
            rw [h4 (loc ++ [x]) (by
              rintro ⟨r, _, hrne, he⟩
              have := congrArg List.length he
              simp only [List.length_append, List.length_singleton] at this
              have : r.length = 0 := by omega
              exact hrne (List.length_eq_zero.mp this))]
            exact hnew
          · rw [e1]
            exact h3 r1 hr1 hr1e
      · intro q hq
        have hq1 : q ≠ loc ++ [d] := by
          intro e
          exact hq ⟨[d], by simp, by simp, e⟩
        rw [h4 q (by
          rintro ⟨r, hr, hrne, he⟩
          exact hq ⟨d :: r, List.cons_prefix_cons.mpr ⟨rfl, hr⟩, by simp, by rw [he]; simp⟩),
          hkind, if_neg hq1]
    | some n =>
      rw [hg] at hopen hk
      simp only [Option.map_some'] at hk
      rw [hopen]
      have hstd : kindAt root (loc ++ [d]) = some (stdDir (loc ++ [d])) := by
        rcases hpre [d] (by simp) (by simp) with h0 | h0
        · rw [hk] at h0; simp at h0
        · exact h0
      have hisdir : n.IsDir = true := by
        rw [hk] at hstd
        cases n with
        | file fn => simp [inode.kind, stdDir] at hstd
        | dir c => rfl
      simp only [bareFile, hisdir, Bool.true_eq_false, if_false]
      obtain ⟨dn1, hdn1⟩ := getDir_of_kindAt_stdDir _ _ hstd
      obtain ⟨root1, h1, h2, h3, h4⟩ := ih (loc ++ [d]) root dn1 hgrest hdn1 (by
        intro r hr hne
        rw [← e1]
        exact hpre (d :: r) (List.cons_prefix_cons.mpr ⟨rfl, hr⟩) (by simp))
      refine ⟨root1, h1, ?_, ?_, ?_⟩
      · obtain ⟨dn2, hdn2⟩ := h2
        exact ⟨dn2, by rw [e1]; exact hdn2⟩
      · intro r hr hne
        cases r with
        | nil => exact absurd rfl hne
        | cons x r1 =>
          obtain ⟨hx, hr1⟩ := List.cons_prefix_cons.mp hr
          subst hx
          by_cases hr1e : r1 = []
          · subst hr1e
            rw [h4 (loc ++ [x]) (by
              rintro ⟨r, _, hrne, he⟩
              have := congrArg List.length he
              simp only [List.length_append, List.length_singleton] at this
              have : r.length = 0 := by omega
              exact hrne (List.length_eq_zero.mp this))]
            exact hstd
          · rw [e1]
            exact h3 r1 hr1 hr1e
      · intro q hq
        exact h4 q (by
          rintro ⟨r, hr, hrne, he⟩
          exact hq ⟨d :: r, List.cons_prefix_cons.mpr ⟨rfl, hr⟩, by simp, by rw [he]; simp⟩)

/-! ## The extents `loadManifest` appends for a segment -/

theorem range_take_drop (sz a b : Nat) :
    ((List.range sz).take a).drop b = (List.range (min a sz - b)).map (fun j => b + j) := by
  apply List.ext_getElem?
  intro i
  by_cases hi : i < min a sz - b
  · rw [List.getElem?_drop, List.getElem?_take_of_lt (by omega), List.getElem?_range (by omega),
      List.getElem?_map, List.getElem?_range hi]
    rfl
  · rw [List.getElem?_eq_none (by simp; omega), List.getElem?_eq_none (by simp; omega)]

theorem segmentExtents_cons (offset length : Int) (e : storedExtent) (es : List storedExtent)
    (pos : Int) :
    segmentExtents offset length (e :: es) pos =
      if pos + e.Len < offset then segmentExtents offset length es (pos + e.Len)
      else if pos > wrap64 (offset + length) then ([], pos)
      else
        ({ locator := e.locator, size := e.size,
           offset := if pos < offset then offset - pos else 0,
           length :=
            if pos + ((if pos < offset then offset - pos else 0) +
                (e.Len - (if pos < offset then offset - pos else 0))) > wrap64 (offset + length)
            then wrap64 (offset + length) - pos - (if pos < offset then offset - pos else 0)
            else e.Len - (if pos < offset then offset - pos else 0) } ::
          (segmentExtents offset length es (pos + e.Len)).1,
          (segmentExtents offset length es (pos + e.Len)).2) := by
  rw [segmentExtents]

theorem segmentExtents_offsets (offset length : Int) (exs : List storedExtent) :
    ∀ (pos : Int), ∀ e ∈ (segmentExtents offset length exs pos).1, 0 ≤ e.offset := by
  induction exs with
  | nil => intro pos e he; simp [segmentExtents] at he
  | cons x es ih =>
    intro pos e he
    rw [segmentExtents_cons] at he
    by_cases h1 : pos + x.Len < offset
    · rw [if_pos h1] at he
      exact ih _ e he
    · rw [if_neg h1] at he
      by_cases h2 : pos > wrap64 (offset + length)
      · rw [if_pos h2] at he
        simp at he
      · rw [if_neg h2] at he
        simp only [List.mem_cons] at he
        rcases he with he | he
        · rw [he]
          simp only
          split_ifs <;> omega
        · exact ih _ e he

/-- Without overflow of `offset+length`: the loop ends with `pos` below
`offset+length` exactly when the stream is too short, and the extents it
appends select the window `[offset, offset+length)` of the stream that starts
at `pos`. -/
theorem segmentExtents_spec (offset length : Int) (h1 : 0 ≤ length)
    (hw : wrap64 (offset + length) = offset + length) (exs : List storedExtent) :
    ∀ pos : Int, (∀ e ∈ exs, 0 ≤ e.length) →
      ((segmentExtents offset length exs pos).2 < offset + length ↔
        pos + (exs.map storedExtent.Len).sum < offset + length) ∧
      (segmentExtents offset length exs pos).1.flatMap storedExtent.refs =
        ((extentsStream exs).take (offset + length - pos).toNat).drop (offset - pos).toNat := by
  induction exs with
  | nil =>
    intro pos _
    simp [segmentExtents, extentsStream]
  | cons e es ih =>
    intro pos hlen
    have hL : 0 ≤ e.length := hlen e (by simp)
    obtain ⟨ih1, ih2⟩ := ih (pos + e.Len) (fun x hx => hlen x (by simp [hx]))
    have hsum : 0 ≤ (es.map storedExtent.Len).sum := by
      apply List.sum_nonneg
      intro x hx
      rw [List.mem_map] at hx
      obtain ⟨y, hy, hxy⟩ := hx
      rw [← hxy]
      exact hlen y (by simp [hy])
    have hstream : extentsStream (e :: es) =
        (List.range e.length.toNat).map (fun j => (e.locator, j)) ++ extentsStream es := by
      simp [extentsStream]
    have hRlen : ((List.range e.length.toNat).map (fun j => (e.locator, j))).length
        = e.length.toNat := by simp
    rw [segmentExtents_cons, hw]
    simp only [storedExtent.Len] at ih1 ih2 ⊢
    simp only [List.map_cons, List.sum_cons, storedExtent.Len]
    by_cases hskip : pos + e.length < offset
    · simp only [hskip, if_true]
      refine ⟨by rw [ih1]; constructor <;> intro h <;> omega, ?_⟩
      rw [hstream, List.take_append_eq_append_take, List.drop_append_eq_append_drop,
        List.take_of_length_le (by rw [hRlen]; omega), List.drop_of_length_le (by rw [hRlen]; omega),
        List.nil_append, hRlen, ih2]
      congr 2 <;> omega
    · simp only [hskip, if_false]
      by_cases hbreak : pos > offset + length
      · simp only [hbreak, if_true]
        refine ⟨by constructor <;> intro h <;> omega, ?_⟩
        have : (offset + length - pos).toNat = 0 := by omega
        rw [this]
        simp
      · simp only [hbreak, if_false]
        refine ⟨by rw [ih1]; constructor <;> intro h <;> omega, ?_⟩
        simp only [List.flatMap_cons]
        rw [hstream, List.take_append_eq_append_take, List.drop_append_eq_append_drop, ih2]
        have hb : (offset - pos).toNat ≤ e.length.toNat := by omega
        congr 1
        · unfold storedExtent.refs
          simp only
          rw [← List.map_take, ← List.map_drop, range_take_drop, List.map_map]
          have hoff : (if pos < offset then offset - pos else 0).toNat = (offset - pos).toNat := by
            split_ifs <;> omega
          have hcount : (if pos + ((if pos < offset then offset - pos else 0) +
                (e.length - (if pos < offset then offset - pos else 0))) > offset + length
              then offset + length - pos - (if pos < offset then offset - pos else 0)
              else e.length - (if pos < offset then offset - pos else 0)).toNat
              = min (offset + length - pos).toNat e.length.toNat - (offset - pos).toNat := by
            split_ifs <;> omega
          rw [hoff, hcount]
          rfl
        · rw [List.length_take, hRlen]
          by_cases hshort : (offset + length - pos).toNat < e.length.toNat
          · have e1 : (offset + length - pos).toNat - e.length.toNat = 0 := by omega
            have e2 : (offset + length - (pos + e.length)).toNat = 0 := by omega
            rw [e1, e2]
            simp
          · have e1 : (offset - pos).toNat - min (offset + length - pos).toNat e.length.toNat
                = (offset - (pos + e.length)).toNat := by omega
            have e2 : (offset + length - pos).toNat - e.length.toNat
                = (offset + length - (pos + e.length)).toNat := by omega
            rw [e1, e2]

/-! ## The locators of a stream line -/

theorem locatorSize_nonneg (token : Str) (h : GoodLocator token) : 0 ≤ locatorSize token := by
  obtain ⟨_, _, _, _, n, hn, h0⟩ := h
  unfold locatorSize
  rw [hn]
  exact h0

theorem loadTokens_locator (lineno : Int) (d tok : Str) (rest : List Str)
    (ex : List storedExtent) (root : dirnode) (h : GoodLocator tok) :
    loadTokens lineno d (tok :: rest) ex false root =
      loadTokens lineno d rest (ex ++ [blockExtent tok]) false root := by
  obtain ⟨hc, _, _, hl, n, hn, h0⟩ := h
  have hsize : locatorSize tok = n := by unfold locatorSize; rw [hn]; rfl
  rw [loadTokens]
  have hl1 : ¬ (splitN 43 3 tok).length < 2 := by omega
  have hneg : ¬ n < 0 := by omega
  simp only [hc, if_true, Bool.false_eq_true, if_false, hl1, hn, hneg, blockExtent, hsize]

theorem loadTokens_locators (lineno : Int) (d : Str) (blocks rest : List Str) (root : dirnode)
    (h : ∀ b ∈ blocks, GoodLocator b) :
    ∀ ex, loadTokens lineno d (blocks ++ rest) ex false root =
      loadTokens lineno d rest (ex ++ blocks.map blockExtent) false root := by
  induction blocks with
  | nil => intro ex; simp
  | cons b bs ih =>
    intro ex
    rw [List.cons_append, loadTokens_locator lineno d b _ ex root (h b (by simp)),
      ih (fun x hx => h x (by simp [hx]))]
    simp

theorem extentsStream_blocks (blocks : List Str) :
    extentsStream (blocks.map blockExtent) = blockRefs locatorSize blocks := by
  simp [extentsStream, blockRefs, List.flatMap_map, blockExtent]

theorem sum_Len_blocks (blocks : List Str) (h : ∀ b ∈ blocks, GoodLocator b) :
    ((blocks.map blockExtent).map storedExtent.Len).sum
      = ((blockRefs locatorSize blocks).length : Int) := by
  induction blocks with
  | nil => rfl
  | cons b bs ih =>
    have h0 := locatorSize_nonneg b (h b (by simp))
    have e1 : blockRefs locatorSize (b :: bs) =
        (List.range (locatorSize b).toNat).map (fun j => (b, j)) ++ blockRefs locatorSize bs := by
      simp [blockRefs]
    rw [List.map_cons, List.map_cons, List.sum_cons, ih (fun x hx => h x (by simp [hx])), e1]
    simp only [storedExtent.Len, blockExtent, List.length_append, List.length_map,
      List.length_range]
    push_cast
    omega

/-! ## A segment token -/

theorem segmentToken_split (seg : m1segment) (h0 : 0 ≤ seg.offset) (h1 : 0 ≤ seg.length)
    (hn : ∀ b ∈ seg.name, b < 128) :
    splitByte 58 (segmentToken seg) =
      [formatInt seg.offset, formatInt seg.length, manifestEscape seg.name] := by
  have e : segmentToken seg =
      joinWith [58] [formatInt seg.offset, formatInt seg.length, manifestEscape seg.name] := by
    simp [segmentToken, joinWith]
  rw [e]
  apply splitByte_joinWith 58 _ (by simp)
  intro t ht
  simp only [List.mem_cons, List.mem_singleton, List.not_mem_nil, or_false] at ht
  rcases ht with ht | ht | ht
  · subst ht
    intro hm
    have := (formatInt_digits seg.offset h0).2 58 hm
    omega
  · subst ht
    intro hm
    have := (formatInt_digits seg.length h1).2 58 hm
    omega
  · subst ht
    intro hm
    exact (manifestEscape_bytes seg.name hn 58 hm).2.2 rfl

theorem segmentToken_colon (seg : m1segment) : containsByte (segmentToken seg) 58 = true := by
  simp [containsByte, segmentToken]

theorem segmentToken_bytes (seg : m1segment) (h0 : 0 ≤ seg.offset) (h1 : 0 ≤ seg.length)
    (hn : ∀ b ∈ seg.name, b < 128) : 32 ∉ segmentToken seg ∧ 10 ∉ segmentToken seg := by
  have key : ∀ c ∈ segmentToken seg, c ≠ 32 ∧ c ≠ 10 := by
    intro c hc
    simp only [segmentToken, List.mem_append, List.mem_singleton] at hc
    rcases hc with (((hc | hc) | hc) | hc) | hc
    · have := (formatInt_digits seg.offset h0).2 c hc; omega
    · omega
    · have := (formatInt_digits seg.length h1).2 c hc; omega
    · omega
    · have := manifestEscape_bytes seg.name hn c hc
      exact ⟨this.1, this.2.1⟩
  exact ⟨fun h => (key 32 h).1 rfl, fun h => (key 10 h).2 rfl⟩

theorem kindAt_file_getNode (root : dirnode) (q : List Str) (name : Str) (mode : Nat)
    (plain : Bool) (refs : List (Str × Nat))
    (h : kindAt root q = some (.file name mode plain refs)) :
    ∃ fn, getNode root q = some (.file fn) ∧ fn.fileinfo.name = name ∧
      fn.fileinfo.mode = mode ∧ fn.extents.all extent.plain = plain ∧
      fn.extents.flatMap extent.refs = refs := by
  unfold kindAt at h
  cases hg : getNode root q with
  | none => rw [hg] at h; simp at h
  | some n =>
    rw [hg] at h
    cases n with
    | dir dn => simp [inode.kind] at h
    | file fn =>
      simp only [Option.map_some', inode.kind, Option.some.injEq, Kind.file.injEq] at h
      exact ⟨fn, rfl, h.1, h.2.1, h.2.2.1, h.2.2.2⟩

theorem snoc_not_prefix (ds : List Str) (name : Str) : ¬ (ds ++ [name] <+: ds) := by
  intro h
  have := h.length_le
  simp at this

theorem refs_take_drop (stream : List (Str × Nat)) (seg : m1segment) (h0 : 0 ≤ seg.offset)
    (h1 : 0 ≤ seg.length) :
    (stream.take (seg.offset + seg.length - 0).toNat).drop (seg.offset - 0).toNat =
      seg.refs stream := by
  unfold m1segment.refs
  rw [List.drop_take]
  congr 1
  · omega
  · congr 1
    omega

/-- A segment token of a stream line: `loadManifest` creates the missing
directories of the path and the file if it is missing, and appends to the
file extents that select the window of the segment in the stream of the
listed blocks. -/
theorem loadTokens_segment (lineno : Int) (ds : List Str) (seg : m1segment)
    (exs : List storedExtent) (root : dirnode) (hds : ∀ e ∈ ds, GoodName e)
    (hname : GoodName seg.name) (h0 : 0 ≤ seg.offset) (h1 : 0 ≤ seg.length)
    (hin : seg.offset + seg.length ≤ (exs.map storedExtent.Len).sum)
    (hbound : (exs.map storedExtent.Len).sum < 2 ^ 63)
    (hexs : exs.length ≠ 0) (hlen : ∀ e ∈ exs, 0 ≤ e.length)
    (hpre1 : ∀ r, r <+: ds → r ≠ [] → kindAt root r = none ∨ kindAt root r = some (stdDir r))
    (hpre2 : kindAt root (ds ++ [seg.name]) = none ∨
      ∃ refs, kindAt root (ds ++ [seg.name]) = some (stdFile (ds ++ [seg.name]) refs)) :
    ∃ root3,
      (∀ rest any, loadTokens lineno (streamName ds) (segmentToken seg :: rest) exs any root =
        loadTokens lineno (streamName ds) rest exs true root3) ∧
      kindAt root3 (ds ++ [seg.name]) =
        some (stdFile (ds ++ [seg.name])
          (refsAt root (ds ++ [seg.name]) ++ seg.refs (extentsStream exs))) ∧
      (∀ r, r <+: ds → r ≠ [] → kindAt root3 r = some (stdDir r)) ∧
      (∀ q, q ≠ ds ++ [seg.name] → ¬ (q <+: ds ∧ q ≠ []) → kindAt root3 q = kindAt root q) := by
  have hascii := hname.2.2.2.2
  -- the directories
  obtain ⟨root1, hmk, ⟨dn1, hdn1⟩, hdirs1, hframe1⟩ :=
    makeDirs_spec ds [] root root hds (getDir_nil root) (by simpa using hpre1)
  simp only [List.nil_append] at hdn1 hdirs1 hframe1
  have hp1 : kindAt root1 (ds ++ [seg.name]) = kindAt root (ds ++ [seg.name]) := by
    apply hframe1
    rintro ⟨r, hr, _, he⟩
    exact snoc_not_prefix ds seg.name (he ▸ hr)
  have hk1 := kindAt_of_getDir root1 dn1 ds seg.name hdn1
  have hopen := OpenFile_create_eval root1 ds seg.name hds hname dn1 hdn1
  -- the file
  have hfile : ∃ (f : file) (root2 : dirnode),
      dirnode.OpenFile root1 [] (joinWith [47] (ds ++ [seg.name]))
        (O_CREATE ||| O_WRONLY ||| O_APPEND) 0o700 = .ok (f, root2) ∧
      f.inode = ds ++ [seg.name] ∧ f.isDir = false ∧
      kindAt root2 (ds ++ [seg.name]) =
        some (stdFile (ds ++ [seg.name]) (refsAt root (ds ++ [seg.name]))) ∧
      ∀ q, q ≠ ds ++ [seg.name] → kindAt root2 q = kindAt root1 q := by
    cases hg : mapGet dn1.inodes seg.name with
    | none =>
      rw [hg] at hopen hk1
      simp only [Option.map_none'] at hk1
      have hkind := kindAt_addChild seg.name (newFile seg.name) (by simp [newFile, inode.IsLeaf])
        ds root1 dn1 hdn1 hg
      rw [kind_newFile ds seg.name] at hkind
      have hrefs : refsAt root (ds ++ [seg.name]) = [] := by
        unfold refsAt
        rw [← hp1, hk1]
      refine ⟨_, _, hopen, rfl, rfl, ?_, ?_⟩
      · rw [hkind, hrefs]; simp
      · intro q hq
        rw [hkind, if_neg hq]
    | some n =>
      rw [hg] at hopen hk1
      simp only [Option.map_some'] at hk1
      rcases hpre2 with hnone | ⟨refs, hrefs⟩
      · rw [← hp1, hk1] at hnone
        simp at hnone
      · have hkn : n.kind = stdFile (ds ++ [seg.name]) refs := by
          rw [← hp1, hk1] at hrefs
          simpa using hrefs
        have hnd : n.IsDir = false := by
          cases n with
          | file fn => rfl
          | dir c => simp [inode.kind, stdFile] at hkn
        have hra : refsAt root (ds ++ [seg.name]) = refs := by
          unfold refsAt
          rw [← hp1, hk1, hkn]
          rfl
        refine ⟨_, _, hopen, rfl, hnd, ?_, fun _ _ => rfl⟩
        rw [hk1, hkn, hra]
  obtain ⟨f, root2, hopen2, hfi, hfd, hk2, hframe2⟩ := hfile
  obtain ⟨fn, hgn, hfname, hfmode, hfplain, hfrefs⟩ := kindAt_file_getNode root2 _ _ _ _ _ hk2
  -- the extents
  have hw : wrap64 (seg.offset + seg.length) = seg.offset + seg.length := by
    unfold wrap64
    have : seg.offset + seg.length < 2 ^ 63 := lt_of_le_of_lt hin hbound
    omega
  obtain ⟨hacc, hsel⟩ := segmentExtents_spec seg.offset seg.length h1 hw exs 0 hlen
  have hnot : ¬ (segmentExtents seg.offset seg.length exs 0).2 < seg.offset + seg.length := by
    rw [hacc]
    omega
  rw [refs_take_drop _ seg h0 h1] at hsel
  have hk3 := kindAt_updateFile
    (fun fn => (segmentExtents seg.offset seg.length exs 0).1.foldl
      (fun fn e => fn.appendExtent (.stored e)) fn) (ds ++ [seg.name]) root2 fn hgn
  have hoffs : (segmentExtents seg.offset seg.length exs 0).1.all
      (fun e => decide (0 ≤ e.offset)) = true := by
    rw [List.all_eq_true]
    intro e he
    simpa using segmentExtents_offsets seg.offset seg.length exs 0 e he
  rw [kind_appendExtents, hfname, hfmode, hfplain, hfrefs, hsel, hoffs] at hk3
  refine ⟨updateFile
    (fun fn => (segmentExtents seg.offset seg.length exs 0).1.foldl
      (fun fn e => fn.appendExtent (.stored e)) fn) root2 (ds ++ [seg.name]), ?_, ?_, ?_, ?_⟩
  rotate_left
  · rw [hk3]
    simp [stdFile]
  · intro r hr hne
    have hq : r ≠ ds ++ [seg.name] := by
      intro e
      exact snoc_not_prefix ds seg.name (e ▸ hr)
    rw [hk3, if_neg hq, hframe2 r hq]
    exact hdirs1 r hr hne
  · intro q hq hnp
    rw [hk3, if_neg hq, hframe2 q hq]
    apply hframe1
    rintro ⟨r, hr, hrne, he⟩
    exact hnp ⟨he ▸ hr, he ▸ hrne⟩
  · intro rest any
    have hsplit := segmentToken_split seg h0 h1 hascii
    have hoff := ParseInt_formatInt seg.offset h0 (by
      have : seg.offset + seg.length < 2 ^ 63 := lt_of_le_of_lt hin hbound
      omega)
    have hlen2 := ParseInt_formatInt seg.length h1 (by
      have : seg.offset + seg.length < 2 ^ 63 := lt_of_le_of_lt hin hbound
      omega)
    have hclean : pathClean (streamName ds ++ [47] ++ manifestUnescape (manifestEscape seg.name))
        = joinWith [47] (ds ++ [seg.name]) := by
      rw [manifestUnescape_escape seg.name hascii]
      exact pathClean_streamName ds seg.name hds hname
    have hmk2 : dirnode.makeParentDirs root [] (joinWith [47] (ds ++ [seg.name])) = .ok root1 := by
      unfold dirnode.makeParentDirs
      rw [splitByte_path ds seg.name hds hname, List.dropLast_concat]
      exact hmk
    rw [loadTokens]
    have hneg0 : ¬ seg.offset < 0 := by omega
    have hneg1 : ¬ seg.length < 0 := by omega
    have hfd' : ¬ (f.isDir = true) := by rw [hfd]; simp
    simp only [segmentToken_colon, Bool.true_eq_false, if_false, hexs, hsplit,
      List.length_cons, List.length_nil, ne_eq, not_true_eq_false, List.getD_cons_zero,
      List.getD_cons_succ, hoff, hneg0, hlen2, hneg1, hclean, hmk2, hopen2, hfd', hw, hnot, hfi]
    rfl

theorem refsAt_stdFile (root : dirnode) (q : List Str) (refs : List (Str × Nat))
    (h : kindAt root q = some (stdFile q refs)) : refsAt root q = refs := by
  unfold refsAt
  rw [h]
  rfl

theorem refsAt_none (root : dirnode) (q : List Str) (h : kindAt root q = none) :
    refsAt root q = [] := by
  unfold refsAt
  rw [h]

theorem fileRefs_cons (stream : List (Str × Nat)) (seg : m1segment) (rest : List m1segment)
    (n : Str) :
    fileRefs stream (seg :: rest) n =
      (if seg.name = n then seg.refs stream else []) ++ fileRefs stream rest n := by
  unfold fileRefs
  by_cases h : seg.name = n <;> simp [List.filter_cons, h]

theorem fileRefs_absent (stream : List (Str × Nat)) (segs : List m1segment) (n : Str)
    (h : n ∉ segs.map (fun seg => seg.name)) : fileRefs stream segs n = [] := by
  unfold fileRefs
  have : segs.filter (fun seg => decide (seg.name = n)) = [] := by
    rw [List.filter_eq_nil_iff]
    intro seg hseg
    simp only [decide_eq_true_eq]
    intro e
    exact h (List.mem_map.mpr ⟨seg, hseg, e⟩)
  rw [this]
  rfl

/-- The segment tokens of a stream line, one after the other. -/
theorem loadTokens_segments (lineno : Int) (ds : List Str) (exs : List storedExtent)
    (hds : ∀ e ∈ ds, GoodName e) (hbound : (exs.map storedExtent.Len).sum < 2 ^ 63)
    (hexs : exs.length ≠ 0) (hlen : ∀ e ∈ exs, 0 ≤ e.length) (segs : List m1segment) :
    ∀ (root : dirnode) (any : Bool),
      (∀ seg ∈ segs, GoodName seg.name ∧ 0 ≤ seg.offset ∧ 0 ≤ seg.length ∧
        seg.offset + seg.length ≤ (exs.map storedExtent.Len).sum) →
      (∀ r, r <+: ds → r ≠ [] → kindAt root r = none ∨ kindAt root r = some (stdDir r)) →
      (∀ seg ∈ segs, kindAt root (ds ++ [seg.name]) = none ∨
        ∃ refs, kindAt root (ds ++ [seg.name]) = some (stdFile (ds ++ [seg.name]) refs)) →
      ∃ root1,
        loadTokens lineno (streamName ds) (segs.map segmentToken) exs any root =
          .ok (exs, any || !segs.isEmpty, root1) ∧
        (∀ n, n ∈ segs.map (fun seg => seg.name) →
          kindAt root1 (ds ++ [n]) = some (stdFile (ds ++ [n])
            (refsAt root (ds ++ [n]) ++ fileRefs (extentsStream exs) segs n))) ∧
        (segs ≠ [] → ∀ r, r <+: ds → r ≠ [] → kindAt root1 r = some (stdDir r)) ∧
        (∀ q, (¬ ∃ n, n ∈ segs.map (fun seg => seg.name) ∧ q = ds ++ [n]) →
          ¬ (q <+: ds ∧ q ≠ []) → kindAt root1 q = kindAt root q) := by
  induction segs with
  | nil =>
    intro root any _ _ _
    refine ⟨root, by simp [loadTokens], by simp, by simp, fun _ _ _ => rfl⟩
  | cons seg rest ih =>
    intro root any hsegs hpre1 hpre2
    obtain ⟨hgn, h0, h1, hin⟩ := hsegs seg (by simp)
    obtain ⟨root3, hstep, hka, hkb, hkc⟩ := loadTokens_segment lineno ds seg exs root hds hgn h0
      h1 hin hbound hexs hlen hpre1 (hpre2 seg (by simp))
    have hne_path : ∀ n, n ≠ seg.name → ds ++ [n] ≠ ds ++ [seg.name] := by
      intro n hn e
      exact hn (by simpa using e)
    obtain ⟨root1, hload, ha, hb, hc⟩ := ih root3 true
      (fun s hs => hsegs s (by simp [hs]))
      (fun r hr hne => Or.inr (hkb r hr hne))
      (by
        intro s hs
        by_cases hsn : s.name = seg.name
        · rw [hsn]
          exact Or.inr ⟨_, hka⟩
        · rw [hkc _ (hne_path _ hsn) (fun h => snoc_not_prefix ds s.name h.1)]
          exact hpre2 s (by simp [hs]))
    refine ⟨root1, ?_, ?_, ?_, ?_⟩
    · rw [List.map_cons, hstep, hload]
      simp
    · intro n hn
      rw [fileRefs_cons]
      by_cases hrest : n ∈ rest.map (fun seg => seg.name)
      · rw [ha n hrest]
        by_cases hsn : seg.name = n
        · subst hsn
          rw [refsAt_stdFile _ _ _ hka]
          simp
        · have : refsAt root3 (ds ++ [n]) = refsAt root (ds ++ [n]) := by
            unfold refsAt
            rw [hkc _ (hne_path _ (Ne.symm hsn)) (fun h => snoc_not_prefix ds n h.1)]
          rw [this]
          simp [hsn]
      · have hsn : seg.name = n := by
          simp only [List.map_cons, List.mem_cons] at hn
          rcases hn with hn | hn
          · exact hn.symm
          · exact absurd hn hrest
        subst hsn
        rw [hc _ (by
          rintro ⟨m, hm, e⟩
          have : seg.name = m := by simpa using e
          exact hrest (this ▸ hm)) (fun h => snoc_not_prefix ds seg.name h.1)]
        rw [hka, fileRefs_absent _ _ _ hrest]
        simp
    · intro _ r hr hne
      by_cases hrest : rest = []
      · subst hrest
        simp only [List.map_nil, loadTokens, Except.ok.injEq, Prod.mk.injEq, true_and] at hload
        rw [← hload.2]
        exact hkb r hr hne
      · exact hb hrest r hr hne
    · intro q hq hnp
      rw [hc q (by
        rintro ⟨n, hn, e⟩
        exact hq ⟨n, by simp [hn], e⟩) hnp]
      apply hkc q _ hnp
      intro e
      exact hq ⟨seg.name, by simp, e⟩

/-! ## A stream line read back -/

theorem streamName_ascii (ds : List Str) (hds : ∀ e ∈ ds, GoodName e) :
    ∀ b ∈ streamName ds, b < 128 := by
  intro b hb
  unfold streamName at hb
  rcases mem_joinWith _ _ _ hb with h | ⟨t, ht, h⟩
  · simp only [List.mem_singleton] at h
    omega
  · simp only [List.mem_cons] at ht
    rcases ht with ht | ht
    · subst ht
      simp only [List.mem_singleton] at h
      omega
    · exact (hds t ht).2.2.2.2 b h

theorem streamName_ne_nil (ds : List Str) : streamName ds ≠ [] := by
  intro h
  have := streamName_head ds
  rw [h] at this
  simp at this

theorem lineBlocks_ne_nil (s : StreamState) : lineBlocks s ≠ [] := by
  unfold lineBlocks
  by_cases h : s.blocks.length = 0
  · simp [h]
  · simp only [h, if_false]
    intro e
    exact h (by rw [e]; rfl)

theorem lineOf_eq_join (ds : List Str) (s : StreamState) (hseg : s.segments ≠ []) :
    lineOf ds s = joinWith [32]
      (manifestEscape (streamName ds) :: (lineBlocks s ++ s.segments.map segmentToken)) := by
  have hb := lineBlocks_ne_nil s
  have hs : s.segments.map segmentToken ≠ [] := by simpa using hseg
  have e1 : manifestEscape (streamName ds) :: (lineBlocks s ++ s.segments.map segmentToken)
      = [manifestEscape (streamName ds)] ++ (lineBlocks s ++ s.segments.map segmentToken) := rfl
  rw [e1, joinWith_append [32] _ _ (by simp) (by simp [hb]), joinWith_append [32] _ _ hb hs]
  simp [lineOf, joinWith, List.append_assoc]

theorem lineOf_tokens (ds : List Str) (s : StreamState) (hds : ∀ e ∈ ds, GoodName e)
    (hblocks : ∀ b ∈ lineBlocks s, GoodLocator b)
    (hsegs : ∀ seg ∈ s.segments, 0 ≤ seg.offset ∧ 0 ≤ seg.length ∧ ∀ b ∈ seg.name, b < 128) :
    (∀ t ∈ manifestEscape (streamName ds) :: (lineBlocks s ++ s.segments.map segmentToken),
      32 ∉ t ∧ 10 ∉ t) := by
  intro t ht
  simp only [List.mem_cons, List.mem_append, List.mem_map] at ht
  rcases ht with ht | ht | ⟨seg, hseg1, ht⟩
  · subst ht
    have := manifestEscape_bytes _ (streamName_ascii ds hds)
    exact ⟨fun h => (this 32 h).1 rfl, fun h => (this 10 h).2.1 rfl⟩
  · obtain ⟨_, h1, h2, _⟩ := hblocks t ht
    exact ⟨h1, h2⟩
  · subst ht
    obtain ⟨h0, h1, h2⟩ := hsegs seg hseg1
    exact segmentToken_bytes seg h0 h1 h2

theorem lineOf_no_newline (ds : List Str) (s : StreamState) (hds : ∀ e ∈ ds, GoodName e)
    (hseg : s.segments ≠ []) (hblocks : ∀ b ∈ lineBlocks s, GoodLocator b)
    (hsegs : ∀ seg ∈ s.segments, 0 ≤ seg.offset ∧ 0 ≤ seg.length ∧ ∀ b ∈ seg.name, b < 128) :
    10 ∉ lineOf ds s := by
  rw [lineOf_eq_join ds s hseg]
  intro h
  rcases mem_joinWith _ _ _ h with h1 | ⟨t, ht, h1⟩
  · simp at h1
  · exact (lineOf_tokens ds s hds hblocks hsegs t ht).2 h1

/-- A stream line `marshalManifest` writes, read back by `loadManifest`: the
files of the segments are created with their directories, and each gets the
block bytes its segments select. -/
theorem loadStream_line (lineno : Int) (ds : List Str) (s : StreamState) (root : dirnode)
    (hds : ∀ e ∈ ds, GoodName e) (hseg : s.segments ≠ [])
    (hblocks : ∀ b ∈ lineBlocks s, GoodLocator b)
    (hsegs : ∀ seg ∈ s.segments, GoodName seg.name ∧ 0 ≤ seg.offset ∧ 0 ≤ seg.length ∧
      seg.offset + seg.length ≤ ((blockRefs locatorSize (lineBlocks s)).length : Int))
    (hbound : ((blockRefs locatorSize (lineBlocks s)).length : Int) < 2 ^ 63)
    (hpre1 : ∀ r, r <+: ds → r ≠ [] → kindAt root r = none ∨ kindAt root r = some (stdDir r))
    (hpre2 : ∀ seg ∈ s.segments, kindAt root (ds ++ [seg.name]) = none ∨
      ∃ refs, kindAt root (ds ++ [seg.name]) = some (stdFile (ds ++ [seg.name]) refs)) :
    ∃ root1, loadStream lineno (lineOf ds s) root = .ok root1 ∧
      (∀ n, n ∈ s.segments.map (fun seg => seg.name) →
        kindAt root1 (ds ++ [n]) = some (stdFile (ds ++ [n])
          (refsAt root (ds ++ [n]) ++
            fileRefs (blockRefs locatorSize (lineBlocks s)) s.segments n))) ∧
      (∀ r, r <+: ds → r ≠ [] → kindAt root1 r = some (stdDir r)) ∧
      (∀ q, (¬ ∃ n, n ∈ s.segments.map (fun seg => seg.name) ∧ q = ds ++ [n]) →
        ¬ (q <+: ds ∧ q ≠ []) → kindAt root1 q = kindAt root q) := by
  have hsum := sum_Len_blocks (lineBlocks s) hblocks
  have hexs : ((lineBlocks s).map blockExtent).length ≠ 0 := by
    simp only [List.length_map, ne_eq, List.length_eq_zero]
    exact lineBlocks_ne_nil s
  have hlen : ∀ e ∈ (lineBlocks s).map blockExtent, 0 ≤ e.length := by
    intro e he
    rw [List.mem_map] at he
    obtain ⟨b, hb, hbe⟩ := he
    rw [← hbe]
    exact locatorSize_nonneg b (hblocks b hb)
  obtain ⟨root1, hload, ha, hb, hc⟩ := loadTokens_segments lineno ds
    ((lineBlocks s).map blockExtent) hds (by rw [hsum]; exact hbound) hexs hlen s.segments root
    false (by
      intro seg hs
      obtain ⟨g, h0, h1, h2⟩ := hsegs seg hs
      exact ⟨g, h0, h1, by rw [hsum]; exact h2⟩) hpre1 hpre2
  rw [extentsStream_blocks] at ha
  refine ⟨root1, ?_, ha, hb hseg, hc⟩
  have htoks := lineOf_tokens ds s hds hblocks
    (fun seg hs => ⟨(hsegs seg hs).2.1, (hsegs seg hs).2.2.1, (hsegs seg hs).1.2.2.2.2⟩)
  unfold loadStream
  rw [lineOf_eq_join ds s hseg, splitByte_joinWith 32 _ (by simp) (fun t ht => (htoks t ht).1)]
  simp only
  rw [manifestUnescape_escape _ (streamName_ascii ds hds),
    loadTokens_locators lineno _ _ _ root hblocks, List.nil_append, hload]
  have h1 : s.segments.isEmpty = false := by
    cases hs : s.segments with
    | nil => exact absurd hs hseg
    | cons a b => rfl
  simp only [h1, Bool.not_false, Bool.or_true, Bool.true_eq_false, if_false]
  simp only [List.length_map, List.length_eq_zero, lineBlocks_ne_nil, if_false,
    streamName_ne_nil]

/-! ## More on the stream variables -/

theorem marshalExtent_last (n : Str) (t : StreamState) (e : storedExtent) :
    ∃ seg, (marshalExtent n t e).segments.getLast? = some seg ∧ seg.name = n := by
  rcases List.eq_nil_or_concat t.segments with hnil | ⟨pre, prev, hc⟩
  · rw [marshalExtent_segments_nil n t e hnil]
    exact ⟨_, rfl, rfl⟩
  · rw [List.concat_eq_append] at hc
    by_cases hm : prev.name = n ∧ prev.offset + prev.length = blockStart t e + e.offset
    · rw [marshalExtent_segments_merge n t e pre prev hc hm, getLast?_snoc]
      exact ⟨_, rfl, hm.1⟩
    · rw [marshalExtent_segments_append n t e pre prev hc hm, getLast?_snoc]
      exact ⟨_, rfl, rfl⟩

/-- Every file gets a segment of its name. -/
theorem marshalFile_has_segment (n : Str) (fn : filenode) (t t1 : StreamState)
    (hm : marshalFile n fn t = .ok t1) : ∃ seg ∈ t1.segments, seg.name = n := by
  unfold marshalFile at hm
  by_cases h0 : fn.extents.length = 0
  · simp only [h0, if_true, Except.ok.injEq] at hm
    subst hm
    exact ⟨{ name := n, offset := 0, length := 0 }, by simp, rfl⟩
  · simp only [h0, if_false] at hm
    obtain ⟨ses, hes, hq⟩ := marshalExtents_induct n
      (fun done u => done ≠ [] → ∃ seg, u.segments.getLast? = some seg ∧ seg.name = n)
      (fun done e u _ _ => marshalExtent_last n u e)
      fn.extents [] t t1 (fun h => absurd rfl h) hm
    have hne : ([] : List storedExtent) ++ ses ≠ [] := by
      intro e
      simp only [List.nil_append] at e
      rw [e] at hes
      simp [hes] at h0
    obtain ⟨seg, hlast, hname⟩ := hq hne
    exact ⟨seg, List.mem_of_mem_getLast? hlast, hname⟩

theorem marshalFiles_names (files : List (Str × filenode)) (s : StreamState)
    (hnd : (files.map Prod.fst).Nodup) (hm : marshalFiles files emptyStream = .ok s) :
    ∀ f ∈ files, f.1 ∈ s.segments.map (fun seg => seg.name) := by
  have key := marshalFiles_induct_at files
    (fun done t => List.Chain' (fun a b => ¬ Mergeable a b) t.segments ∧
      (∀ seg ∈ t.segments, seg.name ∈ done.map Prod.fst) ∧
      (∀ f ∈ done, t.segments.filter (fun seg => decide (seg.name = f.1)) ≠ []))
    (by
      intro done n fn rest t t1 hfiles ⟨hc, hnames, hhas⟩ hm1
      have hnd1 : ((done ++ (n, fn) :: rest).map Prod.fst).Nodup := hfiles ▸ hnd
      have hnotin : n ∉ done.map Prod.fst := by
        rw [List.map_append, List.map_cons] at hnd1
        have := (List.nodup_append.mp hnd1).2.2
        intro hmem
        exact this hmem (List.mem_cons_self _ _)
      have hfresh : ∀ seg ∈ t.segments, seg.name ≠ n := by
        intro seg hseg heq
        exact hnotin (heq ▸ hnames seg hseg)
      obtain ⟨hc1, hn1, hf1⟩ := marshalFile_segments n fn t t1 hm1 hc hfresh
      refine ⟨hc1, ?_, ?_⟩
      · intro seg hseg
        rcases hn1 seg hseg with h | ⟨old, hold, hn⟩
        · simp [h]
        · have := hnames old hold
          rw [hn] at this
          simp only [List.map_append, List.mem_append]
          exact Or.inl this
      · intro f hf
        simp only [List.mem_append, List.mem_singleton] at hf
        rcases hf with hf | hf
        · have hne : f.1 ≠ n := by
            intro heq
            exact hnotin (heq ▸ List.mem_map_of_mem Prod.fst hf)
          rw [hf1 f.1 hne]
          exact hhas f hf
        · subst hf
          obtain ⟨seg, hseg, hname⟩ := marshalFile_has_segment n fn t t1 hm1
          intro hnil
          rw [List.filter_eq_nil_iff] at hnil
          exact hnil seg hseg (by simpa using hname))
    files [] emptyStream s rfl
    ⟨by simp [emptyStream], by simp [emptyStream], by simp⟩ hm
  intro f hf
  have := key.2.2 f hf
  obtain ⟨seg, hseg⟩ := List.exists_mem_of_ne_nil _ this
  rw [List.mem_filter] at hseg
  exact List.mem_map.mpr ⟨seg, hseg.1, by simpa using hseg.2⟩

theorem marshalFile_total (n : Str) (fn : filenode) (t : StreamState)
    (h : ∀ e ∈ fn.extents, ∃ se, e = extent.stored se) : ∃ t1, marshalFile n fn t = .ok t1 := by
  unfold marshalFile
  by_cases h0 : fn.extents.length = 0
  · simp [h0]
  · simp only [h0, if_false]
    generalize fn.extents = es at h
    induction es generalizing t with
    | nil => exact ⟨t, rfl⟩
    | cons e rest ih =>
      obtain ⟨se, hse⟩ := h e (by simp)
      subst hse
      simp only [marshalExtents]
      exact ih _ (fun x hx => h x (by simp [hx]))

theorem marshalFiles_total (files : List (Str × filenode))
    (h : ∀ f ∈ files, ∀ e ∈ f.2.extents, ∃ se, e = extent.stored se) :
    ∀ t, ∃ s, marshalFiles files t = .ok s := by
  induction files with
  | nil => intro t; exact ⟨t, rfl⟩
  | cons f rest ih =>
    intro t
    obtain ⟨n, fn⟩ := f
    obtain ⟨t1, ht1⟩ := marshalFile_total n fn t (h (n, fn) (by simp))
    simp only [marshalFiles, ht1]
    exact ih (fun x hx => h x (by simp [hx])) t1

/-- The stream is not longer than the blocks of all the extents together. -/
theorem marshalFiles_streamLen (bs : Str → Int) (files : List (Str × filenode))
    (s : StreamState)
    (hall : ∀ f ∈ files, ∀ e ∈ f.2.extents, ∃ se, e = extent.stored se ∧ se.WindowOk bs)
    (hm : marshalFiles files emptyStream = .ok s) : s.streamLen ≤ filesBound files := by
  have key := marshalFiles_induct_at files
    (fun done t => t.streamLen ≤ filesBound done)
    (by
      intro done n fn rest t t1 hfiles hinv hm1
      have hfn : ∀ e ∈ fn.extents, ∃ se, e = extent.stored se ∧ se.WindowOk bs :=
        hall (n, fn) (by rw [hfiles]; simp)
      have hb : filesBound (done ++ [(n, fn)]) =
          filesBound done + (fn.extents.map extent.blockSize).sum := by
        simp [filesBound]
      rw [hb]
      unfold marshalFile at hm1
      by_cases h0 : fn.extents.length = 0
      · simp only [h0, if_true, Except.ok.injEq] at hm1
        subst hm1
        have : fn.extents = [] := List.length_eq_zero.mp h0
        simp [this]
        exact hinv
      · simp only [h0, if_false] at hm1
        obtain ⟨ses, hes, hq⟩ := marshalExtents_induct n
          (fun dn u => (∀ se ∈ dn, se.WindowOk bs) →
            u.streamLen ≤ filesBound done + (dn.map (fun se => se.size)).sum)
          (by
            intro dn e u hq hw
            have h1 := hq (fun se hse => hw se (by simp [hse]))
            obtain ⟨_, ho, hl, hsz⟩ := hw e (by simp)
            rw [marshalExtent_streamLen]
            have : blockStart u e ≤ u.streamLen := by
              unfold blockStart
              split_ifs <;> omega
            simp only [List.map_append, List.map_cons, List.map_nil, List.sum_append,
              List.sum_cons, List.sum_nil]
            omega)
          fn.extents [] t t1 (fun _ => by simpa using hinv) hm1
        have hw : ∀ se ∈ ([] : List storedExtent) ++ ses, se.WindowOk bs := by
          intro se hse
          simp only [List.nil_append] at hse
          obtain ⟨se1, h1, h2⟩ := hfn (extent.stored se)
            (by rw [hes]; exact List.mem_map_of_mem _ hse)
          simp only [extent.stored.injEq] at h1
          subst h1
          exact h2
        have := hq hw
        rw [hes]
        simp only [List.nil_append] at this
        have e2 : (ses.map extent.stored).map extent.blockSize = ses.map (fun se => se.size) := by
          simp [List.map_map, Function.comp, extent.blockSize]
        rw [e2]
        exact this)
    files [] emptyStream s rfl (by simp [emptyStream, filesBound]) hm
  exact key

/-! ## The stream line of a good directory -/

theorem fileOf_eq_some (dn : dirnode) (n : Str) (fn : filenode) :
    fileOf dn n = some fn ↔ mapGet dn.inodes n = some (.file fn) := by
  unfold fileOf
  cases hg : mapGet dn.inodes n with
  | none => simp
  | some x =>
    cases x with
    | file f => simp
    | dir c => simp

theorem goodLocator_empty : GoodLocator emptyLocator :=
  ⟨by decide, by decide, by decide, by decide, 0, by decide, le_refl _⟩

theorem locatorSize_empty : locatorSize emptyLocator = 0 := by decide

theorem blockRefs_lineBlocks_length (s : StreamState) :
    (blockRefs locatorSize (lineBlocks s)).length = (blockRefs locatorSize s.blocks).length := by
  unfold lineBlocks
  by_cases h : s.blocks.length = 0
  · have hnil : s.blocks = [] := List.length_eq_zero.mp h
    simp [h, hnil, blockRefs, locatorSize_empty]
  · simp [h]

/-- What the loop of `marshalManifest` leaves for a good directory. -/
theorem goodDir_stream (D : dirnode) (hg : GoodDir D) :
    ∃ s, marshalFiles (filesOf D (sortedNames D.inodes)) emptyStream = .ok s ∧
      (∀ b ∈ lineBlocks s, GoodLocator b) ∧
      (∀ seg ∈ s.segments, GoodName seg.name ∧ 0 ≤ seg.offset ∧ 0 ≤ seg.length ∧
        seg.offset + seg.length ≤ ((blockRefs locatorSize (lineBlocks s)).length : Int)) ∧
      ((blockRefs locatorSize (lineBlocks s)).length : Int) < 2 ^ 63 ∧
      (∀ n fn, fileOf D n = some fn → n ∈ s.segments.map (fun seg => seg.name) ∧
        fileRefs (blockRefs locatorSize (lineBlocks s)) s.segments n =
          fn.extents.flatMap extent.refs) ∧
      (∀ seg ∈ s.segments, ∃ fn, fileOf D seg.name = some fn) := by
  obtain ⟨hnames, hfiles, _, hbound⟩ := hg
  have hmem : ∀ f ∈ filesOf D (sortedNames D.inodes), GoodFile f.1 f.2 := by
    intro f hf
    have := (mem_filesOf_sorted D f.1 f.2).mp hf
    exact hfiles f.1 f.2 ((fileOf_eq_some D f.1 f.2).mp this)
  have hstored : ∀ f ∈ filesOf D (sortedNames D.inodes), ∀ e ∈ f.2.extents,
      ∃ se, e = extent.stored se := by
    intro f hf e he
    obtain ⟨se, hse, _⟩ := (hmem f hf).2.2 e he
    exact ⟨se, hse⟩
  have hwin : ∀ f ∈ filesOf D (sortedNames D.inodes), ∀ e ∈ f.2.extents,
      ∃ se, e = extent.stored se ∧ se.WindowOk locatorSize := by
    intro f hf e he
    obtain ⟨se, hse, _, hw⟩ := (hmem f hf).2.2 e he
    exact ⟨se, hse, hw⟩
  obtain ⟨s, hs⟩ := marshalFiles_total _ hstored emptyStream
  obtain ⟨hinv, hrefs⟩ := marshalFiles_refs locatorSize _ s (filesOf_nodup D) hwin hs
  obtain ⟨_, hblocks, _⟩ := marshalFiles_blocks _ s hs
  obtain ⟨_, hsegnames, _⟩ := marshalFiles_segments _ s (filesOf_nodup D) hs
  have hhas := marshalFiles_names _ s (filesOf_nodup D) hs
  have hlen := marshalFiles_streamLen locatorSize _ s hwin hs
  have hlb := blockRefs_lineBlocks_length s
  refine ⟨s, hs, ?_, ?_, ?_, ?_, ?_⟩
  · intro b hb
    unfold lineBlocks at hb
    by_cases h0 : s.blocks.length = 0
    · simp only [h0, if_true, List.mem_singleton] at hb
      subst hb
      exact goodLocator_empty
    · simp only [h0, if_false] at hb
      obtain ⟨f, hf, se, hse, hl⟩ := hblocks b hb
      obtain ⟨se1, h1, h2, _⟩ := (hmem f hf).2.2 _ hse
      simp only [extent.stored.injEq] at h1
      subst h1
      rw [← hl]
      exact h2
  · intro seg hseg
    obtain ⟨h0, h1, h2⟩ := hinv.2 seg hseg
    have hn := hsegnames seg hseg
    rw [List.mem_map] at hn
    obtain ⟨f, hf, hfn⟩ := hn
    have hfile := (mem_filesOf_sorted D f.1 f.2).mp hf
    have hgn := hnames f.1 _ ((fileOf_eq_some D f.1 f.2).mp hfile)
    rw [hfn] at hgn
    refine ⟨hgn, h0, h1, ?_⟩
    rw [hlb, ← hinv.1]
    exact h2
  · rw [hlb, ← hinv.1]
    exact lt_of_le_of_lt hlen hbound
  · intro n fn hf
    have hf1 := (mem_filesOf_sorted D n fn).mpr hf
    refine ⟨hhas (n, fn) hf1, ?_⟩
    rw [fileRefs_lineBlocks locatorSize s hinv]
    exact hrefs (n, fn) hf1
  · intro seg hseg
    have hn := hsegnames seg hseg
    rw [List.mem_map] at hn
    obtain ⟨f, hf, hfn⟩ := hn
    exact ⟨f.2, hfn ▸ (mem_filesOf_sorted D f.1 f.2).mp hf⟩

/-! ## Loading a directory at a path -/

theorem mapPut_same {α : Type} (m : List (Str × α)) (n : Str) (v : α)
    (h : mapGet m n = some v) : mapPut m n v = m := by
  induction m with
  | nil => rfl
  | cons kv rest ih =>
    obtain ⟨k, w⟩ := kv
    unfold mapGet at h
    unfold mapPut
    by_cases hk : k = n
    · simp only [hk, if_true, Option.some.injEq] at h
      simp [hk, h]
    · simp only [hk, if_false] at h
      simp [hk, ih h]

theorem depth_entry (m : List (Str × inode)) (n : Str) (x : inode)
    (h : mapGet m n = some x) : x.depth ≤ inode.depth.depthList m := by
  induction m with
  | nil => simp [mapGet] at h
  | cons kv rest ih =>
    obtain ⟨k, w⟩ := kv
    unfold mapGet at h
    simp only [inode.depth.depthList]
    by_cases hk : k = n
    · simp only [hk, if_true, Option.some.injEq] at h
      subst h
      exact le_max_left _ _
    · simp only [hk, if_false] at h
      exact le_trans (ih h) (le_max_right _ _)

theorem goodSub_dir (D : dirnode) (h : GoodSub D) : GoodDir D := h [] D (getDir_nil D)

theorem goodSub_child (D c : dirnode) (n : Str) (h : GoodSub D)
    (hc : mapGet D.inodes n = some (.dir c)) : GoodSub c := by
  intro q d hd
  apply h (n :: q) d
  rw [getDir_cons, hc]
  exact hd

theorem prefix_snoc (q ds : List Str) (n : Str) :
    q <+: ds ++ [n] ↔ q <+: ds ∨ q = ds ++ [n] := by
  rw [List.prefix_concat_iff]
  tauto

theorem not_below_of_ne (ds : List Str) (m n : Str) (r : List Str) (h : m ≠ n) :
    ¬ ds ++ [n] <+: ds ++ m :: r := by
  intro hp
  have e : ds ++ m :: r = ds ++ ([m] ++ r) := by simp
  rw [e, List.prefix_append_right_inj] at hp
  have := List.cons_prefix_cons.mp hp
  exact h this.1.symm

theorem not_above_of_ne (ds : List Str) (m n : Str) (r : List Str) (h : m ≠ n) :
    ¬ ds ++ m :: r <+: ds ++ [n] := by
  intro hp
  have e : ds ++ m :: r = ds ++ ([m] ++ r) := by simp
  rw [e, List.prefix_append_right_inj] at hp
  have := List.cons_prefix_cons.mp hp
  exact h this.1

theorem kindAt_child (D c : dirnode) (n : Str) (r : List Str)
    (hc : mapGet D.inodes n = some (.dir c)) : kindAt D (n :: r) = kindAt c r := by
  rw [kindAt_cons, hc]
  rfl

theorem kindAt_file_entry (D : dirnode) (n : Str) (fn : filenode) (r : List Str)
    (hc : mapGet D.inodes n = some (.file fn)) (hr : r ≠ []) : kindAt D (n :: r) = none := by
  rw [kindAt_cons, hc]
  cases r with
  | nil => exact absurd rfl hr
  | cons b rest => rfl

theorem kindAt_no_entry (D : dirnode) (n : Str) (r : List Str)
    (hc : mapGet D.inodes n = none) : kindAt D (n :: r) = none := by
  rw [kindAt_cons, hc]
  rfl

theorem hasFile_entry (D : dirnode) (h : HasFile D) :
    ∃ m, (fileOf D m).isSome = true ∨
      (m ∈ sortedNames D.inodes ∧ (dirOf (mapGet D.inodes m)).isSome = true) := by
  obtain ⟨q, fn, hq⟩ := h
  cases q with
  | nil => rw [getNode_nil] at hq; simp at hq
  | cons m r =>
    refine ⟨m, ?_⟩
    cases hg : mapGet D.inodes m with
    | none =>
      have : kindAt D (m :: r) = none := kindAt_no_entry D m r hg
      unfold kindAt at this
      rw [hq] at this
      simp at this
    | some x =>
      cases x with
      | file f => left; simp [fileOf, hg]
      | dir c =>
        right
        exact ⟨(mem_sortedNames _ _).mpr ⟨_, hg⟩, by simp [dirOf]⟩

theorem restored_of_loaded (L L1 : dirnode) (ds : List Str) (D : dirnode)
    (h : Loaded L L1 ds D (sortedNames D.inodes)) : Restored L L1 ds D := by
  obtain ⟨h1, h2, h3, h4, h5⟩ := h
  refine ⟨?_, ?_, h2, h4, h5⟩
  · intro r hr
    cases r with
    | nil => exact absurd rfl hr
    | cons m r =>
      rw [h1 m r]
      split_ifs with hc
      · rfl
      · cases hg : mapGet D.inodes m with
        | none => exact (kindAt_no_entry D m r hg).symm
        | some x =>
          exfalso
          exact hc (Or.inr ((mem_sortedNames _ _).mpr ⟨x, hg⟩))
  · intro hf
    apply h3
    obtain ⟨m, hm⟩ := hasFile_entry D hf
    exact ⟨m, hm⟩

/-- A file entry needs nothing more than the stream line. -/
theorem loaded_file (L L1 : dirnode) (ds : List Str) (D : dirnode) (done : List Str) (n : Str)
    (hf : (fileOf D n).isSome = true) (h : Loaded L L1 ds D done) :
    Loaded L L1 ds D (done ++ [n]) := by
  obtain ⟨h1, h2, h3, h4, h5⟩ := h
  refine ⟨?_, h2, ?_, h4, h5⟩
  · intro m r
    rw [h1 m r]
    by_cases hm : m = n
    · subst hm
      simp [hf]
    · simp [hm]
  · rintro ⟨m, hm⟩
    apply h3
    rcases hm with hm | ⟨hm1, hm2⟩
    · exact ⟨m, Or.inl hm⟩
    · simp only [List.mem_append, List.mem_singleton] at hm1
      rcases hm1 with hm1 | hm1
      · exact ⟨m, Or.inr ⟨hm1, hm2⟩⟩
      · subst hm1
        exfalso
        unfold fileOf at hf
        cases hg : mapGet D.inodes m with
        | none => rw [hg] at hf; simp at hf
        | some x =>
          cases x with
          | file f => rw [hg] at hm2; simp [dirOf] at hm2
          | dir c => rw [hg] at hf; simp at hf

/-- Before a sub-directory is loaded there is nothing at its path. -/
theorem vacant_child (L L1 : dirnode) (ds : List Str) (D c : dirnode) (done : List Str)
    (n : Str) (hv : Vacant L ds) (h : Loaded L L1 ds D done)
    (hc : mapGet D.inodes n = some (.dir c)) (hn : n ∉ done) : Vacant L1 (ds ++ [n]) := by
  obtain ⟨h1, h2, _, _, _⟩ := h
  have hnf : ¬ ((fileOf D n).isSome = true ∨ n ∈ done) := by
    rintro (hf | hd)
    · simp [fileOf, hc] at hf
    · exact hn hd
  constructor
  · intro r _
    have e : ds ++ [n] ++ r = ds ++ n :: r := by simp
    rw [e, h1 n r, if_neg hnf]
  · intro q hq hne
    rcases (prefix_snoc q ds n).mp hq with hq1 | hq1
    · rcases h2 q hq1 hne with e | e
      · rw [e]; exact hv.2 q hq1 hne
      · exact Or.inr e
    · left
      rw [hq1, h1 n [], if_neg hnf]

/-- After a sub-directory is loaded. -/
theorem loaded_child (L L1 L2 : dirnode) (ds : List Str) (D c : dirnode) (done : List Str)
    (n : Str) (hg : GoodDir D) (h : Loaded L L1 ds D done)
    (hr : Restored L1 L2 (ds ++ [n]) c) (hc : mapGet D.inodes n = some (.dir c)) :
    Loaded L L2 ds D (done ++ [n]) := by
  obtain ⟨h1, h2, h3, h4, h5⟩ := h
  obtain ⟨r1, r2, r3, r4, r5⟩ := hr
  obtain ⟨hcname, hcmode, hchas⟩ := hg.2.2.1 n c hc
  have hstd := r2 hchas
  refine ⟨?_, ?_, ?_, ?_, ?_⟩
  · intro m r
    by_cases hm : m = n
    · subst hm
      simp only [List.mem_append, List.mem_singleton, or_true, if_true]
      rw [kindAt_child D c m r hc]
      cases r with
      | nil =>
        rw [hstd (ds ++ [m]) (List.prefix_refl _) (by simp), kindAt_nil, hcname, hcmode]
        simp [stdDir, getLast?_getD_snoc]
      | cons b rest =>
        have e : ds ++ m :: b :: rest = ds ++ [m] ++ (b :: rest) := by simp
        rw [e, r1 (b :: rest) (by simp)]
    · rw [r4 _ (not_below_of_ne ds m n r hm) (not_above_of_ne ds m n r hm), h1 m r]
      simp [hm]
  · intro q hq hne
    exact Or.inr (hstd q ((prefix_snoc q ds n).mpr (Or.inl hq)) hne)
  · intro _ q hq hne
    exact hstd q ((prefix_snoc q ds n).mpr (Or.inl hq)) hne
  · intro q hq1 hq2
    rw [r4 q (fun hp => hq1 (List.IsPrefix.trans (List.prefix_append ds [n]) hp))
      (fun hp => by
        rcases (prefix_snoc q ds n).mp hp with e | e
        · exact hq2 e
        · exact hq1 (e ▸ List.prefix_append ds [n]))]
    exact h4 q hq1 hq2
  · rw [r5, h5]

theorem kind_goodFile (ds : List Str) (n : Str) (fn : filenode) (h : GoodFile n fn) :
    inode.kind (.file fn) = stdFile (ds ++ [n]) (fn.extents.flatMap extent.refs) := by
  obtain ⟨h1, h2, h3⟩ := h
  have hplain : fn.extents.all extent.plain = true := by
    rw [List.all_eq_true]
    intro e he
    obtain ⟨se, hse, _, hw⟩ := h3 e he
    subst hse
    simp only [extent.plain, decide_eq_true_eq]
    exact hw.2.1
  simp [inode.kind, stdFile, h1, h2, hplain, getLast?_getD_snoc]

/-- After the stream line of a good directory is read back, the files of the
directory are there. -/
theorem loaded_line (lineno : Int) (L : dirnode) (ds : List Str) (D : dirnode)
    (hg : GoodDir D) (hds : ∀ e ∈ ds, GoodName e) (hv : Vacant L ds) (s : StreamState)
    (hs : marshalFiles (filesOf D (sortedNames D.inodes)) emptyStream = .ok s) :
    ∃ L1, (if s.segments.length = 0 then .ok L else loadStream lineno (lineOf ds s) L) = .ok L1 ∧
      (s.segments.length ≠ 0 → 10 ∉ lineOf ds s) ∧
      Loaded L L1 ds D [] := by
  obtain ⟨s1, hs1, hblocks, hsegs, hbound, hfiles, hsegfiles⟩ := goodDir_stream D hg
  rw [hs] at hs1
  simp only [Except.ok.injEq] at hs1
  subst hs1
  by_cases h0 : s.segments.length = 0
  · have hnil : s.segments = [] := List.length_eq_zero.mp h0
    refine ⟨L, by simp [h0], fun h => absurd h0 h, ?_, fun _ _ _ => Or.inl rfl, ?_,
      fun _ _ _ => rfl, rfl⟩
    · intro m r
      have hnf : ¬ ((fileOf D m).isSome = true ∨ m ∈ ([] : List Str)) := by
        rintro (hf | hf)
        · obtain ⟨fn, hfn⟩ := Option.isSome_iff_exists.mp hf
          have := (hfiles m fn hfn).1
          rw [hnil] at this
          simp at this
        · simp at hf
      rw [if_neg hnf]
      exact hv.1 (m :: r) (by simp)
    · rintro ⟨m, hm | ⟨hm, _⟩⟩
      · obtain ⟨fn, hfn⟩ := Option.isSome_iff_exists.mp hm
        have := (hfiles m fn hfn).1
        rw [hnil] at this
        simp at this
      · simp at hm
  · have hne : s.segments ≠ [] := fun e => h0 (by rw [e]; rfl)
    obtain ⟨L1, hload, ha, hb, hc⟩ := loadStream_line lineno ds s L hds hne hblocks hsegs hbound
      hv.2 (fun seg _ => Or.inl (hv.1 [seg.name] (by simp)))
    refine ⟨L1, by simp only [h0, if_false]; exact hload, ?_, ?_, fun q hq hqne => Or.inr (hb q hq hqne),
      fun _ q hq hqne => hb q hq hqne, ?_, ?_⟩
    · intro _
      exact lineOf_no_newline ds s hds hne hblocks
        (fun seg hseg => ⟨(hsegs seg hseg).2.1, (hsegs seg hseg).2.2.1,
          (hsegs seg hseg).1.2.2.2.2⟩)
    · intro m r
      have hlen : ∀ n : Str, ds ++ m :: r = ds ++ [n] → r = [] ∧ m = n := by
        intro n e
        have := List.append_cancel_left e
        simp only [List.cons.injEq] at this
        exact ⟨this.2, this.1⟩
      have hnp : ¬ (ds ++ m :: r <+: ds ∧ ds ++ m :: r ≠ []) := by
        rintro ⟨hp, _⟩
        have := hp.length_le
        simp at this
      cases hf : fileOf D m with
      | none =>
        simp only [Option.isSome_none, Bool.false_eq_true, List.not_mem_nil, or_self, if_false]
        rw [hc _ (by
          rintro ⟨n, hn, e⟩
          obtain ⟨_, hmn⟩ := hlen n e
          rw [List.mem_map] at hn
          obtain ⟨seg, hseg, hsn⟩ := hn
          obtain ⟨fn, hfn⟩ := hsegfiles seg hseg
          rw [hsn, ← hmn, hf] at hfn
          simp at hfn) hnp]
        exact hv.1 (m :: r) (by simp)
      | some fn =>
        simp only [Option.isSome_some, true_or, if_true]
        have hmap := (fileOf_eq_some D m fn).mp hf
        obtain ⟨hmem, hrefs⟩ := hfiles m fn hf
        cases r with
        | nil =>
          rw [ha m hmem, refsAt_none L _ (hv.1 [m] (by simp)), hrefs, List.nil_append]
          unfold kindAt
          rw [getNode_single, hmap]
          simp only [Option.map_some']
          rw [kind_goodFile ds m fn (hg.2.1 m fn hmap)]
        | cons b rest =>
          rw [hc _ (by
            rintro ⟨n, _, e⟩
            have := (hlen n e).1
            simp at this) hnp]
          rw [hv.1 (m :: b :: rest) (by simp), kindAt_file_entry D m fn _ hmap (by simp)]
    · intro q hq1 hq2
      apply hc q
      · rintro ⟨n, _, e⟩
        exact hq1 (e ▸ List.prefix_append ds [n])
      · exact fun h => hq2 h.1
    · apply hc []
      · rintro ⟨n, _, e⟩
        have := congrArg List.length e
        simp at this
      · exact fun h => h.2 rfl

theorem depth_dir (D : dirnode) : inode.depth (.dir D) = inode.depth.depthList D.inodes + 1 := by
  rw [inode.depth]

theorem goodDir_allStored (D : dirnode) (hg : GoodDir D) : AllStored D := by
  intro name fn hf e he
  obtain ⟨se, hse, _⟩ := (hg.2.1 name fn ((fileOf_eq_some D name fn).mp hf)).2.2 e he
  exact ⟨se, hse⟩

/-- The loop over the names of a good directory, the stream line being read
back already: the sub-directories are marshalled and read back one after the
other. -/
theorem names_loop {σ : Type} (mbs : Int) (kc : keepClient σ) (fuel : Nat)
    (ih : RoundTripAt mbs kc fuel) (D : dirnode) (ds : List Str) (L : dirnode)
    (hsub : GoodSub D) (hdepth : inode.depth (.dir D) ≤ fuel + 1)
    (hds : ∀ e ∈ ds, GoodName e) (hv : Vacant L ds) (names : List Str) :
    ∀ (done : List Str) (s : MarshalState σ) (Lk : dirnode) (lineno : Int),
      (done ++ names).Nodup → (∀ n ∈ names, n ∈ sortedNames D.inodes) → s.dn = D →
      Loaded L Lk ds D done →
      ∃ lines Lk1 stream1,
        marshalNames (marshalManifestFuel mbs kc fuel) (streamName ds) names s =
          .ok (none, { stream := stream1,
                       subdirs := s.subdirs ++ lines.flatMap (fun l => l ++ [10]),
                       dn := D, st := s.st }) ∧
        (∀ l ∈ lines, 10 ∉ l) ∧ loadStreams lines lineno Lk = .ok Lk1 ∧
        Loaded L Lk1 ds D (done ++ names) := by
  have hg := goodSub_dir D hsub
  induction names with
  | nil =>
    intro done s Lk lineno _ _ hdn hl
    obtain ⟨stream, subdirs, dn, st⟩ := s
    simp only at hdn
    subst hdn
    exact ⟨[], Lk, stream, by simp [marshalNames], by simp, rfl, by simpa using hl⟩
  | cons n rest ih2 =>
    intro done s Lk lineno hnd hmem hdn hl
    obtain ⟨stream, subdirs, dn, st⟩ := s
    simp only at hdn
    subst hdn
    obtain ⟨x, hx⟩ := (mem_sortedNames _ n).mp (hmem n (by simp))
    have hnd2 : ((done ++ [n]) ++ rest).Nodup := by simpa using hnd
    have hnotin : n ∉ done := by
      intro hmem2
      have := List.nodup_append.mp hnd
      exact this.2.2 hmem2 (by simp)
    have hmem2 : ∀ m ∈ rest, m ∈ sortedNames dn.inodes := fun m hm => hmem m (by simp [hm])
    cases x with
    | file fn =>
      have hgf := hg.2.1 n fn hx
      obtain ⟨stream1, hmf⟩ := marshalFile_total n fn stream (fun e he => by
        obtain ⟨se, hse, _⟩ := hgf.2.2 e he
        exact ⟨se, hse⟩)
      have hfile : (fileOf dn n).isSome = true := by simp [fileOf, hx]
      obtain ⟨lines, Lk1, stream2, h1, h2, h3, h4⟩ := ih2 (done ++ [n])
        { stream := stream1, subdirs := subdirs, dn := dn, st := st } Lk lineno hnd2 hmem2 rfl
        (loaded_file L Lk ds dn done n hfile hl)
      refine ⟨lines, Lk1, stream2, ?_, h2, h3, by simpa using h4⟩
      rw [marshalNames]
      simp only [hx, hmf, bind, Except.bind]
      exact h1
    | dir c =>
      have hgn : GoodName n := hg.1 n _ hx
      have hds2 : ∀ e ∈ ds ++ [n], GoodName e := by
        intro e he
        simp only [List.mem_append, List.mem_singleton] at he
        rcases he with he | he
        · exact hds e he
        · subst he; exact hgn
      have hdc : inode.depth (.dir c) ≤ fuel := by
        have := depth_entry dn.inodes n _ hx
        rw [depth_dir] at hdepth
        omega
      obtain ⟨linesc, Lc, hmc, hnlc, hloadc, hrest⟩ := ih c (ds ++ [n]) st Lk lineno
        (goodSub_child dn c n hsub hx) hdc hds2 (vacant_child L Lk ds dn c done n hv hl hx hnotin)
      rw [streamName_snoc] at hmc
      obtain ⟨lines, Lk1, stream2, h1, h2, h3, h4⟩ := ih2 (done ++ [n])
        { stream := stream, subdirs := subdirs ++ linesc.flatMap (fun l => l ++ [10]),
          dn := dn, st := st } Lc (lineno + linesc.length) hnd2 hmem2 rfl
        (loaded_child L Lk Lc ds dn c done n hg hl hrest hx)
      refine ⟨linesc ++ lines, Lk1, stream2, ?_, ?_, ?_, by simpa using h4⟩
      · rw [marshalNames]
        simp only [hx, hmc, bind, Except.bind, mapPut_same _ _ _ hx]
        rw [h1]
        simp [List.flatMap_append, List.append_assoc]
      · intro l hl2
        simp only [List.mem_append] at hl2
        rcases hl2 with hl2 | hl2
        · exact hnlc l hl2
        · exact h2 l hl2
      · rw [loadStreams_append, hloadc]
        exact h3

/-- Every good directory makes the round trip, whatever the fuel. -/
theorem roundTrip_fuel {σ : Type} (mbs : Int) (kc : keepClient σ) (fuel : Nat) :
    RoundTripAt mbs kc fuel := by
  induction fuel with
  | zero =>
    intro D ds st L lineno _ hdepth _ _
    rw [depth_dir] at hdepth
    omega
  | succ fuel ih =>
    intro D ds st L lineno hsub hdepth hds hv
    have hg := goodSub_dir D hsub
    obtain ⟨s, hs, _⟩ := goodDir_stream D hg
    obtain ⟨L1, hline, hnl1, hloaded1⟩ := loaded_line lineno L ds D hg hds hv s hs
    obtain ⟨lines2, L2, stream1, hmn, hnl2, hload2, hloaded2⟩ := names_loop mbs kc fuel ih D ds L
      hsub hdepth hds hv (sortedNames D.inodes) []
      { stream := { streamLen := 0, segments := [], blocks := [] }, subdirs := [], dn := D,
        st := st } L1 (if s.segments.length = 0 then lineno else lineno + 1)
      (by simpa using sortedNames_nodup D.inodes) (fun n hn => hn) rfl hloaded1
    have hstream := marshalNames_stream _ _ _ _ _ (sortedNames_nodup D.inodes) hmn
    simp only at hstream
    have hs1 : stream1 = s := by
      have : marshalFiles (filesOf D (sortedNames D.inodes)) emptyStream = .ok stream1 := hstream
      rw [hs] at this
      simp only [Except.ok.injEq] at this
      exact this.symm
    subst hs1
    have hrest := restored_of_loaded L L2 ds D (by simpa using hloaded2)
    have hm : marshalManifestFuel mbs kc (fuel + 1) D (streamName ds) st =
        .ok (.ok (streamText (streamName ds) stream1
          (lines2.flatMap (fun l => l ++ [10]))), D, st) := by
      rw [marshalManifestFuel]
      simp only [sync_stored mbs kc D st (goodDir_allStored D hg), bind, Except.bind, hmn,
        List.nil_append]
    by_cases h0 : stream1.segments.length = 0
    · simp only [h0, if_true] at hline hload2
      simp only [Except.ok.injEq] at hline
      subst hline
      refine ⟨lines2, L2, ?_, hnl2, hload2, hrest⟩
      rw [hm]
      simp [streamText, h0]
    · simp only [h0, if_false] at hline hload2
      refine ⟨lineOf ds stream1 :: lines2, L2, ?_, ?_, ?_, hrest⟩
      · rw [hm]
        simp [streamText, h0, lineOf, lineBlocks, List.append_assoc]
      · intro l hl
        simp only [List.mem_cons] at hl
        rcases hl with hl | hl
        · subst hl; exact hnl1 h0
        · exact hnl2 l hl
      · simp only [loadStreams, hline]
        exact hload2

/-! ## The round trip -/

theorem content_of_plain {σ : Type} (kc : keepClient σ) (st : σ) (es : List extent)
    (h : es.all extent.plain = true) :
    extentsBytes kc st es =
      (es.flatMap extent.refs).map (fun r => blockByte kc st r.1 (r.2 : Int)) := by
  induction es with
  | nil => rfl
  | cons e rest ih =>
    simp only [List.all_cons, Bool.and_eq_true] at h
    rw [extentsBytes, ih h.2, List.flatMap_cons, List.map_append]
    congr 1
    cases e with
    | mem me => simp [extent.plain] at h
    | stored se =>
      have h0 : 0 ≤ se.offset := by simpa [extent.plain] using h.1
      simp only [extent.bytes, extent.refs, storedExtent.refs, List.map_map]
      apply List.map_congr_left
      intro j _
      simp only [Function.comp]
      congr 1
      push_cast
      rw [Int.toNat_of_nonneg h0]

theorem sameNode_of_kind (x y : Option inode)
    (hk : x.map inode.kind = y.map inode.kind)
    (hplain : ∀ fn, x = some (.file fn) → fn.extents.all extent.plain = true) :
    SameNode x y := by
  cases x with
  | none =>
    cases y with
    | none => trivial
    | some b => simp at hk
  | some a =>
    cases y with
    | none => simp at hk
    | some b =>
      simp only [Option.map_some', Option.some.injEq] at hk
      cases a with
      | file f =>
        cases b with
        | dir e => simp [inode.kind] at hk
        | file g =>
          simp only [inode.kind, Kind.file.injEq] at hk
          obtain ⟨h1, h2, h3, h4⟩ := hk
          have hf := hplain f rfl
          refine ⟨h1, h2, ?_⟩
          intro σ kc st
          unfold filenode.content
          rw [content_of_plain kc st _ hf, content_of_plain kc st _ (h3 ▸ hf), h4]
      | dir d =>
        cases b with
        | file g => simp [inode.kind] at hk
        | dir e =>
          simp only [inode.kind, Kind.dir.injEq] at hk
          exact hk

theorem vacant_emptyRoot : Vacant emptyRoot [] := by
  constructor
  · intro r hr
    cases r with
    | nil => exact absurd rfl hr
    | cons m r => exact kindAt_no_entry emptyRoot m r rfl
  · intro q hq hne
    exact absurd (List.prefix_nil.mp hq) hne

theorem goodTree_file_plain (T : dirnode) (hT : GoodSub T) (q : List Str) (fn : filenode)
    (h : getNode T q = some (.file fn)) : fn.extents.all extent.plain = true := by
  rcases List.eq_nil_or_concat q with hnil | ⟨r, d, hd⟩
  · rw [hnil, getNode_nil] at h; simp at h
  · rw [List.concat_eq_append] at hd
    rw [hd, getNode_snoc] at h
    cases hg : getDir T r with
    | none => rw [hg] at h; simp at h
    | some dn =>
      rw [hg] at h
      simp only [Option.some_bind] at h
      have hgf := (hT r dn hg).2.1 d fn h
      rw [List.all_eq_true]
      intro e he
      obtain ⟨se, hse, _, hw⟩ := hgf.2.2 e he
      subst hse
      simp only [extent.plain, decide_eq_true_eq]
      exact hw.2.1

/-- The round trip of a tree without memory extents (`GoodTree`: good names,
the names and modes `OpenFile` gives, files made of stored extents with
well-formed locators, no directory without a file somewhere below it,
streams shorter than `2^63` bytes): `MarshalManifest(".")` returns a text and
leaves the tree and the store as they are, whatever the blob client, and
loading that text into a new filesystem gives a tree with the same inode at
every path. -/
theorem goodTree_round_trip {σ : Type} (mbs : Int) (kc : keepClient σ) (st : σ)
    (T : dirnode) (hT : GoodTree T) :
    ∃ text L, T.MarshalManifest mbs kc (str ".") st = .ok (.ok text, T, st) ∧
      FileSystem text = .ok L ∧ ∀ q, SameNode (getNode T q) (getNode L q) := by
  obtain ⟨hname, hmode, hsub⟩ := hT
  obtain ⟨lines, L, hm, hnl, hload, hr1, _, _, _, hr5⟩ :=
    roundTrip_fuel mbs kc (inode.depth (.dir T)) T [] st emptyRoot 1 hsub (le_refl _)
      (by simp) vacant_emptyRoot
  refine ⟨lines.flatMap (fun l => l ++ [10]), L, hm, ?_, ?_⟩
  · unfold FileSystem
    rw [loadManifest_lines emptyRoot lines hnl]
    exact hload
  · intro q
    apply sameNode_of_kind
    · have hk : kindAt L q = kindAt T q := by
        cases q with
        | nil =>
          rw [hr5, kindAt_nil, kindAt_nil, hname, hmode]
          rfl
        | cons m r => exact hr1 (m :: r) (by simp)
      exact hk.symm
    · intro fn hfn
      exact goodTree_file_plain T hsub q fn hfn

set_option maxRecDepth 100000 in
/-- C3 (counterexample): the tree with one empty directory `d`, which is what
`Mkdir("d")` makes of a new filesystem, is marshalled as the empty text, and
the empty text loads as the empty tree, without `d`. -/
theorem empty_directory_lost :
    (dirnode.OpenFile emptyRoot [] (str "d") (O_CREATE ||| O_EXCL) (ModeDir ||| 0o755)).map
        (fun r => r.2) = .ok exEmptyDir
    ∧ marshalledText (exEmptyDir.MarshalManifest (2 ^ 26) deadKeep (str ".") ()) = .ok (.ok [])
    ∧ FileSystem [] = .ok emptyRoot
    ∧ (getNode exEmptyDir [str "d"]).isSome = true
    ∧ (getNode emptyRoot [str "d"]).isSome = false := by
  refine ⟨by rfl, by rfl, by rfl, by rfl, by rfl⟩

theorem mapGet_mem {α : Type} (m : List (Str × α)) (n : Str) (v : α)
    (h : mapGet m n = some v) : (n, v) ∈ m := by
  induction m with
  | nil => simp [mapGet] at h
  | cons kv rest ih =>
    obtain ⟨k, w⟩ := kv
    unfold mapGet at h
    by_cases hk : k = n
    · simp only [hk, if_true, Option.some.injEq] at h
      simp [hk, h]
    · simp only [hk, if_false] at h
      simp [ih h]

theorem goodFile_exFileG : GoodFile (str "g") exFileG := by
  refine ⟨rfl, rfl, ?_⟩
  intro e he
  simp only [exFileG, List.mem_singleton] at he
  exact ⟨_, he, ⟨by decide, by decide, by decide, by decide, 3, by decide, by decide⟩,
    ⟨by decide, by decide, by decide, by decide⟩⟩

theorem goodFile_exFileF : GoodFile (str "f") exFileF := by
  refine ⟨rfl, rfl, ?_⟩
  intro e he
  simp only [exFileF, List.mem_singleton] at he
  exact ⟨_, he, ⟨by decide, by decide, by decide, by decide, 3, by decide, by decide⟩,
    ⟨by decide, by decide, by decide, by decide⟩⟩

theorem goodName_examples : GoodName (str "g") ∧ GoodName (str "f") ∧ GoodName (str "sub") := by
  unfold GoodName
  decide

theorem goodDir_exSub : GoodDir exSub := by
  refine ⟨?_, ?_, ?_, by decide⟩
  · intro name n h
    have := mapGet_mem _ _ _ h
    simp only [exSub, List.mem_singleton, Prod.mk.injEq] at this
    rw [this.1]
    exact goodName_examples.1
  · intro name fn h
    have := mapGet_mem _ _ _ h
    simp only [exSub, List.mem_singleton, Prod.mk.injEq, inode.file.injEq] at this
    rw [this.1, this.2]
    exact goodFile_exFileG
  · intro name c h
    have := mapGet_mem _ _ _ h
    simp [exSub] at this

theorem goodDir_exTree : GoodDir exTree := by
  refine ⟨?_, ?_, ?_, by decide⟩
  · intro name n h
    have := mapGet_mem _ _ _ h
    simp only [exTree, List.mem_cons, List.mem_singleton, Prod.mk.injEq, List.not_mem_nil,
      or_false] at this
    rcases this with h1 | h1
    · rw [h1.1]; exact goodName_examples.2.2
    · rw [h1.1]; exact goodName_examples.2.1
  · intro name fn h
    have := mapGet_mem _ _ _ h
    simp only [exTree, List.mem_cons, List.mem_singleton, Prod.mk.injEq, List.not_mem_nil,
      or_false, inode.file.injEq] at this
    rcases this with h1 | h1
    · simp at h1
    · rw [h1.1, h1.2]; exact goodFile_exFileF
  · intro name c h
    have := mapGet_mem _ _ _ h
    simp only [exTree, List.mem_cons, List.mem_singleton, Prod.mk.injEq, List.not_mem_nil,
      or_false, inode.dir.injEq] at this
    rcases this with h1 | h1
    · rw [h1.1, h1.2]
      exact ⟨rfl, rfl, [str "g"], exFileG, rfl⟩
    · simp at h1

theorem goodTree_exTree : GoodTree exTree := by
  refine ⟨rfl, rfl, ?_⟩
  intro q d hd
  cases q with
  | nil =>
    rw [getDir_nil] at hd
    simp only [Option.some.injEq] at hd
    rw [← hd]
    exact goodDir_exTree
  | cons m r =>
    rw [getDir_cons] at hd
    cases hg : mapGet exTree.inodes m with
    | none => rw [hg] at hd; simp [dirOf] at hd
    | some x =>
      have hmem := mapGet_mem _ _ _ hg
      simp only [exTree, List.mem_cons, List.mem_singleton, Prod.mk.injEq, List.not_mem_nil,
        or_false] at hmem
      rcases hmem with h1 | h1
      · rw [hg, h1.2] at hd
        simp only [dirOf, Option.some_bind] at hd
        cases r with
        | nil =>
          rw [getDir_nil] at hd
          simp only [Option.some.injEq] at hd
          rw [← hd]
          exact goodDir_exSub
        | cons m2 r2 =>
          rw [getDir_cons] at hd
          cases hg2 : mapGet exSub.inodes m2 with
          | none => rw [hg2] at hd; simp [dirOf] at hd
          | some y =>
            have hmem2 := mapGet_mem _ _ _ hg2
            simp only [exSub, List.mem_singleton, Prod.mk.injEq] at hmem2
            rw [hg2, hmem2.2] at hd
            simp [dirOf] at hd
      · rw [hg, h1.2] at hd
        simp [dirOf] at hd

set_option maxRecDepth 100000 in
/-- The round trip of the tree `exTree`, whose manifest is
`. 37b5…+3 0:3:f` and `./sub acbd…+3 1:2:g`. -/
theorem exTree_round_trip :
    GoodTree exTree
    ∧ marshalledText (exTree.MarshalManifest (2 ^ 26) deadKeep (str ".") ()) =
        .ok (.ok (str (". 37b51d194a7513e45b56f6524f2d51f2+3 0:3:f\n" ++
          "./sub acbd18db4cc2f85cedef654fccc4a4d8+3 1:2:g\n")))
    ∧ ∃ text L, exTree.MarshalManifest (2 ^ 26) deadKeep (str ".") () = .ok (.ok text, exTree, ())
      ∧ FileSystem text = .ok L ∧ ∀ q, SameNode (getNode exTree q) (getNode L q) :=
  ⟨goodTree_exTree, by rfl,
    goodTree_round_trip (2 ^ 26) deadKeep () exTree goodTree_exTree⟩

/-! ## Escaping a name that is not ASCII -/

/-- C14 (divergence). The name `é` is the two bytes `0xC3 0xA9`;
`manifestEscape` writes the escape of the first byte only, `\303`, so
`manifestUnescape` of the escaped name is the single byte `0xC3` and not the
name. -/
theorem manifestEscape_drops_continuation_bytes :
    str "é" = [0xC3, 0xA9] ∧ manifestEscape (str "é") = str "\\303" ∧
      manifestUnescape (manifestEscape (str "é")) = [0xC3] := by
  decide

/-! ## Opening an existing file with `O_TRUNC` -/

/-- C17 (divergence). On a file system that holds the file `a` of five
bytes, `Create("a")` and `OpenFile("a", O_WRONLY|O_TRUNC, 0)` return a
writable handle and leave the file with its size 5 and its extent. -/
theorem OpenFile_ignores_O_TRUNC :
    (fileSystem.Create exHolder (str "a")).map
        (fun r => (r.1.writable, (fileOf r.2 (str "a")).map
          (fun fn => (fn.fileinfo.size, fn.extents))))
      = .ok (true, some (5, exFile.extents)) ∧
    (fileSystem.OpenFile exHolder (str "a") (O_WRONLY ||| O_TRUNC) 0).map
        (fun r => (r.1.writable, (fileOf r.2 (str "a")).map
          (fun fn => (fn.fileinfo.size, fn.extents))))
      = .ok (true, some (5, exFile.extents)) := by
  decide

/-! ## The size of a directory after `Remove` -/

/-- C19 (divergence). On a new file system, `Create("f")` followed by
`Remove("f")` succeeds and leaves a root directory without children whose
recorded size is 1. -/
theorem Remove_keeps_directory_size :
    ∃ f root1 root2, fileSystem.Create emptyRoot (str "f") = .ok (f, root1) ∧
      dirnode.Remove root1 [] (str "f") = (none, root2) ∧ Reached root2 ∧
      root2.fileinfo.size = 1 ∧ root2.inodes.length = 0 := by
  have h1 : fileSystem.Create emptyRoot (str "f") = .ok
      ({ bareFile [str "f"] false with readable := true, writable := true },
       { fileinfo := { name := [46], mode := ModeDir ||| 0o755, size := 1 },
         inodes := [(str "f", .file (emptyFile (str "f")))] }) := by rfl
  exact ⟨_, _, _, h1, rfl, Reached.remove (str "f") (Reached.create (str "f") Reached.fresh h1),
    by rfl, by rfl⟩

/-! ## `Truncate` with a negative size -/

/-- C20 (divergence). For a negative requested size below the size of the
file, `Truncate` returns after it has dropped every extent and recorded the
negative number as the size, which is then not the sum of the extent
lengths. -/
theorem Truncate_negative_breaks_size (mbs : Int) (fn : filenode) (size : Int) (hneg : size < 0)
    (hlt : size < fn.fileinfo.size) :
    ∃ fn1, filenode.Truncate mbs fn size = .ok fn1 ∧ fn1.fileinfo.size = size ∧
      fn1.extents = [] ∧ fn1.fileinfo.size ≠ sumLen fn1.extents := by
  unfold filenode.Truncate
  rw [if_pos hlt]
  unfold filenode.truncateShrink filenode.seek
  have hlen : ¬ ((fn.extents.length : Int) < 0) := by omega
  simp only [hneg, if_true, sliceFrom, sliceTo, bind, Except.bind, lt_self_iff_false, false_or,
    hlen, if_false, Int.toNat_zero, List.drop_zero, List.take_zero]
  refine ⟨_, rfl, rfl, rfl, ?_⟩
  simp only [sumLen]
  omega

theorem Truncate_negative_breaks_size_witness :
    ((-1 : Int) < 0 ∧ (-1 : Int) < exFile.fileinfo.size) ∧
    ∃ fn1, filenode.Truncate 4 exFile (-1) = .ok fn1 ∧ fn1.fileinfo.size = -1 ∧
      fn1.extents = [] ∧ fn1.fileinfo.size ≠ sumLen fn1.extents :=
  ⟨by decide, Truncate_negative_breaks_size 4 exFile (-1) (by decide) (by decide)⟩

/-! ## The line of a directory of files without extents -/

theorem sortedNames_sorted {α : Type} (m : List (Str × α)) :
    List.Sorted (· ≤ ·) (sortedNames m) := by
  unfold sortedNames
  exact List.sorted_insertionSort _ _

theorem joinWith_map_tokens (f : Str → Str) (names : List Str) (hne : names ≠ []) :
    [32] ++ joinWith [32] (names.map f) = names.flatMap (fun n => [32] ++ f n) := by
  induction names with
  | nil => exact absurd rfl hne
  | cons a rest ih =>
    cases rest with
    | nil => simp [joinWith]
    | cons b rest =>
      have := ih (by simp)
      simp only [List.map_cons, joinWith_cons_cons, List.flatMap_cons] at this ⊢
      rw [← this]
      simp

theorem segmentToken_zero (n : Str) :
    segmentToken { name := n, offset := 0, length := 0 } = str "0:0:" ++ manifestEscape n := by
  have h0 : formatInt 0 = [48] := by decide
  have hs : str "0:0:" = [48, 58, 48, 58] := by decide
  simp [segmentToken, h0, hs]

theorem marshalNames_no_extents {σ : Type}
    (recur : dirnode → Str → σ → Except Fault (Marshalled σ)) (pfx : Str) (names : List Str) :
    ∀ (s : MarshalState σ),
      (∀ n ∈ names, ∃ fn, mapGet s.dn.inodes n = some (.file fn) ∧ fn.extents = []) →
      marshalNames recur pfx names s = .ok (none, { s with stream := { s.stream with
        segments := s.stream.segments ++
          names.map (fun n => { name := n, offset := 0, length := 0 }) } }) := by
  induction names with
  | nil => intro s _; simp [marshalNames]
  | cons name rest ih =>
    intro s h
    obtain ⟨fn, hg, he⟩ := h name (by simp)
    unfold marshalNames
    simp only [hg, marshalFile, he, List.length_nil, if_true, bind, Except.bind]
    have key := ih (MarshalState.mk (StreamState.mk s.stream.streamLen
        (s.stream.segments ++ [m1segment.mk name 0 0]) s.stream.blocks) s.subdirs s.dn s.st)
      (fun n hn => h n (by simp [hn]))
    rw [key]
    simp

/-- C11. For a directory whose entries are all files without extents,
`marshalManifest(prefix)` leaves the directory and the store as they are and
returns one line: the escaped prefix, the locator of the empty block, and for
each file name, in ascending order and each once, the segment `0:0:` followed
by the escaped name, each token after a single space, then a newline.  When
the directory has no entry the text is empty. -/
theorem marshalManifest_files_without_extents {σ : Type} (mbs : Int) (kc : keepClient σ) (fuel : Nat) (dn : dirnode)
    (pfx : Str) (st : σ)
    (hflat : ∀ name n, mapGet dn.inodes name = some n → ∃ fn, n = .file fn ∧ fn.extents = []) :
    List.Sorted (· ≤ ·) (sortedNames dn.inodes) ∧ (sortedNames dn.inodes).Nodup ∧
    (∀ name, name ∈ sortedNames dn.inodes ↔ ∃ fn, mapGet dn.inodes name = some (.file fn)) ∧
    marshalManifestFuel mbs kc (fuel + 1) dn pfx st =
      .ok (.ok (if sortedNames dn.inodes = [] then []
                else manifestEscape pfx ++ [32] ++ emptyLocator ++
                  (sortedNames dn.inodes).flatMap (fun n => [32] ++ (str "0:0:" ++ manifestEscape n))
                  ++ [10]), dn, st) := by
  refine ⟨sortedNames_sorted _, sortedNames_nodup _, ?_, ?_⟩
  · intro name
    rw [mem_sortedNames]
    constructor
    · rintro ⟨v, hv⟩
      obtain ⟨fn, hfn, _⟩ := hflat name v hv
      exact ⟨fn, hfn ▸ hv⟩
    · rintro ⟨fn, h⟩; exact ⟨_, h⟩
  · have hall : AllStored dn := by
      intro name fn hfn e he
      unfold fileOf at hfn
      cases hg : mapGet dn.inodes name with
      | none => simp [hg] at hfn
      | some n =>
        obtain ⟨fn1, h1, h2⟩ := hflat name n hg
        subst h1
        simp only [hg, Option.some.injEq] at hfn
        subst hfn
        rw [h2] at he
        simp at he
    unfold marshalManifestFuel
    rw [sync_stored mbs kc dn st hall]
    simp only [bind, Except.bind]
    rw [marshalNames_no_extents]
    · simp only [streamText, List.nil_append, List.length_map, List.map_map, List.length_nil,
        if_true, List.append_nil]
      by_cases hn : sortedNames dn.inodes = []
      · simp [hn]
      · have hlen : ¬ (sortedNames dn.inodes).length = 0 := by
          simpa [List.length_eq_zero] using hn
        simp only [hlen, hn, if_false, joinWith_singleton]
        have := joinWith_map_tokens (fun n => str "0:0:" ++ manifestEscape n) _ hn
        have hmap : List.map (segmentToken ∘ fun n => ({ name := n, offset := 0, length := 0 } : m1segment))
            (sortedNames dn.inodes) = (sortedNames dn.inodes).map (fun n => str "0:0:" ++ manifestEscape n) := by
          apply List.map_congr_left
          intro n _
          exact segmentToken_zero n
        rw [hmap]
        simp only [List.append_assoc]
        rw [← this]
        simp
    · intro n hn
      obtain ⟨v, hv⟩ := (mem_sortedNames _ _).1 hn
      obtain ⟨fn, h1, h2⟩ := hflat n v hv
      exact ⟨fn, h1 ▸ hv, h2⟩

theorem exTwoEmpty_flat (name : Str) (n : inode) (h : mapGet exTwoEmpty.inodes name = some n) :
    ∃ fn, n = .file fn ∧ fn.extents = [] := by
  simp only [exTwoEmpty, mapGet] at h
  split_ifs at h
  · simp only [Option.some.injEq] at h; subst h; exact ⟨_, rfl, rfl⟩
  · simp only [Option.some.injEq] at h; subst h; exact ⟨_, rfl, rfl⟩

theorem marshalManifest_files_without_extents_witness :
    (∀ name n, mapGet exTwoEmpty.inodes name = some n → ∃ fn, n = .file fn ∧ fn.extents = []) ∧
    sortedNames exTwoEmpty.inodes = [str "a", str "b"] ∧
    marshalledText (marshalManifestFuel 4 listKeep 1 exTwoEmpty (str ".") []) =
      .ok (.ok (str ". d41d8cd98f00b204e9800998ecf8427e+0 0:0:a 0:0:b\n")) := by
  refine ⟨exTwoEmpty_flat, by decide, ?_⟩
  rw [(marshalManifest_files_without_extents 4 listKeep 0 exTwoEmpty (str ".") []
    exTwoEmpty_flat).2.2.2]
  decide

/-! ## Trees after an entry is removed -/

theorem getNode_cons (root : dirnode) (k : Str) (r : List Str) :
    getNode root (k :: r) = (mapGet root.inodes k).bind (fun n => n.nodeAt r) := by
  cases r with
  | nil =>
    rw [getNode_single]
    cases hg : mapGet root.inodes k with
    | none => rfl
    | some n => cases n <;> rfl
  | cons b rest =>
    rw [getNode_cons_cons]
    cases hg : mapGet root.inodes k with
    | none => rfl
    | some n => cases n <;> rfl

theorem getNode_append (a : List Str) :
    ∀ (root dn : dirnode) (b : List Str), getDir root a = some dn →
      getNode root (a ++ b) = getNode dn b := by
  induction a with
  | nil =>
    intro root dn b h
    rw [getDir_nil] at h
    simp only [Option.some.injEq] at h
    subst h; rfl
  | cons x rest ih =>
    intro root dn b h
    rw [getDir_cons] at h
    cases hc : dirOf (mapGet root.inodes x) with
    | none => rw [hc] at h; simp at h
    | some c =>
      rw [hc] at h
      simp only [Option.some_bind] at h
      rw [List.cons_append, getNode_cons, dirOf_some _ _ hc]
      simp only [Option.some_bind]
      cases hr : rest ++ b with
      | nil =>
        have h1 : rest = [] := (List.append_eq_nil.1 hr).1
        have h2 : b = [] := (List.append_eq_nil.1 hr).2
        subst h1; subst h2
        rw [getDir_nil] at h
        simp only [Option.some.injEq] at h
        subst h
        simp [inode.nodeAt, getNode_nil]
      | cons y more =>
        simp only [inode.nodeAt]
        rw [← hr]
        exact ih c dn b h

theorem updateDir_fileinfo (f : dirnode → dirnode) (hf : ∀ d, (f d).fileinfo = d.fileinfo)
    (root : dirnode) (dloc : List Str) : (updateDir f root dloc).fileinfo = root.fileinfo := by
  cases dloc with
  | nil => rw [updateDir_nil]; exact hf root
  | cons a rest =>
    rw [updateDir]
    cases mapGet root.inodes a with
    | none => rfl
    | some n => cases n <;> rfl

/-- The inodes at and below the directory that `updateDir` changes. -/
theorem getNode_updateDir_below (f : dirnode → dirnode) (dloc : List Str) :
    ∀ (root dn : dirnode) (r : List Str), getDir root dloc = some dn →
      getNode (updateDir f root dloc) (dloc ++ r) = getNode (f dn) r := by
  induction dloc with
  | nil =>
    intro root dn r h
    rw [getDir_nil] at h
    simp only [Option.some.injEq] at h
    subst h
    rw [updateDir_nil]; rfl
  | cons d dl ih =>
    intro root dn r h
    rw [getDir_cons] at h
    cases hc : dirOf (mapGet root.inodes d) with
    | none => rw [hc] at h; simp at h
    | some c =>
      rw [hc] at h
      simp only [Option.some_bind] at h
      have hgd := dirOf_some _ _ hc
      rw [updateDir_cons f root c d dl hc, List.cons_append, getNode_cons]
      simp only
      rw [mapGet_mapPut_eq _ _ _ _ hgd]
      simp only [Option.some_bind]
      cases hr : dl ++ r with
      | nil =>
        have h1 : dl = [] := (List.append_eq_nil.1 hr).1
        have h2 : r = [] := (List.append_eq_nil.1 hr).2
        subst h1; subst h2
        rw [getDir_nil] at h
        simp only [Option.some.injEq] at h
        subst h
        simp [inode.nodeAt, getNode_nil, updateDir_nil]
      | cons y more =>
        simp only [inode.nodeAt]
        rw [← hr]
        exact ih c dn r h

/-- The inodes that are not at or below the directory that `updateDir`
changes, when the change keeps the `fileinfo` of the directory. -/
theorem shallowAt_updateDir_off (f : dirnode → dirnode) (hf : ∀ d, (f d).fileinfo = d.fileinfo)
    (dloc : List Str) :
    ∀ (root dn : dirnode) (q : List Str), getDir root dloc = some dn → ¬ dloc <+: q →
      shallowAt (updateDir f root dloc) q = shallowAt root q := by
  induction dloc with
  | nil => intro root dn q _ hq; exact absurd (List.nil_prefix) hq
  | cons d dl ih =>
    intro root dn q h hq
    rw [getDir_cons] at h
    cases hc : dirOf (mapGet root.inodes d) with
    | none => rw [hc] at h; simp at h
    | some c =>
      rw [hc] at h
      simp only [Option.some_bind] at h
      have hgd := dirOf_some _ _ hc
      rw [updateDir_cons f root c d dl hc]
      unfold shallowAt
      cases q with
      | nil => simp [getNode_nil, inode.shallow]
      | cons k r =>
        rw [getNode_cons, getNode_cons]
        simp only
        by_cases hk : k = d
        · subst hk
          rw [mapGet_mapPut_eq _ _ _ _ hgd, hgd]
          simp only [Option.some_bind]
          have hq1 : ¬ dl <+: r := by
            intro hp
            exact hq ((List.prefix_cons_inj k).2 hp)
          cases r with
          | nil =>
            simp only [inode.nodeAt, Option.map_some', inode.shallow,
              updateDir_fileinfo f hf c dl]
          | cons y more =>
            simp only [inode.nodeAt]
            exact ih c dn (y :: more) h hq1
        · rw [mapGet_mapPut_ne _ _ _ _ hk]

theorem mapGet_mapDelete {α : Type} (m : List (Str × α)) (name k : Str) :
    mapGet (mapDelete m name) k = if k = name then none else mapGet m k := by
  unfold mapDelete
  induction m with
  | nil => simp [mapGet]
  | cons kv rest ih =>
    obtain ⟨k0, w⟩ := kv
    by_cases h0 : k0 = name
    · subst h0
      simp only [List.filter_cons, decide_True, Bool.not_true, Bool.false_eq_true, if_false]
      rw [ih]
      by_cases hk : k = k0
      · simp [hk]
      · have : ¬ k0 = k := fun e => hk e.symm
        simp [mapGet, hk, this]
    · simp only [List.filter_cons, h0, decide_False, Bool.not_false, if_true, mapGet]
      by_cases hk : k0 = k
      · subst hk
        simp [h0]
      · simp only [hk, if_false]
        exact ih

/-- The directory a lookup from an existing directory returns exists. -/
theorem lookupStep_exists (root : dirnode) (loc : List Str) (name : Str)
    (h : ∃ d, getDir root loc = some d) (dloc : List Str)
    (hs : lookupStep root (.dir loc) name = .dir dloc) : ∃ d, getDir root dloc = some d := by
  unfold lookupStep at hs
  simp only at hs
  split_ifs at hs with h1 h2
  · simp only [Found.dir.injEq] at hs; subst hs; exact h
  · simp only [Found.dir.injEq] at hs; subst hs
    obtain ⟨d, hd⟩ := h
    rcases List.eq_nil_or_concat loc with hnil | ⟨r, x, hx⟩
    · subst hnil; exact ⟨d, hd⟩
    · rw [List.concat_eq_append] at hx
      subst hx
      rw [List.dropLast_concat]
      exact getDir_of_append _ _ _ _ hd
  · obtain ⟨d, hd⟩ := h
    rw [hd] at hs
    simp only at hs
    cases hg : mapGet d.inodes name with
    | none => rw [hg] at hs; simp at hs
    | some n =>
      rw [hg] at hs
      cases n with
      | file fn => simp at hs
      | dir c =>
        simp only [Found.dir.injEq] at hs
        subst hs
        rw [getDir_snoc, hd]
        simp [hg, dirOf]

theorem lookupStep_not_dir (root : dirnode) (node : Found) (name : Str)
    (h : ∀ l, node ≠ .dir l) : lookupStep root node name = .nil := by
  cases node with
  | nil => rfl
  | file l => rfl
  | dir l => exact absurd rfl (h l)

theorem lookupFold_nil (root : dirnode) (names : List Str) :
    names.foldl (lookupStep root) .nil = .nil := by
  induction names with
  | nil => rfl
  | cons a rest ih => rw [List.foldl_cons]; exact ih

theorem lookupFold_exists (root : dirnode) (names : List Str) :
    ∀ (loc : List Str), (∃ d, getDir root loc = some d) → ∀ dloc,
      names.foldl (lookupStep root) (.dir loc) = .dir dloc → ∃ d, getDir root dloc = some d := by
  induction names with
  | nil =>
    intro loc h dloc hs
    simp only [List.foldl_nil, Found.dir.injEq] at hs
    subst hs; exact h
  | cons a rest ih =>
    intro loc h dloc hs
    rw [List.foldl_cons] at hs
    cases hstep : lookupStep root (.dir loc) a with
    | nil => rw [hstep, lookupFold_nil] at hs; cases hs
    | file l =>
      rw [hstep] at hs
      cases rest with
      | nil => simp at hs
      | cons b more =>
        rw [List.foldl_cons, lookupStep_not_dir root (.file l) b (by simp), lookupFold_nil] at hs
        cases hs
    | dir l =>
      rw [hstep] at hs
      exact ih l (lookupStep_exists root loc a h l hstep) dloc hs

theorem lookupPath_exists (root : dirnode) (loc : List Str) (h : ∃ d, getDir root loc = some d)
    (path : Str) (dloc : List Str) (hs : lookupPath root loc path = .dir dloc) :
    ∃ d, getDir root dloc = some d :=
  lookupFold_exists root _ loc h dloc hs

/-! ## `Remove` -/

/-- C18. `Remove(path)` on an existing directory `loc` of a tree, where
`path.Split` gives the directory part `dirname` and the final component
`name`: the error is `ErrInvalidOperation` when `name` is empty, `.` or `..`;
otherwise it is not-found when `lookupPath(dirname)` is not a directory or
that directory has no child `name`, and `ErrDirectoryNotEmpty` when the
child is a directory that has a child; in these cases the tree is left as it
is.  Otherwise `Remove` returns nil, the containing directory keeps its
`fileinfo` and has the map without the entry `name` (every other name has the
entry it had), and everywhere else the tree is as before: nothing at or below
the removed path, and at any other path the same file node or a directory
with the same `fileinfo`. -/
theorem Remove_removes_one_entry (root : dirnode) (loc : List Str)
    (hloc : ∃ d, getDir root loc = some d) (path : Str) :
    (specialName (pathSplit path).2 →
      dirnode.Remove root loc path = (some .ErrInvalidOperation, root)) ∧
    (¬ specialName (pathSplit path).2 →
      ((∀ dloc, lookupPath root loc (pathSplit path).1 ≠ .dir dloc) →
        dirnode.Remove root loc path = (some .ErrNotExist, root)) ∧
      (∀ dloc, lookupPath root loc (pathSplit path).1 = .dir dloc →
        ∃ dn, getDir root dloc = some dn ∧
          (mapGet dn.inodes (pathSplit path).2 = none →
            dirnode.Remove root loc path = (some .ErrNotExist, root)) ∧
          (∀ node, mapGet dn.inodes (pathSplit path).2 = some (.dir node) → node.inodes ≠ [] →
            dirnode.Remove root loc path = (some .ErrDirectoryNotEmpty, root)) ∧
          (∀ n, mapGet dn.inodes (pathSplit path).2 = some n →
            (∀ node, n = .dir node → node.inodes = []) →
            ∃ root1, dirnode.Remove root loc path = (none, root1) ∧
              getDir root1 dloc =
                some { dn with inodes := mapDelete dn.inodes (pathSplit path).2 } ∧
              (∀ k, mapGet (mapDelete dn.inodes (pathSplit path).2) k =
                if k = (pathSplit path).2 then none else mapGet dn.inodes k) ∧
              (∀ q, shallowAt root1 q =
                if dloc ++ [(pathSplit path).2] <+: q then none else shallowAt root q)))) := by
  constructor
  · intro hs
    unfold dirnode.Remove
    unfold specialName at hs
    simp only [hs, if_true]
  · intro hs
    unfold specialName at hs
    constructor
    · intro hno
      unfold dirnode.Remove
      simp only [hs, if_false]
      cases hl : lookupPath root loc (pathSplit path).1 with
      | nil => rfl
      | file l => rfl
      | dir dloc => exact absurd hl (hno dloc)
    · intro dloc hl
      obtain ⟨dn, hdn⟩ := lookupPath_exists root loc hloc _ dloc hl
      refine ⟨dn, hdn, ?_, ?_, ?_⟩
      · intro hg
        unfold dirnode.Remove
        simp only [hs, if_false, hl, hdn, hg]
      · intro node hg hne
        unfold dirnode.Remove
        have hlen : node.inodes.length > 0 := List.length_pos.2 hne
        simp only [hs, if_false, hl, hdn, hg, hlen, if_true]
      · intro n hg hempty
        have hrem : dirnode.Remove root loc path = (none, updateDir
            (fun d => { d with inodes := mapDelete d.inodes (pathSplit path).2 }) root dloc) := by
          unfold dirnode.Remove
          cases n with
          | file fn => simp only [hs, if_false, hl, hdn, hg]
          | dir node =>
            have hlen : ¬ node.inodes.length > 0 := by
              rw [hempty node rfl]; simp
            simp only [hs, if_false, hl, hdn, hg, hlen]
        refine ⟨_, hrem, ?_, fun k => mapGet_mapDelete _ _ k, ?_⟩
        · have := getNode_updateDir_below
            (fun d => { d with inodes := mapDelete d.inodes (pathSplit path).2 }) dloc root dn []
            hdn
          rw [List.append_nil, getNode_nil] at this
          rw [getDir_eq_dirOf, this]
          rfl
        · intro q
          by_cases hq : dloc <+: q
          · obtain ⟨r, hr⟩ := hq
            subst hr
            unfold shallowAt
            rw [getNode_updateDir_below _ dloc root dn r hdn, getNode_append dloc root dn r hdn]
            cases r with
            | nil =>
              have hnp : ¬ (dloc ++ [(pathSplit path).2] <+: dloc ++ []) := by
                intro hp
                have := hp.length_le
                simp at this
              simp only [hnp, if_false, getNode_nil, Option.map_some', inode.shallow]
            | cons k r1 =>
              rw [getNode_cons, getNode_cons]
              simp only [mapGet_mapDelete]
              by_cases hk : k = (pathSplit path).2
              · subst hk
                have hp : dloc ++ [(pathSplit path).2] <+: dloc ++ (pathSplit path).2 :: r1 :=
                  ⟨r1, by simp⟩
                rw [if_pos hp, if_pos rfl]
                rfl
              · have hnp : ¬ (dloc ++ [(pathSplit path).2] <+: dloc ++ k :: r1) := by
                  intro hp
                  rw [List.prefix_append_right_inj] at hp
                  obtain ⟨t, ht⟩ := hp
                  simp only [List.singleton_append, List.cons.injEq] at ht
                  exact hk ht.1.symm
                simp only [hk, if_false, hnp]
          · have hnp : ¬ (dloc ++ [(pathSplit path).2] <+: q) := by
              intro hp
              exact hq ((List.prefix_append dloc _).trans hp)
            simp only [hnp, if_false]
            exact shallowAt_updateDir_off
              (fun d => { d with inodes := mapDelete d.inodes (pathSplit path).2 })
              (fun d => rfl) dloc root dn q hdn hq

theorem Remove_removes_one_entry_witness :
    (∃ d, getDir exDirWithFile [] = some d) ∧
    dirnode.Remove exDirWithFile [] (str "/d") = (some .ErrDirectoryNotEmpty, exDirWithFile) ∧
    (dirnode.Remove exDirWithFile [] (str "/d/f")).1 = none ∧
    (dirnode.Remove (dirnode.Remove exDirWithFile [] (str "/d/f")).2 [] (str "/d")).1 = none ∧
    (dirnode.Remove (dirnode.Remove exDirWithFile [] (str "/d/f")).2 [] (str "/d")).2.inodes.length
      = 0 := by
  have h := (Remove_removes_one_entry exDirWithFile [] ⟨_, rfl⟩ (str "/d")).2 (by
    unfold specialName; decide)
  obtain ⟨dn, hdn, _, h2, _⟩ := h.2 [] (by decide)
  rw [getDir_nil] at hdn
  simp only [Option.some.injEq] at hdn
  subst hdn
  refine ⟨⟨_, rfl⟩, h2 _ (by rfl) (by simp), by rfl, by rfl, by rfl⟩

/-- The example tree is what `Mkdir("/d")` and `Create("/d/f")` make. -/
theorem exDirWithFile_made :
    (fileSystem.Create (dirnode.Mkdir emptyRoot [] (str "/d") 0o755).2 (str "/d/f")).map
      (fun r => r.2) = .ok exDirWithFile := by
  rfl

/-! ## Writing through a handle opened with `O_APPEND` -/

theorem splice_at_end (c : List (Option Byte)) (p : List Byte) :
    splice c c.length p = c ++ p.map some := by
  simp [splice]

theorem exFile_inv : exFile.Inv 4 := by
  refine ⟨by decide, ?_⟩
  intro e he
  simp only [exFile, List.mem_singleton] at he
  subst he
  decide

theorem exFile_present : Present listKeep exStore exFile.extents := by
  intro se hse
  simp only [exFile, List.mem_singleton, extent.stored.injEq] at hse
  subst hse
  exact ⟨exWorld, by decide⟩

/-- The handle of the example is the one `OpenFile` returns, but for its
pointer. -/
theorem exAppendHandle_opened :
    (dirnode.OpenFile exHolder [] (str "a") (O_WRONLY ||| O_APPEND) 0).map
      (fun r => { r.1 with ptr := exPtr }) = .ok exAppendHandle := by
  decide

/-- Scenario: on the file `world`, a handle with `O_APPEND` whose pointer is
at offset 1 writes `!!` and the file is `world!!`. -/
theorem Write_appends_example :
    (file.Write 4 listKeep exAppendHandle (.file exFile) [33, 33] exStore).map
      (fun r => (r.2.2.1.ptr.off,
        match r.2.2.2.1 with
        | .file fn => fn.content listKeep r.2.2.2.2
        | .dir _ => []))
      = .ok (7, [some 119, some 111, some 114, some 108, some 100, some 33, some 33]) := by
  decide

/-! ## `Read` -/

theorem reader_succeeds {σ : Type} (kc : keepClient σ) (st : σ) :
    ReadsSucceed kc st (kc.reader st) := by
  intro loc b k off hb h0 hfit
  unfold keepClient.reader
  simp only [hb]
  rw [if_neg (by omega)]
  have : ¬ ((b.drop off.toNat).take k).length < k := by
    simp only [List.length_take, List.length_drop]
    omega
  simp only [this, if_false]

theorem stored_bytes_window {σ : Type} (kc : keepClient σ) (st : σ) (se : storedExtent)
    (b : List Byte) (hb : kc.Get st se.locator = some b) (h0 : 0 ≤ se.offset)
    (hfit : se.offset + se.length ≤ b.length) :
    (extent.stored se).bytes kc st = ((b.drop se.offset.toNat).take se.length.toNat).map some := by
  unfold extent.bytes
  apply List.ext_getElem?
  intro j
  simp only [List.getElem?_map, List.getElem?_range', List.getElem?_take, List.getElem?_drop]
  by_cases hj : j < se.length.toNat
  · rw [List.getElem?_range hj]
    simp only [Option.map_some', hj, if_true, blockByte, hb]
    rw [if_neg (by omega)]
    have e1 : (se.offset + (j : Int)).toNat = se.offset.toNat + j := by omega
    rw [e1]
    have hlt : se.offset.toNat + j < b.length := by omega
    rw [List.getElem?_eq_getElem hlt]
    rfl
  · rw [List.getElem?_eq_none (by simpa using hj)]
    simp [hj]

theorem take_drop_take {α : Type} (m : List α) (off n len : Nat) (h : off + n ≤ len) :
    ((m.take len).drop off).take n = (m.drop off).take n := by
  apply List.ext_getElem?
  intro j
  simp only [List.getElem?_take, List.getElem?_drop]
  by_cases hj : j < n
  · have : off + j < len := by omega
    simp [hj, this]
  · simp [hj]

theorem extent_ReadAt_spec {σ : Type} (kc : keepClient σ) (st : σ) (readAt : BlockReader)
    (hread : ReadsSucceed kc st readAt) (e : extent)
    (hwin : ∀ se, e = .stored se →
      ∃ b, kc.Get st se.locator = some b ∧ 0 ≤ se.offset ∧ se.offset + se.length ≤ b.length)
    (k : Nat) (off : Int) (h0 : 0 ≤ off) (h1 : off < e.Len) :
    ∃ data, e.ReadAt readAt k off
        = .ok (data, if (k : Int) > e.Len - off then some .EOF else none) ∧
      (data.length : Int) = min (k : Int) (e.Len - off) ∧
      data.map some = ((e.bytes kc st).drop off.toNat).take data.length := by
  cases e with
  | mem me =>
    simp only [extent.Len, memExtent.Len] at h1 ⊢
    refine ⟨(me.buf.drop off.toNat).take k, ?_, ?_, ?_⟩
    · unfold extent.ReadAt memExtent.ReadAt
      simp only [memExtent.Len]
      rw [if_neg (by omega), if_neg (by omega)]
      simp only [List.length_take, List.length_drop]
      congr 2
      by_cases hk : (k : Int) > me.buf.length - off
      · rw [if_pos hk, if_pos (by omega)]
      · rw [if_neg hk, if_neg (by omega)]
    · simp only [List.length_take, List.length_drop]
      omega
    · simp only [extent.bytes, List.length_take, List.length_drop, List.map_take, List.map_drop]
      have hl : (List.drop off.toNat (List.map some me.buf)).length ≤ me.buf.length - off.toNat := by
        simp
      rw [(List.take_take k (me.buf.length - off.toNat) _).symm, List.take_of_length_le hl]
  | stored se =>
    obtain ⟨b, hb, hoff, hfit⟩ := hwin se rfl
    simp only [extent.Len, storedExtent.Len] at h1 ⊢
    rw [stored_bytes_window kc st se b hb hoff hfit]
    unfold extent.ReadAt storedExtent.ReadAt
    have hgt : ¬ off > se.length := by omega
    simp only [hgt, if_false]
    by_cases hk : (k : Int) > se.length - off
    · simp only [hk, if_true]
      have hr := hread se.locator b (se.length - off).toNat (off + se.offset) hb (by omega)
        (by omega)
      rw [hr]
      refine ⟨_, rfl, ?_, ?_⟩
      · simp only [List.length_take, List.length_drop]
        omega
      · simp only [List.length_take, List.length_drop, List.map_take, List.map_drop]
        rw [take_drop_take _ _ _ _ (by omega), List.drop_drop]
        congr 1
        · omega
        · congr 1
          omega
    · simp only [hk, if_false]
      have hr := hread se.locator b k (off + se.offset) hb (by omega) (by omega)
      rw [hr]
      refine ⟨_, rfl, ?_, ?_⟩
      · simp only [List.length_take, List.length_drop]
        omega
      · simp only [List.length_take, List.length_drop, List.map_take, List.map_drop]
        rw [take_drop_take _ _ _ _ (by omega), List.drop_drop]
        congr 1
        · omega
        · congr 1
          omega

/-! ## `Read` on a file node -/

theorem getElem?_mid {α : Type} (pre post : List α) (e : α) :
    (pre ++ e :: post)[pre.length]? = some e := by
  rw [List.getElem?_append_right (le_refl _)]
  simp

theorem getElem?_mid_succ {α : Type} (pre rest : List α) (e e2 : α) :
    (pre ++ e :: e2 :: rest)[pre.length + 1]? = some e2 := by
  rw [List.getElem?_append_right (by omega)]
  simp

theorem Read_at_end (readAt : BlockReader) (mbs : Int) (fn : filenode) (hinv : fn.Inv mbs)
    (ptr : filenodePtr) (h0 : 0 ≤ ptr.off) (hge : fn.fileinfo.size ≤ ptr.off) (k : Nat) :
    ∃ q, fn.Read readAt k ptr = .ok ([], q, some .EOF) := by
  have hsize : 0 ≤ fn.fileinfo.size := by
    rw [hinv.1]; exact sumLen_nonneg _ (Inv_nonneg hinv)
  unfold filenode.Read filenode.seek
  have h1 : ¬ ptr.off < 0 := by omega
  have h2 : ptr.off ≥ fn.fileinfo.size := hge
  have h3 : ¬ fn.fileinfo.size < 0 := by omega
  simp only [h1, if_false, h2, if_true, bind, Except.bind, h3, ge_iff_le, le_refl]
  exact ⟨_, rfl⟩

theorem Read_inside {σ : Type} (kc : keepClient σ) (st : σ) (readAt : BlockReader)
    (hread : ReadsSucceed kc st readAt) (mbs : Int) (fn : filenode) (hinv : fn.Inv mbs)
    (hwin : Windowed kc st fn.extents) (ptr : filenodePtr) (h0 : 0 ≤ ptr.off)
    (hptr : ptr.Stale fn ∨ ptr.Consistent fn) (k : Nat) (hk : 0 < k)
    (hlt : ptr.off < fn.fileinfo.size) :
    ∃ data q err pre e post,
      fn.Read readAt k ptr = .ok (data, q, err) ∧
      fn.extents = pre ++ e :: post ∧ sumLen pre ≤ ptr.off ∧ ptr.off < sumLen pre + e.Len ∧
      (data.length : Int) = min (k : Int) (sumLen pre + e.Len - ptr.off) ∧
      1 ≤ data.length ∧
      data.map some = ((fn.content kc st).drop ptr.off.toNat).take data.length ∧
      q.off = ptr.off + data.length ∧ q.Consistent fn ∧
      (err = none ∨ (err = some .EOF ∧ ptr.off + data.length = fn.fileinfo.size)) := by
  obtain ⟨q, hq1, hq2, hq3⟩ := seek_spec mbs fn hinv ptr h0 hptr
  have hqoff : q.off = ptr.off := by rw [hq3]; omega
  obtain ⟨pre, post0, hes, hidx, hdec, hoff0, hcase⟩ := Seeked_split hq2
  obtain ⟨i1, i2, i3, i4, i5⟩ := Inv_split hinv hes
  rcases hcase with ⟨hp, hz⟩ | ⟨e, post, hp, hin⟩
  · subst hp
    simp only [sumLen, add_zero] at i5
    omega
  subst hp
  have hepos := (i2 e (by simp)).1
  have hpostnn : 0 ≤ sumLen post := sumLen_nonneg _ (fun x hx => i4 x (by simp [hx]))
  simp only [sumLen] at i5
  have hw : ∀ se, e = .stored se →
      ∃ b, kc.Get st se.locator = some b ∧ 0 ≤ se.offset ∧ se.offset + se.length ≤ b.length := by
    intro se hse
    exact hwin se (by rw [hes, hse]; simp)
  obtain ⟨data, hd1, hd2, hd3⟩ := extent_ReadAt_spec kc st readAt hread e hw k q.extentOff hoff0 hin
  have hn1 : 1 ≤ data.length := by omega
  have hcontent : data.map some = ((fn.content kc st).drop ptr.off.toNat).take data.length := by
    rw [hd3]
    unfold filenode.content
    rw [hes, extentsBytes_append]
    simp only [extentsBytes]
    have hlpre := extentsBytes_length kc st pre i3
    have hlb := bytes_length kc st e
    have e1 : ptr.off.toNat = (extentsBytes kc st pre).length + q.extentOff.toNat := by omega
    rw [e1, ← List.drop_drop, List.drop_left, List.drop_append_of_le_length (by omega),
      List.take_append_of_le_length (by simp only [List.length_drop]; omega)]
  have hlen : (fn.extents.length : Int) = pre.length + 1 + post.length := by
    rw [hes]; simp; omega
  have hstep : fn.Read readAt k ptr =
      .ok (data,
        (if q.extentOff + data.length = e.Len then
          { off := q.off + data.length, extentIdx := q.extentIdx + 1, extentOff := 0,
            repacked := q.repacked }
         else
          { off := q.off + data.length, extentIdx := q.extentIdx,
            extentOff := q.extentOff + data.length, repacked := q.repacked }),
        (if q.extentOff + data.length = e.Len then
          (if q.extentIdx + 1 < (fn.extents.length : Int) ∧
              (if (k : Int) > e.Len - q.extentOff then some GoError.EOF else none) = some .EOF
           then none
           else (if (k : Int) > e.Len - q.extentOff then some GoError.EOF else none))
         else (if (k : Int) > e.Len - q.extentOff then some GoError.EOF else none))) := by
    unfold filenode.Read
    have hneg : ¬ q.off < 0 := by omega
    have hidx2 : ¬ q.extentIdx ≥ (fn.extents.length : Int) := by omega
    have hindex : index fn.extents q.extentIdx = .ok e := by
      rw [hes]; exact index_mid pre post e _ hidx
    have hpos : data.length > 0 := by omega
    simp only [hq1, bind, Except.bind, hneg, if_false, hidx2, hindex, hd1, hpos, if_true]
    by_cases hend : q.extentOff + data.length = e.Len
    · simp only [hend, if_true]
    · simp only [hend, if_false]
  refine ⟨data, _, _, pre, e, post, hstep, hes, by omega, by omega, by omega, hn1, hcontent, ?_, ?_, ?_⟩
  · by_cases hend : q.extentOff + data.length = e.Len
    · simp only [hend, if_true]; omega
    · simp only [hend, if_false]; omega
  · by_cases hend : q.extentOff + data.length = e.Len
    · simp only [hend, if_true]
      have hget : fn.extents[pre.length]? = some e := by rw [hes]; exact getElem?_mid _ _ _
      have htake : sumLen (fn.extents.take (pre.length + 1)) = sumLen pre + e.Len := by
        rw [sumLen_take_succ _ _ _ hget, hes]; simp
      refine ⟨hq2.1, by simp only; omega, le_refl _, ?_, ?_⟩
      · simp only
        have : (q.extentIdx + 1).toNat = pre.length + 1 := by omega
        rw [this, htake]; omega
      · simp only
        cases post with
        | nil =>
          left
          refine ⟨?_, trivial⟩
          rw [hes]; simp; omega
        | cons e2 rest =>
          right
          refine ⟨e2, ?_, i4 e2 (by simp)⟩
          have : (q.extentIdx + 1).toNat = pre.length + 1 := by omega
          rw [this, hes]
          exact getElem?_mid_succ _ _ _ _
    · simp only [hend, if_false]
      refine ⟨hq2.1, by simp only; omega, by simp only; omega, ?_, ?_⟩
      · simp only
        have : q.extentIdx.toNat = pre.length := by omega
        rw [this, hes]
        simp
        omega
      · right
        refine ⟨e, ?_, by simp only; omega⟩
        have : q.extentIdx.toNat = pre.length := by omega
        simp only [this, hes]
        exact getElem?_mid _ _ _
  · by_cases hend : q.extentOff + data.length = e.Len
    · simp only [hend, if_true]
      by_cases hkk : (k : Int) > e.Len - q.extentOff
      · simp only [hkk, if_true, and_true]
        by_cases hnext : q.extentIdx + 1 < (fn.extents.length : Int)
        · simp only [hnext, if_true]; left; trivial
        · simp only [hnext, if_false]
          right
          refine ⟨trivial, ?_⟩
          have : sumLen post = 0 := by
            have : post = [] := by
              apply List.eq_nil_of_length_eq_zero
              omega
            rw [this]; rfl
          omega
      · simp only [hkk, if_false]
        left
        simp
    · simp only [hend, if_false]
      have hkk : ¬ (k : Int) > e.Len - q.extentOff := by omega
      simp only [hkk, if_false]
      left; trivial

/-- C15. On a file node that satisfies the invariants, whose stored extents
are windows of blocks the store holds, with a blob client whose reads
succeed, for a pointer with offset `o ≥ 0` that is stale or consistent and a
buffer of `k > 0` bytes: when `o` is at or after the end of the file, `Read`
returns no byte and `EOF`; otherwise, `e` being the extent that contains the
byte `o`, it returns `n = min(k, bytes of e from o on)` bytes, at least one,
which are the content of the file at `[o, o+n)`, and a pointer with offset
`o+n` that is consistent with the node, and the error is nil or it is `EOF`
and `o+n` is the size of the file. -/
theorem Read_returns_bytes_of_one_extent {σ : Type} (kc : keepClient σ) (st : σ)
    (readAt : BlockReader) (hread : ReadsSucceed kc st readAt) (mbs : Int) (fn : filenode)
    (hinv : fn.Inv mbs) (hwin : Windowed kc st fn.extents) (ptr : filenodePtr)
    (h0 : 0 ≤ ptr.off) (hptr : ptr.Stale fn ∨ ptr.Consistent fn) (k : Nat) (hk : 0 < k) :
    (fn.fileinfo.size ≤ ptr.off → ∃ q, fn.Read readAt k ptr = .ok ([], q, some .EOF)) ∧
    (ptr.off < fn.fileinfo.size →
      ∃ data q err pre e post,
        fn.Read readAt k ptr = .ok (data, q, err) ∧
        fn.extents = pre ++ e :: post ∧ sumLen pre ≤ ptr.off ∧ ptr.off < sumLen pre + e.Len ∧
        (data.length : Int) = min (k : Int) (sumLen pre + e.Len - ptr.off) ∧
        1 ≤ data.length ∧
        data.map some = ((fn.content kc st).drop ptr.off.toNat).take data.length ∧
        q.off = ptr.off + data.length ∧ q.Consistent fn ∧
        (err = none ∨ (err = some .EOF ∧ ptr.off + data.length = fn.fileinfo.size))) :=
  ⟨fun hge => Read_at_end readAt mbs fn hinv ptr h0 hge k,
   fun hlt => Read_inside kc st readAt hread mbs fn hinv hwin ptr h0 hptr k hk hlt⟩

theorem exTwoExtents_inv : exTwoExtents.Inv 4 := by
  refine ⟨by decide, ?_⟩
  intro e he
  simp only [exTwoExtents, List.mem_cons, List.mem_singleton, List.not_mem_nil, or_false] at he
  rcases he with he | he <;> subst he <;> decide

theorem exTwoExtents_windowed : Windowed listKeep exStore exTwoExtents.extents := by
  intro se hse
  simp only [exTwoExtents, List.mem_cons, extent.stored.injEq, List.mem_singleton,
    List.not_mem_nil, or_false] at hse
  rcases hse with hse | hse
  · subst hse
    exact ⟨exWorld, by decide, by decide, by decide⟩
  · cases hse

theorem Read_returns_bytes_of_one_extent_witness :
    (ReadsSucceed listKeep exStore (listKeep.reader exStore) ∧ exTwoExtents.Inv 4 ∧
      Windowed listKeep exStore exTwoExtents.extents ∧ 0 ≤ exPtr.off ∧
      (exPtr.Stale exTwoExtents ∨ exPtr.Consistent exTwoExtents) ∧ 0 < 10 ∧
      exPtr.off < exTwoExtents.fileinfo.size) ∧
    ∃ data q err pre e post,
      exTwoExtents.Read (listKeep.reader exStore) 10 exPtr = .ok (data, q, err) ∧
      exTwoExtents.extents = pre ++ e :: post ∧ sumLen pre ≤ exPtr.off ∧
      exPtr.off < sumLen pre + e.Len ∧
      (data.length : Int) = min ((10 : Nat) : Int) (sumLen pre + e.Len - exPtr.off) ∧
      1 ≤ data.length ∧
      data.map some
        = ((exTwoExtents.content listKeep exStore).drop exPtr.off.toNat).take data.length ∧
      q.off = exPtr.off + data.length ∧ q.Consistent exTwoExtents ∧
      (err = none ∨
        (err = some .EOF ∧ exPtr.off + data.length = exTwoExtents.fileinfo.size)) :=
  have hstale : exPtr.Stale exTwoExtents ∨ exPtr.Consistent exTwoExtents :=
    Or.inl (by unfold filenodePtr.Stale; decide)
  ⟨⟨reader_succeeds listKeep exStore, exTwoExtents_inv, exTwoExtents_windowed, by decide, hstale,
      by decide, by decide⟩,
    (Read_returns_bytes_of_one_extent listKeep exStore (listKeep.reader exStore)
      (reader_succeeds listKeep exStore) 4 exTwoExtents exTwoExtents_inv exTwoExtents_windowed
      exPtr (by decide) hstale 10 (by decide)).2 (by decide)⟩

/-- Scenario: the file is `world` in a block followed by `!!` in memory.
With a buffer of 10 bytes, `Read` at offset 1 returns `orld`, the pointer at
offset 5 and a nil error; `Read` at offset 5 returns `!!` and `EOF`; `Read`
at offset 7 returns nothing and `EOF`. -/
theorem Read_example :
    (exTwoExtents.Read (listKeep.reader exStore) 10 exPtr).map (fun r => (r.1, r.2.1.off, r.2.2))
      = .ok ([111, 114, 108, 100], 5, none) ∧
    (exTwoExtents.Read (listKeep.reader exStore) 10 { exPtr with off := 5 }).map
        (fun r => (r.1, r.2.1.off, r.2.2))
      = .ok ([33, 33], 7, some .EOF) ∧
    (exTwoExtents.Read (listKeep.reader exStore) 10 { exPtr with off := 7 }).map
        (fun r => (r.1, r.2.1.off, r.2.2))
      = .ok ([], 7, some .EOF) := by
  decide

/-! ## One round of `flush` -/

theorem mapPut_keys {α : Type} (m : List (Str × α)) (name : Str) (v : α) :
    (mapPut m name v).map Prod.fst = m.map Prod.fst := by
  induction m with
  | nil => rfl
  | cons kv rest ih =>
    obtain ⟨k0, w⟩ := kv
    unfold mapPut
    by_cases h : k0 = name
    · simp [h]
    · simp [h, ih]

theorem mapGet_mapPut_none {α : Type} (m : List (Str × α)) (name : Str) (v : α)
    (h : mapGet m name = none) : mapPut m name v = m := by
  induction m with
  | nil => rfl
  | cons kv rest ih =>
    obtain ⟨k0, w⟩ := kv
    unfold mapGet at h
    unfold mapPut
    by_cases h0 : k0 = name
    · simp [h0] at h
    · simp only [h0, if_false] at h ⊢
      rw [ih h]

theorem extentAt_eq_some (dn : dirnode) (sb : shortBlock) (e : extent) :
    extentAt dn sb = some e ↔
      ∃ fn, mapGet dn.inodes sb.name = some (.file fn) ∧ fn.extents[sb.idx]? = some e := by
  unfold extentAt
  cases hf : fileOf dn sb.name with
  | none =>
    simp only [Option.none_bind]
    constructor
    · intro h; cases h
    · rintro ⟨fn, h1, _⟩
      rw [← fileOf_eq_some] at h1
      rw [h1] at hf; cases hf
  | some fn =>
    rw [fileOf_eq_some] at hf
    simp only [Option.some_bind, hf, Option.some.injEq, inode.file.injEq]
    constructor
    · intro h; exact ⟨fn, rfl, h⟩
    · rintro ⟨fn1, h1, h2⟩; rw [h1]; exact h2

theorem shortBlockBuf_ok (dn : dirnode) (sb : shortBlock) (me : memExtent)
    (h : extentAt dn sb = some (.mem me)) : shortBlockBuf dn sb = .ok me.buf := by
  obtain ⟨fn, h1, h2⟩ := (extentAt_eq_some dn sb _).1 h
  unfold shortBlockBuf
  simp only [h1, h2]

theorem setExtent_file (dn : dirnode) (sb : shortBlock) (e : extent) (len : Int) (fn : filenode)
    (h : mapGet dn.inodes sb.name = some (.file fn)) :
    setExtent dn sb e len = { dn with inodes := mapPut dn.inodes sb.name (.file { fn with
        extents := fn.extents.set sb.idx e, memsize := fn.memsize - len }) } := by
  unfold setExtent
  simp only [h]

theorem mapGet_setExtent (dn : dirnode) (sb : shortBlock) (e : extent) (len : Int)
    (fn : filenode) (h : mapGet dn.inodes sb.name = some (.file fn)) (name : Str) :
    mapGet (setExtent dn sb e len).inodes name =
      if name = sb.name then
        some (.file { fn with extents := fn.extents.set sb.idx e, memsize := fn.memsize - len })
      else mapGet dn.inodes name := by
  rw [setExtent_file dn sb e len fn h]
  by_cases hn : name = sb.name
  · subst hn
    simp only [if_true]
    exact mapGet_mapPut_eq _ _ _ _ h
  · simp only [hn, if_false]
    exact mapGet_mapPut_ne _ _ _ _ hn

theorem extentAt_setExtent (dn : dirnode) (sb : shortBlock) (e : extent) (len : Int)
    (me : memExtent) (h : extentAt dn sb = some (.mem me)) (sb1 : shortBlock) :
    extentAt (setExtent dn sb e len) sb1 = if sb1 = sb then some e else extentAt dn sb1 := by
  obtain ⟨fn, h1, h2⟩ := (extentAt_eq_some dn sb _).1 h
  have hlt : sb.idx < fn.extents.length := (List.getElem?_eq_some_iff.1 h2).1
  unfold extentAt fileOf
  rw [mapGet_setExtent dn sb e len fn h1]
  by_cases hn : sb1.name = sb.name
  · simp only [hn, if_true, Option.some_bind, h1]
    by_cases hi : sb1.idx = sb.idx
    · have : sb1 = sb := by
        cases sb1; cases sb; simp only [shortBlock.mk.injEq]; exact ⟨hn, hi⟩
      simp only [this, if_true]
      rw [List.getElem?_set_self (by simpa using hlt)]
    · have : ¬ sb1 = sb := fun e => hi (by rw [e])
      simp only [this, if_false]
      rw [List.getElem?_set_ne (fun e => hi e.symm)]
  · have : ¬ sb1 = sb := fun e => hn (by rw [e])
    simp only [hn, this, if_false]

theorem memLen_set_stored (es : List extent) (i : Nat) (me : memExtent) (se : storedExtent)
    (h : es[i]? = some (.mem me)) : memLen (es.set i (.stored se)) = memLen es - me.Len := by
  induction es generalizing i with
  | nil => simp at h
  | cons e rest ih =>
    cases i with
    | zero =>
      simp only [List.getElem?_cons_zero, Option.some.injEq] at h
      subst h
      simp only [List.set_cons_zero, memLen]
      omega
    | succ j =>
      simp only [List.getElem?_cons_succ] at h
      simp only [List.set_cons_succ]
      cases e with
      | mem m => simp only [memLen, ih j h]; omega
      | stored s => simp only [memLen, ih j h]

theorem FileRel_refl (fn : filenode) : FileRel fn fn := ⟨rfl, rfl, rfl, rfl⟩

theorem FileRel_trans {a b c : filenode} (h1 : FileRel a b) (h2 : FileRel b c) : FileRel a c :=
  ⟨h2.1.trans h1.1, h2.2.1.trans h1.2.1, h2.2.2.1.trans h1.2.2.1, h2.2.2.2.trans h1.2.2.2⟩

theorem DirRel_refl (dn : dirnode) : DirRel dn dn :=
  ⟨rfl, rfl, fun _ => ⟨id, fun _ h => h, fun fn h => ⟨fn, h, FileRel_refl fn⟩⟩⟩

theorem DirRel_trans {a b c : dirnode} (h1 : DirRel a b) (h2 : DirRel b c) : DirRel a c := by
  refine ⟨h2.1.trans h1.1, h2.2.1.trans h1.2.1, fun name => ⟨?_, ?_, ?_⟩⟩
  · intro h; exact (h2.2.2 name).1 ((h1.2.2 name).1 h)
  · intro d h; exact (h2.2.2 name).2.1 d ((h1.2.2 name).2.1 d h)
  · intro fn h
    obtain ⟨fn1, hb, r1⟩ := (h1.2.2 name).2.2 fn h
    obtain ⟨fn2, hc, r2⟩ := (h2.2.2 name).2.2 fn1 hb
    exact ⟨fn2, hc, FileRel_trans r1 r2⟩

theorem DirRel_setExtent (dn : dirnode) (sb : shortBlock) (se : storedExtent) (me : memExtent)
    (h : extentAt dn sb = some (.mem me)) :
    DirRel dn (setExtent dn sb (.stored se) me.Len) := by
  obtain ⟨fn, h1, h2⟩ := (extentAt_eq_some dn sb _).1 h
  refine ⟨?_, ?_, fun name => ?_⟩
  · rw [setExtent_file dn sb _ _ fn h1]
  · rw [setExtent_file dn sb _ _ fn h1]
    exact mapPut_keys _ _ _
  · rw [mapGet_setExtent dn sb _ _ fn h1]
    by_cases hn : name = sb.name
    · subst hn
      simp only [if_true]
      refine ⟨fun hx => ?_, fun d hx => ?_, fun fn0 hx => ?_⟩
      · rw [h1] at hx; cases hx
      · rw [h1] at hx; cases hx
      · rw [h1] at hx
        simp only [Option.some.injEq, inode.file.injEq] at hx
        subst hx
        refine ⟨_, rfl, rfl, rfl, by simp, ?_⟩
        simp only
        rw [memLen_set_stored _ _ me se h2]
        omega
    · simp only [hn, if_false]
      exact ⟨id, fun _ hx => hx, fun fn0 hx => ⟨fn0, hx, FileRel_refl fn0⟩⟩

theorem flushRewrite_cons (locator : Str) (size : Int) (sb : shortBlock) (rest : List shortBlock)
    (off : Int) (dn : dirnode) (me : memExtent) (h : extentAt dn sb = some (.mem me)) :
    flushRewrite locator size (sb :: rest) off dn =
      flushRewrite locator size rest (off + me.Len)
        (setExtent dn sb
          (.stored { locator := locator, size := size, offset := off, length := me.Len })
          me.Len) := by
  obtain ⟨fn, h1, h2⟩ := (extentAt_eq_some dn sb _).1 h
  rw [flushRewrite, shortBlockBuf_ok dn sb me h, setExtent_file dn sb _ _ fn h1]
  simp only [bind, Except.bind, h1, memExtent.Len]

theorem flushBlock_spec (dn : dirnode) (sbs : List shortBlock) (bufs : List (List Byte))
    (h : Bufs dn sbs bufs) (block : List Byte) :
    flushBlock dn sbs block = .ok (block ++ bufs.flatten) := by
  induction h generalizing block with
  | nil => simp [flushBlock]
  | cons hb _ ih =>
    obtain ⟨me, h1, h2⟩ := hb
    rw [flushBlock, shortBlockBuf_ok dn _ me h1]
    simp only [bind, Except.bind]
    rw [ih, h2]
    simp

/-! ## The closure `flush` -/

theorem Bufs_congr (dn dn1 : dirnode) (sbs : List shortBlock) (bufs : List (List Byte))
    (h : Bufs dn sbs bufs) (hsame : ∀ sb ∈ sbs, extentAt dn1 sb = extentAt dn sb) :
    Bufs dn1 sbs bufs := by
  induction h with
  | nil => exact List.Forall₂.nil
  | cons hb _ ih =>
    refine List.Forall₂.cons ?_ (ih (fun sb hsb => hsame sb (by simp [hsb])))
    obtain ⟨me, h1, h2⟩ := hb
    exact ⟨me, by rw [hsame _ (by simp)]; exact h1, h2⟩

theorem Bufs_exist (dn : dirnode) (sbs : List shortBlock)
    (h : ∀ sb ∈ sbs, ∃ me, extentAt dn sb = some (.mem me)) : ∃ bufs, Bufs dn sbs bufs := by
  induction sbs with
  | nil => exact ⟨[], List.Forall₂.nil⟩
  | cons sb rest ih =>
    obtain ⟨bufs, hb⟩ := ih (fun x hx => h x (by simp [hx]))
    obtain ⟨me, hme⟩ := h sb (by simp)
    exact ⟨me.buf :: bufs, List.Forall₂.cons ⟨me, hme, rfl⟩ hb⟩

theorem pairwise_lt_nodup (sbs : List shortBlock) (h : sbs.Pairwise shortBlock.lt) :
    sbs.Nodup := by
  refine List.Pairwise.imp ?_ h
  intro a b hlt hab
  subst hab
  rcases hlt with h1 | ⟨_, h2⟩
  · exact lt_irrefl _ h1
  · exact lt_irrefl _ h2

theorem flushRewrite_spec (loc : Str) (size : Int) :
    ∀ (sbs : List shortBlock) (bufs : List (List Byte)) (off : Int) (dn : dirnode),
      Bufs dn sbs bufs → sbs.Nodup →
      ∃ dn1, flushRewrite loc size sbs off dn = .ok dn1 ∧ DirRel dn dn1 ∧
        (∀ sb, sb ∉ sbs → extentAt dn1 sb = extentAt dn sb) ∧
        (∀ j sb, sbs[j]? = some sb → extentAt dn1 sb = some (.stored
          { locator := loc, size := size,
            offset := off + ((bufs.take j).flatten.length : Int),
            length := ((bufs.getD j []).length : Int) })) := by
  intro sbs
  induction sbs with
  | nil =>
    intro bufs off dn _ _
    exact ⟨dn, rfl, DirRel_refl dn, fun _ _ => rfl, fun j sb h => by simp at h⟩
  | cons sb rest ih =>
    intro bufs off dn hb hnd
    cases hb with
    | cons hb1 hrest =>
      rename_i buf bufs1
      obtain ⟨me, hme, hbuf⟩ := hb1
      have hnotin : sb ∉ rest := (List.nodup_cons.1 hnd).1
      have hnd1 : rest.Nodup := (List.nodup_cons.1 hnd).2
      have hset := extentAt_setExtent dn sb
        (.stored { locator := loc, size := size, offset := off, length := me.Len }) me.Len me hme
      have hb2 : Bufs (setExtent dn sb
          (.stored { locator := loc, size := size, offset := off, length := me.Len }) me.Len)
          rest bufs1 := by
        apply Bufs_congr dn _ rest bufs1 hrest
        intro x hx
        rw [hset x, if_neg (fun (e : x = sb) => hnotin (by rw [← e]; exact hx))]
      obtain ⟨dn1, h1, h2, h3, h4⟩ := ih bufs1 (off + me.Len) _ hb2 hnd1
      refine ⟨dn1, ?_, DirRel_trans (DirRel_setExtent dn sb _ me hme) h2, ?_, ?_⟩
      · rw [flushRewrite_cons loc size sb rest off dn me hme]
        exact h1
      · intro x hx
        simp only [List.mem_cons, not_or] at hx
        rw [h3 x hx.2, hset x, if_neg hx.1]
      · intro j x hj
        cases j with
        | zero =>
          simp only [List.getElem?_cons_zero, Option.some.injEq] at hj
          subst hj
          rw [h3 _ hnotin, hset, if_pos rfl]
          simp [memExtent.Len, hbuf]
        | succ j =>
          simp only [List.getElem?_cons_succ] at hj
          rw [h4 j x hj]
          simp only [List.take_succ_cons, List.flatten_cons, List.length_append,
            List.getD_cons_succ, memExtent.Len, hbuf]
          rw [Nat.cast_add, ← add_assoc]

theorem Laid_of_same {σ : Type} (kc : keepClient σ) (st st1 : σ) (dn0 dn dn1 : dirnode)
    (sbs : List shortBlock) (loc : Str) (h : Laid kc st dn0 dn sbs loc)
    (hx : kc.Extends st st1) (hsame : ∀ sb ∈ sbs, extentAt dn1 sb = extentAt dn sb) :
    Laid kc st1 dn0 dn1 sbs loc := by
  obtain ⟨h1, bufs, h2, hput, h3, h4⟩ := h
  refine ⟨h1, bufs, h2, hput, hx _ _ h3, ?_⟩
  intro j sb hj
  rw [hsame sb (List.getElem?_mem hj)]
  exact h4 j sb hj

theorem flush_inv {σ : Type} (kc : keepClient σ) (hkc : kc.Lawful) (dn0 : dirnode) (st0 : σ)
    (dn : dirnode) (st : σ) (done : Batches) (hpost : SyncPost kc dn0 st0 dn st done)
    (F : List shortBlock) (hs : F.Pairwise shortBlock.lt)
    (hmem : ∀ sb ∈ F, ∃ me, extentAt dn0 sb = some (.mem me))
    (hout : ∀ sb ∈ F, ¬ Inside done sb) :
    ∃ err dn1 st1 done1, flush kc dn st F = .ok (err, dn1, st1) ∧
      SyncPost kc dn0 st0 dn1 st1 done1 ∧
      (err = none → ∀ sb, Inside done1 sb ↔ (Inside done sb ∨ sb ∈ F)) ∧
      (∀ e, err = some e → e = .upload ∧ done1 = done ∧ UploadFailed kc dn0 done st1) ∧
      (Succeeds kc → err = none) := by
  by_cases hF : F = []
  · subst hF
    refine ⟨none, dn, st, done, by simp [flush], hpost, ?_, ?_, fun _ => rfl⟩
    · intro _ sb; simp
    · intro e he; cases he
  · obtain ⟨bufs, hb0⟩ := Bufs_exist dn0 F hmem
    have hb : Bufs dn F bufs :=
      Bufs_congr dn0 dn F bufs hb0 (fun sb hsb => hpost.same sb (hout sb hsb))
    have hlen : ¬ F.length = 0 := by
      simpa [List.length_eq_zero] using hF
    have hblock := flushBlock_spec dn F bufs hb []
    rw [List.nil_append] at hblock
    have hkeep := hkc.keeps st bufs.flatten
    cases hput : kc.PutB st bufs.flatten with
    | mk st2 r =>
      rw [hput] at hkeep
      simp only at hkeep
      cases r with
      | none =>
        refine ⟨some .upload, dn, st2, done, ?_, ?_, ?_, ?_, ?_⟩
        · unfold flush
          simp only [hlen, if_false, hblock, bind, Except.bind, hput]
        · exact
            { rel := hpost.rel, ext := Extends_trans hpost.ext hkeep, same := hpost.same,
              laid := fun B hB => Laid_of_same kc st st2 dn0 dn dn B.1 B.2 (hpost.laid B hB)
                hkeep (fun _ _ => rfl) }
        · intro he; cases he
        · intro e he
          simp only [Option.some.injEq] at he
          exact ⟨he.symm, rfl, F, st, bufs, hF, hs, hout, hb0, hput⟩
        · intro hsuc
          have := hsuc st bufs.flatten
          rw [hput] at this
          exact absurd rfl this
      | some loc =>
        obtain ⟨dn1, h1, h2, h3, h4⟩ := flushRewrite_spec loc bufs.flatten.length F bufs 0 dn hb
          (pairwise_lt_nodup F hs)
        have hret := hkc.returns st bufs.flatten loc (by rw [hput])
        rw [hput] at hret
        simp only at hret
        have hin : ∀ sb, Inside (done ++ [(F, loc)]) sb ↔ (Inside done sb ∨ sb ∈ F) := by
          intro sb
          unfold Inside
          constructor
          · rintro ⟨B, hB, hsb⟩
            simp only [List.mem_append, List.mem_singleton] at hB
            rcases hB with hB | hB
            · exact Or.inl ⟨B, hB, hsb⟩
            · subst hB; exact Or.inr hsb
          · rintro (⟨B, hB, hsb⟩ | hsb)
            · exact ⟨B, by simp [hB], hsb⟩
            · exact ⟨(F, loc), by simp, hsb⟩
        refine ⟨none, dn1, st2, done ++ [(F, loc)], ?_, ?_, fun _ => hin, ?_, fun _ => rfl⟩
        · unfold flush
          simp only [hlen, if_false, hblock, bind, Except.bind, hput, h1]
        · refine
            { rel := DirRel_trans hpost.rel h2, ext := Extends_trans hpost.ext hkeep,
              same := ?_, laid := ?_ }
          · intro sb hsb
            rw [hin] at hsb
            simp only [not_or] at hsb
            rw [h3 sb hsb.2]
            exact hpost.same sb hsb.1
          · intro B hB
            simp only [List.mem_append, List.mem_singleton] at hB
            rcases hB with hB | hB
            · apply Laid_of_same kc st st2 dn0 dn dn1 B.1 B.2 (hpost.laid B hB) hkeep
              intro sb hsb
              apply h3
              intro hF2
              exact hout sb hF2 ⟨B, hB, hsb⟩
            · subst hB
              refine ⟨hs, bufs, hb0, ⟨st, by rw [hput]⟩, hret, ?_⟩
              intro j sb hj
              rw [h4 j sb hj]
              simp
        · intro e he; cases he

/-! ## The loops of `sync` -/

theorem SyncInv_change {σ : Type} {kc : keepClient σ} {dn0 : dirnode} {st0 : σ}
    {V V1 : shortBlock → Prop} {s : SyncState σ} {done : Batches}
    (h : SyncInv kc dn0 st0 V s done) (h1 : ∀ sb, V sb → V1 sb)
    (h2 : ∀ sb me, V1 sb → extentAt dn0 sb = some (.mem me) → V sb) :
    SyncInv kc dn0 st0 V1 s done :=
  { post := h.post, sorted := h.sorted,
    pend := fun sb hsb => ⟨h1 sb (h.pend sb hsb).1, (h.pend sb hsb).2⟩,
    cover := fun sb me hv hm => h.cover sb me (h2 sb me hv hm) hm }

theorem not_inside_of_mem {σ : Type} {kc : keepClient σ} {dn0 : dirnode} {st0 : σ}
    {dn1 : dirnode} {st1 : σ} {done : Batches} (h : SyncPost kc dn0 st0 dn1 st1 done)
    (cur : shortBlock) (me : memExtent) (hcur : extentAt dn1 cur = some (.mem me)) :
    ¬ Inside done cur := by
  rintro ⟨B, hB, hsb⟩
  obtain ⟨_, bufs, _, _, _, h4⟩ := h.laid B hB
  obtain ⟨j, hj⟩ := List.getElem?_of_mem hsb
  rw [h4 j cur hj] at hcur
  cases hcur

/-- The loop over the extents passes a stored extent. -/
theorem SyncInv_skip {σ : Type} {kc : keepClient σ} {dn0 : dirnode} {st0 : σ}
    {V V1 : shortBlock → Prop} {s : SyncState σ} {done : Batches}
    (h : SyncInv kc dn0 st0 V s done) (cur : shortBlock)
    (hV1 : ∀ sb, V1 sb ↔ (V sb ∨ sb = cur)) (se : storedExtent)
    (hcur : extentAt s.dn cur = some (.stored se)) :
    SyncInv kc dn0 st0 V1 s done := by
  refine
    { post := h.post, sorted := h.sorted,
      pend := fun sb hsb => ⟨(hV1 sb).2 (Or.inl (h.pend sb hsb).1), (h.pend sb hsb).2⟩,
      cover := ?_ }
  intro sb me hv hm
  rcases (hV1 sb).1 hv with hv | hv
  · exact h.cover sb me hv hm
  · subst hv
    by_cases hin : Inside done sb
    · exact Or.inr hin
    · rw [h.post.same sb hin, hm] at hcur
      cases hcur

/-- The loop over the extents has uploaded the current extent alone. -/
theorem SyncInv_single {σ : Type} {kc : keepClient σ} {dn0 : dirnode} {st0 : σ}
    {V V1 : shortBlock → Prop} {s : SyncState σ} {done done1 : Batches}
    (h : SyncInv kc dn0 st0 V s done) (cur : shortBlock)
    (hV1 : ∀ sb, V1 sb ↔ (V sb ∨ sb = cur)) (hnot : ¬ V cur) (dn1 : dirnode) (st1 : σ)
    (hpost : SyncPost kc dn0 st0 dn1 st1 done1)
    (hin : ∀ sb, Inside done1 sb ↔ (Inside done sb ∨ sb ∈ [cur])) :
    SyncInv kc dn0 st0 V1 { s with dn := dn1, st := st1 } done1 := by
  refine { post := hpost, sorted := h.sorted, pend := ?_, cover := ?_ }
  · intro sb hsb
    obtain ⟨p1, p2, p3⟩ := h.pend sb hsb
    refine ⟨(hV1 sb).2 (Or.inl p1), p2, ?_⟩
    rw [hin]
    simp only [List.mem_singleton, not_or]
    exact ⟨p3, fun e => hnot (e ▸ p1)⟩
  · intro sb me hv hm
    rcases (hV1 sb).1 hv with hv | hv
    · rcases h.cover sb me hv hm with hc | hc
      · exact Or.inl hc
      · exact Or.inr ((hin sb).2 (Or.inl hc))
    · exact Or.inr ((hin sb).2 (Or.inr (by simp [hv])))

/-- The loop over the extents has uploaded the pending extents. -/
theorem SyncInv_flushed {σ : Type} {kc : keepClient σ} {dn0 : dirnode} {st0 : σ}
    {V : shortBlock → Prop} {s : SyncState σ} {done done1 : Batches}
    (h : SyncInv kc dn0 st0 V s done) (dn1 : dirnode) (st1 : σ)
    (hpost : SyncPost kc dn0 st0 dn1 st1 done1)
    (hin : ∀ sb, Inside done1 sb ↔ (Inside done sb ∨ sb ∈ s.pending)) :
    SyncInv kc dn0 st0 V { pending := [], pendingLen := 0, dn := dn1, st := st1 } done1 := by
  refine { post := hpost, sorted := List.Pairwise.nil, pend := ?_, cover := ?_ }
  · intro sb hsb; simp at hsb
  · intro sb me hv hm
    right
    rcases h.cover sb me hv hm with hc | hc
    · exact (hin sb).2 (Or.inr hc)
    · exact (hin sb).2 (Or.inl hc)

/-- The loop over the extents appends the current extent to the pending
ones. -/
theorem SyncInv_append {σ : Type} {kc : keepClient σ} {dn0 : dirnode} {st0 : σ}
    {V V1 : shortBlock → Prop} {s : SyncState σ} {done : Batches}
    (h : SyncInv kc dn0 st0 V s done) (cur : shortBlock)
    (hV1 : ∀ sb, V1 sb ↔ (V sb ∨ sb = cur)) (hlt : ∀ sb, V sb → sb.lt cur)
    (me : memExtent) (hcur : extentAt s.dn cur = some (.mem me)) (pl : Int) :
    SyncInv kc dn0 st0 V1 { s with pending := s.pending ++ [cur], pendingLen := pl } done := by
  have hout := not_inside_of_mem h.post cur me hcur
  have hmem : extentAt dn0 cur = some (.mem me) := by rw [← h.post.same cur hout]; exact hcur
  refine { post := h.post, sorted := ?_, pend := ?_, cover := ?_ }
  · simp only
    rw [List.pairwise_append]
    refine ⟨h.sorted, List.pairwise_singleton _ _, ?_⟩
    intro a ha b hb
    simp only [List.mem_singleton] at hb
    subst hb
    exact hlt a (h.pend a ha).1
  · intro sb hsb
    simp only [List.mem_append, List.mem_singleton] at hsb
    rcases hsb with hsb | hsb
    · exact ⟨(hV1 sb).2 (Or.inl (h.pend sb hsb).1), (h.pend sb hsb).2⟩
    · subst hsb
      exact ⟨(hV1 sb).2 (Or.inr rfl), ⟨me, hmem⟩, hout⟩
  · intro sb me1 hv hm
    simp only [List.mem_append, List.mem_singleton]
    rcases (hV1 sb).1 hv with hv | hv
    · rcases h.cover sb me1 hv hm with hc | hc
      · exact Or.inl (Or.inl hc)
      · exact Or.inr hc
    · exact Or.inl (Or.inr hv)

theorem SyncOutcome_failed {σ : Type} {kc : keepClient σ} {dn0 : dirnode} {st0 : σ}
    (V1 : shortBlock → Prop) (e : GoError) (s1 : SyncState σ) (done done1 : Batches)
    (hpost : SyncPost kc dn0 st0 s1.dn s1.st done1)
    (hsome : e = .upload ∧ done1 = done ∧ UploadFailed kc dn0 done s1.st)
    (hsuc : Succeeds kc → some e = none) :
    SyncOutcome kc dn0 st0 V1 (some e) s1 := by
  obtain ⟨h1, h2, h3⟩ := hsome
  subst h2
  unfold SyncOutcome
  refine ⟨done1, (fun h => by cases h), ?_, hsuc⟩
  intro e1 he1
  simp only [Option.some.injEq] at he1
  subst he1
  exact ⟨h1, hpost, h3⟩

theorem syncExtents_inv {σ : Type} (kc : keepClient σ) (hkc : kc.Lawful) (mbs : Int)
    (dn0 : dirnode) (st0 : σ) (name : Str) (fn0 : filenode)
    (hfn0 : mapGet dn0.inodes name = some (.file fn0)) (Vb : shortBlock → Prop)
    (hVb : ∀ sb, Vb sb → sb.name < name) :
    ∀ (count idx : Nat) (s : SyncState σ) (done : Batches),
      idx + count = fn0.extents.length →
      SyncInv kc dn0 st0 (fun sb => Vb sb ∨ (sb.name = name ∧ sb.idx < idx)) s done →
      ∃ err s1, syncExtents mbs kc name count idx s = .ok (err, s1) ∧
        SyncOutcome kc dn0 st0 (fun sb => Vb sb ∨ (sb.name = name ∧ sb.idx < idx + count))
          err s1 := by
  intro count
  induction count with
  | zero =>
    intro idx s done _ h
    refine ⟨none, s, rfl, ?_⟩
    unfold SyncOutcome
    exact ⟨done, fun _ => h, (fun e he => by cases he), fun _ => rfl⟩
  | succ count ih =>
    intro idx s done hlen h
    obtain ⟨fn, hfn, hrel⟩ := (h.post.rel.2.2 name).2.2 fn0 hfn0
    have hl : fn.extents.length = fn0.extents.length := hrel.2.2.1
    have hlt : idx < fn.extents.length := by omega
    obtain ⟨e, hget⟩ : ∃ e, fn.extents[idx]? = some e := ⟨_, List.getElem?_eq_getElem hlt⟩
    have hcur : extentAt s.dn ⟨name, idx⟩ = some e :=
      (extentAt_eq_some _ _ _).2 ⟨fn, hfn, hget⟩
    have hV1 : ∀ sb : shortBlock, (Vb sb ∨ (sb.name = name ∧ sb.idx < idx + 1)) ↔
        ((Vb sb ∨ (sb.name = name ∧ sb.idx < idx)) ∨ sb = ⟨name, idx⟩) := by
      intro sb
      constructor
      · rintro (hv | ⟨h1, h2⟩)
        · exact Or.inl (Or.inl hv)
        · by_cases hi : sb.idx = idx
          · right
            cases sb
            simp only [shortBlock.mk.injEq]
            exact ⟨h1, hi⟩
          · exact Or.inl (Or.inr ⟨h1, by omega⟩)
      · rintro ((hv | ⟨h1, h2⟩) | hv)
        · exact Or.inl hv
        · exact Or.inr ⟨h1, by omega⟩
        · subst hv
          exact Or.inr ⟨rfl, by simp⟩
    have hnot : ¬ (Vb ⟨name, idx⟩ ∨ ((⟨name, idx⟩ : shortBlock).name = name ∧
        (⟨name, idx⟩ : shortBlock).idx < idx)) := by
      rintro (hv | ⟨_, h2⟩)
      · exact lt_irrefl _ (hVb _ hv)
      · simp at h2
    have hltcur : ∀ sb : shortBlock, (Vb sb ∨ (sb.name = name ∧ sb.idx < idx)) →
        sb.lt ⟨name, idx⟩ := by
      rintro sb (hv | ⟨h1, h2⟩)
      · exact Or.inl (hVb sb hv)
      · exact Or.inr ⟨h1, h2⟩
    have harith : idx + 1 + count = idx + (count + 1) := by omega
    rw [syncExtents]
    simp only [hfn, hget]
    cases e with
    | stored se =>
      simp only
      have h1 := SyncInv_skip h ⟨name, idx⟩ hV1 se hcur
      have := ih (idx + 1) s done (by omega) h1
      rw [harith] at this
      exact this
    | mem ext =>
      simp only
      have hout := not_inside_of_mem h.post ⟨name, idx⟩ ext hcur
      have hmem0 : extentAt dn0 ⟨name, idx⟩ = some (.mem ext) := by
        rw [← h.post.same _ hout]; exact hcur
      by_cases hbig : ext.Len > mbs / 2
      · simp only [hbig, if_true]
        obtain ⟨err, dn1, st1, done1, hfl, hp, hnone, hsome, hsuc⟩ :=
          flush_inv kc hkc dn0 st0 s.dn s.st done h.post [⟨name, idx⟩]
            (List.pairwise_singleton _ _)
            (fun sb hsb => by
              simp only [List.mem_singleton] at hsb; subst hsb; exact ⟨ext, hmem0⟩)
            (fun sb hsb => by
              simp only [List.mem_singleton] at hsb; subst hsb; exact hout)
        simp only [hfl, bind, Except.bind]
        cases err with
        | none =>
          simp only
          have h1 := SyncInv_single h ⟨name, idx⟩ hV1 hnot dn1 st1 hp (hnone rfl)
          have := ih (idx + 1) _ done1 (by omega) h1
          rw [harith] at this
          exact this
        | some e1 =>
          simp only
          exact ⟨some e1, _, rfl, SyncOutcome_failed _ e1 _ done done1 hp (hsome e1 rfl) hsuc⟩
      · simp only [hbig, if_false]
        by_cases hfull : s.pendingLen + ext.Len > mbs
        · simp only [hfull, if_true]
          obtain ⟨err, dn1, st1, done1, hfl, hp, hnone, hsome, hsuc⟩ :=
            flush_inv kc hkc dn0 st0 s.dn s.st done h.post s.pending h.sorted
              (fun sb hsb => (h.pend sb hsb).2.1) (fun sb hsb => (h.pend sb hsb).2.2)
          simp only [hfl, bind, Except.bind]
          cases err with
          | none =>
            simp only [pure, Except.pure]
            have h2 := SyncInv_flushed h dn1 st1 hp (hnone rfl)
            have hnp : (⟨name, idx⟩ : shortBlock) ∉ s.pending :=
              fun hin => hnot (h.pend _ hin).1
            have hout1 : ¬ Inside done1 ⟨name, idx⟩ := by
              rw [hnone rfl]
              simp only [not_or]
              exact ⟨hout, hnp⟩
            have hcur1 : extentAt dn1 ⟨name, idx⟩ = some (.mem ext) := by
              rw [hp.same _ hout1]; exact hmem0
            have h3 := SyncInv_append h2 ⟨name, idx⟩ hV1 hltcur ext hcur1 (0 + ext.Len)
            have := ih (idx + 1) _ done1 (by omega) h3
            rw [harith] at this
            exact this
          | some e1 =>
            simp only [pure, Except.pure]
            exact ⟨some e1, _, rfl, SyncOutcome_failed _ e1 _ done done1 hp (hsome e1 rfl) hsuc⟩
        · simp only [hfull, if_false, pure, Except.pure, bind, Except.bind]
          have h3 := SyncInv_append h ⟨name, idx⟩ hV1 hltcur ext hcur (s.pendingLen + ext.Len)
          have := ih (idx + 1) _ done (by omega) h3
          rw [harith] at this
          exact this

theorem extentAt_idx_lt (dn : dirnode) (sb : shortBlock) (e : extent) (fn : filenode)
    (hfn : mapGet dn.inodes sb.name = some (.file fn)) (h : extentAt dn sb = some e) :
    sb.idx < fn.extents.length := by
  obtain ⟨fn1, h1, h2⟩ := (extentAt_eq_some dn sb e).1 h
  rw [hfn] at h1
  simp only [Option.some.injEq, inode.file.injEq] at h1
  subst h1
  exact (List.getElem?_eq_some_iff.1 h2).1

theorem syncNames_inv {σ : Type} (kc : keepClient σ) (hkc : kc.Lawful) (mbs : Int)
    (dn0 : dirnode) (st0 : σ) :
    ∀ (names doneNames : List Str) (s : SyncState σ) (done : Batches),
      (doneNames ++ names).Pairwise (· < ·) →
      SyncInv kc dn0 st0 (fun sb => sb.name ∈ doneNames) s done →
      ∃ err s1, syncNames mbs kc names s = .ok (err, s1) ∧
        SyncOutcome kc dn0 st0 (fun sb => sb.name ∈ doneNames ++ names) err s1 := by
  intro names
  induction names with
  | nil =>
    intro doneNames s done _ h
    refine ⟨none, s, rfl, ?_⟩
    unfold SyncOutcome
    rw [List.append_nil]
    exact ⟨done, fun _ => h, (fun e he => by cases he), fun _ => rfl⟩
  | cons name rest ih =>
    intro doneNames s done hsorted h
    have hlt : ∀ n ∈ doneNames, n < name := by
      intro n hn
      exact (List.pairwise_append.1 hsorted).2.2 n hn name (by simp)
    have hsorted1 : ((doneNames ++ [name]) ++ rest).Pairwise (· < ·) := by
      simpa using hsorted
    have hassoc : (doneNames ++ [name]) ++ rest = doneNames ++ name :: rest := by simp
    rw [syncNames]
    cases hg0 : mapGet dn0.inodes name with
    | none =>
      have hg := (h.post.rel.2.2 name).1 hg0
      simp only [hg]
      have h1 : SyncInv kc dn0 st0 (fun sb => sb.name ∈ doneNames ++ [name]) s done := by
        apply SyncInv_change h
        · intro sb hv; simp [hv]
        · intro sb me hv hm
          simp only [List.mem_append, List.mem_singleton] at hv
          rcases hv with hv | hv
          · exact hv
          · obtain ⟨fn, hf, _⟩ := (extentAt_eq_some dn0 sb _).1 hm
            rw [hv, hg0] at hf; cases hf
      have := ih (doneNames ++ [name]) s done hsorted1 h1
      rw [hassoc] at this
      exact this
    | some n =>
      cases n with
      | dir d =>
        have hg := (h.post.rel.2.2 name).2.1 d hg0
        simp only [hg]
        have h1 : SyncInv kc dn0 st0 (fun sb => sb.name ∈ doneNames ++ [name]) s done := by
          apply SyncInv_change h
          · intro sb hv; simp [hv]
          · intro sb me hv hm
            simp only [List.mem_append, List.mem_singleton] at hv
            rcases hv with hv | hv
            · exact hv
            · obtain ⟨fn, hf, _⟩ := (extentAt_eq_some dn0 sb _).1 hm
              rw [hv, hg0] at hf; cases hf
        have := ih (doneNames ++ [name]) s done hsorted1 h1
        rw [hassoc] at this
        exact this
      | file fn0 =>
        obtain ⟨fn, hg, hrel⟩ := (h.post.rel.2.2 name).2.2 fn0 hg0
        simp only [hg]
        have hl : fn.extents.length = fn0.extents.length := hrel.2.2.1
        have h0 : SyncInv kc dn0 st0
            (fun sb => sb.name ∈ doneNames ∨ (sb.name = name ∧ sb.idx < 0)) s done := by
          apply SyncInv_change h
          · intro sb hv; exact Or.inl hv
          · intro sb me hv hm
            rcases hv with hv | ⟨_, hv⟩
            · exact hv
            · simp at hv
        obtain ⟨err, s1, hrun, hout⟩ := syncExtents_inv kc hkc mbs dn0 st0 name fn0 hg0
          (fun sb => sb.name ∈ doneNames) (fun sb hv => hlt _ hv) fn.extents.length 0 s done
          (by omega) h0
        simp only [hrun, bind, Except.bind]
        cases err with
        | some e =>
          simp only
          refine ⟨some e, s1, rfl, ?_⟩
          unfold SyncOutcome at hout ⊢
          obtain ⟨done1, o1, o2, o3⟩ := hout
          exact ⟨done1, (fun hx => by cases hx), o2, o3⟩
        | none =>
          simp only
          unfold SyncOutcome at hout
          obtain ⟨done1, o1, _, _⟩ := hout
          have h1 : SyncInv kc dn0 st0 (fun sb => sb.name ∈ doneNames ++ [name]) s1 done1 := by
            apply SyncInv_change (o1 rfl)
            · rintro sb (hv | ⟨hv, _⟩)
              · simp [hv]
              · simp [hv]
            · intro sb me hv hm
              simp only [List.mem_append, List.mem_singleton] at hv
              rcases hv with hv | hv
              · exact Or.inl hv
              · right
                refine ⟨hv, ?_⟩
                have := extentAt_idx_lt dn0 sb _ fn0 (by rw [hv]; exact hg0) hm
                omega
          have := ih (doneNames ++ [name]) s1 done1 hsorted1 h1
          rw [hassoc] at this
          exact this

theorem sortedNames_strict {α : Type} (m : List (Str × α)) :
    (sortedNames m).Pairwise (· < ·) :=
  (sortedNames_sorted m).lt_of_le (sortedNames_nodup m)

/-- What `sync` does: it returns without a panic; the store has grown; each
batch it has uploaded is laid out in its block; every extent outside the
batches is as it was; when it returns nil every memory extent is in a batch;
when it returns an error, it is the error of an upload, of a batch that is
outside the uploaded ones; and it returns nil when uploads succeed. -/
theorem sync_spec {σ : Type} (kc : keepClient σ) (hkc : kc.Lawful) (mbs : Int) (dn : dirnode)
    (st : σ) :
    ∃ err dn1 st1 done, dn.sync mbs kc st = .ok (err, dn1, st1) ∧
      SyncPost kc dn st dn1 st1 done ∧
      (err = none → ∀ sb me, extentAt dn sb = some (.mem me) → Inside done sb) ∧
      (∀ e, err = some e → e = .upload ∧ UploadFailed kc dn done st1) ∧
      (Succeeds kc → err = none) := by
  have hinit : SyncInv kc dn st (fun sb => sb.name ∈ ([] : List Str))
      { pending := [], pendingLen := 0, dn := dn, st := st } [] :=
    { post :=
        { rel := DirRel_refl dn, ext := Extends_refl kc st, same := fun _ _ => rfl,
          laid := fun B hB => by simp at hB },
      sorted := List.Pairwise.nil,
      pend := fun sb hsb => by simp at hsb,
      cover := fun sb me hv _ => by simp at hv }
  obtain ⟨err, s1, hrun, hout⟩ := syncNames_inv kc hkc mbs dn st (sortedNames dn.inodes) []
    _ [] (by simpa using sortedNames_strict dn.inodes) hinit
  unfold SyncOutcome at hout
  obtain ⟨done1, o1, o2, o3⟩ := hout
  unfold dirnode.sync
  simp only [hrun, bind, Except.bind]
  cases err with
  | some e =>
    simp only
    obtain ⟨e1, e2, e3⟩ := o2 e rfl
    refine ⟨some e, s1.dn, s1.st, done1, rfl, e2, (fun hx => by cases hx), ?_, o3⟩
    intro e0 he0
    simp only [Option.some.injEq] at he0
    subst he0
    exact ⟨e1, e3⟩
  | none =>
    simp only
    have h := o1 rfl
    obtain ⟨err2, dn2, st2, done2, hfl, hp, hnone, hsome, hsuc⟩ :=
      flush_inv kc hkc dn st s1.dn s1.st done1 h.post s1.pending h.sorted
        (fun sb hsb => (h.pend sb hsb).2.1) (fun sb hsb => (h.pend sb hsb).2.2)
    refine ⟨err2, dn2, st2, done2, hfl, hp, ?_, ?_, hsuc⟩
    · intro he sb me hm
      rw [hnone he]
      have hv : sb.name ∈ ([] : List Str) ++ sortedNames dn.inodes := by
        obtain ⟨fn, hf, _⟩ := (extentAt_eq_some dn sb _).1 hm
        simp only [List.nil_append]
        exact (mem_sortedNames _ _).2 ⟨_, hf⟩
      rcases h.cover sb me hv hm with hc | hc
      · exact Or.inr hc
      · exact Or.inl hc
    · intro e he
      obtain ⟨e1, e2, e3⟩ := hsome e he
      rw [e2]
      exact ⟨e1, e3⟩

/-! ## What `sync` leaves -/

theorem Bufs_get (dn : dirnode) (sbs : List shortBlock) (bufs : List (List Byte))
    (h : Bufs dn sbs bufs) :
    ∀ (j : Nat) (sb : shortBlock), sbs[j]? = some sb →
      ∃ me, extentAt dn sb = some (.mem me) ∧ bufs[j]? = some me.buf := by
  induction h with
  | nil => intro j sb hj; simp at hj
  | cons hb _ ih =>
    intro j sb hj
    cases j with
    | zero =>
      simp only [List.getElem?_cons_zero, Option.some.injEq] at hj
      subst hj
      obtain ⟨me, h1, h2⟩ := hb
      exact ⟨me, h1, by simp [h2]⟩
    | succ j =>
      simp only [List.getElem?_cons_succ] at hj ⊢
      exact ih j sb hj

theorem flatten_window (bufs : List (List Byte)) :
    ∀ (j : Nat) (b : List Byte), bufs[j]? = some b →
      ((bufs.flatten).drop (bufs.take j).flatten.length).take b.length = b ∧
      (bufs.take j).flatten.length + b.length ≤ bufs.flatten.length := by
  induction bufs with
  | nil => intro j b h; simp at h
  | cons a rest ih =>
    intro j b h
    cases j with
    | zero =>
      simp only [List.getElem?_cons_zero, Option.some.injEq] at h
      subst h
      simp
    | succ j =>
      simp only [List.getElem?_cons_succ] at h
      obtain ⟨h1, h2⟩ := ih j b h
      simp only [List.take_succ_cons, List.flatten_cons, List.length_append]
      refine ⟨?_, by omega⟩
      rw [← List.drop_drop, List.drop_left]
      exact h1

theorem memLen_all_stored (es : List extent) (h : ∀ e ∈ es, ∃ se, e = extent.stored se) :
    memLen es = 0 := by
  induction es with
  | nil => rfl
  | cons e rest ih =>
    obtain ⟨se, hse⟩ := h e (by simp)
    subst hse
    simp only [memLen]
    exact ih (fun x hx => h x (by simp [hx]))

theorem extentsBytes_congr {σ : Type} (kc : keepClient σ) (st st1 : σ) :
    ∀ (es es1 : List extent), es1.length = es.length →
      (∀ (i : Nat) (e e1 : extent), es[i]? = some e → es1[i]? = some e1 →
        e1.bytes kc st1 = e.bytes kc st) →
      extentsBytes kc st1 es1 = extentsBytes kc st es := by
  intro es
  induction es with
  | nil =>
    intro es1 hl _
    have : es1 = [] := List.length_eq_zero.1 hl
    subst this; rfl
  | cons e rest ih =>
    intro es1 hl h
    cases es1 with
    | nil => simp at hl
    | cons e1 rest1 =>
      simp only [extentsBytes]
      rw [h 0 e e1 (by simp) (by simp), ih rest1 (by simpa using hl)
        (fun i x x1 hx hx1 => h (i + 1) x x1 (by simpa using hx) (by simpa using hx1))]

/-- What `sync` leaves at a position when it returns nil: a stored extent of
the same length that holds the same bytes. -/
theorem sync_extent {σ : Type} (kc : keepClient σ) (dn : dirnode) (st : σ) (dn1 : dirnode)
    (st1 : σ) (done : Batches) (hpost : SyncPost kc dn st dn1 st1 done)
    (hcover : ∀ sb me, extentAt dn sb = some (.mem me) → Inside done sb)
    (sb : shortBlock) (e : extent) (he : extentAt dn sb = some e)
    (hpres : Present kc st [e]) :
    ∃ se, extentAt dn1 sb = some (.stored se) ∧ se.length = e.Len ∧
      (extent.stored se).bytes kc st1 = e.bytes kc st := by
  cases e with
  | stored se =>
    have hout : ¬ Inside done sb := by
      rintro ⟨B, hB, hsb⟩
      obtain ⟨_, bufs, hb, _⟩ := hpost.laid B hB
      obtain ⟨j, hj⟩ := List.getElem?_of_mem hsb
      obtain ⟨me, h1, _⟩ := Bufs_get dn B.1 bufs hb j sb hj
      rw [he] at h1; cases h1
    exact ⟨se, by rw [hpost.same sb hout]; exact he, rfl, bytes_extends hpost.ext _ hpres⟩
  | mem me =>
    obtain ⟨B, hB, hsb⟩ := hcover sb me he
    obtain ⟨_, bufs, hb, _, hget, hat⟩ := hpost.laid B hB
    obtain ⟨j, hj⟩ := List.getElem?_of_mem hsb
    obtain ⟨me1, h1, h2⟩ := Bufs_get dn B.1 bufs hb j sb hj
    rw [he] at h1
    simp only [Option.some.injEq, extent.mem.injEq] at h1
    subst h1
    have hgd : bufs.getD j [] = me.buf := by
      simp [List.getD_eq_getElem?_getD, h2]
    obtain ⟨w1, w2⟩ := flatten_window bufs j me.buf h2
    have hat1 := hat j sb hj
    rw [hgd] at hat1
    refine ⟨_, hat1, rfl, ?_⟩
    rw [stored_bytes_window kc st1 _ bufs.flatten hget (Int.natCast_nonneg _)
      (by simp only; omega)]
    simp only [Int.toNat_ofNat, extent.bytes]
    rw [w1]

/-- C12. For a lawful blob store whose uploads succeed and a directory whose
file nodes have `memsize` equal to the bytes in their memory extents and
stored extents that name blocks the store holds: `sync` returns nil; every
extent of every file node directly in the directory is then a stored extent,
`memsize` is 0, the `fileinfo` (so the size) and the number and lengths of
the extents are as before, each extent holds the bytes it held, so the
content of every file is unchanged; the sub-directories are as they were;
every memory extent was uploaded in one of the batches, each batch being
memory extents in the order sorted file name then extent index, uploaded as
one block made of their buffers in that order, each extent becoming the
window of its buffer in that block; and every stored extent is left as it
was. -/
theorem sync_stores_memory_extents {σ : Type} (kc : keepClient σ) (hkc : kc.Lawful)
    (hup : Succeeds kc) (mbs : Int) (dn : dirnode) (st : σ)
    (hfiles : ∀ name fn, fileOf dn name = some fn →
      fn.memsize = memLen fn.extents ∧ Present kc st fn.extents) :
    ∃ dn1 st1 done, dn.sync mbs kc st = .ok (none, dn1, st1) ∧
      DirRel dn dn1 ∧ kc.Extends st st1 ∧
      (∀ name fn, fileOf dn name = some fn → ∃ fn1, fileOf dn1 name = some fn1 ∧
        (∀ e ∈ fn1.extents, ∃ se, e = extent.stored se) ∧ fn1.memsize = 0 ∧
        fn1.fileinfo = fn.fileinfo ∧ fn1.repacked = fn.repacked ∧
        fn1.extents.map extent.Len = fn.extents.map extent.Len ∧
        (∀ (i : Nat) (e e1 : extent), fn.extents[i]? = some e → fn1.extents[i]? = some e1 →
          e1.bytes kc st1 = e.bytes kc st) ∧
        fn1.content kc st1 = fn.content kc st) ∧
      (∀ B ∈ done, Laid kc st1 dn dn1 B.1 B.2) ∧
      (∀ sb me, extentAt dn sb = some (.mem me) → Inside done sb) ∧
      (∀ sb se, extentAt dn sb = some (.stored se) → extentAt dn1 sb = some (.stored se)) := by
  obtain ⟨err, dn1, st1, done, hrun, hpost, hnone, _, hsuc⟩ := sync_spec kc hkc mbs dn st
  have herr := hsuc hup
  subst herr
  have hcover := hnone rfl
  refine ⟨dn1, st1, done, hrun, hpost.rel, hpost.ext, ?_, hpost.laid, hcover, ?_⟩
  · intro name fn hfn
    rw [fileOf_eq_some] at hfn
    obtain ⟨fn1, hfn1, hrel⟩ := (hpost.rel.2.2 name).2.2 fn hfn
    obtain ⟨hms, hpres⟩ := hfiles name fn ((fileOf_eq_some _ _ _).2 hfn)
    have hlen : fn1.extents.length = fn.extents.length := hrel.2.2.1
    have hat : ∀ (i : Nat) (e : extent), fn.extents[i]? = some e →
        ∃ se, fn1.extents[i]? = some (extent.stored se) ∧ se.length = e.Len ∧
          (extent.stored se).bytes kc st1 = e.bytes kc st := by
      intro i e hi
      have he : extentAt dn ⟨name, i⟩ = some e := (extentAt_eq_some _ _ _).2 ⟨fn, hfn, hi⟩
      have hp : Present kc st [e] := by
        intro se hse
        simp only [List.mem_singleton] at hse
        exact hpres se (hse ▸ List.getElem?_mem hi)
      obtain ⟨se, h1, h2, h3⟩ := sync_extent kc dn st dn1 st1 done hpost hcover ⟨name, i⟩ e he hp
      obtain ⟨fn2, h4, h5⟩ := (extentAt_eq_some _ _ _).1 h1
      rw [hfn1] at h4
      simp only [Option.some.injEq, inode.file.injEq] at h4
      subst h4
      exact ⟨se, h5, h2, h3⟩
    have hstored : ∀ e ∈ fn1.extents, ∃ se, e = extent.stored se := by
      intro e he
      obtain ⟨i, hi⟩ := List.getElem?_of_mem he
      have hlt : i < fn.extents.length := by
        rw [← hlen]; exact (List.getElem?_eq_some_iff.1 hi).1
      obtain ⟨se, h1, _⟩ := hat i _ (List.getElem?_eq_getElem hlt)
      rw [hi] at h1
      simp only [Option.some.injEq] at h1
      exact ⟨se, h1⟩
    have hbytes : ∀ (i : Nat) (e e1 : extent), fn.extents[i]? = some e →
        fn1.extents[i]? = some e1 → e1.bytes kc st1 = e.bytes kc st := by
      intro i e e1 hi hi1
      obtain ⟨se, h1, _, h3⟩ := hat i e hi
      rw [hi1] at h1
      simp only [Option.some.injEq] at h1
      rw [h1]; exact h3
    refine ⟨fn1, (fileOf_eq_some _ _ _).2 hfn1, hstored, ?_, hrel.1, hrel.2.1, ?_, hbytes, ?_⟩
    · have := hrel.2.2.2
      rw [memLen_all_stored _ hstored, hms] at this
      omega
    · apply List.ext_getElem?
      intro i
      simp only [List.getElem?_map]
      by_cases hlt : i < fn.extents.length
      · obtain ⟨se, h1, h2, _⟩ := hat i _ (List.getElem?_eq_getElem hlt)
        rw [h1, List.getElem?_eq_getElem hlt]
        simp [extent.Len, storedExtent.Len, h2]
      · rw [List.getElem?_eq_none (by omega), List.getElem?_eq_none (by omega)]
    · exact extentsBytes_congr kc st st1 fn.extents fn1.extents hlen hbytes
  · intro sb se hse
    have hp : ¬ Inside done sb := by
      rintro ⟨B, hB, hsb⟩
      obtain ⟨_, bufs, hb, _⟩ := hpost.laid B hB
      obtain ⟨j, hj⟩ := List.getElem?_of_mem hsb
      obtain ⟨me, h1, _⟩ := Bufs_get dn B.1 bufs hb j sb hj
      rw [hse] at h1; cases h1
    rw [hpost.same sb hp]; exact hse

theorem listKeep_succeeds : Succeeds listKeep := by
  intro st b
  simp [listKeep]

theorem exThreeFiles_files (name : Str) (fn : filenode)
    (h : fileOf exThreeFiles name = some fn) :
    fn.memsize = memLen fn.extents ∧ Present listKeep [] fn.extents := by
  have hp : ∀ c n, Present listKeep [] (exTenBytes n c).extents := by
    intro c n se hse
    simp [exTenBytes] at hse
  simp only [fileOf, exThreeFiles, mapGet] at h
  split_ifs at h
  · simp only [Option.some.injEq] at h; subst h; exact ⟨by decide, hp _ _⟩
  · simp only [Option.some.injEq] at h; subst h; exact ⟨by decide, hp _ _⟩
  · simp only [Option.some.injEq] at h; subst h; exact ⟨by decide, hp _ _⟩

theorem sync_stores_memory_extents_witness :
    (listKeep.Lawful ∧ Succeeds listKeep ∧
      ∀ name fn, fileOf exThreeFiles name = some fn →
        fn.memsize = memLen fn.extents ∧ Present listKeep [] fn.extents) ∧
    ∃ dn1 st1 done, exThreeFiles.sync (2 ^ 26) listKeep [] = .ok (none, dn1, st1) ∧
      DirRel exThreeFiles dn1 ∧ listKeep.Extends [] st1 ∧
      (∀ name fn, fileOf exThreeFiles name = some fn → ∃ fn1, fileOf dn1 name = some fn1 ∧
        (∀ e ∈ fn1.extents, ∃ se, e = extent.stored se) ∧ fn1.memsize = 0 ∧
        fn1.fileinfo = fn.fileinfo ∧ fn1.repacked = fn.repacked ∧
        fn1.extents.map extent.Len = fn.extents.map extent.Len ∧
        (∀ (i : Nat) (e e1 : extent), fn.extents[i]? = some e → fn1.extents[i]? = some e1 →
          e1.bytes listKeep st1 = e.bytes listKeep []) ∧
        fn1.content listKeep st1 = fn.content listKeep []) ∧
      (∀ B ∈ done, Laid listKeep st1 exThreeFiles dn1 B.1 B.2) ∧
      (∀ sb me, extentAt exThreeFiles sb = some (.mem me) → Inside done sb) ∧
      (∀ sb se, extentAt exThreeFiles sb = some (.stored se) →
        extentAt dn1 sb = some (.stored se)) :=
  ⟨⟨listKeep_lawful, listKeep_succeeds, exThreeFiles_files⟩,
    sync_stores_memory_extents listKeep listKeep_lawful listKeep_succeeds (2 ^ 26) exThreeFiles []
      exThreeFiles_files⟩

/-- Scenario: three files with one memory extent of ten bytes each.  `sync`
uploads one block of thirty bytes, the buffers of `a`, `b` and `c` in that
order, and the extents become the windows at offsets 0, 10 and 20. -/
theorem sync_three_files :
    (exThreeFiles.sync (2 ^ 26) listKeep []).map
      (fun r => (r.1, r.2.2,
        [str "a", str "b", str "c"].map (fun n => (fileOf r.2.1 n).map (fun fn => fn.extents))))
      = .ok (none,
          [List.replicate 10 97 ++ List.replicate 10 98 ++ List.replicate 10 99],
          [some [.stored { locator := [97], size := 30, offset := 0, length := 10 }],
           some [.stored { locator := [97], size := 30, offset := 10, length := 10 }],
           some [.stored { locator := [97], size := 30, offset := 20, length := 10 }]]) := by
  decide

/-! ## `sync` when an upload fails -/

/-- C13. `sync` returns without a panic.  When it returns an error, this is
the error of an upload: of a batch of memory extents that is not among the
batches uploaded before; every extent that is not in a batch uploaded before
(so every extent of the batch whose upload failed, and every extent `sync`
had not reached) is exactly as it was, the extents of the batches uploaded
before are the windows of their blocks, and each file node has its `memsize`
lowered by what its memory extents have lost.  When every upload fails and
the directory has a memory extent, `sync` returns the error and every extent
is as it was. -/
theorem sync_upload_failure {σ : Type} (kc : keepClient σ) (hkc : kc.Lawful) (mbs : Int)
    (dn : dirnode) (st : σ) :
    (∃ err dn1 st1, dn.sync mbs kc st = .ok (err, dn1, st1)) ∧
    (∀ e dn1 st1, dn.sync mbs kc st = .ok (some e, dn1, st1) →
      e = .upload ∧ ∃ done,
        UploadFailed kc dn done st1 ∧
        (∀ sb, ¬ Inside done sb → extentAt dn1 sb = extentAt dn sb) ∧
        (∀ B ∈ done, Laid kc st1 dn dn1 B.1 B.2) ∧
        DirRel dn dn1 ∧ kc.Extends st st1) ∧
    ((∀ st2 b, (kc.PutB st2 b).2 = none) → (∃ sb me, extentAt dn sb = some (.mem me)) →
      ∃ dn1 st1, dn.sync mbs kc st = .ok (some .upload, dn1, st1) ∧
        ∀ sb, extentAt dn1 sb = extentAt dn sb) := by
  obtain ⟨err, dn1, st1, done, hrun, hpost, hnone, hsome, _⟩ := sync_spec kc hkc mbs dn st
  refine ⟨⟨err, dn1, st1, hrun⟩, ?_, ?_⟩
  · intro e dn2 st2 h
    rw [hrun] at h
    simp only [Except.ok.injEq, Prod.mk.injEq] at h
    obtain ⟨h1, h2, h3⟩ := h
    subst h2; subst h3
    obtain ⟨e1, e2⟩ := hsome e h1
    exact ⟨e1, done, e2, hpost.same, hpost.laid, hpost.rel, hpost.ext⟩
  · intro hfail ⟨sb, me, hm⟩
    have hempty : ∀ x, ¬ Inside done x := by
      rintro x ⟨B, hB, _⟩
      obtain ⟨_, bufs, _, ⟨st2, hput⟩, _⟩ := hpost.laid B hB
      rw [hfail st2 bufs.flatten] at hput
      cases hput
    cases err with
    | none => exact absurd (hnone rfl sb me hm) (hempty sb)
    | some e =>
      obtain ⟨e1, _⟩ := hsome e rfl
      subst e1
      exact ⟨dn1, st1, hrun, fun x => hpost.same x (hempty x)⟩

theorem onceKeep_lawful : onceKeep.Lawful where
  keeps := by
    intro st b loc x h
    by_cases hst : st = []
    · subst hst
      simp [onceKeep] at h
    · simp only [onceKeep, hst, if_false] at h ⊢
      exact h
  returns := by
    intro st b loc h
    by_cases hst : st = []
    · subst hst
      simp only [onceKeep, if_true, Option.some.injEq] at h
      subst h
      simp [onceKeep]
    · simp [onceKeep, hst] at h

theorem sync_upload_failure_witness :
    onceKeep.Lawful ∧
    (∃ err dn1 st1, exTwoFiles.sync 4 onceKeep [] = .ok (err, dn1, st1)) ∧
    (∀ e dn1 st1, exTwoFiles.sync 4 onceKeep [] = .ok (some e, dn1, st1) →
      e = .upload ∧ ∃ done,
        UploadFailed onceKeep exTwoFiles done st1 ∧
        (∀ sb, ¬ Inside done sb → extentAt dn1 sb = extentAt exTwoFiles sb) ∧
        (∀ B ∈ done, Laid onceKeep st1 exTwoFiles dn1 B.1 B.2) ∧
        DirRel exTwoFiles dn1 ∧ onceKeep.Extends [] st1) :=
  ⟨onceKeep_lawful, (sync_upload_failure onceKeep onceKeep_lawful 4 exTwoFiles []).1,
    (sync_upload_failure onceKeep onceKeep_lawful 4 exTwoFiles []).2.1⟩

/-- Scenario: two files with one memory extent of three bytes each, blocks
of four bytes, a store whose second upload fails.  `sync` uploads the extent
of `a` alone, fails to upload the extent of `b` and returns the error; `a`
has a stored extent and `memsize` 0, `b` has its memory extent and its
`memsize` 3. -/
theorem sync_second_upload_fails :
    (exTwoFiles.sync 4 onceKeep []).map
      (fun r => (r.1, r.2.2,
        [str "a", str "b"].map
          (fun n => (fileOf r.2.1 n).map (fun fn => (fn.extents, fn.memsize)))))
      = .ok (some .upload, [[97, 97, 97]],
          [some ([.stored { locator := [97], size := 3, offset := 0, length := 3 }], 0),
           some ([.mem { buf := [98, 98, 98], spare := [] }], 3)]) := by
  rfl

/-! ## Writing at the end of a file -/

theorem accountCur_at_end (fn : filenode) (ptr : filenodePtr) (c : List Byte)
    (hidx : ptr.extentIdx = fn.extents.length) :
    fn.accountCur ptr c = .ok (c, { fn with fileinfo := { fn.fileinfo with
      size := fn.fileinfo.size + c.length } }) := by
  unfold filenode.accountCur
  simp only [hidx, if_true, pure, Except.pure]

theorem growOrInsert_at_end (fn : filenode) (ptr : filenodePtr) (c : List Byte)
    (hidx : ptr.extentIdx = fn.extents.length) :
    ∃ (r : memExtent) (plan : WritePlan), fn.growOrInsert ptr c false = .ok plan ∧
      r.Len = (c.length : Int) ∧
      plan.cando = c ∧ plan.fn.extents = fn.extents ++ [.mem r] ∧
      plan.fn.fileinfo = fn.fileinfo ∧ plan.ptr.extentIdx = ptr.extentIdx ∧
      plan.ptr.extentOff = ptr.extentOff ∧ plan.ptr.off = ptr.off := by
  obtain ⟨r, hr1, hr2, _⟩ := newMemExtent_spec (c.length : Int) (by omega)
  unfold filenode.growOrInsert
  have hc : ¬ (ptr.extentIdx < 0 ∨ (fn.extents.length : Int) < ptr.extentIdx) := by omega
  simp only [Bool.false_eq_true, if_false, hr1, bind, Except.bind, hc]
  refine ⟨r, _, rfl, hr2, rfl, ?_, rfl, rfl, rfl, rfl⟩
  simp [hidx]

theorem growOrInsert_grow_end (fn : filenode) (ptr : filenodePtr) (c : List Byte)
    (pre1 : List extent) (mp : memExtent) (hes : fn.extents = pre1 ++ [.mem mp])
    (hidx : ptr.extentIdx = fn.extents.length) :
    ∃ (r : memExtent) (plan : WritePlan), fn.growOrInsert ptr c true = .ok plan ∧
      r.Len = mp.Len + (c.length : Int) ∧
      r.buf.take mp.buf.length = mp.buf ∧
      plan.cando = c ∧ plan.fn.extents = pre1 ++ [.mem r] ∧
      plan.fn.fileinfo = fn.fileinfo ∧ plan.ptr.extentIdx = pre1.length ∧
      plan.ptr.extentOff = mp.Len ∧ plan.ptr.off = ptr.off := by
  have hmp0 : 0 ≤ mp.Len := by simp [memExtent.Len]
  have hidx1 : ptr.extentIdx - 1 = pre1.length := by
    rw [hidx, hes]; simp
  obtain ⟨r, hr1, hr2, hr3, _⟩ := Truncate_spec mp (mp.Len + c.length) (by omega)
  have hprev : index fn.extents (ptr.extentIdx - 1) = .ok (.mem mp) := by
    rw [hes]
    exact index_mid pre1 [] (.mem mp) _ hidx1
  unfold filenode.growOrInsert
  simp only [if_true, hprev, bind, Except.bind, hr1]
  refine ⟨r, _, rfl, hr2, ?_, rfl, ?_, rfl, hidx1, rfl, rfl⟩
  · rw [hr3]
    apply List.take_of_length_le
    simp only [memExtent.Len] at hmp0 ⊢
    omega
  · simp only
    have : (ptr.extentIdx - 1).toNat = pre1.length := by omega
    rw [this, hes, List.set_append_right _ _ (le_refl _)]
    simp

/-- The structural phase of a round of `Write` when the pointer is at the end
of the extents: the last extent of the planned node is a memory extent that
ends with room for exactly the bytes to copy, and before that room the
planned node holds what the node held. -/
theorem writePlan_at_end {σ : Type} (kc : keepClient σ) (st : σ) (mbs : Int) (hmbs : 0 < mbs)
    (fn : filenode) (ptr : filenodePtr) (p : List Byte) (hp : p ≠ [])
    (hidx : ptr.extentIdx = fn.extents.length) (heo : ptr.extentOff = 0)
    (hpres : Present kc st fn.extents) :
    ∃ (plan : WritePlan) (k : Nat) (pre : List extent) (me2 : memExtent),
      fn.writePlan mbs ptr p = .ok plan ∧ 0 < k ∧ k ≤ p.length ∧
      plan.cando = p.take k ∧ plan.fn.extents = pre ++ [.mem me2] ∧
      plan.ptr.extentIdx = pre.length ∧ 0 ≤ plan.ptr.extentOff ∧
      plan.ptr.extentOff + k = me2.Len ∧ plan.ptr.off = ptr.off ∧
      extentsBytes kc st pre ++ (me2.buf.take plan.ptr.extentOff.toNat).map some
        = fn.content kc st ∧
      plan.fn.fileinfo = { fn.fileinfo with size := fn.fileinfo.size + k } ∧
      Present kc st pre := by
  have hplen : 0 < p.length := List.length_pos.2 hp
  have hk0 : 0 < min p.length mbs.toNat := by omega
  have hk0le : min p.length mbs.toNat ≤ p.length := by omega
  have hgt : ¬ ptr.extentOff > 0 := by omega
  have hlen0 : (p.take (min p.length mbs.toNat)).length = min p.length mbs.toNat := by simp
  unfold filenode.writePlan
  rw [capCando_spec mbs hmbs p, curWritable_end fn ptr hidx]
  simp only [bind, Except.bind]
  have hinsert : ∃ (plan : WritePlan) (k : Nat) (pre : List extent) (me2 : memExtent),
        fn.writeBoundary mbs ptr (p.take (min p.length mbs.toNat)) false = .ok plan ∧
        0 < k ∧ k ≤ p.length ∧
        plan.cando = p.take k ∧ plan.fn.extents = pre ++ [.mem me2] ∧
        plan.ptr.extentIdx = pre.length ∧ 0 ≤ plan.ptr.extentOff ∧
        plan.ptr.extentOff + k = me2.Len ∧ plan.ptr.off = ptr.off ∧
        extentsBytes kc st pre ++ (me2.buf.take plan.ptr.extentOff.toNat).map some
          = fn.content kc st ∧
        plan.fn.fileinfo = { fn.fileinfo with size := fn.fileinfo.size + k } ∧
        Present kc st pre := by
    unfold filenode.writeBoundary
    rw [shrinkToPrev_false]
    simp only [bind, Except.bind]
    rw [accountCur_at_end fn ptr _ hidx]
    simp only
    obtain ⟨r, plan, h1, h2, h3, h4, h5, h6, h7, h8⟩ := growOrInsert_at_end
      { fn with fileinfo := { fn.fileinfo with
          size := fn.fileinfo.size + (p.take (min p.length mbs.toNat)).length } }
      ptr (p.take (min p.length mbs.toNat)) hidx
    rw [h1]
    refine ⟨plan, min p.length mbs.toNat, fn.extents, r, rfl, hk0, hk0le, h3, h4, ?_, ?_, ?_, h8,
      ?_, ?_, hpres⟩
    · rw [h6, hidx]
    · rw [h7, heo]
    · rw [h7, heo, h2, hlen0]; omega
    · rw [h7, heo]
      simp only [Int.toNat_zero, List.take_zero, List.map_nil, List.append_nil]
      rfl
    · rw [h5, hlen0]
  rcases prevAppendable_spec mbs fn ptr fn.extents [] (by simp) hidx with
    ⟨hnil, hpa⟩ | ⟨pre1, e, hpre, hpa⟩
  · rw [hpa]
    simp only [hgt, false_and, if_false, Bool.false_eq_true]
    exact hinsert
  · by_cases happ : (decide (e.Len < mbs) && e.writable) = true
    · -- grow the last extent
      have happ1 := happ
      simp only [Bool.and_eq_true, decide_eq_true_eq] at happ1
      obtain ⟨hroom, hwr⟩ := happ1
      cases e with
      | stored se => simp [extent.writable] at hwr
      | mem mp =>
        simp only [extent.Len] at hroom
        have hes : fn.extents = pre1 ++ .mem mp :: [] := hpre
        have hidx1 : ptr.extentIdx = pre1.length + 1 := by
          rw [hidx, hpre]; simp
        rw [hpa, happ]
        simp only [hgt, false_and, if_false, Bool.false_eq_true]
        unfold filenode.writeBoundary
        rw [shrinkToPrev_true mbs fn ptr pre1 [] mp hes hidx1 hroom p _ hk0le]
        simp only [bind, Except.bind]
        have hmp0 : 0 ≤ mp.Len := by simp [memExtent.Len]
        generalize hk : min (min p.length mbs.toNat) (mbs - mp.Len).toNat = k
        have hkpos : 0 < k := by omega
        have hkle : k ≤ p.length := by omega
        have hlen : (p.take k).length = k := by simp; omega
        rw [accountCur_at_end fn ptr _ hidx]
        simp only
        obtain ⟨r, plan, h1, h2, h3, h4, h5, h6, h7, h8, h9⟩ := growOrInsert_grow_end
          { fn with fileinfo := { fn.fileinfo with
              size := fn.fileinfo.size + (p.take k).length } }
          ptr (p.take k) pre1 mp hpre hidx
        rw [h1]
        refine ⟨plan, k, pre1, r, rfl, hkpos, hkle, h4, h5, h7, ?_, ?_, h9, ?_, ?_, ?_⟩
        · rw [h8]; exact hmp0
        · rw [h8, h2, hlen]
        · rw [h8]
          unfold filenode.content
          rw [hpre, extentsBytes_append]
          simp only [extentsBytes, extent.bytes, List.append_nil]
          have h1 : mp.Len.toNat = mp.buf.length := by simp [memExtent.Len]
          rw [h1, h3]
        · rw [h6, hlen]
        · rw [hpre, Present_append] at hpres
          exact hpres.1
    · have hfalse : (decide (e.Len < mbs) && e.writable) = false := by simpa using happ
      rw [hpa, hfalse]
      simp only [hgt, false_and, if_false, Bool.false_eq_true]
      exact hinsert

/-- The rest of a round of `Write` when the bytes to copy fill the last
extent to its end: the file then ends with the bytes copied and the pointer
is at the end of the extents. -/
theorem writeCopy_at_end {σ : Type} (kc : keepClient σ) (hkc : kc.Lawful) (st : σ) (mbs : Int)
    (p : List Byte) (plan : WritePlan) (k : Nat) (pre : List extent) (me2 : memExtent)
    (hkle : k ≤ p.length) (hcando : plan.cando = p.take k)
    (hext : plan.fn.extents = pre ++ [.mem me2]) (hidx : plan.ptr.extentIdx = pre.length)
    (hoff0 : 0 ≤ plan.ptr.extentOff) (hfits : plan.ptr.extentOff + k = me2.Len)
    (hpres : Present kc st pre) :
    ∃ fn1 ptr1 st1, filenode.writeCopy mbs kc plan p st = .ok (fn1, ptr1, p.drop k, k, st1) ∧
      fn1.content kc st1 = extentsBytes kc st pre
        ++ (me2.buf.take plan.ptr.extentOff.toNat).map some ++ (p.take k).map some ∧
      fn1.fileinfo = plan.fn.fileinfo ∧ ptr1.extentIdx = fn1.extents.length ∧
      ptr1.extentOff = 0 ∧ ptr1.off = plan.ptr.off + k ∧ Present kc st1 fn1.extents ∧
      kc.Extends st st1 := by
  have hlen : (p.take k).length = k := by simp; omega
  have hcur : plan.ptr.extentIdx.toNat = pre.length := by omega
  unfold filenode.writeCopy
  dsimp only
  rw [hext, index_mid _ _ _ _ hidx]
  simp only [bind, Except.bind]
  rw [hcando, hlen, WriteAt_spec me2 (p.take k) _ hoff0 (by rw [hlen]; omega)]
  simp only
  rw [hcur, List.set_append_right _ _ (le_refl _)]
  simp only [Nat.sub_self, List.set_cons_zero, hlen]
  have hdrop : me2.buf.drop (plan.ptr.extentOff.toNat + k) = [] := by
    apply List.drop_eq_nil_of_le
    simp only [memExtent.Len] at hfits
    omega
  rw [hdrop, List.append_nil]
  generalize hme3 : memExtent.mk (me2.buf.take plan.ptr.extentOff.toNat ++ p.take k)
    me2.spare = me3
  have hlen3 : me3.Len = plan.ptr.extentOff + k := by
    rw [← hme3]
    simp only [memExtent.Len] at hfits ⊢
    simp
    omega
  have hbuf3 : me3.buf = me2.buf.take plan.ptr.extentOff.toNat ++ p.take k := by rw [← hme3]
  have hpres3 : Present kc st (pre ++ [extent.mem me3]) := by
    rw [Present_append]
    exact ⟨hpres, Present_mem kc st me3⟩
  have hbytes3 : extentsBytes kc st (pre ++ [extent.mem me3])
      = extentsBytes kc st pre ++ (me2.buf.take plan.ptr.extentOff.toNat).map some
        ++ (p.take k).map some := by
    simp only [extentsBytes_append, extentsBytes, extent.bytes, hbuf3, List.map_append,
      List.append_nil, List.append_assoc]
  by_cases hp : plan.ptr.extentOff + (k : Int) ≥ mbs
  · rw [if_pos hp]
    simp only [filenode.pruneMemExtents]
    obtain ⟨A, e1, C, hA1, hA2, hA3, hA4⟩ :=
      pruneExtents_split mbs kc hkc pre (.mem me3) [] st plan.fn.memsize
    obtain ⟨q1, q2, q3, q4, q5, q6⟩ :=
      pruneExtents_spec mbs kc hkc (pre ++ [extent.mem me3]) st plan.fn.memsize
    obtain ⟨r1, r2, r3⟩ :=
      pruneExtents_keeps mbs kc hkc (pre ++ [extent.mem me3]) st plan.fn.memsize
    generalize hres : pruneExtents mbs kc (pre ++ [extent.mem me3]) st plan.fn.memsize
      = res at *
    have hC : C = [] := by
      have := q2
      rw [hA1] at this
      simp only [List.length_append, List.length_cons, List.length_nil] at this
      apply List.eq_nil_of_length_eq_zero
      omega
    subst hC
    unfold filenode.stepNext
    simp only
    rw [hA1, index_mid _ _ _ _ (by rw [hA2]; exact hidx)]
    simp only [bind, Except.bind]
    have hl : e1.Len = plan.ptr.extentOff + k := by
      rw [hA4]; simp only [extent.Len]; exact hlen3
    rw [if_pos hl]
    refine ⟨_, _, _, rfl, ?_, rfl, ?_, rfl, rfl, ?_, q1⟩
    · show extentsBytes kc res.2.1 (A ++ [e1]) = _
      rw [← hA1, q6 hpres3 _ (Extends_refl kc _)]
      exact hbytes3
    · simp only
      rw [hidx]
      simp [hA2]
    · show Present kc res.2.1 (A ++ [e1])
      rw [← hA1]
      exact r2 hpres3
  · rw [if_neg hp]
    simp only
    unfold filenode.stepNext
    simp only
    rw [index_mid _ _ _ _ hidx]
    simp only [bind, Except.bind]
    have hl : (extent.mem me3).Len = plan.ptr.extentOff + k := by
      simp only [extent.Len]; exact hlen3
    rw [if_pos hl]
    refine ⟨_, _, _, rfl, hbytes3, rfl, ?_, rfl, rfl, hpres3, Extends_refl kc st⟩
    simp only
    rw [hidx]
    simp

/-- One round of the loop of `Write` with the pointer at the end of the
extents appends bytes of `p` to the file and leaves the pointer at the
end. -/
theorem writeStep_at_end {σ : Type} (kc : keepClient σ) (hkc : kc.Lawful) (st : σ) (mbs : Int)
    (hmbs : 0 < mbs) (fn : filenode) (ptr : filenodePtr) (p : List Byte) (hp : p ≠ [])
    (hidx : ptr.extentIdx = fn.extents.length) (heo : ptr.extentOff = 0)
    (hpres : Present kc st fn.extents) :
    ∃ fn1 ptr1 k st1, fn.writeStep mbs kc ptr p st = .ok (fn1, ptr1, p.drop k, k, st1) ∧
      0 < k ∧ k ≤ p.length ∧
      fn1.content kc st1 = fn.content kc st ++ (p.take k).map some ∧
      fn1.fileinfo = { fn.fileinfo with size := fn.fileinfo.size + k } ∧
      ptr1.extentIdx = fn1.extents.length ∧ ptr1.extentOff = 0 ∧ ptr1.off = ptr.off + k ∧
      Present kc st1 fn1.extents ∧ kc.Extends st st1 := by
  obtain ⟨plan, k, pre, me2, h1, h2, h3, h4, h5, h6, h7, h8, h9, h10, h11, h12⟩ :=
    writePlan_at_end kc st mbs hmbs fn ptr p hp hidx heo hpres
  obtain ⟨fn1, ptr1, st1, c1, c2, c3, c4, c5, c6, c7, c8⟩ :=
    writeCopy_at_end kc hkc st mbs p plan k pre me2 h3 h4 h5 h6 h7 h8 h12
  refine ⟨fn1, ptr1, k, st1, ?_, h2, h3, ?_, ?_, c4, c5, ?_, c7, c8⟩
  · unfold filenode.writeStep
    simp only [h1, bind, Except.bind]
    exact c1
  · rw [c2, h10]
  · rw [c3, h11]
  · rw [c6, h9]

/-- The loop of `Write` with the pointer at the end of the extents appends
`p` to the file. -/
theorem writeLoop_at_end {σ : Type} (kc : keepClient σ) (hkc : kc.Lawful) (mbs : Int)
    (hmbs : 0 < mbs) : ∀ (fuel : Nat) (p : List Byte) (fn : filenode) (ptr : filenodePtr)
    (n : Int) (st : σ), p.length ≤ fuel → Present kc st fn.extents →
    ptr.extentIdx = fn.extents.length → ptr.extentOff = 0 →
    ∃ ptr1 fn1 st1, filenode.writeLoop mbs kc fuel fn ptr p n st
        = .ok (n + p.length, ptr1, fn1, st1) ∧
      fn1.content kc st1 = fn.content kc st ++ p.map some ∧
      fn1.fileinfo = { fn.fileinfo with size := fn.fileinfo.size + p.length } ∧
      ptr1.off = ptr.off + p.length ∧ Present kc st1 fn1.extents ∧ kc.Extends st st1 := by
  intro fuel
  induction fuel with
  | zero =>
    intro p fn ptr n st hfuel hpres _ _
    have hp : p = [] := List.length_eq_zero.1 (by omega)
    subst hp
    exact ⟨ptr, fn, st, by simp [filenode.writeLoop], by simp, by simp, by simp, hpres,
      Extends_refl kc st⟩
  | succ f ih =>
    intro p fn ptr n st hfuel hpres hidx heo
    by_cases hp : p = []
    · subst hp
      exact ⟨ptr, fn, st, by simp [filenode.writeLoop], by simp, by simp, by simp, hpres,
        Extends_refl kc st⟩
    · obtain ⟨fn1, ptr1, k, st1, s1, s2, s3, s4, s5, s6, s7, s8, s9, s10⟩ :=
        writeStep_at_end kc hkc st mbs hmbs fn ptr p hp hidx heo hpres
      obtain ⟨ptr2, fn2, st2, l1, l2, l3, l4, l5, l6⟩ := ih (p.drop k) fn1 ptr1 (n + k) st1
        (by simp; omega) s9 s6 s7
      have hplen : 0 < p.length := List.length_pos.2 hp
      have hdl : ((p.drop k).length : Int) = p.length - k := by simp; omega
      refine ⟨ptr2, fn2, st2, ?_, ?_, ?_, ?_, l5, Extends_trans s10 l6⟩
      · rw [filenode.writeLoop]
        simp only [hplen, if_true, bind, Except.bind, s1, l1]
        congr 2
        omega
      · rw [l2, s4, List.append_assoc, ← List.map_append, List.take_append_drop]
      · rw [l3, s5]
        simp only [fileinfo.mk.injEq, true_and]
        omega
      · rw [l4, s8]; omega

/-! ## Appending through a handle opened with `O_APPEND` -/

/-- C16. For a writable handle with the `O_APPEND` flag on a file node whose
size is not negative and whose stored extents can be fetched, whatever pointer
the handle holds: `file.Write(p)` returns `len(p)` and a nil error, the content
of the file is then the old content followed by `p`, its size is the old size
plus `len(p)`, and the offset of the handle is the new size; a file node that
satisfied the invariants still satisfies them. -/
theorem Write_appends {σ : Type} (kc : keepClient σ) (hkc : kc.Lawful) (mbs : Int)
    (hmbs : 0 < mbs) (fn : filenode) (hsize : 0 ≤ fn.fileinfo.size) (st : σ)
    (hpres : Present kc st fn.extents) (f : file) (hw : f.writable = true)
    (ha : f.append = true) (p : List Byte) :
    ∃ f1 fn1 st1,
      file.Write mbs kc f (.file fn) p st = .ok ((p.length : Int), none, f1, .file fn1, st1) ∧
      fn1.content kc st1 = fn.content kc st ++ p.map some ∧
      fn1.fileinfo.size = fn.fileinfo.size + p.length ∧
      f1.ptr.off = fn1.fileinfo.size ∧ (fn.Inv mbs → fn1.Inv mbs) := by
  obtain ⟨ptr1, fn1, st1, h1, h2, h3, h4, _, _⟩ := writeLoop_at_end kc hkc mbs hmbs p.length p fn
    { off := fn.fileinfo.size, extentIdx := fn.extents.length, extentOff := 0,
      repacked := fn.repacked } 0 st (le_refl _) hpres rfl rfl
  have hneg : ¬ fn.fileinfo.size < 0 := by omega
  have hseek : fn.seek
      { off := fn.fileinfo.size, extentIdx := fn.extents.length, extentOff := 0,
        repacked := fn.repacked } = .ok
      { off := fn.fileinfo.size, extentIdx := fn.extents.length, extentOff := 0,
        repacked := fn.repacked } := by
    unfold filenode.seek
    simp only [hneg, if_false, ge_iff_le, le_refl, if_true]
  refine ⟨{ f with ptr := ptr1 }, fn1, st1, ?_, h2, ?_, ?_, ?_⟩
  · unfold file.Write filenode.Write
    simp only [hw, ha, if_true, Bool.true_eq_false, if_false, bind, Except.bind, hseek, hneg, h1,
      zero_add]
  · rw [h3]
  · simp only
    rw [h4, h3]
  · intro hinv
    have hseeked : filenodePtr.Seeked
        { off := fn.fileinfo.size, extentIdx := fn.extents.length, extentOff := 0,
          repacked := fn.repacked } fn := by
      refine ⟨rfl, by simp, by simp, ?_, Or.inl ⟨rfl, rfl⟩⟩
      simp [hinv.1]
    obtain ⟨ptr2, fn2, st2, g1, g2⟩ := writeLoop_spec kc hkc mbs hmbs p.length p fn _ 0 st
      (le_refl _) hinv hpres hseeked
    rw [h1] at g1
    simp only [Except.ok.injEq, Prod.mk.injEq, true_and] at g1
    rw [g1.2.1]
    exact g2.inv

theorem Write_appends_witness :
    (listKeep.Lawful ∧ (0 : Int) < 4 ∧ 0 ≤ exFile.fileinfo.size ∧
      Present listKeep exStore exFile.extents ∧
      exAppendHandle.writable = true ∧ exAppendHandle.append = true) ∧
    ∃ f1 fn1 st1,
      file.Write 4 listKeep exAppendHandle (.file exFile) [33, 33] exStore
        = .ok ((([33, 33] : List Byte).length : Int), none, f1, .file fn1, st1) ∧
      fn1.content listKeep st1 = exFile.content listKeep exStore ++ ([33, 33] : List Byte).map some ∧
      fn1.fileinfo.size = exFile.fileinfo.size + (([33, 33] : List Byte).length : Int) ∧
      f1.ptr.off = fn1.fileinfo.size ∧ (exFile.Inv 4 → fn1.Inv 4) :=
  ⟨⟨listKeep_lawful, by decide, by decide, exFile_present, rfl, rfl⟩,
    Write_appends listKeep listKeep_lawful 4 (by decide) exFile (by decide) exStore exFile_present
      exAppendHandle rfl rfl [33, 33]⟩

/-! ## The pointer `seek` returns -/

theorem Seeked_consistent {fn : filenode} {ptr : filenodePtr} (h : ptr.Seeked fn) :
    ptr.Consistent fn := by
  obtain ⟨c0, c1, c2, c3, c4⟩ := h
  refine ⟨c0, c1, c2, c3, ?_⟩
  rcases c4 with c4 | ⟨e, c5, c6⟩
  · exact Or.inl c4
  · exact Or.inr ⟨e, c5, le_of_lt c6⟩

/-- A list of extents of positive length satisfies `Sound` for a block size
that is the sum of the lengths. -/
theorem Sound_of_pos (es : List extent) (hpos : ∀ e ∈ es, 0 < e.Len) : Sound (sumLen es) es := by
  induction es with
  | nil => simp [Sound]
  | cons a t ih =>
    have ht := ih (fun e he => hpos e (by simp [he]))
    have ha := hpos a (by simp)
    have hnn : 0 ≤ sumLen t := sumLen_nonneg t (fun e he => le_of_lt (hpos e (by simp [he])))
    intro e he
    simp only [List.mem_cons] at he
    simp only [sumLen]
    rcases he with he | he
    · subst he
      exact ⟨ha, fun _ => by omega⟩
    · obtain ⟨h1, h2⟩ := ht e he
      exact ⟨h1, fun hw => by have := h2 hw; omega⟩

/-- With extents of positive length, a pointer left by `seek` is at the end
of the extent list exactly when its offset is the size. -/
theorem Seeked_end_iff {mbs : Int} {fn : filenode} {ptr : filenodePtr} (hinv : fn.Inv mbs)
    (h : ptr.Seeked fn) : ptr.extentIdx = fn.extents.length ↔ ptr.off = fn.fileinfo.size := by
  obtain ⟨pre, post, hes, hidx, hdec, h0, hcase⟩ := Seeked_split h
  obtain ⟨i1, i2, i3, i4, i5⟩ := Inv_split hinv hes
  rcases hcase with ⟨hpost2, heo⟩ | ⟨e, rest, hpost2, hlt⟩
  · subst hpost2
    simp only [sumLen] at i5
    simp only [List.append_nil] at hes
    rw [hes]
    constructor
    · intro _; omega
    · intro _; exact hidx
  · subst hpost2
    have hrest := sumLen_nonneg rest (fun x hx => i4 x (by simp [hx]))
    simp only [sumLen] at i5
    rw [hes]
    simp only [List.length_append, List.length_cons, Nat.cast_add, Nat.cast_succ]
    constructor
    · intro _; omega
    · intro _; omega

/-- C25. On a file node whose size is the sum of its extent lengths and whose
extents all have positive length: `seek` returns a start pointer with negative
offset unchanged; for a start pointer with offset `o ≥ 0` that is stale or
consistent it returns a pointer with offset `min(o, size)` and the generation
of the node, whose `extentIdx` and `extentOff` decompose that offset, with
`extentIdx == len(extents)` and `extentOff == 0` or with
`extents[extentIdx].Len() > extentOff`; and `extentIdx == len(extents)`
exactly when the offset returned is the size of the file. -/
theorem seek_returns_pointer_for_offset (fn : filenode)
    (hsize : fn.fileinfo.size = sumLen fn.extents) (hpos : ∀ e ∈ fn.extents, 0 < e.Len)
    (ptr : filenodePtr) :
    (ptr.off < 0 → fn.seek ptr = .ok ptr) ∧
    (0 ≤ ptr.off → (ptr.Stale fn ∨ ptr.Consistent fn) →
      ∃ q, fn.seek ptr = .ok q ∧ q.off = min ptr.off fn.fileinfo.size ∧
        q.repacked = fn.repacked ∧ 0 ≤ q.extentIdx ∧ 0 ≤ q.extentOff ∧
        sumLen (fn.extents.take q.extentIdx.toNat) + q.extentOff = q.off ∧
        ((q.extentIdx = fn.extents.length ∧ q.extentOff = 0) ∨
          ∃ e, fn.extents[q.extentIdx.toNat]? = some e ∧ q.extentOff < e.Len) ∧
        (q.extentIdx = fn.extents.length ↔ q.off = fn.fileinfo.size)) := by
  constructor
  · intro hneg
    unfold filenode.seek
    rw [if_pos hneg]
  · intro h0 hptr
    have hinv : fn.Inv (sumLen fn.extents) := ⟨hsize, Sound_of_pos _ hpos⟩
    obtain ⟨q, hq1, hq2, hq3⟩ := seek_spec _ fn hinv ptr h0 hptr
    exact ⟨q, hq1, hq3, hq2.1, hq2.2.1, hq2.2.2.1, hq2.2.2.2.1, hq2.2.2.2.2,
      Seeked_end_iff hinv hq2⟩

theorem seek_returns_pointer_for_offset_witness :
    (exFile.fileinfo.size = sumLen exFile.extents ∧ (∀ e ∈ exFile.extents, 0 < e.Len) ∧
      0 ≤ exPtr.off ∧ (exPtr.Stale exFile ∨ exPtr.Consistent exFile)) ∧
    exFile.seek { off := -1, extentIdx := 0, extentOff := 0, repacked := 0 }
      = .ok { off := -1, extentIdx := 0, extentOff := 0, repacked := 0 } ∧
    ∃ q, exFile.seek exPtr = .ok q ∧ q.off = min exPtr.off exFile.fileinfo.size ∧
      q.repacked = exFile.repacked ∧ 0 ≤ q.extentIdx ∧ 0 ≤ q.extentOff ∧
      sumLen (exFile.extents.take q.extentIdx.toNat) + q.extentOff = q.off ∧
      ((q.extentIdx = exFile.extents.length ∧ q.extentOff = 0) ∨
        ∃ e, exFile.extents[q.extentIdx.toNat]? = some e ∧ q.extentOff < e.Len) ∧
      (q.extentIdx = exFile.extents.length ↔ q.off = exFile.fileinfo.size) :=
  ⟨⟨by decide, fun e he => (exFile_inv.2 e he).1, by decide,
      Or.inl (by unfold filenodePtr.Stale; decide)⟩,
    (seek_returns_pointer_for_offset exFile (by decide) (fun e he => (exFile_inv.2 e he).1)
      { off := -1, extentIdx := 0, extentOff := 0, repacked := 0 }).1 (by decide),
    (seek_returns_pointer_for_offset exFile (by decide) (fun e he => (exFile_inv.2 e he).1)
      exPtr).2 (by decide) (Or.inl (by unfold filenodePtr.Stale; decide))⟩

/-- Scenario: on the file `world`, `seek` of a stale pointer at offset 1 and of
one at offset 9. -/
theorem seek_example :
    exFile.seek exPtr = .ok { off := 1, extentIdx := 0, extentOff := 1, repacked := 0 } ∧
    exFile.seek { off := 9, extentIdx := 0, extentOff := 0, repacked := -1 }
      = .ok { off := 5, extentIdx := 1, extentOff := 0, repacked := 0 } := by
  decide

/-! ## `Write` on concrete files -/

theorem exGrown_reachable : Reachable 4 listKeep exGrown [] :=
  Reachable.truncate 5 (Reachable.empty [102] []) (by decide) exGrown_eq

/-- A stale pointer at byte offset 2. -/
theorem exGrown_stale :
    filenodePtr.Stale { off := 2, extentIdx := 0, extentOff := 0, repacked := -1 } exGrown ∨
    filenodePtr.Consistent { off := 2, extentIdx := 0, extentOff := 0, repacked := -1 } exGrown :=
  Or.inl (by unfold filenodePtr.Stale; decide)

/-- Scenario, with blocks of 4 bytes: the file of five zero bytes in two memory
extents of 4 and 1 bytes; writing `AB` at offset 2 fills the first extent, which
is uploaded and becomes a stored extent, and `memsize` falls from 5 to 1.  With
a store whose uploads fail the extent stays in memory and `memsize` stays 5. -/
theorem Write_fills_block_example :
    (exGrown.extents.map extent.Len, exGrown.memsize) = ([4, 1], 5) ∧
    (filenode.Write 4 listKeep exGrown [65, 66]
        { off := 2, extentIdx := 0, extentOff := 0, repacked := -1 } []).map
      (fun r => (r.2.2.2.1.extents.map extent.writable, r.2.2.2.1.extents.map extent.Len,
        r.2.2.2.1.fileinfo.size, r.2.2.2.1.memsize))
      = .ok ([false, true], [4, 1], 5, 1) ∧
    (filenode.Write 4 deadKeep exGrown [65, 66]
        { off := 2, extentIdx := 0, extentOff := 0, repacked := -1 } ()).map
      (fun r => (r.2.2.2.1.extents.map extent.writable, r.2.2.2.1.extents.map extent.Len,
        r.2.2.2.1.fileinfo.size, r.2.2.2.1.memsize))
      = .ok ([true, true], [4, 1], 5, 5) := by
  decide

/-- Scenario: on the file `world`, writing `XYZ` at offset 1 returns the
pointer for offset 4, which is the beginning of the third extent (the last
byte of the block), and writing `XYZ` at offset 9 returns the pointer for
offset 8, the end of the file. -/
theorem Write_pointer_example :
    (filenode.Write 4 listKeep exFile [88, 89, 90] exPtr exStore).map
      (fun r => (r.1, r.2.1, r.2.2.2.1.extents.map extent.Len, r.2.2.2.1.repacked))
      = .ok (3, { off := 4, extentIdx := 2, extentOff := 0, repacked := 1 }, [1, 3, 1], 1) ∧
    (filenode.Write 4 listKeep exFile [88, 89, 90]
        { off := 9, extentIdx := 0, extentOff := 0, repacked := -1 } exStore).map
      (fun r => (r.1, r.2.1, r.2.2.2.1.extents.map extent.Len, r.2.2.2.1.repacked))
      = .ok (3, { off := 8, extentIdx := 2, extentOff := 0, repacked := 1 }, [5, 3], 1) := by
  decide

/-! ## Extents of length zero after `loadManifest` -/

set_option maxRecDepth 100000 in
/-- C23 (the code departs from the claim): `loadManifest` accepts the manifest
`exEmptyFile` of one empty file, whose only segment is `0:0:f`, and the file
`f` then holds one stored extent, of length 0; it accepts the canonical
manifest `exCanonical`, and the file `bar` then holds extents of lengths 3 and
0, the file `foo` extents of lengths 0 and 3. -/
theorem loadManifest_appends_empty_extent :
    (FileSystem exEmptyFile).map (fun root => getNode root [str "f"])
      = .ok (some (.file { fileinfo := { name := str "f", mode := 0o755, size := 0 },
                           extents := [.stored { locator := emptyLocator, size := 0,
                                                 offset := 0, length := 0 }],
                           repacked := 0, memsize := 0 })) ∧
    (FileSystem exCanonical).map
        (fun root => ((fileOf root (str "bar")).map (fun fn => fn.extents.map extent.Len),
          (fileOf root (str "foo")).map (fun fn => fn.extents.map extent.Len)))
      = .ok (some [3, 0], some [0, 3]) := by
  exact ⟨by rfl, by rfl⟩

set_option maxRecDepth 100000 in
/-- What an extent of length zero does to a reader: in the tree loaded from
`exCanonical` the file `foo` has 3 bytes, and `Read` with a pointer at offset
0 that has to be recomputed (as `file.Seek` leaves it) returns no byte and
`EOF`. -/
theorem Read_stops_at_empty_extent :
    (FileSystem exCanonical).map
        (fun root => (fileOf root (str "foo")).map
          (fun fn => (fn.fileinfo.size,
            fn.Read exReader 3 { off := 0, extentIdx := 0, extentOff := 0, repacked := -1 })))
      = .ok (some (3, .ok ([], { off := 0, extentIdx := 0, extentOff := 0, repacked := 0 },
          some .EOF))) := by
  rfl

/-! ## Pointers of other handles: extent lengths -/

theorem sumLen_take_of_lens : ∀ (es es1 : List extent) (extra : List Int) (i : Nat),
    es1.map extent.Len = es.map extent.Len ++ extra → i ≤ es.length →
    sumLen (es1.take i) = sumLen (es.take i) := by
  intro es
  induction es with
  | nil =>
    intro es1 extra i _ hi
    have : i = 0 := by simpa using hi
    subst this
    simp
  | cons e t ih =>
    intro es1 extra i h hi
    cases es1 with
    | nil => simp at h
    | cons e1 t1 =>
      simp only [List.map_cons, List.cons_append, List.cons.injEq] at h
      cases i with
      | zero => simp
      | succ j =>
        simp only [List.take_succ_cons, sumLen]
        rw [ih t1 extra j h.2 (by simpa using hi), h.1]

theorem getElem?_of_lens (es es1 : List extent) (extra : List Int) (i : Nat) (e : extent)
    (h : es1.map extent.Len = es.map extent.Len ++ extra) (he : es[i]? = some e) :
    ∃ e1, es1[i]? = some e1 ∧ e1.Len = e.Len := by
  have hlt : i < es.length := (List.getElem?_eq_some_iff.1 he).1
  have h1 : (es1.map extent.Len)[i]? = some e.Len := by
    rw [h, List.getElem?_append_left (by simpa using hlt), List.getElem?_map, he]
    rfl
  rw [List.getElem?_map] at h1
  cases h2 : es1[i]? with
  | none => rw [h2] at h1; cases h1
  | some e1 =>
    rw [h2] at h1
    simp only [Option.map_some', Option.some.injEq] at h1
    exact ⟨e1, rfl, h1⟩

theorem getElem?_extra_of_lens (es es1 : List extent) (extra : List Int)
    (h : es1.map extent.Len = es.map extent.Len ++ extra) (hne : extra ≠ [])
    (hpos : ∀ x ∈ extra, 0 ≤ x) :
    ∃ e1, es1[es.length]? = some e1 ∧ 0 ≤ e1.Len := by
  cases extra with
  | nil => exact absurd rfl hne
  | cons x xs =>
    have h1 : (es1.map extent.Len)[es.length]? = some x := by
      rw [h, List.getElem?_append_right (by simp)]
      simp
    rw [List.getElem?_map] at h1
    cases h2 : es1[es.length]? with
    | none => rw [h2] at h1; cases h1
    | some e1 =>
      rw [h2] at h1
      simp only [Option.map_some', Option.some.injEq] at h1
      exact ⟨e1, rfl, by rw [h1]; exact hpos x (by simp)⟩

/-- A pointer that is consistent with a file node is consistent with what an
operation that kept the generation made of the node. -/
theorem Consistent_of_lens {fn fn1 : filenode} {ptr : filenodePtr} (hgen : fn1.repacked = fn.repacked)
    (extra : List Int) (hl : fn1.extents.map extent.Len = fn.extents.map extent.Len ++ extra)
    (hpos : ∀ x ∈ extra, 0 ≤ x) (hc : ptr.Consistent fn) : ptr.Consistent fn1 := by
  obtain ⟨c0, c1, c2, c3, c4⟩ := hc
  have hidx : ptr.extentIdx.toNat ≤ fn.extents.length := by
    rcases c4 with ⟨c5, _⟩ | ⟨e, c5, _⟩
    · omega
    · exact le_of_lt (List.getElem?_eq_some_iff.1 c5).1
  refine ⟨c0.trans hgen.symm, c1, c2, ?_, ?_⟩
  · rw [sumLen_take_of_lens _ _ extra _ hl hidx]
    exact c3
  · rcases c4 with ⟨c5, c6⟩ | ⟨e, c5, c6⟩
    · by_cases hx : extra = []
      · left
        subst hx
        have hlen := congrArg List.length hl
        simp only [List.length_map, List.append_nil] at hlen
        exact ⟨by omega, c6⟩
      · right
        obtain ⟨e1, h1, h2⟩ := getElem?_extra_of_lens _ _ extra hl hx hpos
        have : ptr.extentIdx.toNat = fn.extents.length := by omega
        exact ⟨e1, by rw [this]; exact h1, by omega⟩
    · right
      obtain ⟨e1, h1, h2⟩ := getElem?_of_lens _ _ extra _ e hl c5
      exact ⟨e1, h1, by omega⟩

theorem Kept_refl (fn : filenode) : Kept fn fn :=
  Or.inr ⟨rfl, [], by simp, by simp⟩

theorem Kept_le {fn fn1 : filenode} (h : Kept fn fn1) : fn.repacked ≤ fn1.repacked := by
  rcases h with h | ⟨h, _⟩
  · exact le_of_lt h
  · omega

theorem Kept_trans {a b c : filenode} (h1 : Kept a b) (h2 : Kept b c) : Kept a c := by
  rcases h1 with h1 | ⟨g1, x1, l1, p1⟩
  · have := Kept_le h2
    exact Or.inl (by omega)
  · rcases h2 with h2 | ⟨g2, x2, l2, p2⟩
    · exact Or.inl (by omega)
    · refine Or.inr ⟨g2.trans g1, x1 ++ x2, by rw [l2, l1, List.append_assoc], ?_⟩
      intro x hx
      rcases List.mem_append.1 hx with hx | hx
      · exact p1 x hx
      · exact p2 x hx

theorem Kept_of_SameLens {fn fn1 : filenode} (h : SameLens fn fn1) : Kept fn fn1 :=
  Or.inr ⟨h.1, [], by simp [h.2], by simp⟩

theorem SameLens_refl (fn : filenode) : SameLens fn fn := ⟨rfl, rfl⟩

theorem SameLens_trans {a b c : filenode} (h1 : SameLens a b) (h2 : SameLens b c) :
    SameLens a c := ⟨h2.1.trans h1.1, h2.2.trans h1.2⟩

/-- A pointer that is consistent with a file node is, after an operation,
consistent with the node if it has the generation of the node. -/
theorem Consistent_of_Kept {fn fn1 : filenode} {ptr : filenodePtr} (hk : Kept fn fn1)
    (hc : ptr.Consistent fn) (hgen : ptr.repacked = fn1.repacked) : ptr.Consistent fn1 := by
  rcases hk with hk | ⟨g, extra, hl, hp⟩
  · have := hc.1
    omega
  · exact Consistent_of_lens g extra hl hp hc

/-! ## Pointers of other handles: `Write` -/

theorem index_inv {α : Type} {xs : List α} {i : Int} {x : α} (h : index xs i = .ok x) :
    0 ≤ i ∧ xs[i.toNat]? = some x := by
  unfold index at h
  split at h
  · cases h
  · split at h
    · simp only [Except.ok.injEq] at h
      subst h
      rename_i h1 _ h2
      exact ⟨by omega, h2⟩
    · cases h

theorem map_Len_set (es : List extent) (i : Nat) (e e1 : extent) (h : es[i]? = some e)
    (hl : e1.Len = e.Len) : (es.set i e1).map extent.Len = es.map extent.Len := by
  induction es generalizing i with
  | nil => simp
  | cons a t ih =>
    cases i with
    | zero =>
      simp only [List.getElem?_cons_zero, Option.some.injEq] at h
      subst h
      simp [hl]
    | succ j =>
      simp only [List.getElem?_cons_succ] at h
      simp only [List.set_cons_succ, List.map_cons, ih j h]

theorem pruneExtents_lens {σ : Type} (mbs : Int) (kc : keepClient σ) :
    ∀ (es : List extent) (st : σ) (m : Int),
      (pruneExtents mbs kc es st m).1.map extent.Len = es.map extent.Len := by
  intro es
  induction es with
  | nil => intro st m; rfl
  | cons e t ih =>
    intro st m
    cases e with
    | stored se => simp only [pruneExtents, List.map_cons, ih]
    | mem me =>
      simp only [pruneExtents]
      split
      · simp only [List.map_cons, ih]
      · split
        · simp only [List.map_cons, ih]
        · simp only [List.map_cons, ih]
          rfl

theorem pruneMemExtents_lens {σ : Type} (mbs : Int) (kc : keepClient σ) (fn : filenode) (st : σ) :
    SameLens fn (fn.pruneMemExtents mbs kc st).1 :=
  ⟨rfl, pruneExtents_lens mbs kc fn.extents st fn.memsize⟩

theorem WriteAt_Len {me me1 : memExtent} {p : List Byte} {off : Int}
    (h : me.WriteAt p off = .ok me1) : me1.Len = me.Len := by
  unfold memExtent.WriteAt at h
  split at h
  · cases h
  · split at h
    · cases h
    · simp only [Except.ok.injEq] at h
      subst h
      rename_i h1 h2
      simp only [memExtent.Len] at h1 ⊢
      simp only [List.length_append, List.length_take, List.length_drop]
      omega

theorem writeSplit_repacked {fn : filenode} {ptr : filenodePtr} {c : List Byte} {plan : WritePlan}
    (h : fn.writeSplit ptr c = .ok plan) : plan.fn.repacked = fn.repacked + 1 := by
  unfold filenode.writeSplit at h
  simp only [bind, Except.bind] at h
  repeat' split at h
  all_goals (cases h <;> rfl)

theorem writeInPlace_fn {fn : filenode} {ptr : filenodePtr} {c : List Byte} {plan : WritePlan}
    (h : fn.writeInPlace ptr c = .ok plan) : plan.fn = fn := by
  unfold filenode.writeInPlace at h
  simp only [bind, Except.bind] at h
  repeat' split at h
  all_goals (cases h <;> rfl)

theorem accountCur_repacked {fn fn1 : filenode} {ptr : filenodePtr} {c c1 : List Byte}
    (h : fn.accountCur ptr c = .ok (c1, fn1)) : fn1.repacked = fn.repacked := by
  unfold filenode.accountCur at h
  simp only [bind, Except.bind, pure, Except.pure] at h
  repeat' split at h
  all_goals (cases h <;> rfl)

theorem growOrInsert_repacked {fn : filenode} {ptr : filenodePtr} {c : List Byte} {b : Bool}
    {plan : WritePlan} (h : fn.growOrInsert ptr c b = .ok plan) :
    plan.fn.repacked = fn.repacked + 1 := by
  unfold filenode.growOrInsert at h
  simp only [bind, Except.bind] at h
  repeat' split at h
  all_goals (cases h <;> first | rfl |
    (rename_i h1 h2; exfalso; simp only [decide_eq_true_eq, not_or, not_lt] at h1 h2; omega))

theorem writeBoundary_repacked {mbs : Int} {fn : filenode} {ptr : filenodePtr} {c : List Byte}
    {b : Bool} {plan : WritePlan} (h : fn.writeBoundary mbs ptr c b = .ok plan) :
    plan.fn.repacked = fn.repacked + 1 := by
  unfold filenode.writeBoundary at h
  simp only [bind, Except.bind] at h
  split at h
  · cases h
  · split at h
    · cases h
    · rename_i r hr
      obtain ⟨c1, fn1⟩ := r
      rw [growOrInsert_repacked h, accountCur_repacked hr]

/-- The structural phase of a round of `Write` leaves the node as it is, or
the generation is one more. -/
theorem writePlan_kept {mbs : Int} {fn : filenode} {ptr : filenodePtr} {p : List Byte}
    {plan : WritePlan} (h : fn.writePlan mbs ptr p = .ok plan) :
    plan.fn = fn ∨ plan.fn.repacked = fn.repacked + 1 := by
  unfold filenode.writePlan at h
  simp only [bind, Except.bind] at h
  split at h
  · cases h
  · split at h
    · cases h
    · split at h
      · cases h
      · split at h
        · exact Or.inr (writeSplit_repacked h)
        · split at h
          · exact Or.inl (writeInPlace_fn h)
          · exact Or.inr (writeBoundary_repacked h)

theorem writeCopy_lens {σ : Type} {mbs : Int} {kc : keepClient σ} {plan : WritePlan}
    {p p1 : List Byte} {st st1 : σ} {fn1 : filenode} {ptr1 : filenodePtr} {c : Int}
    (h : filenode.writeCopy mbs kc plan p st = .ok (fn1, ptr1, p1, c, st1)) :
    SameLens plan.fn fn1 := by
  unfold filenode.writeCopy at h
  simp only [bind, Except.bind] at h
  split at h
  · cases h
  · rename_i target htarget
    obtain ⟨_, hget⟩ := index_inv htarget
    cases target with
    | stored se => simp only at h; cases h
    | mem me =>
      simp only at h
      split at h
      · cases h
      · rename_i me1 hme1
        have hl := WriteAt_Len hme1
        have hset : (plan.fn.extents.set plan.ptr.extentIdx.toNat (.mem me1)).map extent.Len
            = plan.fn.extents.map extent.Len :=
          map_Len_set _ _ _ _ hget (by simpa [extent.Len] using hl)
        split at h
        · cases h
        · simp only [Except.ok.injEq, Prod.mk.injEq] at h
          obtain ⟨h1, _⟩ := h
          subst h1
          have hfn : SameLens plan.fn
              { plan.fn with
                extents := plan.fn.extents.set plan.ptr.extentIdx.toNat (.mem me1) } :=
            ⟨rfl, hset⟩
          split
          · exact SameLens_trans hfn (pruneMemExtents_lens mbs kc _ _)
          · exact hfn

theorem writeStep_kept {σ : Type} {mbs : Int} {kc : keepClient σ} {fn fn1 : filenode}
    {ptr ptr1 : filenodePtr} {p p1 : List Byte} {c : Int} {st st1 : σ}
    (h : fn.writeStep mbs kc ptr p st = .ok (fn1, ptr1, p1, c, st1)) : Kept fn fn1 := by
  unfold filenode.writeStep at h
  simp only [bind, Except.bind] at h
  split at h
  · cases h
  · rename_i plan hplan
    have hl := writeCopy_lens h
    rcases writePlan_kept hplan with hp | hp
    · rw [hp] at hl
      exact Kept_of_SameLens hl
    · exact Or.inl (by rw [hl.1, hp]; omega)

theorem writeLoop_kept {σ : Type} (mbs : Int) (kc : keepClient σ) :
    ∀ (fuel : Nat) (fn : filenode) (ptr : filenodePtr) (p : List Byte) (n : Int) (st : σ)
      (n1 : Int) (ptr1 : filenodePtr) (fn1 : filenode) (st1 : σ),
      filenode.writeLoop mbs kc fuel fn ptr p n st = .ok (n1, ptr1, fn1, st1) → Kept fn fn1 := by
  intro fuel
  induction fuel with
  | zero =>
    intro fn ptr p n st n1 ptr1 fn1 st1 h
    unfold filenode.writeLoop at h
    split at h
    · cases h
    · simp only [Except.ok.injEq, Prod.mk.injEq] at h
      rw [← h.2.2.1]
      exact Kept_refl fn
  | succ k ih =>
    intro fn ptr p n st n1 ptr1 fn1 st1 h
    unfold filenode.writeLoop at h
    split at h
    · simp only [bind, Except.bind] at h
      split at h
      · cases h
      · rename_i r hr
        obtain ⟨fn2, ptr2, p2, c, st2⟩ := r
        exact Kept_trans (writeStep_kept hr) (ih _ _ _ _ _ _ _ _ _ h)
    · simp only [Except.ok.injEq, Prod.mk.injEq] at h
      rw [← h.2.2.1]
      exact Kept_refl fn

/-- A call of `Write` that returns, with any pointer, has made the generation
grow or has kept the generation and the length of every extent. -/
theorem Write_kept {σ : Type} {mbs : Int} {kc : keepClient σ} {fn fn1 : filenode}
    {p : List Byte} {q q1 : filenodePtr} {st st1 : σ} {n : Int} {err : Option GoError}
    (h : filenode.Write mbs kc fn p q st = .ok (n, q1, err, fn1, st1)) : Kept fn fn1 := by
  unfold filenode.Write at h
  simp only [bind, Except.bind] at h
  split at h
  · cases h
  · split at h
    · simp only [Except.ok.injEq, Prod.mk.injEq] at h
      rw [← h.2.2.2.1]
      exact Kept_refl fn
    · split at h
      · cases h
      · rename_i r hr
        obtain ⟨n2, ptr2, fn2, st2⟩ := r
        simp only [Except.ok.injEq, Prod.mk.injEq] at h
        rw [← h.2.2.2.1]
        exact writeLoop_kept mbs kc _ _ _ _ _ _ _ _ _ _ hr

/-! ## Pointers of other handles: `Truncate` -/

theorem truncateShrink_repacked {fn fn1 : filenode} {size : Int}
    (h : fn.truncateShrink size = .ok fn1) : fn1.repacked = fn.repacked + 1 := by
  unfold filenode.truncateShrink at h
  simp only [bind, Except.bind] at h
  repeat' split at h
  all_goals (cases h <;> rfl)

theorem truncateGrowStep_kept {mbs : Int} {fn fn1 : filenode} {size : Int}
    (h : fn.truncateGrowStep mbs size = .ok fn1) : Kept fn fn1 := by
  have key : ∀ (fresh : Bool) (e : memExtent) (g m : Int), Kept fn
      { fn with
        extents := if fresh then fn.extents ++ [.mem e] else fn.extents.dropLast ++ [.mem e],
        repacked := if fresh then fn.repacked else fn.repacked + 1,
        fileinfo := { fn.fileinfo with size := g },
        memsize := m } := by
    intro fresh e g m
    cases fresh with
    | true =>
      right
      refine ⟨by simp, [e.Len], by simp [extent.Len], ?_⟩
      intro x hx
      simp only [List.mem_singleton] at hx
      subst hx
      simp [memExtent.Len]
    | false =>
      left
      simp
  unfold filenode.truncateGrowStep at h
  simp only [bind, Except.bind] at h
  split at h
  · cases h
  · rename_i e he
    simp only [Except.ok.injEq] at h
    subst h
    exact key _ _ _ _

theorem truncateGrow_kept (mbs : Int) (size : Int) :
    ∀ (fuel : Nat) (fn fn1 : filenode), filenode.truncateGrow mbs size fuel fn = .ok fn1 →
      Kept fn fn1 := by
  intro fuel
  induction fuel with
  | zero =>
    intro fn fn1 h
    unfold filenode.truncateGrow at h
    split at h
    · cases h
    · cases h
      exact Kept_refl _
  | succ k ih =>
    intro fn fn1 h
    unfold filenode.truncateGrow at h
    split at h
    · simp only [bind, Except.bind] at h
      split at h
      · cases h
      · rename_i fn2 h2
        exact Kept_trans (truncateGrowStep_kept h2) (ih _ _ h)
    · cases h
      exact Kept_refl _

/-- A call of `Truncate` that returns has made the generation grow or has
kept the generation and the length of every extent, adding extents after
them. -/
theorem Truncate_kept {mbs : Int} {fn fn1 : filenode} {size : Int}
    (h : filenode.Truncate mbs fn size = .ok fn1) : Kept fn fn1 := by
  unfold filenode.Truncate at h
  split at h
  · exact Or.inl (by rw [truncateShrink_repacked h]; omega)
  · exact truncateGrow_kept mbs size _ _ _ h

/-! ## Pointers of other handles: `sync` -/

theorem DirLens_refl (dn : dirnode) : DirLens dn dn :=
  fun _ fn h => ⟨fn, h, SameLens_refl fn⟩

theorem DirLens_trans {a b c : dirnode} (h1 : DirLens a b) (h2 : DirLens b c) : DirLens a c := by
  intro name fn h
  obtain ⟨fn1, hb, r1⟩ := h1 name fn h
  obtain ⟨fn2, hc, r2⟩ := h2 name fn1 hb
  exact ⟨fn2, hc, SameLens_trans r1 r2⟩

theorem shortBlockBuf_inv {dn : dirnode} {sb : shortBlock} {data : List Byte}
    (h : shortBlockBuf dn sb = .ok data) :
    ∃ fn me, mapGet dn.inodes sb.name = some (.file fn) ∧ fn.extents[sb.idx]? = some (.mem me) ∧
      me.buf = data := by
  unfold shortBlockBuf at h
  split at h
  · rename_i fn hfn
    split at h
    · rename_i me hme
      simp only [Except.ok.injEq] at h
      exact ⟨fn, me, hfn, hme, h⟩
    · cases h
  · cases h

theorem flushRewrite_lens (loc : Str) (size : Int) :
    ∀ (sbs : List shortBlock) (off : Int) (dn dn1 : dirnode),
      flushRewrite loc size sbs off dn = .ok dn1 → DirLens dn dn1 := by
  intro sbs
  induction sbs with
  | nil =>
    intro off dn dn1 h
    simp only [flushRewrite, Except.ok.injEq] at h
    subst h
    exact DirLens_refl dn
  | cons sb rest ih =>
    intro off dn dn1 h
    rw [flushRewrite] at h
    simp only [bind, Except.bind] at h
    split at h
    · cases h
    · rename_i data hdata
      obtain ⟨fn, me, h1, h2, h3⟩ := shortBlockBuf_inv hdata
      simp only [h1] at h
      refine DirLens_trans ?_ (ih _ _ _ h)
      intro name fn0 h0
      rw [fileOf_eq_some] at h0
      by_cases hn : name = sb.name
      · subst hn
        rw [h1] at h0
        simp only [Option.some.injEq, inode.file.injEq] at h0
        subst h0
        refine ⟨_, (fileOf_eq_some _ _ _).2 (mapGet_mapPut_eq _ _ _ _ h1), rfl, ?_⟩
        apply map_Len_set _ _ _ _ h2
        simp only [extent.Len, storedExtent.Len, memExtent.Len, h3]
      · refine ⟨fn0, (fileOf_eq_some _ _ _).2 ?_, SameLens_refl fn0⟩
        simp only
        rw [mapGet_mapPut_ne _ _ _ _ hn]
        exact h0

theorem flush_lens {σ : Type} {kc : keepClient σ} {dn dn1 : dirnode} {st st1 : σ}
    {sbs : List shortBlock} {err : Option GoError}
    (h : flush kc dn st sbs = .ok (err, dn1, st1)) : DirLens dn dn1 := by
  unfold flush at h
  split at h
  · simp only [Except.ok.injEq, Prod.mk.injEq] at h
    rw [← h.2.1]
    exact DirLens_refl dn
  · simp only [bind, Except.bind] at h
    split at h
    · cases h
    · split at h
      · simp only [Except.ok.injEq, Prod.mk.injEq] at h
        rw [← h.2.1]
        exact DirLens_refl dn
      · split at h
        · cases h
        · rename_i dn2 h2
          simp only [Except.ok.injEq, Prod.mk.injEq] at h
          rw [← h.2.1]
          exact flushRewrite_lens _ _ _ _ _ _ h2

theorem syncExtents_lens {σ : Type} (mbs : Int) (kc : keepClient σ) (name : Str) :
    ∀ (count idx : Nat) (s s1 : SyncState σ) (err : Option GoError),
      syncExtents mbs kc name count idx s = .ok (err, s1) → DirLens s.dn s1.dn := by
  intro count
  induction count with
  | zero =>
    intro idx s s1 err h
    simp only [syncExtents, Except.ok.injEq, Prod.mk.injEq] at h
    rw [← h.2]
    exact DirLens_refl _
  | succ k ih =>
    intro idx s s1 err h
    rw [syncExtents] at h
    split at h
    · split at h
      · cases h
      · exact ih _ _ _ _ h
      · split at h
        · simp only [bind, Except.bind] at h
          split at h
          · cases h
          · rename_i r hr
            obtain ⟨e1, dn2, st2⟩ := r
            have hf := flush_lens hr
            split at h
            · simp only [Except.ok.injEq, Prod.mk.injEq] at h
              rw [← h.2]
              exact hf
            · exact DirLens_trans hf (ih _ _ _ _ h)
        · rename_i fn hfn ext hext hbig
          by_cases hpl : s.pendingLen + ext.Len > mbs
          · simp only [hpl, if_true, bind, Except.bind, pure, Except.pure] at h
            cases hf : flush kc s.dn s.st s.pending with
            | error e => rw [hf] at h; cases h
            | ok r =>
              obtain ⟨e1, dn2, st2⟩ := r
              rw [hf] at h
              have hfl := flush_lens hf
              cases e1 with
              | some e =>
                simp only [Except.ok.injEq, Prod.mk.injEq] at h
                rw [← h.2]
                exact hfl
              | none =>
                simp only at h
                exact DirLens_trans hfl (ih _ _ _ _ h)
          · simp only [hpl, if_false, bind, Except.bind, pure, Except.pure] at h
            have := ih _ _ _ _ h
            exact this
    · cases h

theorem syncNames_lens {σ : Type} (mbs : Int) (kc : keepClient σ) :
    ∀ (names : List Str) (s s1 : SyncState σ) (err : Option GoError),
      syncNames mbs kc names s = .ok (err, s1) → DirLens s.dn s1.dn := by
  intro names
  induction names with
  | nil =>
    intro s s1 err h
    simp only [syncNames, Except.ok.injEq, Prod.mk.injEq] at h
    rw [← h.2]
    exact DirLens_refl _
  | cons name rest ih =>
    intro s s1 err h
    rw [syncNames] at h
    split at h
    · simp only [bind, Except.bind] at h
      split at h
      · cases h
      · rename_i r hr
        obtain ⟨e1, s2⟩ := r
        have h2 := syncExtents_lens mbs kc name _ _ _ _ _ hr
        split at h
        · simp only [Except.ok.injEq, Prod.mk.injEq] at h
          rw [← h.2]
          exact h2
        · exact DirLens_trans h2 (ih _ _ _ h)
    · exact ih _ _ _ h

/-- A call of `sync` that returns, with or without an error, has kept the
generation and the length of every extent of every file node of the
directory. -/
theorem sync_lens {σ : Type} {mbs : Int} {kc : keepClient σ} {dn dn1 : dirnode} {st st1 : σ}
    {err : Option GoError} (h : dn.sync mbs kc st = .ok (err, dn1, st1)) : DirLens dn dn1 := by
  unfold dirnode.sync at h
  simp only [bind, Except.bind] at h
  split at h
  · cases h
  · rename_i r hr
    obtain ⟨e1, s2⟩ := r
    have h2 := syncNames_lens mbs kc _ _ _ _ hr
    split at h
    · simp only [Except.ok.injEq, Prod.mk.injEq] at h
      rw [← h.2.1]
      exact h2
    · exact DirLens_trans h2 (flush_lens h)

/-! ## Pointers of other handles: the cache stays valid -/

/-- After any later operations the generation has grown, or it is what it was
and every extent has the length it had. -/
theorem Later_kept {σ : Type} {mbs : Int} {kc : keepClient σ} {fn fn1 : filenode}
    (h : Later mbs kc fn fn1) : Kept fn fn1 := by
  induction h with
  | same => exact Kept_refl _
  | write p q st _ hw ih => exact Kept_trans ih (Write_kept hw)
  | truncate size _ ht ih => exact Kept_trans ih (Truncate_kept ht)
  | prune st _ ih => exact Kept_trans ih (Kept_of_SameLens (pruneMemExtents_lens _ _ _ _))
  | sync dn name st _ h1 hs h2 ih =>
    obtain ⟨fn3, h3, h4⟩ := sync_lens hs _ _ h1
    rw [h2] at h3
    simp only [Option.some.injEq] at h3
    subst h3
    exact Kept_trans ih (Kept_of_SameLens h4)

/-- C26. A pointer that is consistent with a file node (its generation is
that of the node, and `extents[extentIdx]` at `extentOff` is the byte at its
offset), as are the pointers `seek`, `Read` and `Write` return: after any later
calls of `Write` with other pointers, of `Truncate`, of `pruneMemExtents` and
of `sync` on that node, if the generation of the pointer is still that of the
node then the pointer is consistent with the node as it is now: the lengths
of the extents before `extentIdx` plus `extentOff` are still its offset, and
`extentIdx` is `len(extents)` with `extentOff == 0` or `extents[extentIdx]` is
at least `extentOff` long. -/
theorem cached_pointer_stays_valid {σ : Type} (mbs : Int) (kc : keepClient σ)
    (fn fn1 : filenode) (hlater : Later mbs kc fn fn1) (ptr : filenodePtr)
    (hptr : ptr.Consistent fn) (hgen : ptr.repacked = fn1.repacked) :
    ptr.Consistent fn1 :=
  Consistent_of_Kept (Later_kept hlater) hptr hgen

theorem exRewritten_eq :
    filenode.Write 4 listKeep exTwoExtents [63]
        { off := 5, extentIdx := 0, extentOff := 0, repacked := -1 } exStore
      = .ok (1, { off := 6, extentIdx := 1, extentOff := 1, repacked := 0 }, none, exRewritten,
          exStore) := by
  rfl

theorem exRewrittenDir_sync :
    exRewrittenDir.sync 4 listKeep exStore
      = .ok (none, { exRewrittenDir with inodes := [([97], .file exRewrittenSynced)] },
          exStore ++ [[63, 33]]) := by
  rfl

theorem exRewrittenSynced_later : Later 4 listKeep exTwoExtents exRewrittenSynced :=
  Later.sync exRewrittenDir [97] exStore
    (Later.write [63] { off := 5, extentIdx := 0, extentOff := 0, repacked := -1 } exStore
      (Later.same exTwoExtents) exRewritten_eq)
    rfl exRewrittenDir_sync rfl

theorem exPtrInside_consistent : exPtrInside.Consistent exTwoExtents :=
  ⟨by decide, by decide, by decide, by decide,
    Or.inr ⟨.mem { buf := [33, 33], spare := [] }, by decide, by decide⟩⟩

theorem cached_pointer_stays_valid_witness :
    (exPtrInside.Consistent exTwoExtents ∧ Later 4 listKeep exTwoExtents exRewrittenSynced ∧
      exPtrInside.repacked = exRewrittenSynced.repacked) ∧
    exPtrInside.Consistent exRewrittenSynced :=
  ⟨⟨exPtrInside_consistent, exRewrittenSynced_later, by decide⟩,
    cached_pointer_stays_valid 4 listKeep exTwoExtents exRewrittenSynced exRewrittenSynced_later
      exPtrInside exPtrInside_consistent (by decide)⟩

set_option maxRecDepth 100000 in
/-- Scenario, with blocks of 4 bytes: a file of one stored extent of 5 bytes;
a handle holds the pointer for offset 5, the end of the file.  `Truncate(7)`
by another handle appends an extent and keeps the generation: the pointer is
consistent with the node, at the beginning of the new extent.  `Truncate(8)`
then grows that extent and the generation is one more: the pointer has to be
recomputed. -/
theorem pointer_after_Truncate_example :
    (exFile.seek { off := 5, extentIdx := 0, extentOff := 0, repacked := -1 })
      = .ok { off := 5, extentIdx := 1, extentOff := 0, repacked := 0 } ∧
    (filenode.Truncate 4 exFile 7).map
        (fun fn => (fn.repacked, fn.extents.map extent.Len)) = .ok (0, [5, 2]) ∧
    ((filenode.Truncate 4 exFile 7).bind (fun fn => filenode.Truncate 4 fn 8)).map
        (fun fn => (fn.repacked, fn.extents.map extent.Len)) = .ok (1, [5, 3]) := by
  exact ⟨by decide, by rfl, by rfl⟩

/-! ## `Write` does not look at locators -/

theorem bare_Len (e : extent) : e.bare.Len = e.Len := by
  cases e <;> rfl

theorem bare_writable (e : extent) : e.bare.writable = e.writable := by
  cases e <;> rfl

theorem bare_Slice (e : extent) (a b : Int) : e.bare.Slice a b = (e.Slice a b).map extent.bare := by
  cases e with
  | mem me =>
    simp only [extent.bare, extent.Slice]
    cases me.Slice a b <;> rfl
  | stored se => rfl

theorem bare_bare (e : extent) : e.bare.bare = e.bare := by
  cases e <;> rfl

theorem bare_eq_mem {e : extent} {me : memExtent} (h : e.bare = .mem me) : e = .mem me := by
  cases e with
  | mem m => simpa [extent.bare] using h
  | stored se => simp [extent.bare] at h

theorem index_map {α β : Type} (f : α → β) (xs : List α) (i : Int) :
    index (xs.map f) i = (index xs i).map f := by
  unfold index
  split
  · rfl
  · rw [List.getElem?_map]
    cases xs[i.toNat]? <;> rfl

theorem map_bare_Len (es : List extent) : (es.map extent.bare).map extent.Len = es.map extent.Len := by
  simp [Function.comp_def, bare_Len]

theorem sumLen_bare (es : List extent) : sumLen (es.map extent.bare) = sumLen es := by
  induction es with
  | nil => rfl
  | cons e t ih => simp only [List.map_cons, sumLen, ih, bare_Len]

theorem memLen_bare (es : List extent) : memLen (es.map extent.bare) = memLen es := by
  induction es with
  | nil => rfl
  | cons e t ih =>
    cases e with
    | mem me => simp only [List.map_cons, extent.bare, memLen, ih]
    | stored se => simp only [List.map_cons, extent.bare, memLen, ih]

theorem seekScan_bare (target : Int) : ∀ (es : List extent) (idx off : Int),
    seekScan target (es.map extent.bare) idx off = seekScan target es idx off := by
  intro es
  induction es with
  | nil => intro idx off; rfl
  | cons e t ih =>
    intro idx off
    simp only [List.map_cons, seekScan, bare_Len, ih]

theorem seek_bare (fn : filenode) (ptr : filenodePtr) : fn.bare.seek ptr = fn.seek ptr := by
  unfold filenode.seek
  simp only [filenode.bare, List.length_map, index_map, seekScan_bare]
  split
  · rfl
  · split
    · rfl
    · split
      · cases index fn.extents ptr.extentIdx with
        | error e => rfl
        | ok e => simp only [Except.map, bind, Except.bind, bare_Len]
      · rfl

theorem curWritable_bare (fn : filenode) (ptr : filenodePtr) :
    fn.bare.curWritable ptr = fn.curWritable ptr := by
  unfold filenode.curWritable
  simp only [filenode.bare, List.length_map, index_map]
  split
  · cases index fn.extents ptr.extentIdx with
    | error e => rfl
    | ok e => simp only [Except.map, bare_writable]
  · rfl

theorem prevAppendable_bare (mbs : Int) (fn : filenode) (ptr : filenodePtr) :
    fn.bare.prevAppendable mbs ptr = fn.prevAppendable mbs ptr := by
  unfold filenode.prevAppendable
  simp only [filenode.bare, index_map]
  split
  · cases index fn.extents (ptr.extentIdx - 1) with
    | error e => rfl
    | ok e => simp only [Except.map, bind, Except.bind, bare_Len, bare_writable]
  · rfl

theorem shrinkToPrev_bare (mbs : Int) (fn : filenode) (ptr : filenodePtr) (c : List Byte)
    (b : Bool) : fn.bare.shrinkToPrev mbs ptr c b = fn.shrinkToPrev mbs ptr c b := by
  unfold filenode.shrinkToPrev
  simp only [filenode.bare, index_map]
  split
  · cases index fn.extents (ptr.extentIdx - 1) with
    | error e => rfl
    | ok e => simp only [Except.map, bind, Except.bind, bare_Len]
  · rfl

theorem stepNext_bare (fn : filenode) (ptr : filenodePtr) :
    fn.bare.stepNext ptr = fn.stepNext ptr := by
  unfold filenode.stepNext
  simp only [filenode.bare, index_map]
  cases index fn.extents ptr.extentIdx with
  | error e => rfl
  | ok e => simp only [Except.map, bind, Except.bind, bare_Len]

theorem writeInPlace_bare (fn : filenode) (ptr : filenodePtr) (c : List Byte) :
    fn.bare.writeInPlace ptr c = (fn.writeInPlace ptr c).map WritePlan.bare := by
  unfold filenode.writeInPlace
  simp only [filenode.bare, index_map]
  cases index fn.extents ptr.extentIdx with
  | error e => rfl
  | ok e =>
    simp only [Except.map, bind, Except.bind, bare_Len]
    split
    · cases sliceTo c (e.Len - ptr.extentOff) <;> rfl
    · rfl

theorem writeSplit_bare (fn : filenode) (ptr : filenodePtr) (c : List Byte) :
    fn.bare.writeSplit ptr c = (fn.writeSplit ptr c).map WritePlan.bare := by
  unfold filenode.writeSplit
  simp only [filenode.bare, index_map]
  cases index fn.extents ptr.extentIdx with
  | error e => rfl
  | ok e =>
    simp only [Except.map, bind, Except.bind, bare_Len, bare_Slice]
    split
    · cases sliceTo c (e.Len - ptr.extentOff) with
      | error x => rfl
      | ok c1 =>
        simp only
        cases newMemExtent (c1.length : Int) with
        | error x => rfl
        | ok m =>
          simp only
          cases e.Slice 0 ptr.extentOff with
          | error x => rfl
          | ok left =>
            simp [Except.map, WritePlan.bare, filenode.bare, List.map_take, List.map_drop,
              extent.bare]
    · cases e.Slice (ptr.extentOff + c.length) (-1) with
      | error x => rfl
      | ok right =>
        simp only [Except.map]
        cases newMemExtent (c.length : Int) with
        | error x => rfl
        | ok m =>
          simp only
          cases e.Slice 0 ptr.extentOff with
          | error x => rfl
          | ok left =>
            simp [Except.map, WritePlan.bare, filenode.bare, List.map_take, List.map_drop,
              extent.bare]

theorem accountCur_bare (fn : filenode) (ptr : filenodePtr) (c : List Byte) :
    fn.bare.accountCur ptr c = (fn.accountCur ptr c).map (fun r => (r.1, r.2.bare)) := by
  unfold filenode.accountCur
  simp only [filenode.bare, index_map, List.length_map]
  split
  · rfl
  · cases index fn.extents ptr.extentIdx with
    | error e => rfl
    | ok e =>
      simp only [Except.map, bind, Except.bind, bare_Len, bare_Slice]
      split
      · cases sliceTo c e.Len with
        | error x => rfl
        | ok c1 =>
          simp [pure, Except.pure, List.map_take, List.map_drop]
      · cases e.Slice (c.length : Int) (-1) with
        | error x => rfl
        | ok rest =>
          simp [Except.map, pure, Except.pure, List.map_set]

theorem growOrInsert_bare (fn : filenode) (ptr : filenodePtr) (c : List Byte) (b : Bool) :
    fn.bare.growOrInsert ptr c b = (fn.growOrInsert ptr c b).map WritePlan.bare := by
  unfold filenode.growOrInsert
  simp only [filenode.bare, index_map, List.length_map]
  split
  · cases index fn.extents (ptr.extentIdx - 1) with
    | error e => rfl
    | ok e =>
      cases e with
      | stored se => rfl
      | mem me =>
        simp only [Except.map, bind, Except.bind, extent.bare]
        cases me.Truncate (me.Len + (c.length : Int)) with
        | error x => rfl
        | ok me1 =>
          simp [Except.map, WritePlan.bare, filenode.bare, List.map_set, extent.bare]
  · simp only [bind, Except.bind]
    cases newMemExtent (c.length : Int) with
    | error x => rfl
    | ok m =>
      simp only
      split
      · rfl
      · simp [Except.map, WritePlan.bare, filenode.bare, List.map_take, List.map_drop,
          extent.bare]

theorem writeBoundary_bare (mbs : Int) (fn : filenode) (ptr : filenodePtr) (c : List Byte)
    (b : Bool) :
    fn.bare.writeBoundary mbs ptr c b = (fn.writeBoundary mbs ptr c b).map WritePlan.bare := by
  unfold filenode.writeBoundary
  simp only [bind, Except.bind, shrinkToPrev_bare]
  cases fn.shrinkToPrev mbs ptr c b with
  | error x => rfl
  | ok c1 =>
    simp only [accountCur_bare]
    cases fn.accountCur ptr c1 with
    | error x => rfl
    | ok r =>
      obtain ⟨c2, fn2⟩ := r
      simp only [Except.map, growOrInsert_bare]

/-- The structural phase of a round of `Write` on the node without locators
is that on the node, without locators. -/
theorem writePlan_bare (mbs : Int) (fn : filenode) (ptr : filenodePtr) (p : List Byte) :
    fn.bare.writePlan mbs ptr p = (fn.writePlan mbs ptr p).map WritePlan.bare := by
  unfold filenode.writePlan
  simp only [bind, Except.bind, curWritable_bare, prevAppendable_bare]
  cases capCando mbs p with
  | error x => rfl
  | ok c =>
    simp only
    cases fn.curWritable ptr with
    | error x => rfl
    | ok cw =>
      simp only
      cases fn.prevAppendable mbs ptr with
      | error x => rfl
      | ok pa =>
        simp only
        split
        · exact writeSplit_bare fn ptr c
        · split
          · exact writeInPlace_bare fn ptr c
          · exact writeBoundary_bare mbs fn ptr c pa

/-! ## The store `Write` uploads to -/

theorem keeping_lawful {σ : Type} (kc : keepClient σ) : kc.keeping.Lawful where
  keeps := by
    intro s b loc x h
    simp only [keepClient.keeping] at h ⊢
    split at h
    · rename_i hmem
      simp only [Option.some.injEq] at h
      subst h
      have : loc ∈ (match (kc.PutB s.1 b).2 with
          | none => (((kc.PutB s.1 b).1, s.2), (none : Option Str))
          | some _ => (((kc.PutB s.1 b).1, b :: s.2), some b)).1.2 := by
        split
        · exact hmem
        · exact List.mem_cons_of_mem _ hmem
      rw [if_pos this]
    · cases h
  returns := by
    intro s b loc h
    simp only [keepClient.keeping] at h ⊢
    split at h
    · cases h
    · simp only [Option.some.injEq] at h
      subst h
      simp

theorem keeping_present {σ : Type} (kc : keepClient σ) (st : σ) (es : List extent) :
    Present kc.keeping (st, locators es) es := by
  intro se hse
  refine ⟨se.locator, ?_⟩
  have : se.locator ∈ locators es := by
    induction es with
    | nil => simp at hse
    | cons e t ih =>
      simp only [List.mem_cons] at hse
      cases e with
      | mem me =>
        rcases hse with hse | hse
        · cases hse
        · exact ih hse
      | stored s1 =>
        simp only [locators, List.mem_cons]
        rcases hse with hse | hse
        · simp only [extent.stored.injEq] at hse
          left; rw [hse]
        · right; exact ih hse
  simp only [keepClient.keeping]
  rw [if_pos this]

theorem bare_stored {e : extent} {se : storedExtent} (h : e.bare = .stored se) :
    ∃ s1, e = .stored s1 := by
  cases e with
  | mem m => simp [extent.bare] at h
  | stored s1 => exact ⟨s1, rfl⟩

/-- Pruning with the store of `kc` and with the store that keeps the blocks:
the same extents but for the locators, the same `memsize`, the same store of
`kc`. -/
theorem pruneExtents_keeping {σ : Type} (mbs : Int) (kc : keepClient σ) :
    ∀ (es es1 : List extent) (st : σ) (l : List (List Byte)) (m : Int),
      es.map extent.bare = es1.map extent.bare →
      (pruneExtents mbs kc es st m).1.map extent.bare
          = (pruneExtents mbs kc.keeping es1 (st, l) m).1.map extent.bare ∧
        (pruneExtents mbs kc es st m).2.1 = (pruneExtents mbs kc.keeping es1 (st, l) m).2.1.1 ∧
        (pruneExtents mbs kc es st m).2.2 = (pruneExtents mbs kc.keeping es1 (st, l) m).2.2 := by
  intro es
  induction es with
  | nil =>
    intro es1 st l m h
    cases es1 with
    | nil => exact ⟨rfl, rfl, rfl⟩
    | cons a t => simp at h
  | cons e t ih =>
    intro es1 st l m h
    cases es1 with
    | nil => simp at h
    | cons e1 t1 =>
      simp only [List.map_cons, List.cons.injEq] at h
      obtain ⟨he, ht⟩ := h
      cases e with
      | stored se =>
        obtain ⟨s1, hs1⟩ := bare_stored he.symm
        subst hs1
        obtain ⟨i1, i2, i3⟩ := ih t1 st l m ht
        simp only [pruneExtents, List.map_cons]
        exact ⟨by rw [i1, he], i2, i3⟩
      | mem me =>
        have he1 : e1 = .mem me := bare_eq_mem he.symm
        subst he1
        simp only [pruneExtents]
        by_cases hlen : me.Len < mbs
        · simp only [hlen, if_true, List.map_cons]
          obtain ⟨i1, i2, i3⟩ := ih t1 st l m ht
          exact ⟨by rw [i1], i2, i3⟩
        · simp only [hlen, if_false]
          cases hput : kc.PutB st me.buf with
          | mk st1 r =>
            cases r with
            | none =>
              have hk : kc.keeping.PutB (st, l) me.buf = ((st1, l), none) := by
                simp only [keepClient.keeping, hput]
              rw [hk]
              simp only [List.map_cons]
              obtain ⟨i1, i2, i3⟩ := ih t1 st1 l m ht
              exact ⟨by rw [i1], i2, i3⟩
            | some loc =>
              have hk : kc.keeping.PutB (st, l) me.buf = ((st1, me.buf :: l), some me.buf) := by
                simp only [keepClient.keeping, hput]
              rw [hk]
              simp only [List.map_cons]
              obtain ⟨i1, i2, i3⟩ := ih t1 st1 (me.buf :: l) (m - me.Len) ht
              exact ⟨by rw [i1]; rfl, i2, i3⟩

theorem stepNext_congr {fn fn1 : filenode} (h : fn.bare = fn1.bare) (ptr : filenodePtr) :
    fn.stepNext ptr = fn1.stepNext ptr := by
  rw [← stepNext_bare fn, h, stepNext_bare]

theorem bare_eq_iff (fn fn1 : filenode) :
    fn.bare = fn1.bare ↔ fn.fileinfo = fn1.fileinfo ∧
      fn.extents.map extent.bare = fn1.extents.map extent.bare ∧
      fn.repacked = fn1.repacked ∧ fn.memsize = fn1.memsize := by
  cases fn; cases fn1
  simp [filenode.bare]

theorem pruneMemExtents_keeping {σ : Type} (mbs : Int) (kc : keepClient σ) (fn fn1 : filenode)
    (st : σ) (l : List (List Byte)) (h : fn.bare = fn1.bare) :
    (fn.pruneMemExtents mbs kc st).1.bare = (fn1.pruneMemExtents mbs kc.keeping (st, l)).1.bare ∧
    (fn.pruneMemExtents mbs kc st).2 = (fn1.pruneMemExtents mbs kc.keeping (st, l)).2.1 := by
  obtain ⟨h1, h2, h3, h4⟩ := (bare_eq_iff fn fn1).1 h
  obtain ⟨i1, i2, i3⟩ := pruneExtents_keeping mbs kc fn.extents fn1.extents st l fn.memsize h2
  rw [h4] at i1 i2 i3
  refine ⟨?_, ?_⟩
  · rw [bare_eq_iff]
    simp only [filenode.pruneMemExtents]
    rw [h4]
    exact ⟨h1, i1, h3, i3⟩
  · simp only [filenode.pruneMemExtents]
    rw [h4]
    exact i2

/-- The copying phase of a round of `Write` with the store of `kc` and with
the store that keeps the blocks. -/
theorem writeCopy_keeping {σ : Type} (mbs : Int) (kc : keepClient σ) (plan plan1 : WritePlan)
    (p : List Byte) (st : σ) (l : List (List Byte)) (h : plan.bare = plan1.bare) :
    (filenode.writeCopy mbs kc plan p st).map
        (fun r => (r.1.bare, r.2.1, r.2.2.1, r.2.2.2.1, r.2.2.2.2))
      = (filenode.writeCopy mbs kc.keeping plan1 p (st, l)).map
        (fun r => (r.1.bare, r.2.1, r.2.2.1, r.2.2.2.1, r.2.2.2.2.1)) := by
  obtain ⟨c, fn, ptr⟩ := plan
  obtain ⟨c1, fn1, ptr1⟩ := plan1
  simp only [WritePlan.bare, WritePlan.mk.injEq] at h
  obtain ⟨hc, hfn, hptr⟩ := h
  subst hc hptr
  obtain ⟨h1, h2, h3, h4⟩ := (bare_eq_iff fn fn1).1 hfn
  have hidx : (index fn.extents ptr.extentIdx).map extent.bare
      = (index fn1.extents ptr.extentIdx).map extent.bare := by
    rw [← index_map, ← index_map, h2]
  unfold filenode.writeCopy
  simp only [bind, Except.bind]
  cases ha : index fn.extents ptr.extentIdx with
  | error x =>
    rw [ha] at hidx
    cases hb : index fn1.extents ptr.extentIdx with
    | error y =>
      rw [hb] at hidx
      simp only [Except.map, Except.error.injEq] at hidx
      subst hidx
      rfl
    | ok e1 => rw [hb] at hidx; cases hidx
  | ok e =>
    rw [ha] at hidx
    cases hb : index fn1.extents ptr.extentIdx with
    | error y => rw [hb] at hidx; cases hidx
    | ok e1 =>
      rw [hb] at hidx
      simp only [Except.map, Except.ok.injEq] at hidx
      cases e with
      | stored se =>
        obtain ⟨s1, hs1⟩ := bare_stored hidx.symm
        subst hs1
        rfl
      | mem me =>
        have he1 : e1 = .mem me := bare_eq_mem hidx.symm
        subst he1
        simp only
        cases me.WriteAt c ptr.extentOff with
        | error x => rfl
        | ok me1 =>
          simp only
          have hset : filenode.bare
                { fn with extents := fn.extents.set ptr.extentIdx.toNat (.mem me1) }
              = filenode.bare
                { fn1 with extents := fn1.extents.set ptr.extentIdx.toNat (.mem me1) } := by
            rw [bare_eq_iff]
            simp only [List.map_set]
            exact ⟨h1, by rw [h2], h3, h4⟩
          by_cases hfull : ptr.extentOff + (c.length : Int) ≥ mbs
          · simp only [hfull, if_true]
            obtain ⟨j1, j2⟩ := pruneMemExtents_keeping mbs kc _ _ st l hset
            rw [stepNext_congr j1]
            cases filenode.stepNext _ _ with
            | error x => rfl
            | ok q =>
              simp only [Except.map, Except.ok.injEq, Prod.mk.injEq, true_and]
              exact ⟨j1, j2⟩
          · simp only [hfull, if_false]
            rw [stepNext_congr hset]
            cases filenode.stepNext _ _ with
            | error x => rfl
            | ok q =>
              simp only [Except.map, Except.ok.injEq, Prod.mk.injEq, true_and, and_true]
              exact hset

theorem writeStep_keeping {σ : Type} (mbs : Int) (kc : keepClient σ) (fn fn1 : filenode)
    (ptr : filenodePtr) (p : List Byte) (st : σ) (l : List (List Byte)) (h : fn.bare = fn1.bare) :
    (fn.writeStep mbs kc ptr p st).map
        (fun r => (r.1.bare, r.2.1, r.2.2.1, r.2.2.2.1, r.2.2.2.2))
      = (fn1.writeStep mbs kc.keeping ptr p (st, l)).map
        (fun r => (r.1.bare, r.2.1, r.2.2.1, r.2.2.2.1, r.2.2.2.2.1)) := by
  have hplan : (fn.writePlan mbs ptr p).map WritePlan.bare
      = (fn1.writePlan mbs ptr p).map WritePlan.bare := by
    rw [← writePlan_bare, ← writePlan_bare, h]
  unfold filenode.writeStep
  simp only [bind, Except.bind]
  cases ha : fn.writePlan mbs ptr p with
  | error x =>
    rw [ha] at hplan
    cases hb : fn1.writePlan mbs ptr p with
    | error y =>
      rw [hb] at hplan
      simp only [Except.map, Except.error.injEq] at hplan
      subst hplan
      rfl
    | ok e1 => rw [hb] at hplan; cases hplan
  | ok plan =>
    rw [ha] at hplan
    cases hb : fn1.writePlan mbs ptr p with
    | error y => rw [hb] at hplan; cases hplan
    | ok plan1 =>
      rw [hb] at hplan
      simp only [Except.map, Except.ok.injEq] at hplan
      exact writeCopy_keeping mbs kc plan plan1 p st l hplan

/-- The loop of `Write` with the store of `kc` and with the store that keeps
the blocks: the same results, but for the locators. -/
theorem writeLoop_keeping {σ : Type} (mbs : Int) (kc : keepClient σ) :
    ∀ (fuel : Nat) (fn fn1 : filenode) (ptr : filenodePtr) (p : List Byte) (n : Int) (st : σ)
      (l : List (List Byte)), fn.bare = fn1.bare →
      (filenode.writeLoop mbs kc fuel fn ptr p n st).map
          (fun r => (r.1, r.2.1, r.2.2.1.bare, r.2.2.2))
        = (filenode.writeLoop mbs kc.keeping fuel fn1 ptr p n (st, l)).map
          (fun r => (r.1, r.2.1, r.2.2.1.bare, r.2.2.2.1)) := by
  intro fuel
  induction fuel with
  | zero =>
    intro fn fn1 ptr p n st l h
    unfold filenode.writeLoop
    split
    · rfl
    · simp only [Except.map, h]
  | succ k ih =>
    intro fn fn1 ptr p n st l h
    have hstep := writeStep_keeping mbs kc fn fn1 ptr p st l h
    rw [filenode.writeLoop, filenode.writeLoop]
    split
    · simp only [bind, Except.bind]
      cases ha : fn.writeStep mbs kc ptr p st with
      | error x =>
        rw [ha] at hstep
        cases hb : fn1.writeStep mbs kc.keeping ptr p (st, l) with
        | error y =>
          rw [hb] at hstep
          simp only [Except.map, Except.error.injEq] at hstep
          subst hstep
          rfl
        | ok e1 => rw [hb] at hstep; cases hstep
      | ok r =>
        rw [ha] at hstep
        cases hb : fn1.writeStep mbs kc.keeping ptr p (st, l) with
        | error y => rw [hb] at hstep; cases hstep
        | ok r1 =>
          rw [hb] at hstep
          obtain ⟨fn2, ptr2, p2, c2, st2⟩ := r
          obtain ⟨fn3, ptr3, p3, c3, st3, l3⟩ := r1
          simp only [Except.map, Except.ok.injEq, Prod.mk.injEq] at hstep
          obtain ⟨e1, e2, e3, e4, e5⟩ := hstep
          subst e2 e3 e4 e5
          exact ih fn2 fn3 ptr2 p2 (n + c2) st2 l3 e1
    · simp only [Except.map, h]

theorem Write_keeping {σ : Type} (mbs : Int) (kc : keepClient σ) (fn : filenode)
    (p : List Byte) (ptr : filenodePtr) (st : σ) (l : List (List Byte)) :
    (filenode.Write mbs kc fn p ptr st).map
        (fun r => (r.1, r.2.1, r.2.2.1, r.2.2.2.1.bare, r.2.2.2.2))
      = (filenode.Write mbs kc.keeping fn p ptr (st, l)).map
        (fun r => (r.1, r.2.1, r.2.2.1, r.2.2.2.1.bare, r.2.2.2.2.1)) := by
  unfold filenode.Write
  simp only [bind, Except.bind]
  cases fn.seek ptr with
  | error x => rfl
  | ok q =>
    simp only
    split
    · rfl
    · have hl := writeLoop_keeping mbs kc p.length fn fn q p 0 st l rfl
      cases ha : filenode.writeLoop mbs kc p.length fn q p 0 st with
      | error x =>
        rw [ha] at hl
        cases hb : filenode.writeLoop mbs kc.keeping p.length fn q p 0 (st, l) with
        | error y =>
          rw [hb] at hl
          simp only [Except.map, Except.error.injEq] at hl
          subst hl
          rfl
        | ok e1 => rw [hb] at hl; cases hl
      | ok r =>
        rw [ha] at hl
        cases hb : filenode.writeLoop mbs kc.keeping p.length fn q p 0 (st, l) with
        | error y => rw [hb] at hl; cases hl
        | ok r1 =>
          rw [hb] at hl
          obtain ⟨n2, ptr2, fn2, st2⟩ := r
          obtain ⟨n3, ptr3, fn3, st3, l3⟩ := r1
          simp only [Except.map, Except.ok.injEq, Prod.mk.injEq] at hl ⊢
          obtain ⟨e1, e2, e3, e4⟩ := hl
          exact ⟨e1, e2, trivial, e3, e4⟩

/-! ## The structure of a file node after `Write`, for any store -/

theorem lens_of_bare_eq {fn fn1 : filenode} (h : fn.bare = fn1.bare) :
    fn.extents.map extent.Len = fn1.extents.map extent.Len := by
  have h2 := ((bare_eq_iff fn fn1).1 h).2.1
  rw [← map_bare_Len fn.extents, h2, map_bare_Len]

theorem Inv_of_bare_eq {mbs : Int} {fn fn1 : filenode} (h : fn.bare = fn1.bare)
    (hinv : fn1.Inv mbs) : fn.Inv mbs := by
  obtain ⟨h1, h2, h3, h4⟩ := (bare_eq_iff fn fn1).1 h
  refine ⟨?_, ?_⟩
  · rw [h1, hinv.1, ← sumLen_bare fn.extents, h2, sumLen_bare]
  · intro e he
    have : e.bare ∈ fn1.extents.map extent.bare := by
      rw [← h2]
      exact List.mem_map_of_mem _ he
    obtain ⟨e1, he1, hb⟩ := List.mem_map.1 this
    have hs := hinv.2 e1 he1
    rw [← bare_Len e, ← bare_writable e, ← hb, bare_Len, bare_writable]
    exact hs

theorem SpareZero_of_bare_eq {fn fn1 : filenode} (h : fn.bare = fn1.bare)
    (hs : SpareZero fn1.extents) : SpareZero fn.extents := by
  obtain ⟨h1, h2, h3, h4⟩ := (bare_eq_iff fn fn1).1 h
  intro me hme
  have : extent.bare (.mem me) ∈ fn1.extents.map extent.bare := by
    rw [← h2]
    exact List.mem_map_of_mem _ hme
  obtain ⟨e1, he1, hb⟩ := List.mem_map.1 this
  have := bare_eq_mem hb
  subst this
  exact hs me he1

theorem Seeked_of_bare_eq {fn fn1 : filenode} {ptr : filenodePtr} (h : fn.bare = fn1.bare)
    (hs : ptr.Seeked fn1) : ptr.Seeked fn := by
  obtain ⟨h1, h2, h3, h4⟩ := (bare_eq_iff fn fn1).1 h
  have hl : fn.extents.map extent.Len = fn1.extents.map extent.Len ++ [] := by
    rw [List.append_nil]
    exact lens_of_bare_eq h
  have hlen : fn.extents.length = fn1.extents.length := by
    have := congrArg List.length hl
    simpa using this
  obtain ⟨c0, c1, c2, c3, c4⟩ := hs
  have hidx : ptr.extentIdx.toNat ≤ fn1.extents.length := by
    rcases c4 with ⟨c5, _⟩ | ⟨e, c5, _⟩
    · omega
    · exact le_of_lt (List.getElem?_eq_some_iff.1 c5).1
  refine ⟨by rw [c0, h3], c1, c2, ?_, ?_⟩
  · rw [sumLen_take_of_lens _ _ [] _ hl hidx]
    exact c3
  · rcases c4 with ⟨c5, c6⟩ | ⟨e, c5, c6⟩
    · left
      exact ⟨by rw [hlen]; exact c5, c6⟩
    · right
      obtain ⟨e1, i1, i2⟩ := getElem?_of_lens _ _ [] _ e hl c5
      exact ⟨e1, i1, by omega⟩

/-- On a file node that satisfies the invariants, with any blob store, for a
pointer with offset `o ≥ 0` that is stale or consistent and any bytes `p`:
`Write(p, ptr)` returns `len(p)` and a nil error, the invariants still hold,
the pointer returned is as `seek` would leave it, at offset
`min(o, old size) + len(p)`, and `memsize` is still the sum of the lengths of
the memory extents if it was. -/
theorem Write_structure {σ : Type} (kc : keepClient σ) (mbs : Int) (hmbs : 0 < mbs)
    (fn : filenode) (hinv : fn.Inv mbs) (st : σ) (ptr : filenodePtr) (h0 : 0 ≤ ptr.off)
    (hptr : ptr.Stale fn ∨ ptr.Consistent fn) (p : List Byte) :
    ∃ ptr1 fn1 st1,
      filenode.Write mbs kc fn p ptr st = .ok ((p.length : Int), ptr1, none, fn1, st1) ∧
      fn1.Inv mbs ∧ ptr1.Seeked fn1 ∧
      ptr1.off = min ptr.off fn.fileinfo.size + p.length ∧
      fn1.fileinfo.size = max fn.fileinfo.size (min ptr.off fn.fileinfo.size + p.length) ∧
      (fn.memsize = memLen fn.extents → fn1.memsize = memLen fn1.extents) ∧
      (SpareZero fn.extents → SpareZero fn1.extents) ∧ fn.repacked ≤ fn1.repacked := by
  obtain ⟨q, hq1, hq2, hq3⟩ := seek_spec mbs fn hinv ptr h0 hptr
  obtain ⟨ptr1, fn1, st1, h1, h2⟩ := writeLoop_spec kc.keeping (keeping_lawful kc) mbs hmbs
    p.length p fn q 0 (st, locators fn.extents) (le_refl _) hinv
    (keeping_present kc st fn.extents) hq2
  have hq0 : ¬ q.off < 0 := by
    have := (Seeked_off_le hinv hq2).1
    omega
  have hk : filenode.Write mbs kc.keeping fn p ptr (st, locators fn.extents)
      = .ok ((p.length : Int), ptr1, none, fn1, st1) := by
    unfold filenode.Write
    simp only [bind, Except.bind, hq1, if_neg hq0, h1, zero_add]
  have hsim := Write_keeping mbs kc fn p ptr st (locators fn.extents)
  rw [hk] at hsim
  cases hw : filenode.Write mbs kc fn p ptr st with
  | error x => rw [hw] at hsim; cases hsim
  | ok r =>
    rw [hw] at hsim
    obtain ⟨n2, ptr2, err2, fn2, st2⟩ := r
    simp only [Except.map, Except.ok.injEq, Prod.mk.injEq] at hsim
    obtain ⟨e1, e2, e3, e4, e5⟩ := hsim
    subst e1 e2 e3
    have hb := (bare_eq_iff fn2 fn1).1 e4
    refine ⟨ptr2, fn2, st2, rfl, Inv_of_bare_eq e4 h2.inv, Seeked_of_bare_eq e4 h2.seeked, ?_, ?_,
      ?_, ?_, ?_⟩
    · rw [h2.off, hq3]
    · rw [hb.1, h2.sizeMax, hq3]
    · intro hm
      rw [hb.2.2.2, h2.memsize hm, ← memLen_bare fn1.extents, ← hb.2.1, memLen_bare]
    · intro hs
      exact SpareZero_of_bare_eq e4 (h2.spare hs)
    · rw [hb.2.2.1]
      exact h2.genStep

/-- Every reachable file node, with any blob store, satisfies the invariants,
its spare bytes are zero, and `memsize` is the sum of the lengths of its memory
extents. -/
theorem Reachable_sound {σ : Type} (kc : keepClient σ) (mbs : Int) (hmbs : 0 < mbs)
    (fn : filenode) (st : σ) (hr : Reachable mbs kc fn st) :
    fn.Inv mbs ∧ SpareZero fn.extents ∧ fn.memsize = memLen fn.extents := by
  induction hr with
  | empty name st =>
    exact ⟨(emptyFile_inv mbs name).1, (emptyFile_inv mbs name).2, rfl⟩
  | write p ptr hr hptr hw ih =>
    rename_i fn st n ptr1 err fn1 st1
    obtain ⟨i1, i2, i4⟩ := ih
    by_cases hneg : ptr.off < 0
    · have hseek : fn.seek ptr = .ok ptr := by
        unfold filenode.seek
        rw [if_pos hneg]
      unfold filenode.Write at hw
      simp only [bind, Except.bind, hseek, if_pos hneg] at hw
      simp only [Except.ok.injEq, Prod.mk.injEq] at hw
      obtain ⟨_, _, _, h4, h5⟩ := hw
      subst h4 h5
      exact ⟨i1, i2, i4⟩
    · obtain ⟨ptr2, fn2, st2, h1, h2, _, _, _, h3, h4, _⟩ :=
        Write_structure kc mbs hmbs fn i1 st ptr (by omega) hptr p
      rw [h1] at hw
      simp only [Except.ok.injEq, Prod.mk.injEq] at hw
      obtain ⟨_, _, _, h5, _⟩ := hw
      subst h5
      exact ⟨h2, h4 i2, h3 i4⟩
  | truncate size hr h0 ht ih =>
    rename_i fn st fn1
    obtain ⟨i1, i2, i4⟩ := ih
    obtain ⟨fn2, h1, h2⟩ := Truncate_spec_of_inv kc st mbs hmbs fn i1 i2 size h0
    rw [h1] at ht
    simp only [Except.ok.injEq] at ht
    subst ht
    exact ⟨h2.inv, h2.spare, h2.memsize i4⟩

/-! ## The invariants after `Write` -/

/-- C21. On a file node that satisfies the invariants (size = sum of the
extent lengths, `memsize` = sum of the lengths of the memory extents, every
extent of positive length, every memory extent at most `maxBlockSize` long),
with any blob store, for a pointer with offset `o ≥ 0` that is stale or
consistent and any bytes `p`: `Write(p, ptr)` returns, and the size of the node
is then the sum of the lengths of its extents and its `memsize` the sum of the
lengths of its memory extents. -/
theorem Write_keeps_size_and_memsize {σ : Type} (kc : keepClient σ) (mbs : Int)
    (hmbs : 0 < mbs) (fn : filenode) (hinv : fn.Inv mbs)
    (hmem : fn.memsize = memLen fn.extents) (st : σ) (ptr : filenodePtr) (h0 : 0 ≤ ptr.off)
    (hptr : ptr.Stale fn ∨ ptr.Consistent fn) (p : List Byte) :
    ∃ n ptr1 err fn1 st1,
      filenode.Write mbs kc fn p ptr st = .ok (n, ptr1, err, fn1, st1) ∧
      fn1.fileinfo.size = sumLen fn1.extents ∧ fn1.memsize = memLen fn1.extents := by
  obtain ⟨ptr1, fn1, st1, h1, h2, _, _, _, h3, _⟩ :=
    Write_structure kc mbs hmbs fn hinv st ptr h0 hptr p
  exact ⟨p.length, ptr1, none, fn1, st1, h1, h2.1, h3 hmem⟩

theorem Write_keeps_size_and_memsize_witness :
    ((0 : Int) < 4 ∧ exGrown.Inv 4 ∧ exGrown.memsize = memLen exGrown.extents ∧ (0 : Int) ≤ 2 ∧
      (filenodePtr.Stale { off := 2, extentIdx := 0, extentOff := 0, repacked := -1 } exGrown ∨
        filenodePtr.Consistent { off := 2, extentIdx := 0, extentOff := 0, repacked := -1 }
          exGrown)) ∧
    ∃ n ptr1 err fn1 st1,
      filenode.Write 4 deadKeep exGrown [65, 66]
          { off := 2, extentIdx := 0, extentOff := 0, repacked := -1 } ()
        = .ok (n, ptr1, err, fn1, st1) ∧
      fn1.fileinfo.size = sumLen fn1.extents ∧ fn1.memsize = memLen fn1.extents :=
  have h := Reachable_sound listKeep 4 (by decide) exGrown [] exGrown_reachable
  ⟨⟨by decide, h.1, h.2.2, by decide, exGrown_stale⟩,
    Write_keeps_size_and_memsize deadKeep 4 (by decide) exGrown h.1 h.2.2 ()
      { off := 2, extentIdx := 0, extentOff := 0, repacked := -1 } (by decide)
      exGrown_stale [65, 66]⟩

/-! ## The pointer `Write` returns -/

/-- C24. On a file node that satisfies the invariants, with any blob store,
for a pointer with offset `o ≥ 0` that is stale or consistent and any bytes
`p`: `Write(p, ptr)` returns `n = len(p)`, a nil error and a pointer whose
offset is `min(o, old size) + len(p)`, whose generation is that of the node
after the call, and whose `extentIdx` and `extentOff` decompose that offset in
the extents of the node after the call: the lengths of the extents before
`extentIdx` plus `extentOff` are the offset, with `extentIdx == len(extents)`
and `extentOff == 0`, or with `extents[extentIdx]` longer than `extentOff`. -/
theorem Write_returns_pointer_after_last_byte {σ : Type} (kc : keepClient σ) (mbs : Int)
    (hmbs : 0 < mbs) (fn : filenode) (hinv : fn.Inv mbs) (st : σ) (ptr : filenodePtr)
    (h0 : 0 ≤ ptr.off) (hptr : ptr.Stale fn ∨ ptr.Consistent fn) (p : List Byte) :
    ∃ ptr1 fn1 st1,
      filenode.Write mbs kc fn p ptr st = .ok ((p.length : Int), ptr1, none, fn1, st1) ∧
      ptr1.off = min ptr.off fn.fileinfo.size + p.length ∧
      ptr1.repacked = fn1.repacked ∧ 0 ≤ ptr1.extentIdx ∧ 0 ≤ ptr1.extentOff ∧
      sumLen (fn1.extents.take ptr1.extentIdx.toNat) + ptr1.extentOff = ptr1.off ∧
      ((ptr1.extentIdx = fn1.extents.length ∧ ptr1.extentOff = 0) ∨
        ∃ e, fn1.extents[ptr1.extentIdx.toNat]? = some e ∧ ptr1.extentOff < e.Len) := by
  obtain ⟨ptr1, fn1, st1, h1, _, h2, h3, _⟩ :=
    Write_structure kc mbs hmbs fn hinv st ptr h0 hptr p
  exact ⟨ptr1, fn1, st1, h1, h3, h2⟩

theorem Write_returns_pointer_after_last_byte_witness :
    ((0 : Int) < 4 ∧ exFile.Inv 4 ∧ 0 ≤ exPtr.off ∧
      (exPtr.Stale exFile ∨ exPtr.Consistent exFile)) ∧
    ∃ ptr1 fn1 st1,
      filenode.Write 4 listKeep exFile [88, 89, 90] exPtr exStore
        = .ok ((([88, 89, 90] : List Byte).length : Int), ptr1, none, fn1, st1) ∧
      ptr1.off = min exPtr.off exFile.fileinfo.size + (([88, 89, 90] : List Byte).length : Int) ∧
      ptr1.repacked = fn1.repacked ∧ 0 ≤ ptr1.extentIdx ∧ 0 ≤ ptr1.extentOff ∧
      sumLen (fn1.extents.take ptr1.extentIdx.toNat) + ptr1.extentOff = ptr1.off ∧
      ((ptr1.extentIdx = fn1.extents.length ∧ ptr1.extentOff = 0) ∨
        ∃ e, fn1.extents[ptr1.extentIdx.toNat]? = some e ∧ ptr1.extentOff < e.Len) :=
  ⟨⟨by decide, exFile_inv, by decide, Or.inl (by unfold filenodePtr.Stale; decide)⟩,
    Write_returns_pointer_after_last_byte listKeep 4 (by decide) exFile exFile_inv exStore exPtr
      (by decide) (Or.inl (by unfold filenodePtr.Stale; decide)) [88, 89, 90]⟩

/-! ## The extents of a reachable file node -/

/-- C22. In every file node reachable from an empty file by `Write` calls
(with a pointer that is stale or consistent) and `Truncate` calls with a
non-negative size, with any blob store, every extent has length greater than
zero and every memory extent has length at most `maxBlockSize`. -/
theorem Reachable_extents_sound {σ : Type} (kc : keepClient σ) (mbs : Int) (hmbs : 0 < mbs)
    (fn : filenode) (st : σ) (hr : Reachable mbs kc fn st) :
    ∀ e ∈ fn.extents, 0 < e.Len ∧ ∀ me, e = .mem me → me.Len ≤ mbs := by
  obtain ⟨i1, _, _⟩ := Reachable_sound kc mbs hmbs fn st hr
  intro e he
  obtain ⟨h1, h2⟩ := i1.2 e he
  refine ⟨h1, ?_⟩
  intro me hme
  subst hme
  exact h2 rfl

theorem Reachable_extents_sound_witness :
    ((0 : Int) < 4 ∧ Reachable 4 listKeep exWritten.1 exWritten.2) ∧
    ∀ e ∈ exWritten.1.extents, 0 < e.Len ∧ ∀ me, e = .mem me → me.Len ≤ 4 :=
  ⟨⟨by decide, exWritten_reachable⟩,
    Reachable_extents_sound listKeep 4 (by decide) exWritten.1 exWritten.2 exWritten_reachable⟩

/-! ## The pointers `seek`, `Read` and `Write` return -/

/-- The pointers `seek`, `Read` and `Write` return, for a start pointer with a
non-negative offset that is stale or consistent on a node that satisfies the
invariants, are consistent with the node as the call leaves it. -/
theorem returned_pointer_consistent {σ : Type} (kc : keepClient σ) (mbs : Int) (fn : filenode)
    (hinv : fn.Inv mbs) (ptr : filenodePtr) (h0 : 0 ≤ ptr.off)
    (hptr : ptr.Stale fn ∨ ptr.Consistent fn) :
    (∀ q, fn.seek ptr = .ok q → q.Consistent fn) ∧
    (∀ (st : σ) (readAt : BlockReader) (k : Nat) data q err, ReadsSucceed kc st readAt →
      Windowed kc st fn.extents → 0 < k → fn.Read readAt k ptr = .ok (data, q, err) →
      q.Consistent fn) ∧
    (∀ (st : σ) p n q err fn1 st1, 0 < mbs →
      filenode.Write mbs kc fn p ptr st = .ok (n, q, err, fn1, st1) → q.Consistent fn1) := by
  obtain ⟨q0, hq1, hq2, hq3⟩ := seek_spec mbs fn hinv ptr h0 hptr
  refine ⟨?_, ?_, ?_⟩
  · intro q hq
    rw [hq1] at hq
    simp only [Except.ok.injEq] at hq
    subst hq
    exact Seeked_consistent hq2
  · intro st readAt k data q err hread hwin hk hr
    by_cases hge : fn.fileinfo.size ≤ ptr.off
    · have hq0 : ¬ q0.off < 0 := by
        have := (Seeked_off_le hinv hq2).1
        omega
      have hend : q0.extentIdx = fn.extents.length :=
        (Seeked_end_iff hinv hq2).2 (by rw [hq3]; omega)
      unfold filenode.Read at hr
      simp only [bind, Except.bind, hq1, if_neg hq0, hend, ge_iff_le, le_refl, if_true,
        Except.ok.injEq, Prod.mk.injEq] at hr
      rw [← hr.2.1]
      exact Seeked_consistent hq2
    · obtain ⟨data1, q1, err1, pre, e, post, h1, _, _, _, _, _, _, _, hc, _⟩ :=
        Read_inside kc st readAt hread mbs fn hinv hwin ptr h0 hptr k hk (by omega)
      rw [h1] at hr
      simp only [Except.ok.injEq, Prod.mk.injEq] at hr
      rw [← hr.2.1]
      exact hc
  · intro st p n q err fn1 st1 hmbs hw
    obtain ⟨ptr1, fn2, st2, h1, _, h2, _⟩ :=
      Write_structure kc mbs hmbs fn hinv st ptr h0 hptr p
    rw [h1] at hw
    simp only [Except.ok.injEq, Prod.mk.injEq] at hw
    obtain ⟨_, h3, _, h4, _⟩ := hw
    subst h3 h4
    exact Seeked_consistent h2

/-! ## The round trip of a tree with memory extents -/

theorem ParseInt_32_lt (s : Str) (n : Int) (h : ParseInt s 32 = some n) : n < 2 ^ 31 := by
  cases s with
  | nil => simp [ParseInt] at h
  | cons c cs =>
    simp only [ParseInt] at h
    repeat' split at h
    all_goals (try contradiction)
    all_goals simp only [Option.some.injEq] at h
    all_goals subst h
    all_goals simp only [Nat.reducePow, Nat.reduceSub] at *
    all_goals omega

theorem goodLocator_size (loc : Str) (h : GoodLocator loc) :
    0 ≤ locatorSize loc ∧ locatorSize loc < 2 ^ 31 := by
  obtain ⟨_, _, _, _, n, hn, h0⟩ := h
  unfold locatorSize
  rw [hn]
  exact ⟨h0, ParseInt_32_lt _ n hn⟩

theorem sum_le_of_get (f g : extent → Int) :
    ∀ (es es1 : List extent), es1.length = es.length →
      (∀ (i : Nat) (e e1 : extent), es[i]? = some e → es1[i]? = some e1 → g e1 ≤ f e) →
      (es1.map g).sum ≤ (es.map f).sum := by
  intro es
  induction es with
  | nil =>
    intro es1 hl _
    have : es1 = [] := List.length_eq_zero.1 hl
    subst this; simp
  | cons e rest ih =>
    intro es1 hl h
    cases es1 with
    | nil => simp at hl
    | cons e1 rest1 =>
      simp only [List.map_cons, List.sum_cons]
      have h1 := h 0 e e1 (by simp) (by simp)
      have h2 := ih rest1 (by simpa using hl)
        (fun i x x1 hx hx1 => h (i + 1) x x1 (by simpa using hx) (by simpa using hx1))
      omega

/-- What `sync` makes of a directory of fair files, for a lawful blob client
whose locators state the block size: when it returns nil, every file is a
good file that holds the bytes it held. -/
theorem sync_fair {σ : Type} (kc : keepClient σ) (hkc : kc.Lawful) (hloc : StatesSize kc)
    (mbs : Int) (dn : dirnode) (st : σ)
    (hfiles : ∀ name fn, mapGet dn.inodes name = some (.file fn) → FairFile name fn) :
    ∃ err dn1 st1, dn.sync mbs kc st = .ok (err, dn1, st1) ∧ DirRel dn dn1 ∧
      kc.Extends st st1 ∧ (∀ e, err = some e → UploadError kc dn e) ∧
      (err = none → ∀ name fn, mapGet dn.inodes name = some (.file fn) →
        ∃ fn1, mapGet dn1.inodes name = some (.file fn1) ∧ GoodFile name fn1 ∧
          (fn1.extents.map extent.blockSize).sum ≤ (fn.extents.map extent.blockBound).sum ∧
          ∀ st2, kc.Extends st1 st2 → fn1.content kc st2 = fn.content kc st2) := by
  obtain ⟨err, dn1, st1, done, hrun, hpost, hnone, herr, _⟩ := sync_spec kc hkc mbs dn st
  refine ⟨err, dn1, st1, hrun, hpost.rel, hpost.ext, ?_, ?_⟩
  · intro e he
    obtain ⟨h1, F, st2, bufs, h3, h4, _, h5, h2⟩ := herr e he
    exact ⟨h1, [], dn, F, st2, bufs, getDir_nil dn, h3, h4, h5, by rw [h2]⟩
  intro hn name fn hfn
  have hcover := hnone hn
  obtain ⟨fn1, hfn1, hrel⟩ := (hpost.rel.2.2 name).2.2 fn hfn
  obtain ⟨hname, hmode, hst⟩ := hfiles name fn hfn
  have hlen : fn1.extents.length = fn.extents.length := hrel.2.2.1
  have hat : ∀ (i : Nat) (e : extent), fn.extents[i]? = some e →
      ∃ se, fn1.extents[i]? = some (extent.stored se) ∧ GoodLocator se.locator ∧
        se.WindowOk locatorSize ∧ se.size ≤ e.blockBound ∧
        ∀ st2, kc.Extends st1 st2 → (extent.stored se).bytes kc st2 = e.bytes kc st2 := by
    intro i e hi
    have he : extentAt dn ⟨name, i⟩ = some e := (extentAt_eq_some _ _ _).2 ⟨fn, hfn, hi⟩
    have hback : ∀ e1, extentAt dn1 ⟨name, i⟩ = some e1 → fn1.extents[i]? = some e1 := by
      intro e1 h1
      obtain ⟨fn2, h4, h5⟩ := (extentAt_eq_some _ _ _).1 h1
      rw [hfn1] at h4
      simp only [Option.some.injEq, inode.file.injEq] at h4
      subst h4
      exact h5
    cases e with
    | stored se =>
      have hout : ¬ Inside done ⟨name, i⟩ := by
        rintro ⟨B, hB, hsb⟩
        obtain ⟨_, bufs, hb, _⟩ := hpost.laid B hB
        obtain ⟨j, hj⟩ := List.getElem?_of_mem hsb
        obtain ⟨me, h1, _⟩ := Bufs_get dn B.1 bufs hb j _ hj
        rw [he] at h1; cases h1
      obtain ⟨g1, g2⟩ := hst se (List.getElem?_mem hi)
      exact ⟨se, hback _ (by rw [hpost.same _ hout]; exact he), g1, g2, le_refl _,
        fun _ _ => rfl⟩
    | mem me =>
      obtain ⟨B, hB, hsb⟩ := hcover _ me he
      obtain ⟨_, bufs, hb, ⟨st3, hput⟩, hget, hat⟩ := hpost.laid B hB
      obtain ⟨j, hj⟩ := List.getElem?_of_mem hsb
      obtain ⟨me1, h1, h2⟩ := Bufs_get dn B.1 bufs hb j _ hj
      rw [he] at h1
      simp only [Option.some.injEq, extent.mem.injEq] at h1
      subst h1
      have hgd : bufs.getD j [] = me.buf := by
        simp [List.getD_eq_getElem?_getD, h2]
      obtain ⟨w1, w2⟩ := flatten_window bufs j me.buf h2
      have hat1 := hat j _ hj
      rw [hgd] at hat1
      obtain ⟨l1, l2⟩ := hloc st3 bufs.flatten B.2 hput
      obtain ⟨l3, l4⟩ := goodLocator_size B.2 l1
      refine ⟨_, hback _ hat1, l1, ⟨l2.symm, Int.natCast_nonneg _, Int.natCast_nonneg _, ?_⟩,
        ?_, ?_⟩
      · simp only; omega
      · simp only [extent.blockBound]
        rw [← l2]; exact le_of_lt l4
      · intro st2 hx
        rw [stored_bytes_window kc st2 _ bufs.flatten (hx _ _ hget) (Int.natCast_nonneg _)
          (by simp only; omega)]
        simp only [Int.toNat_ofNat, extent.bytes]
        rw [w1]
  have hgood : GoodFile name fn1 := by
    refine ⟨by rw [hrel.1]; exact hname, by rw [hrel.1]; exact hmode, ?_⟩
    intro e he
    obtain ⟨i, hi⟩ := List.getElem?_of_mem he
    have hlt : i < fn.extents.length := by
      rw [← hlen]; exact (List.getElem?_eq_some_iff.1 hi).1
    obtain ⟨se, h1, h2, h3, _⟩ := hat i _ (List.getElem?_eq_getElem hlt)
    rw [hi] at h1
    simp only [Option.some.injEq] at h1
    exact ⟨se, h1, h2, h3⟩
  refine ⟨fn1, hfn1, hgood, ?_, ?_⟩
  · apply sum_le_of_get extent.blockBound extent.blockSize fn.extents fn1.extents hlen
    intro i e e1 hi hi1
    obtain ⟨se, h1, _, _, h4, _⟩ := hat i e hi
    rw [hi1] at h1
    simp only [Option.some.injEq] at h1
    subst h1
    exact h4
  · intro st2 hx
    apply extentsBytes_congr kc st2 st2 fn.extents fn1.extents hlen
    intro i e e1 hi hi1
    obtain ⟨se, h1, _, _, _, h5⟩ := hat i e hi
    rw [hi1] at h1
    simp only [Option.some.injEq] at h1
    subst h1
    exact h5 st2 hx

theorem SameBytes_mono {σ : Type} {kc : keepClient σ} {a b : σ} (hx : kc.Extends a b)
    (x y : Option inode) (h : SameBytes kc a x y) : SameBytes kc b x y := by
  rcases x with _ | f | d <;> rcases y with _ | g | e
  · trivial
  · exact h.elim
  · exact h.elim
  · exact h.elim
  · obtain ⟨h1, h2, h3⟩ := h
    exact ⟨h1, h2, fun st2 h4 => h3 st2 (Extends_trans hx h4)⟩
  · exact h.elim
  · exact h.elim
  · exact h.elim
  · exact h

theorem SameBytes_refl {σ : Type} (kc : keepClient σ) (st : σ) (x : Option inode) :
    SameBytes kc st x x := by
  cases x with
  | none => trivial
  | some u =>
    cases u with
    | file f => exact ⟨rfl, rfl, fun _ _ => rfl⟩
    | dir d => exact ⟨rfl, rfl⟩

theorem TreeSynced_mono {σ : Type} {kc : keepClient σ} {a b : σ} (hx : kc.Extends a b)
    (D D1 : dirnode) (h : TreeSynced kc a D D1) : TreeSynced kc b D D1 :=
  fun q => SameBytes_mono hx _ _ (h q)

/-- The loop over the names of `marshalManifest` on a directory `sync` has
left without memory extents, for a tree whose files may hold memory
extents. -/
theorem names_first {σ : Type} (mbs : Int) (kc : keepClient σ) (fuel : Nat)
    (ih : FirstRun mbs kc fuel) (D1 : dirnode) (pfx : Str)
    (hsub : ∀ n c, mapGet D1.inodes n = some (.dir c) →
      FairSub c ∧ inode.depth (.dir c) ≤ fuel)
    (hfiles : ∀ n fn, mapGet D1.inodes n = some (.file fn) →
      ∀ e ∈ fn.extents, ∃ se, e = extent.stored se)
    (names : List Str) :
    ∀ (done : List Str) (s : MarshalState σ), (done ++ names).Nodup →
      (∀ n ∈ names, n ∈ sortedNames D1.inodes) → MarshalInv kc D1 done s →
      ∃ err s1, marshalNames (marshalManifestFuel mbs kc fuel) pfx names s = .ok (err, s1) ∧
        kc.Extends s.st s1.st ∧
        (∀ e, err = some e → ∃ n c, mapGet D1.inodes n = some (.dir c) ∧ UploadError kc c e) ∧
        (err = none → MarshalInv kc D1 (done ++ names) s1 ∧
          (∀ m, m ∉ names → mapGet s1.dn.inodes m = mapGet s.dn.inodes m) ∧
          ∃ X, s1.subdirs = s.subdirs ++ X ∧
            ∀ s2 : MarshalState σ, s2.stream = s.stream →
              (∀ n ∈ names, mapGet s2.dn.inodes n = mapGet s1.dn.inodes n) →
              marshalNames (marshalManifestFuel mbs kc fuel) pfx names s2 =
                .ok (none, { stream := s1.stream, subdirs := s2.subdirs ++ X, dn := s2.dn,
                             st := s2.st })) := by
  induction names with
  | nil =>
    intro done s _ _ hinv
    refine ⟨none, s, by simp [marshalNames], Extends_refl kc _, by simp, ?_⟩
    intro _
    refine ⟨by simpa using hinv, fun _ _ => rfl, [], by simp, ?_⟩
    intro s2 hs2 _
    obtain ⟨a, b, c, d⟩ := s2
    simp only at hs2
    subst hs2
    simp [marshalNames]
  | cons n rest ih2 =>
    intro done s hnd hmem hinv
    obtain ⟨x, hx⟩ := (mem_sortedNames _ n).mp (hmem n (by simp))
    have hnd2 : ((done ++ [n]) ++ rest).Nodup := by simpa using hnd
    have hnotin : n ∉ done := by
      intro hmem2
      have := List.nodup_append.mp hnd
      exact this.2.2 hmem2 (by simp)
    have hnr : n ∉ rest := by
      have := (List.nodup_append.mp hnd).2.1
      exact (List.nodup_cons.mp this).1
    have hmem2 : ∀ m ∈ rest, m ∈ sortedNames D1.inodes := fun m hm => hmem m (by simp [hm])
    cases x with
    | file fn =>
      have hsn := hinv.files n fn hx
      obtain ⟨stream1, hmf⟩ := marshalFile_total n fn s.stream (hfiles n fn hx)
      have hinv2 : MarshalInv kc D1 (done ++ [n])
          { stream := stream1, subdirs := s.subdirs, dn := s.dn, st := s.st } :=
        { info := hinv.info, keys := hinv.keys, files := hinv.files,
          dirs := by
            intro m c hm
            obtain ⟨c1, h1, h2, h3⟩ := hinv.dirs m c hm
            refine ⟨c1, h1, fun hn => h2 (fun hd => hn (by simp [hd])), ?_⟩
            intro hn
            simp only [List.mem_append, List.mem_singleton] at hn
            rcases hn with hn | hn
            · exact h3 hn
            · subst hn; rw [hx] at hm; cases hm }
      obtain ⟨err, s1, h1, h2, h3, h4⟩ := ih2 (done ++ [n]) _ hnd2 hmem2 hinv2
      refine ⟨err, s1, ?_, h2, h3, ?_⟩
      · rw [marshalNames]
        simp only [hsn, hmf, bind, Except.bind]
        exact h1
      · intro he
        obtain ⟨g1, g2, X, g3, g4⟩ := h4 he
        refine ⟨by simpa using g1, ?_, X, g3, ?_⟩
        · intro m hm
          simp only [List.mem_cons, not_or] at hm
          exact g2 m hm.2
        · intro s2 hs2 hget
          have hn2 : mapGet s2.dn.inodes n = some (.file fn) := by
            rw [hget n (by simp), g2 n hnr]
            exact hsn
          rw [marshalNames]
          simp only [hn2, hs2, hmf, bind, Except.bind]
          exact g4 { s2 with stream := stream1 } rfl
            (fun m hm => hget m (by simp [hm]))
    | dir c =>
      obtain ⟨c1, hsn, hc1, _⟩ := hinv.dirs n c hx
      have hcc := hc1 hnotin
      subst hcc
      obtain ⟨hfs, hdep⟩ := hsub n c1 hx
      obtain ⟨res, c2, stc, hrun, hext, herr, hok⟩ := ih c1 (pfx ++ [47] ++ n) s.st hfs hdep
      cases res with
      | error e =>
        refine ⟨some e,
          { stream := s.stream, subdirs := s.subdirs,
            dn := { s.dn with inodes := mapPut s.dn.inodes n (.dir c2) }, st := stc },
          ?_, ?_, ?_, ?_⟩
        · rw [marshalNames]
          simp only [hsn, hrun, bind, Except.bind]
        · exact hext
        · intro e2 he2
          simp only [Option.some.injEq] at he2
          subst he2
          exact ⟨n, c1, hx, herr e rfl⟩
        · intro he; cases he
      | ok subtext =>
        obtain ⟨k1, k2, k3⟩ := hok subtext rfl
        have hinv2 : MarshalInv kc D1 (done ++ [n])
            { stream := s.stream, subdirs := s.subdirs ++ subtext,
              dn := { s.dn with inodes := mapPut s.dn.inodes n (.dir c2) }, st := stc } :=
          { info := hinv.info,
            keys := by simp only [mapPut_keys]; exact hinv.keys,
            files := by
              intro m fn hm
              have hne : m ≠ n := by
                intro e; subst e; rw [hx] at hm; cases hm
              simp only [mapGet_mapPut_ne _ _ _ _ hne]
              exact hinv.files m fn hm,
            dirs := by
              intro m d hm
              by_cases hmn : m = n
              · subst hmn
                rw [hx] at hm
                simp only [Option.some.injEq, inode.dir.injEq] at hm
                subst hm
                refine ⟨c2, by simp only [mapGet_mapPut_eq _ _ _ _ hsn], ?_, fun _ => ⟨k1, k2⟩⟩
                intro hn
                exact absurd (by simp) hn
              · obtain ⟨d1, h1, h2, h3⟩ := hinv.dirs m d hm
                refine ⟨d1, by simp only [mapGet_mapPut_ne _ _ _ _ hmn]; exact h1,
                  fun hn => h2 (fun hd => hn (by simp [hd])), ?_⟩
                intro hn
                simp only [List.mem_append, List.mem_singleton] at hn
                rcases hn with hn | hn
                · exact ⟨TreeSynced_mono hext _ _ (h3 hn).1, (h3 hn).2⟩
                · exact absurd hn hmn }
        obtain ⟨err, s1, h1, h2, h3, h4⟩ := ih2 (done ++ [n]) _ hnd2 hmem2 hinv2
        refine ⟨err, s1, ?_, Extends_trans hext h2, h3, ?_⟩
        · rw [marshalNames]
          simp only [hsn, hrun, bind, Except.bind]
          exact h1
        · intro he
          obtain ⟨g1, g2, X, g3, g4⟩ := h4 he
          refine ⟨by simpa using g1, ?_, subtext ++ X, ?_, ?_⟩
          · intro m hm
            simp only [List.mem_cons, not_or] at hm
            rw [g2 m hm.2]
            simp only [mapGet_mapPut_ne _ _ _ _ hm.1]
          · rw [g3]; simp [List.append_assoc]
          · intro s2 hs2 hget
            have hn2 : mapGet s2.dn.inodes n = some (.dir c2) := by
              rw [hget n (by simp), g2 n hnr]
              simp only [mapGet_mapPut_eq _ _ _ _ hsn]
            rw [marshalNames]
            simp only [hn2, k3 s2.st, bind, Except.bind, mapPut_same _ _ _ hn2]
            have := g4 { s2 with subdirs := s2.subdirs ++ subtext } hs2
              (fun m hm => hget m (by simp [hm]))
            simp only [List.append_assoc] at this
            exact this

theorem fairSub_child (D c : dirnode) (n : Str) (h : FairSub D)
    (hc : mapGet D.inodes n = some (.dir c)) : FairSub c := by
  intro q d hd
  apply h (n :: q) d
  rw [getDir_cons, hc]
  exact hd

theorem nodeAt_dir (c : dirnode) (r : List Str) : inode.nodeAt (.dir c) r = getNode c r := by
  cases r with
  | nil => rw [getNode_nil]; rfl
  | cons a b => rfl

theorem mapGet_none_of_keys {α β : Type} (m1 : List (Str × α)) (m2 : List (Str × β))
    (hk : m1.map Prod.fst = m2.map Prod.fst) (k : Str) (h : mapGet m2 k = none) :
    mapGet m1 k = none := by
  cases h1 : mapGet m1 k with
  | none => rfl
  | some v =>
    have := (mapGet_isSome_iff m1 k).1 ⟨v, h1⟩
    rw [hk] at this
    obtain ⟨w, hw⟩ := (mapGet_isSome_iff m2 k).2 this
    rw [h] at hw; cases hw

theorem sortedNames_of_keys {α β : Type} (m1 : List (Str × α)) (m2 : List (Str × β))
    (hk : m1.map Prod.fst = m2.map Prod.fst) : sortedNames m1 = sortedNames m2 := by
  unfold sortedNames
  rw [hk]

theorem filesBound_le_fairBound {σ : Type} (kc : keepClient σ) (st1 : σ) (D D1 : dirnode)
    (h : ∀ n, EntrySynced kc st1 D D1 n) (names : List Str) :
    filesBound (filesOf D1 names) ≤ fairBound (filesOf D names) := by
  induction names with
  | nil => simp [filesOf, filesBound, fairBound]
  | cons n rest ih =>
    unfold filesBound fairBound filesOf at ih ⊢
    rcases h n with ⟨h1, h2⟩ | ⟨fn, fn1, h1, h2, _, h3, _⟩ | ⟨c, c1, h1, h2, _⟩
    · have f1 : fileOf D n = none := by simp [fileOf, h1]
      have f2 : fileOf D1 n = none := by simp [fileOf, h2]
      simp only [List.filterMap_cons, f1, f2, Option.map_none']
      exact ih
    · have f1 : fileOf D n = some fn := (fileOf_eq_some _ _ _).2 h1
      have f2 : fileOf D1 n = some fn1 := (fileOf_eq_some _ _ _).2 h2
      simp only [List.filterMap_cons, f1, f2, Option.map_some', List.map_cons, List.sum_cons]
      omega
    · have f1 : fileOf D n = none := by simp [fileOf, h1]
      have f2 : fileOf D1 n = none := by simp [fileOf, h2]
      simp only [List.filterMap_cons, f1, f2, Option.map_none']
      exact ih

/-- A directory whose entries are what `marshalManifest` makes of the entries
of a fair directory holds the same names, modes and bytes and is a directory
a manifest can describe. -/
theorem synced_dir {σ : Type} (kc : keepClient σ) (st1 : σ) (D D1 : dirnode) (hg : FairDir D)
    (hinfo : D1.fileinfo = D.fileinfo)
    (hkeys : D1.inodes.map Prod.fst = D.inodes.map Prod.fst)
    (h : ∀ n, EntrySynced kc st1 D D1 n) :
    TreeSynced kc st1 D D1 ∧ GoodSub D1 := by
  constructor
  · intro q
    cases q with
    | nil =>
      rw [getNode_nil, getNode_nil]
      exact ⟨by rw [hinfo], by rw [hinfo]⟩
    | cons n r =>
      rw [getNode_cons, getNode_cons]
      rcases h n with ⟨h1, h2⟩ | ⟨fn, fn1, h1, h2, h3, _, h5⟩ | ⟨c, c1, h1, h2, h3, _⟩
      · rw [h1, h2]; trivial
      · rw [h1, h2]
        cases r with
        | nil =>
          simp only [Option.some_bind, inode.nodeAt]
          refine ⟨?_, ?_, fun st2 hx => (h5 st2 hx).symm⟩
          · rw [h3.1, (hg.2.1 n fn h1).1]
          · rw [h3.2.1, (hg.2.1 n fn h1).2.1]
        | cons a b =>
          simp only [Option.some_bind, inode.nodeAt]
          trivial
      · rw [h1, h2]
        simp only [Option.some_bind, nodeAt_dir]
        exact h3 r
  · intro q d hd
    cases q with
    | nil =>
      rw [getDir_nil] at hd
      simp only [Option.some.injEq] at hd
      subst hd
      refine ⟨?_, ?_, ?_, ?_⟩
      · intro n x hx
        rcases h n with ⟨h1, h2⟩ | ⟨fn, fn1, h1, h2, _⟩ | ⟨c, c1, h1, h2, _⟩
        · rw [h2] at hx; cases hx
        · exact hg.1 n _ h1
        · exact hg.1 n _ h1
      · intro n g hx
        rcases h n with ⟨h1, h2⟩ | ⟨fn, fn1, h1, h2, h3, _⟩ | ⟨c, c1, h1, h2, _⟩
        · rw [h2] at hx; cases hx
        · rw [h2] at hx
          simp only [Option.some.injEq, inode.file.injEq] at hx
          subst hx
          exact h3
        · rw [h2] at hx; cases hx
      · intro n c2 hx
        rcases h n with ⟨h1, h2⟩ | ⟨fn, fn1, h1, h2, _⟩ | ⟨c, c1, h1, h2, h3, _⟩
        · rw [h2] at hx; cases hx
        · rw [h2] at hx; cases hx
        · rw [h2] at hx
          simp only [Option.some.injEq, inode.dir.injEq] at hx
          subst hx
          obtain ⟨g1, g2, q, fn, g3⟩ := hg.2.2.1 n c h1
          have h0 := h3 []
          rw [getNode_nil, getNode_nil] at h0
          refine ⟨by rw [← h0.1]; exact g1, by rw [← h0.2]; exact g2, q, ?_⟩
          have hq := h3 q
          rw [g3] at hq
          cases hc : getNode c1 q with
          | none => rw [hc] at hq; exact hq.elim
          | some v =>
            cases v with
            | file g => exact ⟨g, rfl⟩
            | dir e => rw [hc] at hq; exact hq.elim
      · rw [sortedNames_of_keys _ _ hkeys]
        exact lt_of_le_of_lt (filesBound_le_fairBound kc st1 D D1 h _) hg.2.2.2
    | cons n r =>
      rw [getDir_cons] at hd
      rcases h n with ⟨h1, h2⟩ | ⟨fn, fn1, h1, h2, _⟩ | ⟨c, c1, h1, h2, _, h4⟩
      · rw [h2] at hd; simp [dirOf] at hd
      · rw [h2] at hd; simp [dirOf] at hd
      · rw [h2] at hd
        simp only [dirOf, Option.some_bind] at hd
        exact h4 r d hd

theorem Refused_child {σ : Type} (kc : keepClient σ) (D c : dirnode) (n : Str)
    (hc : mapGet D.inodes n = some (.dir c)) (h : Refused kc c) : Refused kc D := by
  obtain ⟨q, dn, F, st, bufs, h1, h2⟩ := h
  refine ⟨n :: q, dn, F, st, bufs, ?_, h2⟩
  rw [getDir_cons, hc]
  exact h1

/-- With a lawful blob client whose locators state the block size,
`marshalManifest` does to every tree whose files may hold memory extents
what `FirstRun` says, whatever the fuel. -/
theorem firstRun_fuel {σ : Type} (mbs : Int) (kc : keepClient σ) (hkc : kc.Lawful)
    (hloc : StatesSize kc) (fuel : Nat) : FirstRun mbs kc fuel := by
  induction fuel with
  | zero =>
    intro D pfx st _ hdepth
    rw [depth_dir] at hdepth
    omega
  | succ fuel ih =>
    intro D pfx st hsub hdepth
    have hg : FairDir D := hsub [] D (getDir_nil D)
    obtain ⟨err, D1, st1, hrun, hrel, hext, herr, hnone⟩ :=
      sync_fair kc hkc hloc mbs D st hg.2.1
    cases err with
    | some e =>
      refine ⟨.error e, D1, st1, ?_, hext, ?_, ?_⟩
      · rw [marshalManifestFuel]
        simp only [hrun, bind, Except.bind]
      · intro e2 he2
        cases he2
        exact herr e rfl
      · intro text ht; cases ht
    | none =>
      have hfile := hnone rfl
      have hdir1 : ∀ n c, mapGet D1.inodes n = some (.dir c) →
          mapGet D.inodes n = some (.dir c) := by
        intro n c h
        cases hD : mapGet D.inodes n with
        | none => rw [(hrel.2.2 n).1 hD] at h; cases h
        | some x =>
          cases x with
          | file fn =>
            obtain ⟨fn1, h1, _⟩ := (hrel.2.2 n).2.2 fn hD
            rw [h1] at h; cases h
          | dir d =>
            rw [(hrel.2.2 n).2.1 d hD] at h
            exact h
      have hsubD1 : ∀ n c, mapGet D1.inodes n = some (.dir c) →
          FairSub c ∧ inode.depth (.dir c) ≤ fuel := by
        intro n c h
        have hD := hdir1 n c h
        refine ⟨fairSub_child D c n hsub hD, ?_⟩
        have := depth_entry D.inodes n _ hD
        rw [depth_dir] at hdepth
        omega
      have hfilesD1 : ∀ n fn1, mapGet D1.inodes n = some (.file fn1) →
          ∀ e ∈ fn1.extents, ∃ se, e = extent.stored se := by
        intro n fn1 h
        cases hD : mapGet D.inodes n with
        | none => rw [(hrel.2.2 n).1 hD] at h; cases h
        | some x =>
          cases x with
          | dir d => rw [(hrel.2.2 n).2.1 d hD] at h; cases h
          | file fn =>
            obtain ⟨fn2, h1, h2, _⟩ := hfile n fn hD
            rw [h1] at h
            simp only [Option.some.injEq, inode.file.injEq] at h
            subst h
            intro e he
            obtain ⟨se, hse, _⟩ := h2.2.2 e he
            exact ⟨se, hse⟩
      have s0inv : MarshalInv kc D1 []
          { stream := { streamLen := 0, segments := [], blocks := [] }, subdirs := [],
            dn := D1, st := st1 } :=
        { info := rfl, keys := rfl, files := fun _ _ h => h,
          dirs := fun n c h => ⟨c, h, fun _ => rfl, fun hn => by simp at hn⟩ }
      obtain ⟨err2, s1, hloop, hext2, herr2, hok⟩ := names_first mbs kc fuel ih D1 pfx hsubD1
        hfilesD1 (sortedNames D1.inodes) [] _ (by simpa using sortedNames_nodup D1.inodes)
        (fun n hn => hn) s0inv
      cases err2 with
      | some e =>
        refine ⟨.error e, s1.dn, s1.st, ?_, Extends_trans hext hext2, ?_, ?_⟩
        · rw [marshalManifestFuel]
          simp only [hrun, bind, Except.bind, hloop]
        · intro e2 he2
          cases he2
          obtain ⟨n, c, g1, g2, g3⟩ := herr2 e rfl
          exact ⟨g2, Refused_child kc D c n (hdir1 n c g1) g3⟩
        · intro text ht; cases ht
      | none =>
        obtain ⟨hinv, _, X, hX, hrerun⟩ := hok rfl
        simp only [List.nil_append] at hinv hX
        have hentry : ∀ n, EntrySynced kc s1.st D s1.dn n := by
          intro n
          cases hD : mapGet D.inodes n with
          | none =>
            exact Or.inl ⟨hD, mapGet_none_of_keys _ _ (hinv.keys.trans hrel.2.1) n hD⟩
          | some x =>
            cases x with
            | file fn =>
              obtain ⟨fn1, h1, h2, h3, h4⟩ := hfile n fn hD
              exact Or.inr (Or.inl ⟨fn, fn1, hD, hinv.files n fn1 h1, h2, h3,
                fun st2 hx => h4 st2 (Extends_trans hext2 hx)⟩)
            | dir c =>
              have hD1 := (hrel.2.2 n).2.1 c hD
              obtain ⟨c1, g1, _, g3⟩ := hinv.dirs n c hD1
              obtain ⟨g4, g5⟩ := g3 ((mem_sortedNames _ n).2 ⟨_, hD1⟩)
              exact Or.inr (Or.inr ⟨c, c1, hD, g1, g4, g5⟩)
        obtain ⟨t1, t2⟩ := synced_dir kc s1.st D s1.dn hg (hinv.info.trans hrel.1)
          (hinv.keys.trans hrel.2.1) hentry
        refine ⟨.ok (streamText pfx s1.stream s1.subdirs), s1.dn, s1.st, ?_,
          Extends_trans hext hext2, ?_, ?_⟩
        · rw [marshalManifestFuel]
          simp only [hrun, bind, Except.bind, hloop]
        · intro e he; cases he
        · intro text ht
          simp only [Except.ok.injEq] at ht
          subst ht
          refine ⟨t1, t2, ?_⟩
          intro st2
          have hst := sync_stored mbs kc s1.dn st2
            (goodDir_allStored s1.dn (t2 [] _ (getDir_nil _)))
          have hr := hrerun
            { stream := { streamLen := 0, segments := [], blocks := [] }, subdirs := [],
              dn := s1.dn, st := st2 } rfl (fun _ _ => rfl)
          rw [marshalManifestFuel]
          simp only [hst, bind, Except.bind, sortedNames_of_keys _ _ hinv.keys, hr, hX, List.nil_append]

/-! ## More fuel changes nothing -/

theorem marshalNames_mono {σ : Type}
    (r1 r2 : dirnode → Str → σ → Except Fault (Marshalled σ))
    (h : ∀ d p s x, r1 d p s = .ok x → r2 d p s = .ok x) (pfx : Str) (names : List Str) :
    ∀ (s : MarshalState σ) (x : Option GoError × MarshalState σ),
      marshalNames r1 pfx names s = .ok x → marshalNames r2 pfx names s = .ok x := by
  induction names with
  | nil =>
    intro s x hx
    simpa [marshalNames] using hx
  | cons n rest ih =>
    intro s x hx
    rw [marshalNames] at hx ⊢
    cases hg : mapGet s.dn.inodes n with
    | none => rw [hg] at hx; cases hx
    | some v =>
      cases v with
      | file fn =>
        simp only [hg, bind, Except.bind] at hx ⊢
        cases hf : marshalFile n fn s.stream with
        | error f => rw [hf] at hx; cases hx
        | ok t =>
          rw [hf] at hx
          simp only at hx ⊢
          exact ih _ _ hx
      | dir c =>
        simp only [hg, bind, Except.bind] at hx ⊢
        cases hr : r1 c (pfx ++ [47] ++ n) s.st with
        | error f => rw [hr] at hx; cases hx
        | ok y =>
          rw [hr] at hx
          rw [h _ _ _ _ hr]
          obtain ⟨res, c2, st2⟩ := y
          cases res with
          | error e => exact hx
          | ok subdir =>
            simp only at hx ⊢
            exact ih _ _ hx

/-- A result `marshalManifest` gives with some fuel, it gives with more. -/
theorem marshalManifestFuel_mono {σ : Type} (mbs : Int) (kc : keepClient σ) :
    ∀ (fuel : Nat) (D : dirnode) (pfx : Str) (st : σ) (x : Marshalled σ),
      marshalManifestFuel mbs kc fuel D pfx st = .ok x →
      ∀ k, marshalManifestFuel mbs kc (fuel + k) D pfx st = .ok x := by
  intro fuel
  induction fuel with
  | zero =>
    intro D pfx st x hx
    rw [marshalManifestFuel] at hx
    cases hx
  | succ fuel ih =>
    intro D pfx st x hx k
    have e : fuel + 1 + k = (fuel + k) + 1 := by omega
    rw [e]
    rw [marshalManifestFuel] at hx ⊢
    cases hs : D.sync mbs kc st with
    | error f => rw [hs] at hx; cases hx
    | ok y =>
      obtain ⟨err, dn, st1⟩ := y
      rw [hs] at hx
      simp only [bind, Except.bind] at hx ⊢
      cases err with
      | some e2 => exact hx
      | none =>
        simp only at hx ⊢
        cases hm : marshalNames (marshalManifestFuel mbs kc fuel) pfx (sortedNames dn.inodes)
            { stream := { streamLen := 0, segments := [], blocks := [] }, subdirs := [],
              dn := dn, st := st1 } with
        | error f => rw [hm] at hx; cases hx
        | ok z =>
          rw [hm] at hx
          rw [marshalNames_mono _ _ (fun d p s x h => ih d p s x h k) _ _ _ _ hm]
          exact hx

/-! ## The round trip, memory extents included -/

theorem blockSize_le_blockBound (e : extent) : e.blockSize ≤ e.blockBound := by
  cases e with
  | stored se => exact le_refl _
  | mem me => simp [extent.blockSize, extent.blockBound]

theorem filesBound_le (files : List (Str × filenode)) : filesBound files ≤ fairBound files := by
  unfold filesBound fairBound
  induction files with
  | nil => simp
  | cons f rest ih =>
    simp only [List.map_cons, List.sum_cons]
    have := sum_le_of_get extent.blockBound extent.blockSize f.2.extents f.2.extents rfl
      (fun i e e1 h h1 => by
        rw [h] at h1
        simp only [Option.some.injEq] at h1
        subst h1
        exact blockSize_le_blockBound e)
    omega

theorem goodSub_of_noMemory (T : dirnode) (h : FairSub T) (hm : NoMemory T) : GoodSub T := by
  intro q d hd
  obtain ⟨h1, h2, h3, h4⟩ := h q d hd
  refine ⟨h1, ?_, h3, lt_of_le_of_lt (filesBound_le _) h4⟩
  intro n fn hn
  have hnode : getNode T (q ++ [n]) = some (.file fn) := by
    rw [getNode_snoc, hd]
    exact hn
  obtain ⟨g1, g2, g3⟩ := h2 n fn hn
  refine ⟨g1, g2, ?_⟩
  intro e he
  obtain ⟨se, hse⟩ := hm _ fn hnode e he
  subst hse
  exact ⟨se, rfl, g3 se he⟩

theorem SameBytes_of_SameNode {σ : Type} (kc : keepClient σ) (st : σ) (x y : Option inode)
    (h : SameNode x y) : SameBytes kc st x y := by
  rcases x with _ | f | d <;> rcases y with _ | g | e
  · trivial
  · exact h.elim
  · exact h.elim
  · exact h.elim
  · obtain ⟨h1, h2, h3⟩ := h
    exact ⟨h1, h2, fun st2 _ => h3 kc st2⟩
  · exact h.elim
  · exact h.elim
  · exact h.elim
  · exact h

theorem SameBytes_SameNode {σ : Type} (kc : keepClient σ) (st : σ) (x y z : Option inode)
    (h : SameBytes kc st x y) (h2 : SameNode y z) : SameBytes kc st x z := by
  rcases x with _ | f | d <;> rcases y with _ | g | e <;> rcases z with _ | g2 | e2 <;>
    first
    | trivial
    | exact h.elim
    | exact h2.elim
    | exact ⟨h.1.trans h2.1, h.2.1.trans h2.2.1,
        fun st2 hx => (h.2.2 st2 hx).trans (h2.2.2 kc st2)⟩
    | exact ⟨h.1.trans h2.1, h.2.trans h2.2⟩

/-! ## The example client and the example tree -/

theorem fooKeep_lawful : fooKeep.Lawful where
  keeps := by
    intro st b loc x h
    simp only [fooKeep] at h ⊢
    split_ifs at h with h1
    obtain ⟨h2, h3⟩ := h1
    subst h2
    split_ifs <;> simp_all
  returns := by
    intro st b loc h
    simp only [fooKeep] at h ⊢
    split_ifs at h with h1
    simp only [Option.some.injEq] at h
    subst h
    simp [h1]

theorem fooKeep_statesSize : StatesSize fooKeep := by
  intro st b loc h
  simp only [fooKeep] at h
  split_ifs at h with h1
  simp only [Option.some.injEq] at h
  subst h
  subst h1
  exact ⟨⟨by decide, by decide, by decide, by decide, 3, by decide, by decide⟩, by decide⟩

theorem fairDir_exUnsyncedSub : FairDir exUnsyncedSub := by
  refine ⟨?_, ?_, ?_, by decide⟩
  · intro name n h
    have := mapGet_mem _ _ _ h
    simp only [exUnsyncedSub, List.mem_singleton, Prod.mk.injEq] at this
    rw [this.1]
    exact goodName_examples.1
  · intro name fn h
    have := mapGet_mem _ _ _ h
    simp only [exUnsyncedSub, List.mem_singleton, Prod.mk.injEq, inode.file.injEq] at this
    rw [this.1, this.2]
    refine ⟨rfl, rfl, ?_⟩
    intro se hse
    simp [exMemFile] at hse
  · intro name c h
    have := mapGet_mem _ _ _ h
    simp [exUnsyncedSub] at this

theorem fairDir_exUnsynced : FairDir exUnsynced := by
  refine ⟨?_, ?_, ?_, by decide⟩
  · intro name n h
    have := mapGet_mem _ _ _ h
    simp only [exUnsynced, List.mem_cons, List.mem_singleton, Prod.mk.injEq, List.not_mem_nil,
      or_false] at this
    rcases this with h1 | h1
    · rw [h1.1]; exact goodName_examples.2.2
    · rw [h1.1]; exact goodName_examples.2.1
  · intro name fn h
    have := mapGet_mem _ _ _ h
    simp only [exUnsynced, List.mem_cons, List.mem_singleton, Prod.mk.injEq, List.not_mem_nil,
      or_false, inode.file.injEq] at this
    rcases this with h1 | h1
    · simp at h1
    · rw [h1.1, h1.2]
      obtain ⟨g1, g2, g3⟩ := goodFile_exFileF
      refine ⟨g1, g2, ?_⟩
      intro se hse
      obtain ⟨se2, h2, h3⟩ := g3 _ hse
      simp only [extent.stored.injEq] at h2
      subst h2
      exact h3
  · intro name c h
    have := mapGet_mem _ _ _ h
    simp only [exUnsynced, List.mem_cons, List.mem_singleton, Prod.mk.injEq, List.not_mem_nil,
      or_false, inode.dir.injEq] at this
    rcases this with h1 | h1
    · rw [h1.1, h1.2]
      exact ⟨rfl, rfl, [str "g"], exMemFile, rfl⟩
    · simp at h1

theorem fairTree_exUnsynced : FairTree exUnsynced := by
  refine ⟨rfl, rfl, ?_⟩
  intro q d hd
  cases q with
  | nil =>
    rw [getDir_nil] at hd
    simp only [Option.some.injEq] at hd
    rw [← hd]
    exact fairDir_exUnsynced
  | cons m r =>
    rw [getDir_cons] at hd
    cases hg : mapGet exUnsynced.inodes m with
    | none => rw [hg] at hd; simp [dirOf] at hd
    | some x =>
      have hmem := mapGet_mem _ _ _ hg
      simp only [exUnsynced, List.mem_cons, List.mem_singleton, Prod.mk.injEq,
        List.not_mem_nil, or_false] at hmem
      rcases hmem with h1 | h1
      · rw [hg, h1.2] at hd
        simp only [dirOf, Option.some_bind] at hd
        cases r with
        | nil =>
          rw [getDir_nil] at hd
          simp only [Option.some.injEq] at hd
          rw [← hd]
          exact fairDir_exUnsyncedSub
        | cons m2 r2 =>
          rw [getDir_cons] at hd
          cases hg2 : mapGet exUnsyncedSub.inodes m2 with
          | none => rw [hg2] at hd; simp [dirOf] at hd
          | some y =>
            have hmem2 := mapGet_mem _ _ _ hg2
            simp only [exUnsyncedSub, List.mem_singleton, Prod.mk.injEq] at hmem2
            rw [hg2, hmem2.2] at hd
            simp [dirOf] at hd
      · rw [hg, h1.2] at hd
        simp [dirOf] at hd

set_option maxRecDepth 100000 in
/-- Scenario: the tree `exUnsynced`, whose file `sub/g` holds the bytes `foo`
in a memory extent, with the client `fooKeep`.  `MarshalManifest(".")`
uploads the block and writes its locator; the loaded tree has a file `sub/g`
of one stored extent that holds `foo` in the store the call leaves. -/
theorem unsynced_round_trip :
    marshalledText (exUnsynced.MarshalManifest (2 ^ 26) fooKeep (str ".") false) =
        .ok (.ok (str (". 37b51d194a7513e45b56f6524f2d51f2+3 0:3:f\n" ++
          "./sub acbd18db4cc2f85cedef654fccc4a4d8+3 0:3:g\n")))
    ∧ (exUnsynced.MarshalManifest (2 ^ 26) fooKeep (str ".") false).map (fun r => r.2.2) =
        .ok true
    ∧ (FileSystem (str (". 37b51d194a7513e45b56f6524f2d51f2+3 0:3:f\n" ++
          "./sub acbd18db4cc2f85cedef654fccc4a4d8+3 0:3:g\n"))).map
        (fun L => (fileOf L (str "f")).map (fun fn => fn.extents)) =
        .ok (some [.stored { locator := str "37b51d194a7513e45b56f6524f2d51f2+3", size := 3,
                             offset := 0, length := 3 }])
    ∧ (FileSystem (str (". 37b51d194a7513e45b56f6524f2d51f2+3 0:3:f\n" ++
          "./sub acbd18db4cc2f85cedef654fccc4a4d8+3 0:3:g\n"))).map
        (fun L => (getNode L [str "sub", str "g"]).map (fun n =>
          match n with
          | .file fn => (fn.fileinfo.name, fn.fileinfo.mode, fn.content fooKeep true)
          | .dir _ => ([], 0, []))) =
        .ok (some (str "g", 0o755, [some 102, some 111, some 111]))
    ∧ exMemFile.content fooKeep true = [some 102, some 111, some 111] := by
  refine ⟨by rfl, by rfl, by rfl, by rfl, by rfl⟩

set_option maxRecDepth 100000 in
/-- Scenario: the same tree with the client `listKeep`, whose locators do not
state the size of the block.  `MarshalManifest(".")` returns a text, and
`loadManifest` rejects its second line: the locator is not `hash+size`. -/
theorem locator_without_size_is_rejected :
    marshalledText (exUnsynced.MarshalManifest (2 ^ 26) listKeep (str ".") []) =
        .ok (.ok (str ". 37b51d194a7513e45b56f6524f2d51f2+3 0:3:f\n./sub a 0:3:g\n"))
    ∧ (FileSystem (str ". 37b51d194a7513e45b56f6524f2d51f2+3 0:3:f\n./sub a 0:3:g\n")).map
        (fun _ => ()) = .error (.manifest 2 .badLocator) := by
  refine ⟨by rfl, by rfl⟩

set_option maxRecDepth 100000 in
/-- Scenario: the same tree with the client `forgetKeep`, which returns a
locator and keeps nothing.  The text is the one of `unsynced_round_trip`, but
the bytes of `sub/g` are in no store: the store does not hold the block of
the loaded file. -/
theorem forgetful_store_loses_bytes :
    marshalledText (exUnsynced.MarshalManifest (2 ^ 26) forgetKeep (str ".") ()) =
        .ok (.ok (str (". 37b51d194a7513e45b56f6524f2d51f2+3 0:3:f\n" ++
          "./sub acbd18db4cc2f85cedef654fccc4a4d8+3 0:3:g\n")))
    ∧ (FileSystem (str (". 37b51d194a7513e45b56f6524f2d51f2+3 0:3:f\n" ++
          "./sub acbd18db4cc2f85cedef654fccc4a4d8+3 0:3:g\n"))).map
        (fun L => (getNode L [str "sub", str "g"]).map (fun n =>
          match n with
          | .file fn => fn.content forgetKeep ()
          | .dir _ => [])) = .ok (some [none, none, none])
    ∧ exMemFile.content forgetKeep () = [some 102, some 111, some 111] := by
  refine ⟨by rfl, by rfl, by rfl⟩

set_option maxRecDepth 100000 in
/-- Scenario: the same tree with the client `deadKeep`, whose uploads fail:
`MarshalManifest(".")` returns the error of the upload and no text. -/
theorem failed_upload_gives_no_text :
    marshalledText (exUnsynced.MarshalManifest (2 ^ 26) deadKeep (str ".") ()) =
      .ok (.error .upload) := by
  rfl

/-- C3 (amended): for every tree of a filesystem (`FairTree`: good names, the
names and modes `OpenFile` gives, no directory without a file somewhere
below it, stored extents with well-formed locators, block sizes that sum to
less than `2^63`), whose files may hold memory extents when the blob client
is lawful and returns locators that state the block size:
`MarshalManifest(".")` returns without a panic and the store has only grown;
it returns an error only when the client has refused a block made of memory
extents of one directory of the tree, and the error is that of the upload;
a tree without memory extents is left as it is, with the store; and when a
text is returned, loading it into a new filesystem gives a tree with, at
every path, the same inode as the tree had: the same directories, the same
files with the same names and modes, and the same bytes in each file, the
blocks being read from the store as the call leaves it.  The tree the call
leaves is, at every path, the same as the loaded tree whatever the store. -/
theorem MarshalManifest_then_load_restores {σ : Type} (mbs : Int) (kc : keepClient σ) (st : σ)
    (T : dirnode) (hT : FairTree T) (hkc : NoMemory T ∨ (kc.Lawful ∧ StatesSize kc)) :
    ∃ res T1 st1, T.MarshalManifest mbs kc (str ".") st = .ok (res, T1, st1) ∧
      kc.Extends st st1 ∧
      (∀ e, res = .error e → e = GoError.upload ∧ Refused kc T ∧ ¬ NoMemory T) ∧
      (NoMemory T → T1 = T ∧ st1 = st) ∧
      ∀ text, res = .ok text → ∃ L, FileSystem text = .ok L ∧
        (∀ q, SameBytes kc st1 (getNode T q) (getNode L q)) ∧
        (∀ q, SameNode (getNode T1 q) (getNode L q)) := by
  obtain ⟨hname, hmode, hsub⟩ := hT
  by_cases hm : NoMemory T
  · obtain ⟨text, L, h1, h2, h3⟩ := goodTree_round_trip mbs kc st T
      ⟨hname, hmode, goodSub_of_noMemory T hsub hm⟩
    refine ⟨.ok text, T, st, h1, Extends_refl kc st, ?_, fun _ => ⟨rfl, rfl⟩, ?_⟩
    · intro e he; cases he
    · intro text2 ht
      simp only [Except.ok.injEq] at ht
      subst ht
      exact ⟨L, h2, fun q => SameBytes_of_SameNode kc st _ _ (h3 q), h3⟩
  · have hc : kc.Lawful ∧ StatesSize kc := by
      rcases hkc with h | h
      · exact absurd h hm
      · exact h
    obtain ⟨res, T1, st1, hrun, hext, herr, hok⟩ :=
      firstRun_fuel mbs kc hc.1 hc.2 (inode.depth (.dir T)) T (str ".") st hsub (le_refl _)
    refine ⟨res, T1, st1, hrun, hext, fun e he => ⟨(herr e he).1, (herr e he).2, hm⟩, fun h => absurd h hm, ?_⟩
    intro text ht
    obtain ⟨t1, t2, t3⟩ := hok text ht
    have h0 := t1 []
    rw [getNode_nil, getNode_nil] at h0
    obtain ⟨text2, L, h1, h2, h3⟩ := goodTree_round_trip mbs kc st1 T1
      ⟨by rw [← h0.1]; exact hname, by rw [← h0.2]; exact hmode, t2⟩
    have e1 := marshalManifestFuel_mono mbs kc _ _ _ _ _ (t3 st1) (inode.depth (.dir T1))
    have e2 := marshalManifestFuel_mono mbs kc _ _ _ _ _ h1 (inode.depth (.dir T))
    rw [Nat.add_comm] at e2
    rw [e1] at e2
    simp only [Except.ok.injEq, Prod.mk.injEq, and_true] at e2
    subst e2
    exact ⟨L, h2, fun q => SameBytes_SameNode kc st1 _ _ _ (t1 q) (h3 q), h3⟩

set_option maxRecDepth 100000 in
/-- The theorem `MarshalManifest_then_load_restores` at the tree `exUnsynced`,
whose file `sub/g` holds a memory extent, with the client `fooKeep`: the text
is `. 37b5…+3 0:3:f` and `./sub acbd…+3 0:3:g`. -/
theorem MarshalManifest_then_load_restores_witness :
    (FairTree exUnsynced ∧ (NoMemory exUnsynced ∨ (fooKeep.Lawful ∧ StatesSize fooKeep)))
    ∧ marshalledText (exUnsynced.MarshalManifest (2 ^ 26) fooKeep (str ".") false) =
        .ok (.ok (str (". 37b51d194a7513e45b56f6524f2d51f2+3 0:3:f\n" ++
          "./sub acbd18db4cc2f85cedef654fccc4a4d8+3 0:3:g\n")))
    ∧ ∃ res T1 st1,
        exUnsynced.MarshalManifest (2 ^ 26) fooKeep (str ".") false = .ok (res, T1, st1) ∧
        fooKeep.Extends false st1 ∧
        (∀ e, res = .error e →
          e = GoError.upload ∧ Refused fooKeep exUnsynced ∧ ¬ NoMemory exUnsynced) ∧
        (NoMemory exUnsynced → T1 = exUnsynced ∧ st1 = false) ∧
        ∀ text, res = .ok text → ∃ L, FileSystem text = .ok L ∧
          (∀ q, SameBytes fooKeep st1 (getNode exUnsynced q) (getNode L q)) ∧
          (∀ q, SameNode (getNode T1 q) (getNode L q)) :=
  ⟨⟨fairTree_exUnsynced, Or.inr ⟨fooKeep_lawful, fooKeep_statesSize⟩⟩, by rfl,
    MarshalManifest_then_load_restores (2 ^ 26) fooKeep false exUnsynced fairTree_exUnsynced
      (Or.inr ⟨fooKeep_lawful, fooKeep_statesSize⟩)⟩

end Arvados
